import Mathlib

/-!
# streaming-node-zip: size prediction, byte-field encoding and the archive encoder

A shallow embedding of `src/utils.js` and `src/zip.js`.

* BigInt values are `Nat`, JavaScript numbers that hold integers are `Int`.
* A `Buffer` is the list of its bytes; a JavaScript string is the list of its
  UTF-16 code units, so that `name.length` is `List.length`.
* A function that can throw returns `Except ZipError _`; a method that mutates
  the archive and can throw returns the mutated archive together with the
  outcome, because the mutations made before a `throw` stay in place.
-/

namespace StreamingZip

/-! ## Platform types -/

/-- A Node `Buffer`: the list of its bytes. -/
abbrev Bytes := List Nat

/-- A JavaScript string: the list of its UTF-16 code units. -/
abbrev JSString := List Nat

/-- Errors thrown by the code or by the platform functions it calls. -/
inductive ZipError where
  /-- `new Error("Already finished")` -/
  | alreadyFinished
  /-- `new Error("The file " + name + " was not finished.")` -/
  | notFinished (name : JSString)
  /-- `new Error("Already destroyed")` -/
  | alreadyDestroyed
  /-- `createByteArray: No handler defined for data size ... of entry data ...` -/
  | noHandler (size : Nat) (data : Int)
  /-- The `RangeError` of `buffer.writeUInt8/16LE/32LE/BigUInt64LE`. -/
  | outOfRange
  /-- The `RangeError` of `Buffer.alloc(NaN)`. -/
  | invalidSize
  /-- An error handed to `destroy` by a caller (`Error("Aborted")`, a network error). -/
  | upstream (code : Nat)
  deriving DecidableEq, Repr

/-- High (leading) surrogate code unit. -/
def isHighSurrogate (u : Nat) : Bool := 0xD800 ≤ u && u ≤ 0xDBFF

/-- Low (trailing) surrogate code unit. -/
def isLowSurrogate (u : Nat) : Bool := 0xDC00 ≤ u && u ≤ 0xDFFF

/-- UTF-8 bytes of one code point. -/
def utf8OfCodePoint (c : Nat) : Bytes :=
  if c < 0x80 then [c]
  else if c < 0x800 then [0xC0 + c / 64, 0x80 + c % 64]
  else if c < 0x10000 then [0xE0 + c / 4096, 0x80 + c / 64 % 64, 0x80 + c % 64]
  else [0xF0 + c / 262144, 0x80 + c / 4096 % 64, 0x80 + c / 64 % 64, 0x80 + c % 64]

/-- UTF-8 bytes of one code unit that is not part of a surrogate pair: a lone
surrogate is encoded as U+FFFD. -/
def utf8OfUnit (u : Nat) : Bytes :=
  if isHighSurrogate u || isLowSurrogate u then [0xEF, 0xBF, 0xBD] else utf8OfCodePoint u

/-- Node's `Buffer.from(s, "utf8")`. -/
def bufferFromUtf8 : JSString → Bytes
  | [] => []
  | [u] => utf8OfUnit u
  | u :: v :: rest =>
    if isHighSurrogate u && isLowSurrogate v then
      utf8OfCodePoint (0x10000 + (u - 0xD800) * 1024 + (v - 0xDC00)) ++ bufferFromUtf8 rest
    else
      utf8OfUnit u ++ bufferFromUtf8 (v :: rest)

/-! ## `src/utils.js`: createByteArray -/

/-- One element of the argument of `createByteArray`, in the two documented
shapes `{data: 0x0000, size: 2}` and `{data: Buffer()}`. -/
inductive Entry where
  | int (data : Int) (size : Nat)
  | buf (data : Bytes)
  deriving DecidableEq, Repr

/-- The summand `value.size ? value.size : value.data.length` of the size
`reduce`. For an integer entry of size 0 the size is falsy and `data.length`
is `undefined`, which makes the sum `NaN`: `none`. -/
def entrySize : Entry → Option Nat
  | .int _ 0 => none
  | .int _ (n + 1) => some (n + 1)
  | .buf data => some data.length

/-- The size `reduce` of `createByteArray`; `none` is `NaN`. -/
def sizeReduce (data : List Entry) : Option Nat :=
  data.foldl (fun acc value =>
    match acc, entrySize value with
    | some a, some s => some (a + s)
    | _, _ => none) (some 0)

/-- The `w` little-endian bytes of `v`. -/
def leBytes : Nat → Nat → Bytes
  | 0, _ => []
  | w + 1, v => v % 256 :: leBytes w (v / 256)

/-- Overwrite `buffer` from offset `i` with `bs` (which fits). -/
def writeAt (buffer : Bytes) (i : Nat) (bs : Bytes) : Bytes :=
  buffer.take i ++ bs ++ buffer.drop (i + bs.length)

/-- Node's `source.copy(target, i)`: copies as many bytes as fit. -/
def bufferCopy (source target : Bytes) (i : Nat) : Bytes :=
  writeAt target i (source.take (target.length - i))

/-- Node's `buffer.writeUInt8`, `writeUInt16LE`, `writeUInt32LE` and
`writeBigUInt64LE` (`w` = 1, 2, 4, 8): a `RangeError` when the value is
outside `0 .. 2^(8w) - 1` or the field does not fit in the buffer.
`parseInt` and `BigInt` are the identity on the integers handed to them here. -/
def writeUIntLE (w : Nat) (value : Int) (buffer : Bytes) (i : Nat) : Except ZipError Bytes :=
  match value with
  | .ofNat v =>
    if v < 2 ^ (8 * w) ∧ i + w ≤ buffer.length then
      .ok (writeAt buffer i (leBytes w v))
    else
      .error .outOfRange
  | .negSucc _ => .error .outOfRange

/-- The body of the `forEach` of `createByteArray` for one entry: the buffer
after the entry and the new value of `i`. -/
def writeEntry (entry : Entry) (buffer : Bytes) (i : Nat) : Except ZipError (Bytes × Nat) :=
  match entry with
  | .buf data => .ok (bufferCopy data buffer i, i + data.length)
  | .int data size =>
    match size with
    | 0 => .ok (buffer, i + size)
    | 1 => (writeUIntLE 1 data buffer i).map (fun b => (b, i + size))
    | 2 => (writeUIntLE 2 data buffer i).map (fun b => (b, i + size))
    | 4 => (writeUIntLE 4 data buffer i).map (fun b => (b, i + size))
    | 8 => (writeUIntLE 8 data buffer i).map (fun b => (b, i + size))
    | _ => .error (.noHandler size data)

/-- The `forEach` of `createByteArray`. -/
def writeEntries : List Entry → Bytes → Nat → Except ZipError Bytes
  | [], buffer, _ => .ok buffer
  | entry :: rest, buffer, i =>
    match writeEntry entry buffer i with
    | .error e => .error e
    | .ok (buffer', i') => writeEntries rest buffer' i'

/-- `createByteArray(data)` of `src/utils.js`. -/
def createByteArray (data : List Entry) : Except ZipError Bytes :=
  match sizeReduce data with
  | none => .error .invalidSize
  | some size => writeEntries data (List.replicate size 0) 0

/-! ## `src/utils.js`: calculateSize -/

/-- An element `{name, size}` of the argument of `calculateSize`. -/
structure ManifestFile where
  name : JSString
  size : Nat
  deriving DecidableEq, Repr

/-- The result `{ total, zip64 }` of `calculateSize`. -/
structure SizeResult where
  total : Nat
  zip64 : Bool
  deriving DecidableEq, Repr

/-- `calculateSize(files, zip64)` of `src/utils.js`; the flag is `!!zip64`. -/
def calculateSize (files : List ManifestFile) (zip64 : Bool) : SizeResult :=
  let localHeaderSizeBig := fun (file : ManifestFile) => 30 + file.name.length
  let dataDescriptorSizeBig := 12
  let centralDirectoryHeaderSizeBig := fun (file : ManifestFile) => 46 + file.name.length
  let endOfCentralDirectorySizeBig := 22
  let zip64ExtraFieldSizeBig := 32
  let zip64DataDescriptorSizeBig := 20
  let zip64EndOfCentralDirectoryRecordSizeBig := 56
  let zip64EndOfCentralDirectoryLocatorSizeBig := 20
  let totalSizeBig := files.foldl (fun acc val =>
    acc + localHeaderSizeBig val + val.size + dataDescriptorSizeBig
      + centralDirectoryHeaderSizeBig val) 0
  let totalSizeBig := totalSizeBig + endOfCentralDirectorySizeBig
  if totalSizeBig ≥ 0xFFFFFFFF ∨ zip64 = true then
    let totalSizeBig := files.foldl (fun acc _ =>
      acc + zip64ExtraFieldSizeBig + (zip64DataDescriptorSizeBig - dataDescriptorSizeBig)
        + zip64ExtraFieldSizeBig) totalSizeBig
    let totalSizeBig := totalSizeBig + zip64EndOfCentralDirectoryRecordSizeBig
    let totalSizeBig := totalSizeBig + zip64EndOfCentralDirectoryLocatorSizeBig
    { total := totalSizeBig, zip64 := true }
  else
    { total := totalSizeBig, zip64 := zip64 }

/-! ## `src/utils.js`: getTimeStruct, getDateStruct -/

/-- What the getters of a JavaScript `Date` return; `month` is `getMonth()`,
which counts from 0, and `date` is `getDate()`, the day of the month. The time
value of a `Date` is at most 8.64e15 milliseconds away from the epoch, which
keeps `getFullYear()` between -271821 and 275760. -/
structure JSDate where
  hours : Int
  minutes : Int
  seconds : Int
  month : Int
  date : Int
  fullYear : Int
  fullYear_ge : -271821 ≤ fullYear
  fullYear_le : fullYear ≤ 275760
  deriving DecidableEq, Repr

/-- ECMAScript `ToInt32` on an integer. -/
def toInt32 (x : Int) : Int := (x + 2 ^ 31) % 2 ^ 32 - 2 ^ 31

/-- The JavaScript operator `a << k`. -/
def shl32 (a : Int) (k : Nat) : Int := toInt32 (toInt32 a * 2 ^ (k % 32))

/-- The JavaScript operator `a | b`. -/
def or32 (a b : Int) : Int := toInt32 (Int.lor (toInt32 a) (toInt32 b))

/-- `getTimeStruct(date)` of `src/utils.js`. The right operand of the last `|`
is the quotient `getSeconds() / 2`, which `ToInt32` truncates. -/
def getTimeStruct (date : JSDate) : Int :=
  or32 (shl32 (or32 (shl32 date.hours 6) date.minutes) 5) (Int.tdiv date.seconds 2)

/-- `getDateStruct(date)` of `src/utils.js`. -/
def getDateStruct (date : JSDate) : Int :=
  or32 (shl32 (or32 (shl32 (date.fullYear - 1980) 4) (date.month + 1)) 5) date.date

/-! ## `./crc32` -/

/-- Modelled from the spec: the running checksum accumulator `Crc32` of
`./crc32`, a file that is not among the sources. The spec gives it the
interface `append(bytes)` and `get() -> uint32` and nothing more, so an
accumulator is represented by the chunks appended to it since `new Crc32()`,
and `get` is an arbitrary function of them with a 32-bit unsigned result. -/
structure Crc32 where
  get : List Bytes → Nat
  get_lt : ∀ chunks, get chunks < 2 ^ 32

/-! ## `src/zip.js`: the archive encoder -/

/-- An element of `this.fileRecord`; `crc` holds the chunks appended to the
member's `Crc32`. -/
structure FileRecord where
  name : JSString
  sizeBig : Nat
  crc : List Bytes
  done : Bool
  date : JSDate
  headerOffsetBig : Nat
  deriving DecidableEq, Repr

/-- The fields of a `Zip` object, with the part of the state of its `Readable`
base class the code depends on: `destroyed`, the bytes handed to `push` so far
(`output`) and whether `push(null)` was called (`ended`). A completion callback
of a payload write is named by a number; `completions` lists the invocations of
such callbacks, each with the error it was given, oldest first. -/
structure Zip where
  total : Nat
  zip64 : Bool
  fileRecord : List FileRecord
  finished : Bool
  callback : Option Nat
  byteCounterBig : Nat
  destroyed : Bool
  output : Bytes
  ended : Bool
  completions : List (Nat × Option ZipError)
  deriving DecidableEq, Repr

/-- The constructor `new Zip(total, options)`; the argument is `options.zip64`,
`none` when it is `undefined`. An `undefined` that stays is stored as `false`:
the code only ever tests `this.zip64` for truthiness. -/
def Zip.new (total : Nat) (zip64 : Option Bool) : Zip :=
  { total := total
    zip64 := match zip64 with
      | some b => b
      | none => decide (total ≥ 0xFFFFFFFF)
    fileRecord := []
    finished := false
    callback := none
    byteCounterBig := 0
    destroyed := false
    output := []
    ended := false
    completions := [] }

/-- `this.push(chunk)` for a buffer: the chunk is handed to the output. -/
def Zip.push (z : Zip) (chunk : Bytes) : Zip :=
  { z with output := z.output ++ chunk }

/-- Invocation `cb(err)` of a completion callback. -/
def Zip.complete (z : Zip) (cb : Nat) (err : Option ZipError) : Zip :=
  { z with completions := z.completions ++ [(cb, err)] }

/-- `_read(size)`. -/
def Zip._read (z : Zip) : Zip :=
  match z.callback with
  | some cb => ({ z with callback := none }).complete cb none
  | none => z

/-- `_destroy(err, callback)`. -/
def Zip._destroy (z : Zip) (err : Option ZipError) : Zip :=
  match z.callback with
  | some cb => ({ z with callback := none }).complete cb err
  | none => z

/-- `destroy(err)` of `Readable`: once only, sets `destroyed` and calls `_destroy`. -/
def Zip.destroy (z : Zip) (err : Option ZipError) : Zip :=
  if z.destroyed then z else ({ z with destroyed := true })._destroy err

/-- `getZip64ExtraField(fileSizeBig, localFileHeaderOffsetBig)`. -/
def Zip.getZip64ExtraField (z : Zip) (fileSizeBig localFileHeaderOffsetBig : Nat) : List Entry :=
  if z.zip64 then
    [ .int 0x0001 2,
      .int 28 2,
      .int fileSizeBig 8,
      .int fileSizeBig 8,
      .int localFileHeaderOffsetBig 8,
      .int 0 4 ]
  else []

/-- `checkNotFinished()`: the archive after the call and whether it threw. -/
def Zip.checkNotFinished (z : Zip) : Zip × Except ZipError Unit :=
  if z.finished then
    let err := ZipError.alreadyFinished
    ((if !z.destroyed then z.destroy (some err) else z), .error err)
  else (z, .ok ())

/-- `checkNotWritingFile()`: the archive after the call and whether it threw. -/
def Zip.checkNotWritingFile (z : Zip) : Zip × Except ZipError Unit :=
  match z.fileRecord.getLast? with
  | some lastFile =>
    if !lastFile.done then
      let err := ZipError.notFinished lastFile.name
      ((if !z.destroyed then z.destroy (some err) else z), .error err)
    else (z, .ok ())
  | none => (z, .ok ())

/-- The argument of `createByteArray` for the local file header in `startFile`. -/
def Zip.localFileHeaderFields (z : Zip) (nameBuffer : Bytes) (date : JSDate) : List Entry :=
  [ .int 0x04034b50 4,
    .int 0x002d 2,
    .int 0x0808 2,
    .int 0x0000 2,
    .int (getTimeStruct date) 2,
    .int (getDateStruct date) 2,
    .int 0x00000000 4,
    .int (if z.zip64 then 0xffffffff else 0x00000000) 4,
    .int (if z.zip64 then 0xffffffff else 0x00000000) 4,
    .int nameBuffer.length 2,
    .int (if z.zip64 then 32 else 0) 2,
    .buf nameBuffer ] ++ z.getZip64ExtraField 0 z.byteCounterBig

/-- `startFile(fileName)`; `date` is `new Date(Date.now())`. The archive after
the call, and the error thrown or else the position in `fileRecord` of the
record the returned `Writable` is bound to. -/
def Zip.startFile (z : Zip) (fileName : JSString) (date : JSDate) : Zip × Except ZipError Nat :=
  match z.checkNotFinished with
  | (z, .error e) => (z, .error e)
  | (z, .ok _) =>
  match z.checkNotWritingFile with
  | (z, .error e) => (z, .error e)
  | (z, .ok _) =>
    let file : FileRecord :=
      { name := fileName
        sizeBig := 0
        crc := []
        done := false
        date := date
        headerOffsetBig := z.byteCounterBig }
    let idx := z.fileRecord.length
    let z := { z with fileRecord := z.fileRecord ++ [file] }
    let nameBuffer := bufferFromUtf8 fileName
    match createByteArray (z.localFileHeaderFields nameBuffer date) with
    | .error e => (z, .error e)
    | .ok header =>
      let z := z.push header
      ({ z with byteCounterBig := z.byteCounterBig + header.length }, .ok idx)

/-- Apply `f` to the element at position `idx`, if there is one. -/
def modifyAt {α : Type} (f : α → α) : Nat → List α → List α
  | _, [] => []
  | 0, a :: l => f a :: l
  | n + 1, a :: l => a :: modifyAt f n l

/-- The `write` function of the `Writable` returned by the `startFile` call
that appended the record at position `idx`. `pushResult` is what
`this.push(chunk)` returns. Nothing in the `try` block throws. -/
def Zip.sinkWrite (z : Zip) (idx : Nat) (chunk : Bytes) (callback : Nat)
    (pushResult : Bool) : Zip :=
  match z.fileRecord[idx]? with
  | none => z
  | some _ =>
    let z := if z.destroyed then z.complete callback (some .alreadyDestroyed) else z
    let z := { z with byteCounterBig := z.byteCounterBig + chunk.length }
    let fileRecord := modifyAt (fun file =>
      { file with crc := file.crc ++ [chunk], sizeBig := file.sizeBig + chunk.length })
      idx z.fileRecord
    let z := { z with fileRecord := fileRecord }
    let z := z.push chunk
    if pushResult then z.complete callback none else { z with callback := some callback }

/-- The argument of `createByteArray` for the data descriptor in `final`. -/
def Zip.dataDescriptorFields (C : Crc32) (z : Zip) (file : FileRecord) : List Entry :=
  [ .int (C.get file.crc) 4,
    .int file.sizeBig (if z.zip64 then 8 else 4),
    .int file.sizeBig (if z.zip64 then 8 else 4) ]

/-- The `final` function of the `Writable` returned by the `startFile` call
that appended the record at position `idx`. -/
def Zip.sinkFinal (C : Crc32) (z : Zip) (idx : Nat) (callback : Nat) : Zip :=
  match z.fileRecord[idx]? with
  | none => z
  | some file =>
    let z := if z.destroyed then z.complete callback (some .alreadyDestroyed) else z
    match createByteArray (z.dataDescriptorFields C file) with
    | .error e => (z.destroy (some e)).complete callback (some e)
    | .ok dataDescriptor =>
      let z := z.push dataDescriptor
      let z := { z with byteCounterBig := z.byteCounterBig + dataDescriptor.length }
      let fileRecord := modifyAt (fun file => { file with done := true }) idx z.fileRecord
      let z := { z with fileRecord := fileRecord }
      z.complete callback none

/-- The argument of `createByteArray` for one central directory header in `finish`. -/
def Zip.centralDirectoryHeaderFields (C : Crc32) (z : Zip) (file : FileRecord) : List Entry :=
  let nameBuffer := bufferFromUtf8 file.name
  [ .int 0x02014b50 4,
    .int 0x002d 2,
    .int 0x002d 2,
    .int 0x0808 2,
    .int 0x0000 2,
    .int (getTimeStruct file.date) 2,
    .int (getDateStruct file.date) 2,
    .int (C.get file.crc) 4,
    .int (if z.zip64 then 0xffffffff else file.sizeBig) 4,
    .int (if z.zip64 then 0xffffffff else file.sizeBig) 4,
    .int nameBuffer.length 2,
    .int (if z.zip64 then 32 else 0) 2,
    .int 0x0000 2,
    .int 0x0000 2,
    .int 0x0000 2,
    .int 0x00000000 4,
    .int (if z.zip64 then 0xffffffff else file.headerOffsetBig) 4,
    .buf nameBuffer ] ++ z.getZip64ExtraField file.sizeBig file.headerOffsetBig

/-- The `forEach` over `this.fileRecord` in `finish`, from the records still to
visit and the current `centralDirectorySizeBig`: the archive after the loop and
the final `centralDirectorySizeBig`, or the error that ended it. -/
def Zip.writeCentralDirectory (C : Crc32) :
    List FileRecord → Zip → Nat → Zip × Except ZipError Nat
  | [], z, centralDirectorySizeBig => (z, .ok centralDirectorySizeBig)
  | file :: rest, z, centralDirectorySizeBig =>
    match createByteArray (z.centralDirectoryHeaderFields C file) with
    | .error e => (z, .error e)
    | .ok header =>
      let z := z.push header
      let z := { z with byteCounterBig := z.byteCounterBig + header.length }
      Zip.writeCentralDirectory C rest z (centralDirectorySizeBig + header.length)

/-- The argument of `createByteArray` for the zip64 end of central directory record. -/
def Zip.zip64EndOfCentralDirectoryRecordFields (z : Zip)
    (centralDirectorySizeBig centralDirectoryStartBig : Nat) : List Entry :=
  [ .int 0x06064b50 4,
    .int 44 8,
    .int 0x002d 2,
    .int 0x002d 2,
    .int 0 4,
    .int 0 4,
    .int z.fileRecord.length 8,
    .int z.fileRecord.length 8,
    .int centralDirectorySizeBig 8,
    .int centralDirectoryStartBig 8 ]

/-- The argument of `createByteArray` for the zip64 end of central directory locator. -/
def Zip.zip64EndOfCentralDirectoryLocatorFields
    (zip64EndOfCentralDirectoryRecordStartBig : Nat) : List Entry :=
  [ .int 0x07064b50 4,
    .int 0 4,
    .int zip64EndOfCentralDirectoryRecordStartBig 8,
    .int 1 4 ]

/-- The `if (this.zip64)` block of `finish`. -/
def Zip.writeZip64End (z : Zip) (centralDirectorySizeBig centralDirectoryStartBig : Nat) :
    Zip × Except ZipError Unit :=
  if z.zip64 then
    let zip64EndOfCentralDirectoryRecordStartBig := z.byteCounterBig
    match createByteArray
      (z.zip64EndOfCentralDirectoryRecordFields centralDirectorySizeBig centralDirectoryStartBig) with
    | .error e => (z, .error e)
    | .ok zip64EndOfCentralDirectoryRecord =>
      let z := z.push zip64EndOfCentralDirectoryRecord
      let z := { z with byteCounterBig := z.byteCounterBig + zip64EndOfCentralDirectoryRecord.length }
      match createByteArray
        (Zip.zip64EndOfCentralDirectoryLocatorFields zip64EndOfCentralDirectoryRecordStartBig) with
      | .error e => (z, .error e)
      | .ok zip64EndOfCentralDirectoryLocator =>
        let z := z.push zip64EndOfCentralDirectoryLocator
        ({ z with byteCounterBig := z.byteCounterBig + zip64EndOfCentralDirectoryLocator.length },
          .ok ())
  else (z, .ok ())

/-- The argument of `createByteArray` for the end of central directory record. -/
def Zip.endOfCentralDirectoryRecordFields (z : Zip)
    (centralDirectorySizeBig centralDirectoryStartBig : Nat) : List Entry :=
  [ .int 0x06054b50 4,
    .int 0 2,
    .int 0 2,
    .int (if z.zip64 then 0xffff else z.fileRecord.length) 2,
    .int (if z.zip64 then 0xffff else z.fileRecord.length) 2,
    .int (if z.zip64 then 0xffffffff else centralDirectorySizeBig) 4,
    .int (if z.zip64 then 0xffffffff else centralDirectoryStartBig) 4,
    .int 0 2 ]

/-- `finish()`: the archive after the call and whether it threw. -/
def Zip.finish (C : Crc32) (z : Zip) : Zip × Except ZipError Unit :=
  match z.checkNotFinished with
  | (z, .error e) => (z, .error e)
  | (z, .ok _) =>
  match z.checkNotWritingFile with
  | (z, .error e) => (z, .error e)
  | (z, .ok _) =>
  if z.destroyed then (z, .error .alreadyDestroyed)
  else
    let centralDirectoryStartBig := z.byteCounterBig
    match Zip.writeCentralDirectory C z.fileRecord z 0 with
    | (z, .error e) => (z, .error e)
    | (z, .ok centralDirectorySizeBig) =>
    match z.writeZip64End centralDirectorySizeBig centralDirectoryStartBig with
    | (z, .error e) => (z, .error e)
    | (z, .ok _) =>
    match createByteArray
      (z.endOfCentralDirectoryRecordFields centralDirectorySizeBig centralDirectoryStartBig) with
    | .error e => (z, .error e)
    | .ok endOfCentralDirectoryRecord =>
      let z := z.push endOfCentralDirectoryRecord
      let z := { z with ended := true }
      let z := { z with byteCounterBig := z.byteCounterBig + endOfCentralDirectoryRecord.length }
      ({ z with finished := true }, .ok ())

/-! ## Runs of the encoder -/

/-- A call made on the archive from outside: the two methods of its API, the
two functions of a `Writable` it returned (named by the position of its
record), `destroy`, and the consumer's request for data. -/
inductive Event where
  | startFile (fileName : JSString) (date : JSDate)
  | write (idx : Nat) (chunk : Bytes) (callback : Nat) (pushResult : Bool)
  | final (idx : Nat) (callback : Nat)
  | finish
  | destroy (err : Option ZipError)
  | read
  deriving DecidableEq, Repr

/-- The archive after one call, whether or not the call threw. -/
def Zip.step (C : Crc32) (z : Zip) : Event → Zip
  | .startFile fileName date => (z.startFile fileName date).1
  | .write idx chunk callback pushResult => z.sinkWrite idx chunk callback pushResult
  | .final idx callback => z.sinkFinal C idx callback
  | .finish => (z.finish C).1
  | .destroy err => z.destroy err
  | .read => z._read

/-- The archive after a sequence of calls. -/
def Zip.run (C : Crc32) (z : Zip) (events : List Event) : Zip :=
  events.foldl (Zip.step C) z

/-- A state of the archive that some sequence of calls produces from a newly
constructed one. -/
def Zip.Reachable (C : Crc32) (z : Zip) : Prop :=
  ∃ (total : Nat) (zip64 : Option Bool) (events : List Event),
    z = (Zip.new total zip64).run C events

/-! ## `src/archive.js`: zip_files -/

/-- An element `{name, size, url}` of the argument of `zip_files`, with what
the run meets when it gets to it: the clock at the `startFile` call, and the
chunks that the response for `url` delivers, each with the result `push`
gives for it. -/
structure Download where
  name : JSString
  size : Nat
  date : JSDate
  chunks : List (Bytes × Bool)
  deriving DecidableEq, Repr

/-- The function `next_file` of `zip_files`, from the files still to send.
`res.pipe(...)` writes the chunks in order, waiting for `_read` after a write
whose completion was deferred, then ends the `Writable`, whose `finish` event
calls `next_file` again. -/
def next_file (C : Crc32) : List Download → Zip → Zip
  | [], zip => if zip.destroyed then zip else (zip.finish C).1
  | file :: files, zip =>
    if zip.destroyed then zip
    else
      match zip.startFile file.name file.date with
      | (zip, .error _) => zip
      | (zip, .ok idx) =>
        let zip := file.chunks.foldl
          (fun zip chunk => (zip.sinkWrite idx chunk.1 0 chunk.2)._read) zip
        next_file C files (zip.sinkFinal C idx 0)

/-- `zip_files(files)` of `src/archive.js`, run to the end. -/
def zip_files (C : Crc32) (files : List Download) : Zip :=
  let r := calculateSize (files.map (fun file => { name := file.name, size := file.size })) false
  next_file C files (Zip.new r.total (some r.zip64))

/-! ## Definitions used to state the properties -/

/-- A well-formed field: a raw byte span, or an integer of width 1, 2, 4 or 8
whose value fits the width. -/
def Entry.WellFormed : Entry → Prop
  | .int data size =>
    (size = 1 ∨ size = 2 ∨ size = 4 ∨ size = 8) ∧ 0 ≤ data ∧ data < 2 ^ (8 * size)
  | .buf _ => True

/-- The number of bytes a field takes: its width, or the length of its span. -/
def Entry.width : Entry → Nat
  | .int _ size => size
  | .buf data => data.length

/-- The bytes of a field in the words of the spec: a span verbatim, an
integer as `width` little-endian bytes. -/
def Entry.encode : Entry → Bytes
  | .int data size => leBytes size data.toNat
  | .buf data => data

/-- The number a list of bytes stands for, least significant byte first. -/
def leValue : Bytes → Nat
  | [] => 0
  | b :: bs => b + 256 * leValue bs

/-- The standard-mode total as `calculateSize` counts it: a name counts for
its `name.length`, the number of its UTF-16 code units. -/
def standardTotal (files : List ManifestFile) : Nat :=
  (files.map (fun file =>
    (30 + file.name.length) + file.size + 12 + (46 + file.name.length))).sum + 22

/-- The standard-mode total in the words of the spec: a name counts for the
byte length of its UTF-8 encoding. -/
def specStandardTotal (files : List ManifestFile) : Nat :=
  (files.map (fun file =>
    (30 + (bufferFromUtf8 file.name).length) + file.size + 12
      + (46 + (bufferFromUtf8 file.name).length))).sum + 22

/-- The property of the archive state that `checkNotFinished` relies on: once
`finished` is set the last record is done; and `push(null)` has been called
exactly when `finished` is set. -/
def Zip.Inv (z : Zip) : Prop :=
  (z.finished = true →
    ∀ lastFile, z.fileRecord.getLast? = some lastFile → lastFile.done = true) ∧
  z.ended = z.finished

/-- The archives `z` and `z'` differ at most in `destroyed`, the pending
callback and the list of completions. -/
def Zip.SameArchive (z z' : Zip) : Prop :=
  z'.total = z.total ∧ z'.zip64 = z.zip64 ∧ z'.fileRecord = z.fileRecord ∧
  z'.finished = z.finished ∧ z'.byteCounterBig = z.byteCounterBig ∧
  z'.output = z.output ∧ z'.ended = z.ended

/-- The archive `z'` is `z` after some bytes were handed to `push` and counted. -/
def Zip.EmitsOnly (z z' : Zip) : Prop :=
  z' = { z with output := z'.output, byteCounterBig := z'.byteCounterBig }

/-- A checksum accumulator whose `get()` is always 0, for concrete runs. -/
def zeroCrc : Crc32 := ⟨fun _ => 0, fun _ => Nat.two_pow_pos 32⟩

/-- The timestamp 1 January 2020, 12:30:59, for concrete runs. -/
def exampleDate : JSDate := ⟨12, 30, 59, 0, 1, 2020, by decide, by decide⟩

/-- The ranges of the fields of a timestamp whose packed time and date fit the
two 16-bit fields of a ZIP header: a calendar time between 1980 and 2107. -/
def JSDate.DosRange (date : JSDate) : Prop :=
  (0 ≤ date.hours ∧ date.hours ≤ 23) ∧ (0 ≤ date.minutes ∧ date.minutes ≤ 59) ∧
  (0 ≤ date.seconds ∧ date.seconds ≤ 59) ∧ (0 ≤ date.month ∧ date.month ≤ 11) ∧
  (1 ≤ date.date ∧ date.date ≤ 31) ∧ (1980 ≤ date.fullYear ∧ date.fullYear ≤ 2107)

/-- The length of the local file header that `startFile` emits. -/
def localHeaderLength (zip64 : Bool) (name : JSString) : Nat :=
  30 + (bufferFromUtf8 name).length + (if zip64 then 32 else 0)

/-- The length of the data descriptor that `final` emits. -/
def dataDescriptorLength (zip64 : Bool) : Nat := if zip64 then 20 else 12

/-- The length of the central directory header that `finish` emits. -/
def centralHeaderLength (zip64 : Bool) (name : JSString) : Nat :=
  46 + (bufferFromUtf8 name).length + (if zip64 then 32 else 0)

/-- The length of the records that `finish` emits after the central directory. -/
def endRecordsLength (zip64 : Bool) : Nat := (if zip64 then 56 + 20 else 0) + 22

/-- The state of an archive between the calls of a `zip_files` run: not
finished, not destroyed, no completion pending. -/
def runState (total : Nat) (zip64 : Bool) (fileRecord : List FileRecord)
    (byteCounterBig : Nat) (output : Bytes) (completions : List (Nat × Option ZipError)) : Zip :=
  { total := total
    zip64 := zip64
    fileRecord := fileRecord
    finished := false
    callback := none
    byteCounterBig := byteCounterBig
    destroyed := false
    output := output
    ended := false
    completions := completions }

/-- The values of a record fit the fields of its central directory header. -/
def FileRecord.Fits (zip64 : Bool) (file : FileRecord) : Prop :=
  (bufferFromUtf8 file.name).length < 65536 ∧ file.date.DosRange ∧
  file.sizeBig < (if zip64 then 2 ^ 64 else 2 ^ 32) ∧
  file.headerOffsetBig < (if zip64 then 2 ^ 64 else 2 ^ 32)

/-- What a run of `zip_files` needs of a file for its records to be encodable
and its declared size to be right: a name of fewer than 65536 UTF-8 bytes, a
clock between 1980 and 2107, and a response of exactly `size` bytes. -/
def Download.Ok (file : Download) : Prop :=
  (bufferFromUtf8 file.name).length < 65536 ∧ file.date.DosRange ∧
  (file.chunks.map (fun c => c.1.length)).sum = file.size

/-- The number of bytes emitted for a member before the central directory. -/
def memberLength (zip64 : Bool) (name : JSString) (size : Nat) : Nat :=
  localHeaderLength zip64 name + size + dataDescriptorLength zip64

instance (e : Entry) : Decidable e.WellFormed := by
  cases e <;> unfold Entry.WellFormed <;> infer_instance

instance (date : JSDate) : Decidable date.DosRange := by
  unfold JSDate.DosRange; infer_instance

instance (zip64 : Bool) (file : FileRecord) : Decidable (file.Fits zip64) := by
  unfold FileRecord.Fits; infer_instance

instance (file : Download) : Decidable file.Ok := by
  unfold Download.Ok; infer_instance

instance (z : Zip) : Decidable z.Inv := by
  unfold Zip.Inv
  cases h : z.fileRecord.getLast? with
  | none => simp only [reduceCtorEq, false_implies, implies_true]; infer_instance
  | some l => simp only [Option.some.injEq, forall_eq']; infer_instance

/-- The archive `z'` is `z` after a call: some bytes were appended to the
output and the byte counter grew by their number. -/
def Zip.Appends (z z' : Zip) : Prop :=
  ∃ bytes : Bytes, z'.output = z.output ++ bytes ∧
    z'.byteCounterBig = z.byteCounterBig + bytes.length

/-- What the code keeps of the records: every record before the last one is done. -/
def Zip.OneOpenMember (z : Zip) : Prop :=
  ∀ (i : Nat) (file : FileRecord), z.fileRecord[i]? = some file →
    i + 1 < z.fileRecord.length → file.done = true

/-- The data descriptor in the words of the spec: the checksum as 4
little-endian bytes, then the size twice, each as 4 bytes in Standard mode and
8 bytes in Zip64 mode. -/
def specDataDescriptor (zip64 : Bool) (crc size : Nat) : Bytes :=
  leBytes 4 crc ++ leBytes (if zip64 then 8 else 4) size ++ leBytes (if zip64 then 8 else 4) size

/-- Every record's size is the total length of the chunks appended to its
checksum accumulator. -/
def Zip.SizesCounted (z : Zip) : Prop :=
  ∀ file ∈ z.fileRecord, file.sizeBig = (file.crc.map List.length).sum

/-- The ZIP64 extra field in the words of the spec: tag 0x0001, size 28, the
size twice as 8 bytes, the header offset as 8 bytes, the disk number 0 as 4
bytes; 32 bytes in all. -/
def specZip64Extra (size offset : Nat) : Bytes :=
  leBytes 2 0x0001 ++ leBytes 2 28 ++ leBytes 8 size ++ leBytes 8 size ++ leBytes 8 offset
    ++ leBytes 4 0

/-- The local file header in the words of the spec, for the packed time and
date, the UTF-8 bytes of the name and the cursor before the call. -/
def specLocalHeader (zip64 : Bool) (time date : Nat) (nameBytes : Bytes) (cursor : Nat) : Bytes :=
  leBytes 4 0x04034b50 ++ leBytes 2 0x002d ++ leBytes 2 0x0808 ++ leBytes 2 0
    ++ leBytes 2 time ++ leBytes 2 date ++ leBytes 4 0
    ++ leBytes 4 (if zip64 then 0xFFFFFFFF else 0)
    ++ leBytes 4 (if zip64 then 0xFFFFFFFF else 0)
    ++ leBytes 2 nameBytes.length ++ leBytes 2 (if zip64 then 32 else 0)
    ++ nameBytes ++ (if zip64 then specZip64Extra 0 cursor else [])

/-- A clock before 1980: 1 January 1970, 00:00:00. -/
def epochDate : JSDate := ⟨0, 0, 0, 0, 1, 1970, by decide, by decide⟩

/-- An archive together with the payload sinks in use: the positions in
`fileRecord` of the records whose `startFile` call returned a `Writable` that
has not been ended. -/
structure Session where
  zip : Zip
  sinks : List Nat

/-- The session of a newly constructed archive: no sink is in use. -/
def Session.new (total : Nat) (zip64 : Option Bool) : Session :=
  ⟨Zip.new total zip64, []⟩

/-- One call in a session. A `Writable` exists only once `startFile` has
returned it, and `Writable` calls its `final` once, after the last `write`: a
sink call on a position that is not in use does not happen, and the end of a
sink takes it out of use. -/
def Session.step (C : Crc32) (s : Session) : Event → Session
  | .startFile fileName date =>
    match s.zip.startFile fileName date with
    | (z, .ok idx) => ⟨z, s.sinks ++ [idx]⟩
    | (z, .error _) => ⟨z, s.sinks⟩
  | .write idx chunk callback pushResult =>
    if idx ∈ s.sinks then ⟨s.zip.sinkWrite idx chunk callback pushResult, s.sinks⟩ else s
  | .final idx callback =>
    if idx ∈ s.sinks then ⟨s.zip.sinkFinal C idx callback, s.sinks.filter (fun i => i != idx)⟩
    else s
  | .finish => ⟨(s.zip.finish C).1, s.sinks⟩
  | .destroy err => ⟨s.zip.destroy err, s.sinks⟩
  | .read => ⟨s.zip._read, s.sinks⟩

/-- The session after a sequence of calls. -/
def Session.run (C : Crc32) (s : Session) (events : List Event) : Session :=
  events.foldl (Session.step C) s

/-- A session that some sequence of calls produces from a newly constructed
archive. -/
def Session.Reachable (C : Crc32) (s : Session) : Prop :=
  ∃ (total : Nat) (zip64 : Option Bool) (events : List Event),
    s = (Session.new total zip64).run C events

/-- The fields of the local file header of a record could be encoded. -/
def FileRecord.HeaderFits (zip64 : Bool) (file : FileRecord) : Prop :=
  (bufferFromUtf8 file.name).length < 65536 ∧
  (0 ≤ getTimeStruct file.date ∧ getTimeStruct file.date < 65536) ∧
  (0 ≤ getDateStruct file.date ∧ getDateStruct file.date < 65536) ∧
  (zip64 = true → file.headerOffsetBig < 2 ^ 64)

/-- The local file header of a record in the words of the spec. -/
def FileRecord.localHeader (zip64 : Bool) (file : FileRecord) : Bytes :=
  specLocalHeader zip64 (getTimeStruct file.date).toNat (getDateStruct file.date).toNat
    (bufferFromUtf8 file.name) file.headerOffsetBig

/-- The member of a record is in the output: its local file header starts at
the recorded offset and is followed by the chunks appended to its checksum;
nothing follows while the member is not done, and the data descriptor follows
once it is. -/
def Zip.MemberAt (C : Crc32) (z : Zip) (file : FileRecord) : Prop :=
  file.HeaderFits z.zip64 ∧
  ∃ pre post : Bytes,
    z.output = pre ++ file.localHeader z.zip64 ++ file.crc.flatten ++ post ∧
    pre.length = file.headerOffsetBig ∧
    (file.done = false → post = []) ∧
    (file.done = true → file.sizeBig < (if z.zip64 then 2 ^ 64 else 2 ^ 32) ∧
      ∃ rest, post = specDataDescriptor z.zip64 (C.get file.crc) file.sizeBig ++ rest)

/-- The property of a session that its calls maintain: the cursor is the
number of bytes handed to the output, a sink in use belongs to a record that is
not done, every record that is done or has a sink in use has its member in the
output, and only the last record can be not done. -/
def Session.Inv (C : Crc32) (s : Session) : Prop :=
  s.zip.byteCounterBig = s.zip.output.length ∧
  (∀ i ∈ s.sinks, ∃ file, s.zip.fileRecord[i]? = some file ∧ file.done = false) ∧
  (∀ (i : Nat) (file : FileRecord), s.zip.fileRecord[i]? = some file →
    (file.done = true ∨ i ∈ s.sinks) → s.zip.MemberAt C file) ∧
  s.zip.OneOpenMember

/-- The central directory header of a record in the words of the spec. -/
def FileRecord.centralHeader (C : Crc32) (zip64 : Bool) (file : FileRecord) : Bytes :=
  leBytes 4 0x02014b50 ++ leBytes 2 0x002d ++ leBytes 2 0x002d ++ leBytes 2 0x0808
    ++ leBytes 2 0 ++ leBytes 2 (getTimeStruct file.date).toNat
    ++ leBytes 2 (getDateStruct file.date).toNat ++ leBytes 4 (C.get file.crc)
    ++ leBytes 4 (if zip64 then 0xFFFFFFFF else file.sizeBig)
    ++ leBytes 4 (if zip64 then 0xFFFFFFFF else file.sizeBig)
    ++ leBytes 2 (bufferFromUtf8 file.name).length ++ leBytes 2 (if zip64 then 32 else 0)
    ++ leBytes 2 0 ++ leBytes 2 0 ++ leBytes 2 0 ++ leBytes 4 0
    ++ leBytes 4 (if zip64 then 0xFFFFFFFF else file.headerOffsetBig)
    ++ bufferFromUtf8 file.name
    ++ (if zip64 then specZip64Extra file.sizeBig file.headerOffsetBig else [])

/-- The central directory in the words of the spec: one header per record, in
the order of the records. -/
def specCentralDirectory (C : Crc32) (zip64 : Bool) (files : List FileRecord) : Bytes :=
  (files.map (FileRecord.centralHeader C zip64)).flatten

/-- The ZIP64 end of central directory record in the words of the spec: 56
bytes, record size 44, the member count twice, the size and the start offset
of the central directory as 8-byte fields. -/
def specZip64EndRecord (count cdSize cdStart : Nat) : Bytes :=
  leBytes 4 0x06064b50 ++ leBytes 8 44 ++ leBytes 2 0x002d ++ leBytes 2 0x002d ++ leBytes 4 0
    ++ leBytes 4 0 ++ leBytes 8 count ++ leBytes 8 count ++ leBytes 8 cdSize
    ++ leBytes 8 cdStart

/-- The ZIP64 locator in the words of the spec: 20 bytes holding the offset
of the ZIP64 end of central directory record. -/
def specZip64Locator (recordStart : Nat) : Bytes :=
  leBytes 4 0x07064b50 ++ leBytes 4 0 ++ leBytes 8 recordStart ++ leBytes 4 1

/-- The end of central directory record in the words of the spec: 22 bytes;
in Zip64 mode the counts are 0xFFFF and the size and offset 0xFFFFFFFF. -/
def specEndRecord (zip64 : Bool) (count cdSize cdStart : Nat) : Bytes :=
  leBytes 4 0x06054b50 ++ leBytes 2 0 ++ leBytes 2 0
    ++ leBytes 2 (if zip64 then 0xFFFF else count)
    ++ leBytes 2 (if zip64 then 0xFFFF else count)
    ++ leBytes 4 (if zip64 then 0xFFFFFFFF else cdSize)
    ++ leBytes 4 (if zip64 then 0xFFFFFFFF else cdStart) ++ leBytes 2 0

/-- What `finish` hands to the output after the members, in the words of the
spec: the central directory, in Zip64 mode the ZIP64 record and its locator,
and the end of central directory record. -/
def specTrailer (C : Crc32) (zip64 : Bool) (files : List FileRecord) (cdStart : Nat) : Bytes :=
  specCentralDirectory C zip64 files
    ++ (if zip64 then
        specZip64EndRecord files.length (specCentralDirectory C zip64 files).length cdStart
          ++ specZip64Locator (cdStart + (specCentralDirectory C zip64 files).length)
      else [])
    ++ specEndRecord zip64 files.length (specCentralDirectory C zip64 files).length cdStart

/-- The fields of the central directory header of a record can be encoded. -/
def FileRecord.Encodable (zip64 : Bool) (file : FileRecord) : Prop :=
  file.HeaderFits zip64 ∧
  file.sizeBig < (if zip64 then 2 ^ 64 else 2 ^ 32) ∧
  file.headerOffsetBig < (if zip64 then 2 ^ 64 else 2 ^ 32)

/-- The unsigned little-endian number in the `w` bytes at position `pos`. -/
def readLE (bs : Bytes) (pos w : Nat) : Nat := leValue ((bs.drop pos).take w)

/-- Every record's header offset plus its size is at most the cursor. -/
def Zip.OffsetsBounded (z : Zip) : Prop :=
  ∀ file ∈ z.fileRecord, file.headerOffsetBig + file.sizeBig ≤ z.byteCounterBig

/-- The `n` bytes at position `pos`. -/
def slice (bs : Bytes) (pos n : Nat) : Bytes := (bs.drop pos).take n

/-- What a reader finds in one central directory header: the name bytes, the
size, the checksum and the offset of the local file header. -/
structure CentralEntry where
  name : Bytes
  size : Nat
  crc : Nat
  offset : Nat
  deriving DecidableEq, Repr

/-- A member as a reader recovers it: the name bytes, the recorded size and
checksum, and the `size` bytes that follow the local file header. -/
structure ZipEntry where
  name : Bytes
  size : Nat
  crc : Nat
  data : Bytes
  deriving DecidableEq, Repr

/-- A reader's view of the end of the archive: the number of entries, the size
and the start of the central directory. The end of central directory record is
the last 22 bytes (the encoder writes no archive comment); when its three
fields hold the values 0xFFFF and 0xFFFFFFFF, the ZIP64 locator before it
gives the position of the ZIP64 record that holds the 8-byte values. -/
def readEnd (bs : Bytes) : Option (Nat × Nat × Nat) :=
  let p := bs.length - 22
  if 22 ≤ bs.length ∧ readLE bs p 4 = 0x06054b50 then
    let count := readLE bs (p + 10) 2
    let cdSize := readLE bs (p + 12) 4
    let cdStart := readLE bs (p + 16) 4
    if count = 0xFFFF ∧ cdSize = 0xFFFFFFFF ∧ cdStart = 0xFFFFFFFF then
      if 20 ≤ p ∧ readLE bs (p - 20) 4 = 0x07064b50 then
        let r := readLE bs (p - 20 + 8) 8
        if readLE bs r 4 = 0x06064b50 then
          some (readLE bs (r + 32) 8, readLE bs (r + 40) 8, readLE bs (r + 48) 8)
        else none
      else none
    else some (count, cdSize, cdStart)
  else none

/-- A reader's view of the central directory header at `pos`: its entry and
the position after it. Without an extra field the 4-byte size and offset
count; with the 32-byte ZIP64 extra field (tag 1) behind the sentinel values
0xFFFFFFFF, its 8-byte size and offset count. -/
def readCentralHeader (bs : Bytes) (pos : Nat) : Option (CentralEntry × Nat) :=
  if readLE bs pos 4 = 0x02014b50 then
    let crc := readLE bs (pos + 16) 4
    let compressed := readLE bs (pos + 20) 4
    let size := readLE bs (pos + 24) 4
    let nameLength := readLE bs (pos + 28) 2
    let extraLength := readLE bs (pos + 30) 2
    let commentLength := readLE bs (pos + 32) 2
    let offset := readLE bs (pos + 42) 4
    let name := slice bs (pos + 46) nameLength
    let extra := pos + 46 + nameLength
    let next := extra + extraLength + commentLength
    if extraLength = 0 then some (⟨name, size, crc, offset⟩, next)
    else if extraLength = 32 ∧ readLE bs extra 2 = 0x0001 ∧ compressed = 0xFFFFFFFF
        ∧ size = 0xFFFFFFFF ∧ offset = 0xFFFFFFFF then
      some (⟨name, readLE bs (extra + 4) 8, crc, readLE bs (extra + 20) 8⟩, next)
    else none
  else none

/-- A reader's view of `count` central directory headers from `pos` on. -/
def readCentralDirectory (bs : Bytes) : Nat → Nat → Option (List CentralEntry)
  | 0, _ => some []
  | count + 1, pos =>
    match readCentralHeader bs pos with
    | none => none
    | some (entry, next) =>
      match readCentralDirectory bs count next with
      | none => none
      | some entries => some (entry :: entries)

/-- A reader's view of the member of a central entry: the `size` bytes behind
the local file header found at the recorded offset. -/
def readMember (bs : Bytes) (entry : CentralEntry) : Option ZipEntry :=
  if readLE bs entry.offset 4 = 0x04034b50 then
    let nameLength := readLE bs (entry.offset + 26) 2
    let extraLength := readLE bs (entry.offset + 28) 2
    some ⟨entry.name, entry.size, entry.crc,
      slice bs (entry.offset + 30 + nameLength + extraLength) entry.size⟩
  else none

/-- The members of a list of central entries, if each one is found. -/
def readMembers (bs : Bytes) : List CentralEntry → Option (List ZipEntry)
  | [] => some []
  | entry :: entries =>
    match readMember bs entry with
    | none => none
    | some member =>
      match readMembers bs entries with
      | none => none
      | some members => some (member :: members)

/-- A reader's view of an archive, from the end of central directory record:
the members in the order of the central directory. -/
def readArchive (bs : Bytes) : Option (List ZipEntry) :=
  match readEnd bs with
  | none => none
  | some (count, _, cdStart) =>
    match readCentralDirectory bs count cdStart with
    | none => none
    | some entries => readMembers bs entries

/-- What a reader is to find for a record: the UTF-8 bytes of its name, its
size, the value of its checksum and the chunks appended to it. -/
def FileRecord.entry (C : Crc32) (file : FileRecord) : ZipEntry :=
  ⟨bufferFromUtf8 file.name, file.sizeBig, C.get file.crc, file.crc.flatten⟩

/-- The central entry of a record. -/
def FileRecord.centralEntry (C : Crc32) (file : FileRecord) : CentralEntry :=
  ⟨bufferFromUtf8 file.name, file.sizeBig, C.get file.crc, file.headerOffsetBig⟩

/-- The calls for one member bound to the record at position `idx`:
`startFile`, one write per chunk, each refused one followed by the consumer's
`_read`, and the end of the sink. -/
def memberEvents (idx : Nat) (file : Download) : List Event :=
  .startFile file.name file.date ::
    (file.chunks.flatMap (fun chunk =>
        .write idx chunk.1 0 chunk.2 :: (if chunk.2 then [] else [.read]))
      ++ [.final idx 0])

/-- The calls for a sequence of members, each started, written and ended in
order, the first bound to the record at position `idx`. -/
def membersEvents : Nat → List Download → List Event
  | _, [] => []
  | idx, file :: files => memberEvents idx file ++ membersEvents (idx + 1) files

/-- The total length of the chunks of a member. -/
def Download.payloadLength (file : Download) : Nat :=
  (file.chunks.map (fun chunk => chunk.1.length)).sum

/-- The record of a member that was started at cursor `offset`, written and
ended. -/
def Download.record (file : Download) (offset : Nat) : FileRecord :=
  ⟨file.name, file.payloadLength, file.chunks.map (fun chunk => chunk.1), true, file.date,
    offset⟩

/-- The records of a sequence of members, the first started at cursor `n`. -/
def downloadRecords (zip64 : Bool) : Nat → List Download → List FileRecord
  | _, [] => []
  | n, file :: files =>
    file.record n :: downloadRecords zip64 (n + memberLength zip64 file.name file.payloadLength)
      files

/-- A session between two members: no sink in use, the archive live and not
finished, with the given mode, records and cursor. -/
def Session.Idle (s : Session) (zip64 : Bool) (recs : List FileRecord) (n : Nat) : Prop :=
  s.sinks = [] ∧ s.zip.zip64 = zip64 ∧ s.zip.fileRecord = recs ∧ s.zip.byteCounterBig = n ∧
  s.zip.finished = false ∧ s.zip.destroyed = false

/-- A session inside a member: the sink of the last record in use. -/
def Session.Writing (s : Session) (zip64 : Bool) (recs : List FileRecord) (file : FileRecord)
    (n : Nat) : Prop :=
  s.sinks = [recs.length] ∧ s.zip.zip64 = zip64 ∧ s.zip.fileRecord = recs ++ [file] ∧
  s.zip.byteCounterBig = n ∧ s.zip.finished = false ∧ s.zip.destroyed = false

/-- The ranges of the getters of a JavaScript `Date` other than the year:
`getHours()` in 0..23, `getMinutes()` and `getSeconds()` in 0..59, `getMonth()`
in 0..11 and `getDate()` in 1..31. -/
def JSDate.ClockRange (date : JSDate) : Prop :=
  (0 ≤ date.hours ∧ date.hours ≤ 23) ∧ (0 ≤ date.minutes ∧ date.minutes ≤ 59) ∧
  (0 ≤ date.seconds ∧ date.seconds ≤ 59) ∧ (0 ≤ date.month ∧ date.month ≤ 11) ∧
  (1 ≤ date.date ∧ date.date ≤ 31)

instance (date : JSDate) : Decidable date.ClockRange := by
  unfold JSDate.ClockRange; infer_instance

/-- A field that `createByteArray` has a handler for: a span, or an integer of
width 1, 2, 4 or 8. -/
def Entry.Sized : Entry → Prop
  | .int _ size => size = 1 ∨ size = 2 ∨ size = 4 ∨ size = 8
  | .buf _ => True

/-- A reader's view of the end of an archive whose format it knows. For a
Standard archive: the entry count, the size and the start of the central
directory as the end of central directory record (the last 22 bytes) holds
them. For a Zip64 archive: the 8-byte values of the ZIP64 record that the
locator before the end of central directory record points to. -/
def readEndIn (zip64 : Bool) (bs : Bytes) : Option (Nat × Nat × Nat) :=
  let p := bs.length - 22
  if 22 ≤ bs.length ∧ readLE bs p 4 = 0x06054b50 then
    if zip64 then
      if 20 ≤ p ∧ readLE bs (p - 20) 4 = 0x07064b50 then
        let r := readLE bs (p - 20 + 8) 8
        if readLE bs r 4 = 0x06064b50 then
          some (readLE bs (r + 32) 8, readLE bs (r + 40) 8, readLE bs (r + 48) 8)
        else none
      else none
    else some (readLE bs (p + 10) 2, readLE bs (p + 12) 4, readLE bs (p + 16) 4)
  else none

/-- A reader's view of an archive whose format it knows, from the end of
central directory record: the members in the order of the central directory. -/
def readArchiveIn (zip64 : Bool) (bs : Bytes) : Option (List ZipEntry) :=
  match readEndIn zip64 bs with
  | none => none
  | some (count, _, cdStart) =>
    match readCentralDirectory bs count cdStart with
    | none => none
    | some entries => readMembers bs entries

/-! # Theorems -/

/-! ## createByteArray -/

theorem leBytes_length (w v : Nat) : (leBytes w v).length = w := by
  induction w generalizing v with
  | zero => rfl
  | succ w ih => simp [leBytes, ih]

theorem leBytes_lt (w v b : Nat) (hb : b ∈ leBytes w v) : b < 256 := by
  induction w generalizing v with
  | zero => simp [leBytes] at hb
  | succ w ih =>
    simp only [leBytes, List.mem_cons] at hb
    rcases hb with hb | hb
    · omega
    · exact ih _ hb

theorem leValue_leBytes (w v : Nat) (hv : v < 2 ^ (8 * w)) : leValue (leBytes w v) = v := by
  induction w generalizing v with
  | zero => simp at hv; simp [leBytes, leValue, hv]
  | succ w ih =>
    have h2 : v / 256 < 2 ^ (8 * w) := by
      rw [Nat.div_lt_iff_lt_mul (by norm_num)]
      calc v < 2 ^ (8 * (w + 1)) := hv
        _ = 2 ^ (8 * w) * 256 := by rw [Nat.mul_add, Nat.pow_add]
    simp only [leBytes, leValue, ih _ h2]
    omega

theorem Entry.encode_length (e : Entry) : e.encode.length = e.width := by
  cases e <;> simp [Entry.encode, Entry.width, leBytes_length]

theorem entrySize_of_wellFormed (e : Entry) (h : e.WellFormed) : entrySize e = some e.width := by
  cases e with
  | buf d => rfl
  | int d s =>
    obtain ⟨hs, -, -⟩ := h
    rcases hs with rfl | rfl | rfl | rfl <;> rfl

theorem sizeReduce_foldl (data : List Entry) (h : ∀ e ∈ data, e.WellFormed) (a : Nat) :
    data.foldl (fun acc value =>
      match acc, entrySize value with
      | some a, some s => some (a + s)
      | _, _ => none) (some a) = some (a + (data.map Entry.width).sum) := by
  induction data generalizing a with
  | nil => simp
  | cons e es ih =>
    have he := entrySize_of_wellFormed e (h e (List.mem_cons_self _ _))
    simp only [List.foldl_cons, he, List.map_cons, List.sum_cons]
    rw [ih (fun e' he' => h e' (List.mem_cons_of_mem _ he'))]
    simp [Nat.add_assoc]

theorem sizeReduce_of_wellFormed (data : List Entry) (h : ∀ e ∈ data, e.WellFormed) :
    sizeReduce data = some (data.map Entry.width).sum := by
  simp [sizeReduce, sizeReduce_foldl data h]

theorem writeEntry_of_wellFormed (e : Entry) (h : e.WellFormed) (buffer : Bytes) (i : Nat)
    (hfit : i + e.width ≤ buffer.length) :
    writeEntry e buffer i = .ok (writeAt buffer i e.encode, i + e.width) := by
  cases e with
  | buf d =>
    simp only [Entry.width] at hfit
    have : List.take (buffer.length - i) d = d := List.take_of_length_le (by omega)
    simp [writeEntry, bufferCopy, this, Entry.encode, Entry.width]
  | int d s =>
    obtain ⟨hs, h0, h1⟩ := h
    simp only [Entry.width] at hfit
    obtain ⟨v, rfl⟩ := Int.eq_ofNat_of_zero_le h0
    have h2 : v < 2 ^ (8 * s) := by exact_mod_cast h1
    have hw : writeUIntLE s (v : Int) buffer i = .ok (writeAt buffer i (leBytes s v)) := by
      show (if v < 2 ^ (8 * s) ∧ i + s ≤ buffer.length then _ else _) = _
      rw [if_pos ⟨h2, hfit⟩]
    rcases hs with rfl | rfl | rfl | rfl <;>
      simp [writeEntry, hw, Entry.encode, Entry.width, Except.map]

theorem writeAt_length (buffer : Bytes) (i : Nat) (bs : Bytes) (h : i + bs.length ≤ buffer.length) :
    (writeAt buffer i bs).length = buffer.length := by
  simp [writeAt]; omega

theorem writeAt_take (buffer : Bytes) (i : Nat) (bs : Bytes)
    (h : i + bs.length ≤ buffer.length) :
    (writeAt buffer i bs).take (i + bs.length) = buffer.take i ++ bs := by
  have hl : (buffer.take i ++ bs).length = i + bs.length := by simp; omega
  unfold writeAt
  exact List.take_left' hl

theorem writeAt_drop (buffer : Bytes) (i : Nat) (bs : Bytes) (k : Nat)
    (h : i + bs.length ≤ buffer.length) :
    (writeAt buffer i bs).drop (i + bs.length + k) = buffer.drop (i + bs.length + k) := by
  have hl : (buffer.take i ++ bs).length = i + bs.length := by simp; omega
  unfold writeAt
  rw [← hl, List.drop_append, hl, List.drop_drop]

theorem writeEntries_of_wellFormed (data : List Entry) (h : ∀ e ∈ data, e.WellFormed)
    (buffer : Bytes) (i : Nat) (hfit : i + (data.map Entry.width).sum ≤ buffer.length) :
    writeEntries data buffer i =
      .ok (buffer.take i ++ data.flatMap Entry.encode
        ++ buffer.drop (i + (data.map Entry.width).sum)) := by
  induction data generalizing buffer i with
  | nil => simp [writeEntries]
  | cons e es ih =>
    simp only [List.map_cons, List.sum_cons] at hfit
    have he := h e (List.mem_cons_self _ _)
    have hel := Entry.encode_length e
    rw [writeEntries, writeEntry_of_wellFormed e he buffer i (by omega)]
    simp only
    have hlen : (writeAt buffer i e.encode).length = buffer.length :=
      writeAt_length _ _ _ (by omega)
    rw [ih (fun e' he' => h e' (List.mem_cons_of_mem _ he')) _ _ (by omega)]
    have h1 := writeAt_take buffer i e.encode (by omega)
    have h2 := writeAt_drop buffer i e.encode (es.map Entry.width).sum (by omega)
    rw [hel] at h1 h2
    rw [h1, h2]
    simp [List.flatMap_cons, Nat.add_assoc]

theorem createByteArray_of_wellFormed (data : List Entry) (h : ∀ e ∈ data, e.WellFormed) :
    createByteArray data = .ok (data.flatMap Entry.encode) := by
  simp only [createByteArray, sizeReduce_of_wellFormed data h]
  rw [writeEntries_of_wellFormed data h _ _ (by simp)]
  simp

theorem writeEntry_noHandler (d : Int) (s : Nat) (buffer : Bytes) (i : Nat)
    (hs : s ≠ 0 ∧ s ≠ 1 ∧ s ≠ 2 ∧ s ≠ 4 ∧ s ≠ 8) :
    writeEntry (.int d s) buffer i = .error (.noHandler s d) := by
  obtain ⟨h0, h1, h2, h4, h8⟩ := hs
  simp only [writeEntry]

theorem writeEntries_error (data : List Entry) (d : Int) (s : Nat)
    (hmem : Entry.int d s ∈ data) (hs : s ≠ 0 ∧ s ≠ 1 ∧ s ≠ 2 ∧ s ≠ 4 ∧ s ≠ 8)
    (buffer : Bytes) (i : Nat) :
    ∃ err, writeEntries data buffer i = .error err := by
  induction data generalizing buffer i with
  | nil => simp at hmem
  | cons e es ih =>
    rw [writeEntries]
    rcases List.mem_cons.1 hmem with rfl | hmem
    · rw [writeEntry_noHandler d s buffer i hs]
      exact ⟨_, rfl⟩
    · cases hw : writeEntry e buffer i with
      | error err => exact ⟨err, rfl⟩
      | ok r => exact ih hmem r.1 r.2

theorem createByteArray_error (data : List Entry) (d : Int) (s : Nat)
    (hmem : Entry.int d s ∈ data) (hs : s ≠ 0 ∧ s ≠ 1 ∧ s ≠ 2 ∧ s ≠ 4 ∧ s ≠ 8) :
    ∃ err, createByteArray data = .error err := by
  unfold createByteArray
  cases sizeReduce data with
  | none => exact ⟨_, rfl⟩
  | some size => exact writeEntries_error data d s hmem hs _ _

theorem sizeReduce_foldl_none (data : List Entry) :
    data.foldl (fun acc value =>
      match acc, entrySize value with
      | some a, some s => some (a + s)
      | _, _ => none) none = none := by
  induction data with
  | nil => rfl
  | cons e es ih => simpa [List.foldl_cons] using ih

theorem sizeReduce_foldl_zero (data : List Entry) (d : Int) (hmem : Entry.int d 0 ∈ data)
    (acc : Option Nat) :
    data.foldl (fun acc value =>
      match acc, entrySize value with
      | some a, some s => some (a + s)
      | _, _ => none) acc = none := by
  induction data generalizing acc with
  | nil => simp at hmem
  | cons e es ih =>
    rw [List.foldl_cons]
    rcases List.mem_cons.1 hmem with rfl | hmem
    · have : (match acc, entrySize (Entry.int d 0) with
          | some a, some s => some (a + s)
          | _, _ => none) = none := by
        cases acc <;> rfl
      rw [this]
      exact sizeReduce_foldl_none es
    · exact ih hmem _

theorem writeEntries_error_of_entry (data : List Entry) (e : Entry) (hmem : e ∈ data)
    (hbad : ∀ buffer i, ∃ err, writeEntry e buffer i = .error err)
    (buffer : Bytes) (i : Nat) :
    ∃ err, writeEntries data buffer i = .error err := by
  induction data generalizing buffer i with
  | nil => simp at hmem
  | cons e2 es ih =>
    rw [writeEntries]
    rcases List.mem_cons.1 hmem with rfl | hmem
    · obtain ⟨err, herr⟩ := hbad buffer i
      rw [herr]
      exact ⟨_, rfl⟩
    · cases hw : writeEntry e2 buffer i with
      | error err => exact ⟨err, rfl⟩
      | ok r => exact ih hmem r.1 r.2

theorem writeUIntLE_error (w : Nat) (d : Int) (h : ¬ (0 ≤ d ∧ d < 2 ^ (8 * w)))
    (buffer : Bytes) (i : Nat) : writeUIntLE w d buffer i = .error .outOfRange := by
  cases d with
  | ofNat v =>
    have hv : ¬ v < 2 ^ (8 * w) := by
      intro hv
      apply h
      refine ⟨Int.ofNat_nonneg v, ?_⟩
      show (v : Int) < 2 ^ (8 * w)
      exact_mod_cast hv
    show (if v < 2 ^ (8 * w) ∧ i + w ≤ buffer.length then _ else _) = _
    rw [if_neg (fun hc => hv hc.1)]
  | negSucc v => rfl

theorem writeEntry_error_of_not_wellFormed (d : Int) (s : Nat) (hs : s ≠ 0)
    (h : ¬ (Entry.int d s).WellFormed) (buffer : Bytes) (i : Nat) :
    ∃ err, writeEntry (.int d s) buffer i = .error err := by
  by_cases hw : s = 1 ∨ s = 2 ∨ s = 4 ∨ s = 8
  · have hr : ¬ (0 ≤ d ∧ d < 2 ^ (8 * s)) := fun hc => h ⟨hw, hc⟩
    have he := writeUIntLE_error s d hr buffer i
    rcases hw with rfl | rfl | rfl | rfl <;>
      exact ⟨.outOfRange, by simp [writeEntry, he, Except.map]⟩
  · have hw2 : s ≠ 0 ∧ s ≠ 1 ∧ s ≠ 2 ∧ s ≠ 4 ∧ s ≠ 8 := by
      refine ⟨hs, ?_, ?_, ?_, ?_⟩ <;> intro hc <;> exact hw (by simp [hc])
    exact ⟨_, writeEntry_noHandler d s buffer i hw2⟩

theorem createByteArray_error_of_not_wellFormed (data : List Entry) (e : Entry)
    (hmem : e ∈ data) (h : ¬ e.WellFormed) :
    ∃ err, createByteArray data = .error err := by
  cases e with
  | buf b => exact absurd trivial h
  | int d s =>
    unfold createByteArray
    by_cases hs : s = 0
    · subst hs
      have : sizeReduce data = none := sizeReduce_foldl_zero data d hmem _
      rw [this]
      exact ⟨_, rfl⟩
    · cases sizeReduce data with
      | none => exact ⟨_, rfl⟩
      | some size =>
        exact writeEntries_error_of_entry data _ hmem
          (writeEntry_error_of_not_wellFormed d s hs h) _ _

/-- C6. `createByteArray` returns, for a list of well-formed fields (raw byte
spans, and integers of width 1, 2, 4 or 8 whose value fits the width), the
concatenation in list order of each span and of each integer as `width`
little-endian bytes: the length of the result is the sum of the widths and
span lengths, each field starts at the sum of the lengths before it, and the
bytes of an integer field are `width` bytes below 256 that stand for its value,
least significant first. For a list that holds an integer field whose width is
none of 0, 1, 2, 4, 8 it fails with an error and returns no buffer, and so it
does for every other list that is not well-formed. -/
theorem createByteArray_wellFormed_or_fails (data : List Entry) :
    ((∀ e ∈ data, e.WellFormed) →
      createByteArray data = .ok (data.flatMap Entry.encode) ∧
      (data.flatMap Entry.encode).length = (data.map Entry.width).sum ∧
      (∀ (pre post : List Entry) (e : Entry), data = pre ++ e :: post →
        ((data.flatMap Entry.encode).drop (pre.map Entry.width).sum).take e.width = e.encode) ∧
      (∀ (v : Int) (w : Nat), Entry.int v w ∈ data →
        (Entry.int v w).encode.length = w ∧ (∀ b ∈ (Entry.int v w).encode, b < 256) ∧
        (leValue (Entry.int v w).encode : Int) = v)) ∧
    ((∃ (v : Int) (w : Nat), Entry.int v w ∈ data ∧ w ≠ 0 ∧ w ≠ 1 ∧ w ≠ 2 ∧ w ≠ 4 ∧ w ≠ 8) →
      ∃ err, createByteArray data = .error err) ∧
    ((∃ e ∈ data, ¬ e.WellFormed) → ∃ err, createByteArray data = .error err) := by
  have hlen : ∀ l : List Entry, (l.flatMap Entry.encode).length = (l.map Entry.width).sum := by
    intro l
    induction l with
    | nil => rfl
    | cons e es ih => simp [List.flatMap_cons, Entry.encode_length, ih]
  refine ⟨fun h => ⟨createByteArray_of_wellFormed data h, hlen data, ?_, ?_⟩, ?_,
    fun ⟨e, hmem, hbad⟩ => createByteArray_error_of_not_wellFormed data e hmem hbad⟩
  · rintro pre post e rfl
    rw [List.flatMap_append, List.flatMap_cons, ← hlen pre, List.drop_left,
      ← Entry.encode_length e, List.take_left]
  · intro v w hmem
    obtain ⟨-, h0, h1⟩ := h _ hmem
    refine ⟨leBytes_length _ _, fun b hb => leBytes_lt _ _ b hb, ?_⟩
    have h2 : v.toNat < 2 ^ (8 * w) := by
      have := Int.toNat_of_nonneg h0
      zify
      rw [this]
      exact_mod_cast h1
    simp only [Entry.encode]
    rw [leValue_leBytes _ _ h2]
    exact Int.toNat_of_nonneg h0
  · rintro ⟨v, w, hmem, hw⟩
    exact createByteArray_error data v w hmem hw

/-- Witness of C6: a signature, a name and a 2-byte field are laid out in
order, and a list with a 3-byte integer field fails. -/
theorem createByteArray_wellFormed_or_fails_witness :
    createByteArray [.int 0x04034b50 4, .buf [102, 111, 111], .int 513 2]
      = .ok [0x50, 0x4b, 0x03, 0x04, 102, 111, 111, 1, 2] ∧
    ∃ err, createByteArray [.int 0x04034b50 4, .int 7 3] = .error err :=
  ⟨((createByteArray_wellFormed_or_fails [.int 0x04034b50 4, .buf [102, 111, 111], .int 513 2]).1
      (by simp [Entry.WellFormed])).1,
   (createByteArray_wellFormed_or_fails [.int 0x04034b50 4, .int 7 3]).2.1
      ⟨7, 3, by simp, by decide⟩⟩

/-! ## calculateSize -/

theorem foldl_standard (files : List ManifestFile) (a : Nat) :
    files.foldl (fun acc val =>
      acc + (30 + val.name.length) + val.size + 12 + (46 + val.name.length)) a
    = a + (files.map (fun file =>
        (30 + file.name.length) + file.size + 12 + (46 + file.name.length))).sum := by
  induction files generalizing a with
  | nil => simp
  | cons f fs ih => simp only [List.foldl_cons, List.map_cons, List.sum_cons, ih]; omega

theorem foldl_zip64 (files : List ManifestFile) (a : Nat) :
    files.foldl (fun acc (_ : ManifestFile) => acc + 32 + (20 - 12) + 32) a
    = a + 72 * files.length := by
  induction files generalizing a with
  | nil => simp
  | cons f fs ih => simp only [List.foldl_cons, List.length_cons, ih]; omega

theorem calculateSize_eq (files : List ManifestFile) (zip64 : Bool) :
    calculateSize files zip64 =
      if 0xFFFFFFFF ≤ standardTotal files ∨ zip64 = true then
        { total := standardTotal files + 72 * files.length + 76, zip64 := true }
      else { total := standardTotal files, zip64 := zip64 } := by
  simp only [calculateSize, foldl_standard, foldl_zip64, standardTotal, ge_iff_le, Nat.zero_add]

theorem standardTotal_bump (pre post : List ManifestFile) (f : ManifestFile) :
    standardTotal (pre ++ { f with size := f.size + 1 } :: post)
      = standardTotal (pre ++ f :: post) + 1 := by
  simp [standardTotal]; omega

/-- C3. `calculateSize(files, force).zip64` is true exactly when `force` is set
or the standard-mode total of the manifest is at least 0xFFFFFFFF; a manifest
whose standard-mode total is 0xFFFFFFFE gives false without the flag, and the
same manifest with one more payload byte in one member gives true. -/
theorem calculateSize_zip64_iff (files : List ManifestFile) (force : Bool) :
    ((calculateSize files force).zip64 = true
        ↔ (force = true ∨ 0xFFFFFFFF ≤ standardTotal files)) ∧
    (∀ (pre post : List ManifestFile) (f : ManifestFile), files = pre ++ f :: post →
      standardTotal files = 0xFFFFFFFE →
        (calculateSize files false).zip64 = false ∧
        (calculateSize (pre ++ { f with size := f.size + 1 } :: post) false).zip64 = true) := by
  refine ⟨?_, ?_⟩
  · rw [calculateSize_eq]
    split
    · simp; tauto
    · rename_i h; simp at h ⊢; cases force <;> simp_all
  · intro pre post f hf ht
    subst hf
    rw [calculateSize_eq, calculateSize_eq, standardTotal_bump, ht]
    simp

/-- Witness of C3: the member "foo" with 4294967178 bytes has standard-mode
total 0xFFFFFFFE. -/
theorem calculateSize_zip64_iff_witness :
    standardTotal [⟨[102, 111, 111], 4294967178⟩] = 0xFFFFFFFE ∧
    (calculateSize [⟨[102, 111, 111], 4294967178⟩] false).zip64 = false ∧
    (calculateSize [⟨[102, 111, 111], 4294967179⟩] false).zip64 = true :=
  ⟨by decide,
    (calculateSize_zip64_iff [⟨[102, 111, 111], 4294967178⟩] false).2 [] []
      ⟨[102, 111, 111], 4294967178⟩ rfl (by decide)⟩

/-- C4. The total computed in ZIP64 mode is the standard-mode total of the same
manifest plus 72 per member plus 76, whether ZIP64 mode was forced or reached
by the threshold; for a manifest whose unforced result is standard, the forced
total is the unforced total plus `72 * n + 76` and strictly larger; and the
single member "foo" of size 0x700000000 gives 30064771336 in ZIP64 mode. -/
theorem calculateSize_zip64_excess (files : List ManifestFile) :
    (calculateSize files true).total = standardTotal files + 72 * files.length + 76 ∧
    (∀ force : Bool, (calculateSize files force).zip64 = true →
      (calculateSize files force).total = standardTotal files + 72 * files.length + 76) ∧
    ((calculateSize files false).zip64 = false →
      (calculateSize files false).total = standardTotal files ∧
      (calculateSize files true).total
        = (calculateSize files false).total + 72 * files.length + 76 ∧
      (calculateSize files false).total < (calculateSize files true).total) ∧
    calculateSize [⟨[102, 111, 111], 0x700000000⟩] false = ⟨30064771336, true⟩ := by
  refine ⟨?_, ?_, ?_, by decide⟩
  · simp [calculateSize_eq]
  · intro force h
    rw [calculateSize_eq] at h ⊢
    split at h
    · rename_i hc; simp [hc]
    · rename_i hc; simp at hc; simp [hc.2] at h
  · intro h
    rw [calculateSize_eq] at h
    split at h
    · simp at h
    · rename_i hc
      simp only [calculateSize_eq, hc, if_false]
      simp
      omega

/-- Witness of C4: the member "foo" with 1234 bytes, 1350 bytes in standard
mode and 1498 when ZIP64 is forced. -/
theorem calculateSize_zip64_excess_witness :
    (calculateSize [⟨[102, 111, 111], 1234⟩] false).total = 1350 ∧
    (calculateSize [⟨[102, 111, 111], 1234⟩] true).total = 1350 + 72 * 1 + 76 ∧
    1350 < (calculateSize [⟨[102, 111, 111], 1234⟩] true).total :=
  (calculateSize_zip64_excess [⟨[102, 111, 111], 1234⟩]).2.2.1 (by decide)

/-- C2, at a name outside ASCII. The manifest with the one empty member "é" is
in standard mode; `calculateSize` counts the name as 1 (its `name.length`) and
returns 112, where the sum of the claim, with the 2 bytes of the UTF-8
encoding of the name, is 114. -/
theorem calculateSize_counts_code_units :
    calculateSize [⟨[0xE9], 0⟩] false = ⟨112, false⟩ ∧
    bufferFromUtf8 [0xE9] = [0xC3, 0xA9] ∧
    specStandardTotal [⟨[0xE9], 0⟩] = 114 := by
  decide

/-- For a standard-mode manifest in which every name has as many UTF-8 bytes as
UTF-16 code units, the total of `calculateSize` is the sum over the members of
(30 + bytes of the name) + size + 12 + (46 + bytes of the name), plus 22; it
is 1350 for "foo" with 1234 bytes. -/
theorem calculateSize_standard_of_same_length (files : List ManifestFile)
    (hnames : ∀ file ∈ files, (bufferFromUtf8 file.name).length = file.name.length)
    (hstd : (calculateSize files false).zip64 = false) :
    (calculateSize files false).total = specStandardTotal files ∧
    calculateSize [⟨[102, 111, 111], 1234⟩] false = ⟨1350, false⟩ := by
  refine ⟨?_, by decide⟩
  have h1 : specStandardTotal files = standardTotal files := by
    simp only [specStandardTotal, standardTotal]
    congr 2
    apply List.map_congr_left
    intro file hfile
    rw [hnames file hfile]
  rw [h1]
  rw [calculateSize_eq] at hstd ⊢
  split at hstd
  · simp at hstd
  · rename_i hc
    rw [if_neg hc]

/-- C5, refuted when ZIP64 is forced: for the empty manifest with the flag set
the total is 98, not 22. -/
theorem calculateSize_empty_forced_total :
    (calculateSize [] true).total = 98 ∧ (calculateSize [] true).total ≠ 22 := by
  decide

/-- C5 as amended. For the empty manifest `calculateSize` returns `zip64` equal
to the force flag; the total is 22 without the flag and 98 = 22 + 56 + 20
with it. -/
theorem calculateSize_empty (force : Bool) :
    calculateSize [] force = ⟨if force then 98 else 22, force⟩ := by
  cases force <;> decide

/-! ## getTimeStruct, getDateStruct -/

theorem toInt32_of_small (x : Int) (h0 : -2147483648 ≤ x) (h1 : x < 2147483648) : toInt32 x = x := by
  unfold toInt32
  norm_num
  omega

theorem shl32_natCast (a k : Nat) (hk : k < 32) (h : a * 2 ^ k < 2147483648) :
    shl32 (a : Int) k = ((a * 2 ^ k : Nat) : Int) := by
  have hpos : 0 < 2 ^ k := Nat.pos_pow_of_pos k (by norm_num)
  have ha : a < 2147483648 := by
    calc a ≤ a * 2 ^ k := Nat.le_mul_of_pos_right a hpos
      _ < 2147483648 := h
  unfold shl32
  rw [Nat.mod_eq_of_lt hk, toInt32_of_small (a : Int) (by omega) (by omega)]
  have : ((a : Int) * 2 ^ k) = ((a * 2 ^ k : Nat) : Int) := by push_cast; ring
  rw [this]
  exact toInt32_of_small _ (by omega) (by omega)

theorem or32_natCast (a b k : Nat) (hb : b < 2 ^ k) (h : a * 2 ^ k + b < 2147483648) :
    or32 ((a * 2 ^ k : Nat) : Int) (b : Int) = ((a * 2 ^ k + b : Nat) : Int) := by
  unfold or32
  have h1 : toInt32 ((a * 2 ^ k : Nat) : Int) = ((a * 2 ^ k : Nat) : Int) :=
    toInt32_of_small _ (by omega) (by omega)
  have h2 : toInt32 (b : Int) = (b : Int) := toInt32_of_small _ (by omega) (by omega)
  rw [h1, h2]
  have hor : Int.lor ((a * 2 ^ k : Nat) : Int) (b : Int) = ((a * 2 ^ k ||| b : Nat) : Int) := rfl
  have hsum : a * 2 ^ k ||| b = a * 2 ^ k + b := by
    rw [Nat.mul_comm a]
    exact (Nat.mul_add_lt_is_or hb a).symm
  rw [hor, hsum]
  exact toInt32_of_small _ (by omega) (by omega)

theorem getTimeStruct_eq (date : JSDate)
    (hh : 0 ≤ date.hours ∧ date.hours ≤ 23)
    (hm : 0 ≤ date.minutes ∧ date.minutes ≤ 59)
    (hs : 0 ≤ date.seconds ∧ date.seconds ≤ 59) :
    getTimeStruct date = date.hours * 2 ^ 11 + date.minutes * 2 ^ 5 + date.seconds / 2 := by
  obtain ⟨H, hH⟩ := Int.eq_ofNat_of_zero_le hh.1
  obtain ⟨M, hM⟩ := Int.eq_ofNat_of_zero_le hm.1
  obtain ⟨S, hS⟩ := Int.eq_ofNat_of_zero_le hs.1
  simp only [getTimeStruct]
  have hS2 : Int.tdiv (S : Int) 2 = ((S / 2 : Nat) : Int) := by
    rw [Int.tdiv_eq_ediv (by omega) (by norm_num)]; norm_cast
  rw [hH, hM, hS, hS2, shl32_natCast H 6 (by norm_num) (by omega),
    or32_natCast H M 6 (by omega) (by omega),
    shl32_natCast (H * 2 ^ 6 + M) 5 (by norm_num) (by omega),
    or32_natCast (H * 2 ^ 6 + M) (S / 2) 5 (by omega) (by omega)]
  push_cast
  ring

theorem getDateStruct_eq (date : JSDate)
    (hmo : 1 ≤ date.month + 1 ∧ date.month + 1 ≤ 12)
    (hd : 1 ≤ date.date ∧ date.date ≤ 31)
    (hy : 1980 ≤ date.fullYear) :
    getDateStruct date
      = (date.fullYear - 1980) * 2 ^ 9 + (date.month + 1) * 2 ^ 5 + date.date := by
  have hle := date.fullYear_le
  obtain ⟨D, hD⟩ := Int.eq_ofNat_of_zero_le (show 0 ≤ date.date by omega)
  obtain ⟨Mo, hMo⟩ := Int.eq_ofNat_of_zero_le (show 0 ≤ date.month + 1 by omega)
  obtain ⟨Y, hY⟩ := Int.eq_ofNat_of_zero_le (show 0 ≤ date.fullYear - 1980 by omega)
  simp only [getDateStruct]
  rw [hD, hMo, hY, shl32_natCast Y 4 (by norm_num) (by omega),
    or32_natCast Y Mo 4 (by omega) (by omega),
    shl32_natCast (Y * 2 ^ 4 + Mo) 5 (by norm_num) (by omega),
    or32_natCast (Y * 2 ^ 4 + Mo) D 5 (by omega) (by omega)]
  push_cast
  ring

theorem timeStruct_fits (date : JSDate) (h : date.DosRange) :
    0 ≤ getTimeStruct date ∧ getTimeStruct date < 65536 := by
  obtain ⟨hh, hm, hs, -, -, -⟩ := h
  rw [getTimeStruct_eq date hh hm hs]
  omega

theorem dateStruct_fits (date : JSDate) (h : date.DosRange) :
    0 ≤ getDateStruct date ∧ getDateStruct date < 65536 := by
  obtain ⟨-, -, -, hmo, hd, hy⟩ := h
  rw [getDateStruct_eq date (by omega) hd hy.1]
  omega

/-- C7. For a timestamp with hours in 0..23, minutes in 0..59, seconds in 0..59,
calendar month `getMonth() + 1` in 1..12, day in 1..31 and year at least 1980,
`getTimeStruct` is `hours * 2^11 + minutes * 2^5 + floor(seconds / 2)` and
`getDateStruct` is `(year - 1980) * 2^9 + month * 2^5 + day`: the bit fields
joined by the 32-bit `<<` and `|` do not overlap and nothing wraps around. -/
theorem timeStruct_dateStruct_packed (date : JSDate)
    (hh : 0 ≤ date.hours ∧ date.hours ≤ 23)
    (hm : 0 ≤ date.minutes ∧ date.minutes ≤ 59)
    (hs : 0 ≤ date.seconds ∧ date.seconds ≤ 59)
    (hmo : 1 ≤ date.month + 1 ∧ date.month + 1 ≤ 12)
    (hd : 1 ≤ date.date ∧ date.date ≤ 31)
    (hy : 1980 ≤ date.fullYear) :
    getTimeStruct date = date.hours * 2 ^ 11 + date.minutes * 2 ^ 5 + date.seconds / 2 ∧
    getDateStruct date
      = (date.fullYear - 1980) * 2 ^ 9 + (date.month + 1) * 2 ^ 5 + date.date :=
  ⟨getTimeStruct_eq date hh hm hs, getDateStruct_eq date hmo hd hy⟩

/-- Witness of C7: 31 December 2107, 23:59:59. -/
theorem timeStruct_dateStruct_packed_witness :
    getTimeStruct ⟨23, 59, 59, 11, 31, 2107, by decide, by decide⟩ = 23 * 2 ^ 11 + 59 * 2 ^ 5 + 59 / 2 ∧
    getDateStruct ⟨23, 59, 59, 11, 31, 2107, by decide, by decide⟩ = (2107 - 1980) * 2 ^ 9 + (11 + 1) * 2 ^ 5 + 31 :=
  timeStruct_dateStruct_packed ⟨23, 59, 59, 11, 31, 2107, by decide, by decide⟩
    (by decide) (by decide) (by decide) (by decide) (by decide) (by decide)

/-! ## The archive encoder -/

theorem sameArchive_refl (z : Zip) : z.SameArchive z := by simp [Zip.SameArchive]

theorem read_same (z : Zip) : z.SameArchive z._read := by
  unfold Zip._read Zip.complete
  split <;> simp [Zip.SameArchive]

theorem destroy_same (z : Zip) (err : Option ZipError) : z.SameArchive (z.destroy err) := by
  unfold Zip.destroy Zip._destroy Zip.complete
  split
  · simp [Zip.SameArchive]
  · split <;> simp [Zip.SameArchive]

theorem destroy_destroyed (z : Zip) (err : Option ZipError) : (z.destroy err).destroyed = true := by
  unfold Zip.destroy Zip._destroy Zip.complete
  split
  · assumption
  · split <;> rfl

theorem destroyIfLive_same (z : Zip) (err : Option ZipError) :
    z.SameArchive (if (!z.destroyed) = true then z.destroy err else z) := by
  split
  · exact destroy_same z err
  · exact sameArchive_refl z

theorem destroyIfLive_destroyed (z : Zip) (err : Option ZipError) :
    (if (!z.destroyed) = true then z.destroy err else z).destroyed = true := by
  split
  · exact destroy_destroyed z err
  · simp_all

theorem checkNotFinished_of_finished (z : Zip) (h : z.finished = true) :
    z.checkNotFinished
      = ((if (!z.destroyed) = true then z.destroy (some .alreadyFinished) else z),
          .error .alreadyFinished) := by
  simp [Zip.checkNotFinished, h]

theorem checkNotFinished_of_open (z : Zip) (h : z.finished = false) :
    z.checkNotFinished = (z, .ok ()) := by
  simp [Zip.checkNotFinished, h]

theorem checkNotWritingFile_of_pending (z : Zip) (lastFile : FileRecord)
    (hlast : z.fileRecord.getLast? = some lastFile) (hdone : lastFile.done = false) :
    z.checkNotWritingFile
      = ((if (!z.destroyed) = true then z.destroy (some (.notFinished lastFile.name)) else z),
          .error (.notFinished lastFile.name)) := by
  simp [Zip.checkNotWritingFile, hlast, hdone]

theorem checkNotWritingFile_ok (z z' : Zip) (h : z.checkNotWritingFile = (z', .ok ())) :
    z = z' ∧ ∀ lastFile, z.fileRecord.getLast? = some lastFile → lastFile.done = true := by
  unfold Zip.checkNotWritingFile at h
  split at h
  · rename_i lastFile hl
    split at h
    · simp at h
    · rename_i hd
      simp at h hd
      refine ⟨h, ?_⟩
      intro l hl'
      rw [hl] at hl'
      cases hl'
      exact hd
  · rename_i hl
    simp at h
    refine ⟨h, ?_⟩
    intro l hl'
    rw [hl] at hl'
    cases hl'

theorem checkNotWritingFile_error (z z' : Zip) (e : ZipError)
    (h : z.checkNotWritingFile = (z', .error e)) : z.SameArchive z' := by
  unfold Zip.checkNotWritingFile at h
  split at h
  · split at h
    · simp only [Prod.mk.injEq] at h
      rw [← h.1]
      exact destroyIfLive_same z _
    · simp at h
  · simp at h

theorem getLast?_modifyAt {α : Type} (g : α → α) (idx : Nat) (l : List α) (x : α)
    (h : (modifyAt g idx l).getLast? = some x) :
    ∃ y, l.getLast? = some y ∧ (x = y ∨ x = g y) := by
  induction l generalizing idx with
  | nil => simp [modifyAt] at h
  | cons a l ih =>
    cases l with
    | nil =>
      cases idx with
      | zero => simp [modifyAt] at h; exact ⟨a, rfl, Or.inr h.symm⟩
      | succ n => simp [modifyAt] at h; exact ⟨a, rfl, Or.inl h.symm⟩
    | cons b l =>
      cases idx with
      | zero =>
        simp only [modifyAt, List.getLast?_cons_cons] at h ⊢
        exact ⟨x, h, Or.inl rfl⟩
      | succ n =>
        have hm : modifyAt g (n + 1) (a :: b :: l) = a :: modifyAt g n (b :: l) := rfl
        rw [hm] at h
        have hne : modifyAt g n (b :: l) ≠ [] := by
          cases n <;> simp [modifyAt]
        obtain ⟨c, l2, hl2⟩ := List.exists_cons_of_ne_nil hne
        rw [hl2, List.getLast?_cons_cons, ← hl2] at h
        rw [List.getLast?_cons_cons]
        exact ih n h

theorem sinkWrite_frame (z : Zip) (idx : Nat) (chunk : Bytes) (callback : Nat) (pushResult : Bool) :
    (z.sinkWrite idx chunk callback pushResult).finished = z.finished ∧
    (z.sinkWrite idx chunk callback pushResult).ended = z.ended ∧
    ∀ x, (z.sinkWrite idx chunk callback pushResult).fileRecord.getLast? = some x →
      ∃ y, z.fileRecord.getLast? = some y ∧ x.done = y.done := by
  unfold Zip.sinkWrite
  split
  · exact ⟨rfl, rfl, fun x hx => ⟨x, hx, rfl⟩⟩
  · refine ⟨?_, ?_, ?_⟩
    · split <;> split <;> rfl
    · split <;> split <;> rfl
    · intro x hx
      have hx2 : (modifyAt (fun file : FileRecord =>
          { file with crc := file.crc ++ [chunk], sizeBig := file.sizeBig + chunk.length })
          idx z.fileRecord).getLast? = some x := by
        revert hx
        split <;> split <;> exact id
      obtain ⟨y, hy, hxy⟩ := getLast?_modifyAt _ _ _ _ hx2
      refine ⟨y, hy, ?_⟩
      rcases hxy with rfl | rfl <;> rfl

theorem sinkFinal_frame (C : Crc32) (z : Zip) (idx : Nat) (callback : Nat) :
    (z.sinkFinal C idx callback).finished = z.finished ∧
    (z.sinkFinal C idx callback).ended = z.ended ∧
    ∀ x, (z.sinkFinal C idx callback).fileRecord.getLast? = some x →
      ∃ y, z.fileRecord.getLast? = some y ∧ (y.done = true → x.done = true) := by
  unfold Zip.sinkFinal
  split
  · exact ⟨rfl, rfl, fun x hx => ⟨x, hx, id⟩⟩
  · rename_i file hfile
    have hs : ∀ (b : Bool) (e : Option ZipError),
        z.SameArchive (if b = true then z.complete callback e else z) := by
      intro b e
      split <;> simp [Zip.SameArchive, Zip.complete]
    have hz := hs z.destroyed (some .alreadyDestroyed)
    generalize (if z.destroyed = true then z.complete callback (some .alreadyDestroyed) else z)
      = z1 at hz ⊢
    obtain ⟨-, -, hrec, hfin, -, -, hend⟩ := hz
    dsimp only
    split
    · rename_i e he
      have hd := destroy_same z1 (some e)
      obtain ⟨-, -, hrec2, hfin2, -, -, hend2⟩ := hd
      simp only [Zip.complete]
      refine ⟨by rw [hfin2, hfin], by rw [hend2, hend], ?_⟩
      intro x hx
      rw [hrec2, hrec] at hx
      exact ⟨x, hx, id⟩
    · rename_i dataDescriptor hdd
      simp only [Zip.complete, Zip.push]
      refine ⟨hfin, hend, ?_⟩
      intro x hx
      rw [hrec] at hx
      obtain ⟨y, hy, hxy⟩ := getLast?_modifyAt _ _ _ _ hx
      refine ⟨y, hy, ?_⟩
      rcases hxy with rfl | rfl
      · exact id
      · intro _; rfl

theorem emitsOnly_refl (z : Zip) : z.EmitsOnly z := rfl

theorem emitsOnly_trans {a b c : Zip} (h1 : a.EmitsOnly b) (h2 : b.EmitsOnly c) :
    a.EmitsOnly c := by
  unfold Zip.EmitsOnly at *
  rw [h2, h1]

theorem emitsOnly_push_count (z : Zip) (chunk : Bytes) :
    z.EmitsOnly { z.push chunk with byteCounterBig := (z.push chunk).byteCounterBig + chunk.length } :=
  rfl

theorem writeCentralDirectory_emitsOnly (C : Crc32) (files : List FileRecord) (z : Zip) (n : Nat) :
    z.EmitsOnly (Zip.writeCentralDirectory C files z n).1 := by
  induction files generalizing z n with
  | nil => exact emitsOnly_refl z
  | cons file rest ih =>
    rw [Zip.writeCentralDirectory]
    split
    · exact emitsOnly_refl z
    · exact emitsOnly_trans (emitsOnly_push_count z _) (ih _ _)

theorem writeZip64End_emitsOnly (z : Zip) (a b : Nat) :
    z.EmitsOnly (z.writeZip64End a b).1 := by
  unfold Zip.writeZip64End
  dsimp only
  split
  · cases createByteArray (z.zip64EndOfCentralDirectoryRecordFields a b) with
    | error e => exact emitsOnly_refl z
    | ok r1 =>
      cases createByteArray (Zip.zip64EndOfCentralDirectoryLocatorFields z.byteCounterBig) with
      | error e => exact emitsOnly_push_count z _
      | ok r2 => exact emitsOnly_trans (emitsOnly_push_count z _) (emitsOnly_push_count _ _)
  · exact emitsOnly_refl z

theorem emitsOnly_fields {z z2 : Zip} (h : z.EmitsOnly z2) :
    z2.total = z.total ∧ z2.zip64 = z.zip64 ∧ z2.fileRecord = z.fileRecord ∧
    z2.finished = z.finished ∧ z2.callback = z.callback ∧ z2.destroyed = z.destroyed ∧
    z2.ended = z.ended ∧ z2.completions = z.completions := by
  unfold Zip.EmitsOnly at h
  refine ⟨?_, ?_, ?_, ?_, ?_, ?_, ?_, ?_⟩ <;> rw [h]

theorem finish_of_finished (C : Crc32) (z : Zip) (h : z.finished = true) :
    z.finish C
      = ((if (!z.destroyed) = true then z.destroy (some .alreadyFinished) else z),
          .error .alreadyFinished) := by
  unfold Zip.finish
  rw [checkNotFinished_of_finished z h]

theorem startFile_of_finished (z : Zip) (fileName : JSString) (date : JSDate)
    (h : z.finished = true) :
    z.startFile fileName date
      = ((if (!z.destroyed) = true then z.destroy (some .alreadyFinished) else z),
          .error .alreadyFinished) := by
  unfold Zip.startFile
  rw [checkNotFinished_of_finished z h]

theorem finish_of_pending (C : Crc32) (z : Zip) (lastFile : FileRecord)
    (hfin : z.finished = false)
    (hlast : z.fileRecord.getLast? = some lastFile) (hdone : lastFile.done = false) :
    z.finish C
      = ((if (!z.destroyed) = true then z.destroy (some (.notFinished lastFile.name)) else z),
          .error (.notFinished lastFile.name)) := by
  unfold Zip.finish
  rw [checkNotFinished_of_open z hfin]
  simp only
  rw [checkNotWritingFile_of_pending z lastFile hlast hdone]

theorem startFile_of_pending (z : Zip) (fileName : JSString) (date : JSDate)
    (lastFile : FileRecord) (hfin : z.finished = false)
    (hlast : z.fileRecord.getLast? = some lastFile) (hdone : lastFile.done = false) :
    z.startFile fileName date
      = ((if (!z.destroyed) = true then z.destroy (some (.notFinished lastFile.name)) else z),
          .error (.notFinished lastFile.name)) := by
  unfold Zip.startFile
  rw [checkNotFinished_of_open z hfin]
  simp only
  rw [checkNotWritingFile_of_pending z lastFile hlast hdone]

theorem startFile_frame (z : Zip) (fileName : JSString) (date : JSDate) :
    (z.startFile fileName date).1.finished = z.finished ∧
    (z.startFile fileName date).1.ended = z.ended ∧
    (z.finished = true → (z.startFile fileName date).1.fileRecord = z.fileRecord) := by
  cases hf : z.finished with
  | true =>
    rw [startFile_of_finished z fileName date hf]
    obtain ⟨-, -, hrec, hfin, -, -, hend⟩ := destroyIfLive_same z (some .alreadyFinished)
    exact ⟨by rw [hfin, hf], hend, fun _ => hrec⟩
  | false =>
    unfold Zip.startFile
    rw [checkNotFinished_of_open z hf]
    simp only
    cases hw : z.checkNotWritingFile with
    | mk z1 r =>
      cases r with
      | error e =>
        obtain ⟨-, -, -, hfin, -, -, hend⟩ := checkNotWritingFile_error z z1 e hw
        exact ⟨by rw [hfin, hf], hend, fun h => by simp at h⟩
      | ok u =>
        obtain ⟨rfl, -⟩ := checkNotWritingFile_ok z z1 hw
        simp only
        split
        · exact ⟨hf, rfl, fun h => by simp at h⟩
        · exact ⟨hf, rfl, fun h => by simp at h⟩

theorem finish_frame (C : Crc32) (z : Zip) :
    (z.finish C).1.fileRecord = z.fileRecord ∧
    (((z.finish C).2 = .ok () ∧ z.finished = false ∧ (z.finish C).1.finished = true ∧
        (z.finish C).1.ended = true ∧
        ∀ lastFile, z.fileRecord.getLast? = some lastFile → lastFile.done = true) ∨
      ((∃ e, (z.finish C).2 = .error e) ∧ (z.finish C).1.finished = z.finished ∧
        (z.finish C).1.ended = z.ended)) := by
  cases hf : z.finished with
  | true =>
    rw [finish_of_finished C z hf]
    obtain ⟨-, -, hrec, hfin, -, -, hend⟩ := destroyIfLive_same z (some .alreadyFinished)
    exact ⟨hrec, Or.inr ⟨⟨_, rfl⟩, by rw [hfin, hf], hend⟩⟩
  | false =>
    unfold Zip.finish
    rw [checkNotFinished_of_open z hf]
    simp only
    cases hw : z.checkNotWritingFile with
    | mk z1 r =>
      cases r with
      | error e =>
        obtain ⟨-, -, hrec, hfin, -, -, hend⟩ := checkNotWritingFile_error z z1 e hw
        exact ⟨hrec, Or.inr ⟨⟨_, rfl⟩, by rw [hfin, hf], hend⟩⟩
      | ok u =>
        obtain ⟨rfl, hlast⟩ := checkNotWritingFile_ok z z1 hw
        simp only
        split
        · exact ⟨rfl, Or.inr ⟨⟨_, rfl⟩, hf, rfl⟩⟩
        · have e1 := writeCentralDirectory_emitsOnly C z.fileRecord z 0
          cases h1 : Zip.writeCentralDirectory C z.fileRecord z 0 with
          | mk z1 r1 =>
            rw [h1] at e1
            obtain ⟨-, -, hrec1, hfin1, -, -, hend1, -⟩ := emitsOnly_fields e1
            cases r1 with
            | error e => exact ⟨hrec1, Or.inr ⟨⟨_, rfl⟩, by rw [hfin1, hf], hend1⟩⟩
            | ok cds =>
              simp only
              have e2 := writeZip64End_emitsOnly z1 cds z.byteCounterBig
              cases h2 : z1.writeZip64End cds z.byteCounterBig with
              | mk z2 r2 =>
                rw [h2] at e2
                obtain ⟨-, -, hrec2, hfin2, -, -, hend2, -⟩ := emitsOnly_fields e2
                cases r2 with
                | error e =>
                  exact ⟨by rw [hrec2, hrec1], Or.inr ⟨⟨_, rfl⟩, by rw [hfin2, hfin1, hf],
                    by rw [hend2, hend1]⟩⟩
                | ok u =>
                  simp only
                  cases createByteArray (z2.endOfCentralDirectoryRecordFields cds z.byteCounterBig) with
                  | error e =>
                    exact ⟨by rw [hrec2, hrec1], Or.inr ⟨⟨_, rfl⟩, by rw [hfin2, hfin1, hf],
                      by rw [hend2, hend1]⟩⟩
                  | ok eocd =>
                    refine ⟨by simp only [Zip.push]; rw [hrec2, hrec1], Or.inl ?_⟩
                    exact ⟨rfl, trivial, rfl, rfl, hlast⟩

theorem inv_new (total : Nat) (zip64 : Option Bool) : (Zip.new total zip64).Inv := by
  simp [Zip.Inv, Zip.new]

theorem inv_of_same {z z2 : Zip} (h : z.SameArchive z2) (hi : z.Inv) : z2.Inv := by
  obtain ⟨-, -, hrec, hfin, -, -, hend⟩ := h
  unfold Zip.Inv at *
  rw [hrec, hfin, hend]
  exact hi

theorem inv_step (C : Crc32) (z : Zip) (e : Event) (hi : z.Inv) : (z.step C e).Inv := by
  cases e with
  | startFile fileName date =>
    obtain ⟨hfin, hend, hrec⟩ := startFile_frame z fileName date
    show ((z.startFile fileName date).1).Inv
    unfold Zip.Inv at *
    rw [hfin, hend]
    refine ⟨fun hf => ?_, hi.2⟩
    rw [hrec hf]
    exact hi.1 hf
  | write idx chunk callback pushResult =>
    obtain ⟨hfin, hend, hrec⟩ := sinkWrite_frame z idx chunk callback pushResult
    show (z.sinkWrite idx chunk callback pushResult).Inv
    unfold Zip.Inv at *
    rw [hfin, hend]
    refine ⟨fun hf x hx => ?_, hi.2⟩
    obtain ⟨y, hy, hxy⟩ := hrec x hx
    rw [hxy]
    exact hi.1 hf y hy
  | final idx callback =>
    obtain ⟨hfin, hend, hrec⟩ := sinkFinal_frame C z idx callback
    show (z.sinkFinal C idx callback).Inv
    unfold Zip.Inv at *
    rw [hfin, hend]
    refine ⟨fun hf x hx => ?_, hi.2⟩
    obtain ⟨y, hy, hxy⟩ := hrec x hx
    exact hxy (hi.1 hf y hy)
  | finish =>
    obtain ⟨hrec, h⟩ := finish_frame C z
    show ((z.finish C).1).Inv
    unfold Zip.Inv at *
    rw [hrec]
    rcases h with ⟨-, -, hfin, hend, hlast⟩ | ⟨-, hfin, hend⟩
    · rw [hfin, hend]
      exact ⟨fun _ => hlast, rfl⟩
    · rw [hfin, hend]
      exact hi
  | destroy err => exact inv_of_same (destroy_same z err) hi
  | read => exact inv_of_same (read_same z) hi

theorem inv_run (C : Crc32) (events : List Event) (z : Zip) (hi : z.Inv) :
    (z.run C events).Inv := by
  induction events generalizing z with
  | nil => exact hi
  | cons e es ih => exact ih _ (inv_step C z e hi)

theorem inv_of_reachable (C : Crc32) (z : Zip) (h : z.Reachable C) : z.Inv := by
  obtain ⟨total, zip64, events, rfl⟩ := h
  exact inv_run C events _ (inv_new total zip64)

theorem open_of_pending (C : Crc32) (z : Zip) (h : z.Reachable C) (lastFile : FileRecord)
    (hlast : z.fileRecord.getLast? = some lastFile) (hdone : lastFile.done = false) :
    z.finished = false ∧ z.ended = false := by
  have hi := inv_of_reachable C z h
  cases hf : z.finished with
  | true =>
    have := hi.1 hf lastFile hlast
    rw [hdone] at this
    cases this
  | false => exact ⟨rfl, by rw [hi.2, hf]⟩

theorem finished_step (C : Crc32) (z : Zip) (e : Event) (h : z.finished = true) :
    (z.step C e).finished = true := by
  cases e with
  | startFile fileName date =>
    show (z.startFile fileName date).1.finished = true
    rw [(startFile_frame z fileName date).1, h]
  | write idx chunk callback pushResult =>
    show (z.sinkWrite idx chunk callback pushResult).finished = true
    rw [(sinkWrite_frame z idx chunk callback pushResult).1, h]
  | final idx callback =>
    show (z.sinkFinal C idx callback).finished = true
    rw [(sinkFinal_frame C z idx callback).1, h]
  | finish =>
    show (z.finish C).1.finished = true
    rcases (finish_frame C z).2 with ⟨-, -, hfin, -⟩ | ⟨-, hfin, -⟩
    · exact hfin
    · rw [hfin, h]
  | destroy err =>
    show (z.destroy err).finished = true
    rw [(destroy_same z err).2.2.2.1, h]
  | read =>
    show z._read.finished = true
    rw [(read_same z).2.2.2.1, h]

theorem finished_run (C : Crc32) (events : List Event) (z : Zip) (h : z.finished = true) :
    (z.run C events).finished = true := by
  induction events generalizing z with
  | nil => exact h
  | cons e es ih => exact ih _ (finished_step C z e h)

/-- C8. In a state of the archive reached by calls from its construction in
which the most recently started member has not ended, `startFile(name)` throws
the error "The file ... was not finished." naming that member, leaves the
archive destroyed, appends no record, hands no bytes to the output and leaves
the byte counter unchanged. -/
theorem startFile_while_member_open (C : Crc32) (z : Zip) (hreach : z.Reachable C)
    (lastFile : FileRecord) (hlast : z.fileRecord.getLast? = some lastFile)
    (hdone : lastFile.done = false) (fileName : JSString) (date : JSDate) :
    (z.startFile fileName date).2 = .error (.notFinished lastFile.name) ∧
    (z.startFile fileName date).1.destroyed = true ∧
    (z.startFile fileName date).1.fileRecord = z.fileRecord ∧
    (z.startFile fileName date).1.output = z.output ∧
    (z.startFile fileName date).1.byteCounterBig = z.byteCounterBig := by
  obtain ⟨hfin, -⟩ := open_of_pending C z hreach lastFile hlast hdone
  rw [startFile_of_pending z fileName date lastFile hfin hlast hdone]
  obtain ⟨-, -, hrec, -, hcnt, hout, -⟩ :=
    destroyIfLive_same z (some (.notFinished lastFile.name))
  exact ⟨rfl, destroyIfLive_destroyed z _, hrec, hout, hcnt⟩

/-- Witness of C8: after `startFile("a")` on a new archive, `startFile("b")`. -/
theorem startFile_while_member_open_witness :
    ((Zip.new 0 none).run zeroCrc [.startFile [97] exampleDate]).fileRecord.getLast?
      = some ⟨[97], 0, [], false, exampleDate, 0⟩ ∧
    (((Zip.new 0 none).run zeroCrc [.startFile [97] exampleDate]).startFile [98] exampleDate).2
      = .error (.notFinished [97]) ∧
    (((Zip.new 0 none).run zeroCrc [.startFile [97] exampleDate]).startFile [98] exampleDate).1.destroyed
      = true ∧
    (((Zip.new 0 none).run zeroCrc [.startFile [97] exampleDate]).startFile [98] exampleDate).1.fileRecord
      = ((Zip.new 0 none).run zeroCrc [.startFile [97] exampleDate]).fileRecord ∧
    (((Zip.new 0 none).run zeroCrc [.startFile [97] exampleDate]).startFile [98] exampleDate).1.output
      = ((Zip.new 0 none).run zeroCrc [.startFile [97] exampleDate]).output ∧
    (((Zip.new 0 none).run zeroCrc [.startFile [97] exampleDate]).startFile [98] exampleDate).1.byteCounterBig
      = ((Zip.new 0 none).run zeroCrc [.startFile [97] exampleDate]).byteCounterBig :=
  ⟨by decide,
    startFile_while_member_open zeroCrc _ ⟨0, none, [.startFile [97] exampleDate], rfl⟩
      ⟨[97], 0, [], false, exampleDate, 0⟩ (by decide) rfl [98] exampleDate⟩

/-- C9. Once a call of `finish()` has returned normally, then whatever calls are
made on the archive afterwards, a further `finish()` and a `startFile(name)`
each throw the error "Already finished", hand no bytes to the output and leave
the list of records and the byte counter unchanged. -/
theorem finish_is_terminal (C : Crc32) (z z1 : Zip) (hfinish : z.finish C = (z1, .ok ()))
    (events : List Event) (fileName : JSString) (date : JSDate) :
    ((z1.run C events).finish C).2 = .error .alreadyFinished ∧
    ((z1.run C events).finish C).1.output = (z1.run C events).output ∧
    ((z1.run C events).finish C).1.fileRecord = (z1.run C events).fileRecord ∧
    ((z1.run C events).finish C).1.byteCounterBig = (z1.run C events).byteCounterBig ∧
    ((z1.run C events).startFile fileName date).2 = .error .alreadyFinished ∧
    ((z1.run C events).startFile fileName date).1.output = (z1.run C events).output ∧
    ((z1.run C events).startFile fileName date).1.fileRecord = (z1.run C events).fileRecord ∧
    ((z1.run C events).startFile fileName date).1.byteCounterBig
      = (z1.run C events).byteCounterBig := by
  have h1 : z1.finished = true := by
    rcases (finish_frame C z).2 with ⟨-, -, hfin, -⟩ | ⟨⟨e, he⟩, -⟩
    · rw [hfinish] at hfin
      exact hfin
    · rw [hfinish] at he
      cases he
  have h2 := finished_run C events z1 h1
  rw [finish_of_finished C _ h2, startFile_of_finished _ fileName date h2]
  obtain ⟨-, -, hrec, -, hcnt, hout, -⟩ :=
    destroyIfLive_same (z1.run C events) (some .alreadyFinished)
  exact ⟨rfl, hout, hrec, hcnt, rfl, hout, hrec, hcnt⟩

/-- C10. In a state of the archive reached by calls from its construction in
which the most recently started member has not ended, `finish()` throws the
error "The file ... was not finished." naming that member, hands no bytes to
the output, does not call `push(null)` and does not set `finished`. -/
theorem finish_while_member_open (C : Crc32) (z : Zip) (hreach : z.Reachable C)
    (lastFile : FileRecord) (hlast : z.fileRecord.getLast? = some lastFile)
    (hdone : lastFile.done = false) :
    (z.finish C).2 = .error (.notFinished lastFile.name) ∧
    (z.finish C).1.output = z.output ∧
    (z.finish C).1.byteCounterBig = z.byteCounterBig ∧
    (z.finish C).1.ended = false ∧
    (z.finish C).1.finished = false := by
  obtain ⟨hfin, hend⟩ := open_of_pending C z hreach lastFile hlast hdone
  rw [finish_of_pending C z lastFile hfin hlast hdone]
  obtain ⟨-, -, -, hfin2, hcnt, hout, hend2⟩ :=
    destroyIfLive_same z (some (.notFinished lastFile.name))
  exact ⟨rfl, hout, hcnt, by rw [hend2, hend], by rw [hfin2, hfin]⟩

/-- Witness of C9: an empty archive is finished, the consumer asks for data,
then `finish()` and `startFile("a")` are called. -/
theorem finish_is_terminal_witness :
    (((((Zip.new 22 none).finish zeroCrc).1.run zeroCrc [.read]).finish zeroCrc).2
      = .error .alreadyFinished) ∧
    (((((Zip.new 22 none).finish zeroCrc).1.run zeroCrc [.read]).startFile [97] exampleDate).2
      = .error .alreadyFinished) :=
  have h := finish_is_terminal zeroCrc (Zip.new 22 none) ((Zip.new 22 none).finish zeroCrc).1
    rfl [.read] [97] exampleDate
  ⟨h.1, h.2.2.2.2.1⟩

/-- Witness of C10: after `startFile("a")` on a new archive, `finish()`. -/
theorem finish_while_member_open_witness :
    ((Zip.new 0 none).run zeroCrc [.startFile [97] exampleDate]).fileRecord.getLast?
      = some ⟨[97], 0, [], false, exampleDate, 0⟩ ∧
    (((Zip.new 0 none).run zeroCrc [.startFile [97] exampleDate]).finish zeroCrc).2
      = .error (.notFinished [97]) ∧
    (((Zip.new 0 none).run zeroCrc [.startFile [97] exampleDate]).finish zeroCrc).1.output
      = ((Zip.new 0 none).run zeroCrc [.startFile [97] exampleDate]).output ∧
    (((Zip.new 0 none).run zeroCrc [.startFile [97] exampleDate]).finish zeroCrc).1.finished
      = false :=
  have h := finish_while_member_open zeroCrc _ ⟨0, none, [.startFile [97] exampleDate], rfl⟩
    ⟨[97], 0, [], false, exampleDate, 0⟩ (by decide) rfl
  ⟨by decide, h.1, h.2.1, h.2.2.2.2⟩

/-- C1, at a name outside ASCII. For the manifest with the one empty member "é",
`calculateSize` returns the total 112 in standard mode, and `zip_files`, which
constructs the archive with that total and mode, starts the member, ends it and
finishes, hands 114 bytes to the output: a local header of 32, a data
descriptor of 12, a central directory header of 48 and an end record of 22. -/
theorem zip_files_emits_more_than_total :
    calculateSize [⟨[0xE9], 0⟩] false = ⟨112, false⟩ ∧
    (zip_files zeroCrc [⟨[0xE9], 0, exampleDate, []⟩]).finished = true ∧
    (zip_files zeroCrc [⟨[0xE9], 0, exampleDate, []⟩]).total = 112 ∧
    (zip_files zeroCrc [⟨[0xE9], 0, exampleDate, []⟩]).output.length = 114 ∧
    (zip_files zeroCrc [⟨[0xE9], 0, exampleDate, []⟩]).byteCounterBig = 114 := by
  decide

/-! ## A complete run of zip_files -/

theorem wellFormed_int_iff (d : Int) (s : Nat) :
    (Entry.int d s).WellFormed ↔ (s = 1 ∨ s = 2 ∨ s = 4 ∨ s = 8) ∧ 0 ≤ d ∧ d < 2 ^ (8 * s) :=
  Iff.rfl

theorem wellFormed_buf (b : Bytes) : (Entry.buf b).WellFormed := trivial

theorem localFileHeaderFields_wellFormed (z : Zip) (nameBuffer : Bytes) (date : JSDate)
    (hname : nameBuffer.length < 65536) (hdate : date.DosRange)
    (hcnt : z.byteCounterBig < 2 ^ 64) :
    ∀ e ∈ z.localFileHeaderFields nameBuffer date, e.WellFormed := by
  have ht := timeStruct_fits date hdate
  have hd := dateStruct_fits date hdate
  simp only [Zip.localFileHeaderFields, Zip.getZip64ExtraField]
  cases z.zip64 <;>
    simp only [if_true, if_false, Bool.false_eq_true, List.cons_append, List.nil_append,
      List.append_nil, List.forall_mem_cons, List.not_mem_nil, false_implies, implies_true,
      and_true, wellFormed_int_iff, wellFormed_buf] <;>
    norm_num <;> omega

theorem flatMap_encode_length (l : List Entry) :
    (l.flatMap Entry.encode).length = (l.map Entry.width).sum := by
  induction l with
  | nil => rfl
  | cons e es ih => simp [List.flatMap_cons, Entry.encode_length, ih]

theorem localFileHeaderFields_width (z : Zip) (nameBuffer : Bytes) (date : JSDate) :
    ((z.localFileHeaderFields nameBuffer date).map Entry.width).sum
      = 30 + nameBuffer.length + (if z.zip64 then 32 else 0) := by
  simp only [Zip.localFileHeaderFields, Zip.getZip64ExtraField]
  cases z.zip64 <;> simp [Entry.width] <;> omega

theorem checkNotWritingFile_of_done (z : Zip)
    (h : ∀ lastFile, z.fileRecord.getLast? = some lastFile → lastFile.done = true) :
    z.checkNotWritingFile = (z, .ok ()) := by
  unfold Zip.checkNotWritingFile
  split
  · rename_i lastFile hl
    simp [h lastFile hl]
  · rfl

theorem startFile_ok (z : Zip) (fileName : JSString) (date : JSDate)
    (hfin : z.finished = false)
    (hlast : ∀ lastFile, z.fileRecord.getLast? = some lastFile → lastFile.done = true)
    (hname : (bufferFromUtf8 fileName).length < 65536) (hdate : date.DosRange)
    (hcnt : z.byteCounterBig < 2 ^ 64) :
    z.startFile fileName date =
      ({ z with
          fileRecord := z.fileRecord ++ [⟨fileName, 0, [], false, date, z.byteCounterBig⟩]
          output := z.output
            ++ (z.localFileHeaderFields (bufferFromUtf8 fileName) date).flatMap Entry.encode
          byteCounterBig := z.byteCounterBig + localHeaderLength z.zip64 fileName },
        .ok z.fileRecord.length) := by
  unfold Zip.startFile
  rw [checkNotFinished_of_open z hfin]
  simp only
  rw [checkNotWritingFile_of_done z hlast]
  simp only
  have hwf := localFileHeaderFields_wellFormed z (bufferFromUtf8 fileName) date hname hdate hcnt
  have hcb := createByteArray_of_wellFormed _ hwf
  have hlen := flatMap_encode_length (z.localFileHeaderFields (bufferFromUtf8 fileName) date)
  rw [localFileHeaderFields_width] at hlen
  show (match createByteArray (z.localFileHeaderFields (bufferFromUtf8 fileName) date) with
    | .error e => _
    | .ok header => _) = _
  rw [hcb]
  simp only [Zip.push, hlen, localHeaderLength]

theorem modifyAt_length_append {α : Type} (g : α → α) (pre : List α) (r : α) (post : List α) :
    modifyAt g pre.length (pre ++ r :: post) = pre ++ g r :: post := by
  induction pre with
  | nil => rfl
  | cons a pre ih => simp [modifyAt, ih]

theorem getElem?_length_append {α : Type} (pre : List α) (r : α) (post : List α) :
    (pre ++ r :: post)[pre.length]? = some r := by
  induction pre with
  | nil => simp
  | cons a pre ih => simpa using ih

theorem sinkWrite_runState (total : Nat) (zip64 : Bool) (pre : List FileRecord)
    (file : FileRecord) (n : Nat) (out : Bytes) (cs : List (Nat × Option ZipError))
    (chunk : Bytes) (callback : Nat) (pushResult : Bool) :
    ((runState total zip64 (pre ++ [file]) n out cs).sinkWrite pre.length chunk callback
        pushResult)._read
      = runState total zip64
          (pre ++ [{ file with crc := file.crc ++ [chunk], sizeBig := file.sizeBig + chunk.length }])
          (n + chunk.length) (out ++ chunk) (cs ++ [(callback, none)]) := by
  cases pushResult <;>
    simp [Zip.sinkWrite, runState, getElem?_length_append, modifyAt_length_append, Zip.push,
      Zip.complete, Zip._read]

theorem sinkWrite_foldl_runState (total : Nat) (zip64 : Bool) (pre : List FileRecord)
    (chunks : List (Bytes × Bool)) (file : FileRecord) (n : Nat) (out : Bytes)
    (cs : List (Nat × Option ZipError)) :
    ∃ cs2 crc2,
      chunks.foldl (fun zip chunk => (zip.sinkWrite pre.length chunk.1 0 chunk.2)._read)
        (runState total zip64 (pre ++ [file]) n out cs)
      = runState total zip64
          (pre ++ [{ file with
            crc := crc2, sizeBig := file.sizeBig + (chunks.map (fun c => c.1.length)).sum }])
          (n + (chunks.map (fun c => c.1.length)).sum)
          (out ++ (chunks.map (fun c => c.1)).flatten) cs2 := by
  induction chunks generalizing file n out cs with
  | nil => exact ⟨cs, file.crc, by simp⟩
  | cons c rest ih =>
    rw [List.foldl_cons, sinkWrite_runState]
    obtain ⟨cs2, crc2, h⟩ := ih { file with crc := file.crc ++ [c.1], sizeBig := file.sizeBig + c.1.length }
      (n + c.1.length) (out ++ c.1) (cs ++ [(0, none)])
    refine ⟨cs2, crc2, ?_⟩
    rw [h]
    simp [Nat.add_assoc, List.append_assoc]

theorem dataDescriptorFields_wellFormed (C : Crc32) (z : Zip) (file : FileRecord)
    (hsize : file.sizeBig < (if z.zip64 then 2 ^ 64 else 2 ^ 32)) :
    ∀ e ∈ z.dataDescriptorFields C file, e.WellFormed := by
  have hc := C.get_lt file.crc
  simp only [Zip.dataDescriptorFields]
  cases hz : z.zip64 <;> rw [hz] at hsize <;>
    simp only [if_true, if_false, Bool.false_eq_true, List.forall_mem_cons, List.not_mem_nil,
      false_implies, implies_true, and_true, wellFormed_int_iff] at hsize ⊢ <;>
    norm_num at hsize hc ⊢ <;> omega

theorem dataDescriptorFields_width (C : Crc32) (z : Zip) (file : FileRecord) :
    ((z.dataDescriptorFields C file).map Entry.width).sum = dataDescriptorLength z.zip64 := by
  simp only [Zip.dataDescriptorFields, dataDescriptorLength]
  cases z.zip64 <;> simp [Entry.width]

theorem sinkFinal_runState (C : Crc32) (total : Nat) (zip64 : Bool) (pre : List FileRecord)
    (file : FileRecord) (n : Nat) (out : Bytes) (cs : List (Nat × Option ZipError))
    (callback : Nat) (hsize : file.sizeBig < (if zip64 then 2 ^ 64 else 2 ^ 32)) :
    (runState total zip64 (pre ++ [file]) n out cs).sinkFinal C pre.length callback
      = runState total zip64 (pre ++ [{ file with done := true }])
          (n + dataDescriptorLength zip64)
          (out ++ ((runState total zip64 (pre ++ [file]) n out cs).dataDescriptorFields C
            file).flatMap Entry.encode)
          (cs ++ [(callback, none)]) := by
  have hwf := dataDescriptorFields_wellFormed C (runState total zip64 (pre ++ [file]) n out cs)
    file hsize
  have hcb := createByteArray_of_wellFormed _ hwf
  have hlen := flatMap_encode_length
    ((runState total zip64 (pre ++ [file]) n out cs).dataDescriptorFields C file)
  rw [dataDescriptorFields_width] at hlen
  unfold Zip.sinkFinal
  have hget : (runState total zip64 (pre ++ [file]) n out cs).fileRecord[pre.length]?
      = some file := getElem?_length_append pre file []
  rw [hget]
  have hd : (runState total zip64 (pre ++ [file]) n out cs).destroyed = false := rfl
  simp only [hd, Bool.false_eq_true, if_false, hcb, Zip.push, hlen, Zip.complete]
  simp only [runState, modifyAt_length_append]

theorem centralDirectoryHeaderFields_wellFormed (C : Crc32) (z : Zip) (file : FileRecord)
    (hfits : file.Fits z.zip64) :
    ∀ e ∈ z.centralDirectoryHeaderFields C file, e.WellFormed := by
  obtain ⟨hname, hdate, hsize, hoff⟩ := hfits
  have hc := C.get_lt file.crc
  have ht := timeStruct_fits file.date hdate
  have hd := dateStruct_fits file.date hdate
  simp only [Zip.centralDirectoryHeaderFields, Zip.getZip64ExtraField]
  cases hz : z.zip64 <;> rw [hz] at hsize hoff <;>
    simp only [if_true, if_false, Bool.false_eq_true, List.cons_append, List.nil_append,
      List.append_nil, List.forall_mem_cons, List.not_mem_nil, false_implies, implies_true,
      and_true, wellFormed_int_iff, wellFormed_buf] at hsize hoff ⊢ <;>
    norm_num at hsize hoff hc ⊢ <;> omega

theorem centralDirectoryHeaderFields_width (C : Crc32) (z : Zip) (file : FileRecord) :
    ((z.centralDirectoryHeaderFields C file).map Entry.width).sum
      = centralHeaderLength z.zip64 file.name := by
  simp only [Zip.centralDirectoryHeaderFields, Zip.getZip64ExtraField, centralHeaderLength]
  cases z.zip64 <;> simp [Entry.width] <;> omega

theorem writeCentralDirectory_ok (C : Crc32) (files : List FileRecord) (z : Zip) (cds : Nat)
    (hfits : ∀ file ∈ files, file.Fits z.zip64) :
    ∃ bytes : Bytes,
      bytes.length = (files.map (fun file => centralHeaderLength z.zip64 file.name)).sum ∧
      Zip.writeCentralDirectory C files z cds
        = ({ z with output := z.output ++ bytes
                    byteCounterBig := z.byteCounterBig + bytes.length },
            .ok (cds + bytes.length)) := by
  induction files generalizing z cds with
  | nil => exact ⟨[], rfl, by simp [Zip.writeCentralDirectory]⟩
  | cons file rest ih =>
    have hwf := centralDirectoryHeaderFields_wellFormed C z file (hfits file (List.mem_cons_self _ _))
    have hcb := createByteArray_of_wellFormed _ hwf
    have hlen := flatMap_encode_length (z.centralDirectoryHeaderFields C file)
    rw [centralDirectoryHeaderFields_width] at hlen
    rw [Zip.writeCentralDirectory, hcb]
    simp only
    obtain ⟨bytes, hb, h⟩ := ih
      { z.push ((z.centralDirectoryHeaderFields C file).flatMap Entry.encode) with
        byteCounterBig := (z.push ((z.centralDirectoryHeaderFields C file).flatMap
          Entry.encode)).byteCounterBig
            + ((z.centralDirectoryHeaderFields C file).flatMap Entry.encode).length }
      (cds + ((z.centralDirectoryHeaderFields C file).flatMap Entry.encode).length)
      (fun f hf => hfits f (List.mem_cons_of_mem _ hf))
    refine ⟨(z.centralDirectoryHeaderFields C file).flatMap Entry.encode ++ bytes, ?_, ?_⟩
    · simp only [List.length_append, hlen, hb, List.map_cons, List.sum_cons]
      rfl
    · rw [h]
      simp only [Zip.push, List.length_append, List.append_assoc, Nat.add_assoc]

theorem writeZip64End_ok (z : Zip) (cds start : Nat)
    (hcount : z.zip64 = true → z.fileRecord.length < 2 ^ 64)
    (hcds : z.zip64 = true → cds < 2 ^ 64) (hstart : z.zip64 = true → start < 2 ^ 64)
    (hcnt : z.zip64 = true → z.byteCounterBig < 2 ^ 64) :
    ∃ bytes : Bytes,
      bytes.length = (if z.zip64 then 56 + 20 else 0) ∧
      z.writeZip64End cds start
        = ({ z with output := z.output ++ bytes
                    byteCounterBig := z.byteCounterBig + bytes.length }, .ok ()) := by
  unfold Zip.writeZip64End
  by_cases hz : z.zip64 = true
  · have h1 := hcount hz
    have h2 := hcds hz
    have h3 := hstart hz
    have h4 := hcnt hz
    have hwf1 : ∀ e ∈ z.zip64EndOfCentralDirectoryRecordFields cds start, e.WellFormed := by
      simp only [Zip.zip64EndOfCentralDirectoryRecordFields, List.forall_mem_cons,
        List.not_mem_nil, false_implies, implies_true, and_true, wellFormed_int_iff]
      norm_num at h1 h2 h3 ⊢
      omega
    have hwf2 : ∀ e ∈ Zip.zip64EndOfCentralDirectoryLocatorFields z.byteCounterBig,
        e.WellFormed := by
      simp only [Zip.zip64EndOfCentralDirectoryLocatorFields, List.forall_mem_cons,
        List.not_mem_nil, false_implies, implies_true, and_true, wellFormed_int_iff]
      norm_num at h4 ⊢
      omega
    have hcb1 := createByteArray_of_wellFormed _ hwf1
    have hcb2 := createByteArray_of_wellFormed _ hwf2
    have hl1 : ((z.zip64EndOfCentralDirectoryRecordFields cds start).flatMap Entry.encode).length
        = 56 := by
      rw [flatMap_encode_length]
      simp [Zip.zip64EndOfCentralDirectoryRecordFields, Entry.width]
    have hl2 : ((Zip.zip64EndOfCentralDirectoryLocatorFields z.byteCounterBig).flatMap
        Entry.encode).length = 20 := by
      rw [flatMap_encode_length]
      simp [Zip.zip64EndOfCentralDirectoryLocatorFields, Entry.width]
    refine ⟨(z.zip64EndOfCentralDirectoryRecordFields cds start).flatMap Entry.encode
      ++ (Zip.zip64EndOfCentralDirectoryLocatorFields z.byteCounterBig).flatMap Entry.encode,
      by rw [if_pos hz, List.length_append, hl1, hl2], ?_⟩
    rw [if_pos hz]
    simp only [hcb1, hcb2, Zip.push, List.length_append, List.append_assoc, Nat.add_assoc]
  · refine ⟨[], by rw [if_neg hz]; rfl, ?_⟩
    rw [if_neg hz]
    simp

theorem endOfCentralDirectoryRecordFields_wellFormed (z : Zip) (cds start : Nat)
    (hcount : z.zip64 = false → z.fileRecord.length < 65536)
    (hcds : z.zip64 = false → cds < 2 ^ 32) (hstart : z.zip64 = false → start < 2 ^ 32) :
    ∀ e ∈ z.endOfCentralDirectoryRecordFields cds start, e.WellFormed := by
  simp only [Zip.endOfCentralDirectoryRecordFields]
  by_cases hz : z.zip64 = true
  · simp only [hz, if_true, List.forall_mem_cons, List.not_mem_nil,
      false_implies, implies_true, and_true, wellFormed_int_iff]
    norm_num
  · have hz2 : z.zip64 = false := by simpa using hz
    have h1 := hcount hz2
    have h2 := hcds hz2
    have h3 := hstart hz2
    simp only [hz2, if_false, Bool.false_eq_true, List.forall_mem_cons, List.not_mem_nil,
      false_implies, implies_true, and_true, wellFormed_int_iff]
    norm_num at h2 h3 ⊢
    omega

theorem endOfCentralDirectoryRecordFields_width (z : Zip) (cds start : Nat) :
    ((z.endOfCentralDirectoryRecordFields cds start).map Entry.width).sum = 22 := by
  simp [Zip.endOfCentralDirectoryRecordFields, Entry.width]

theorem finish_ok (C : Crc32) (z : Zip) (hfin : z.finished = false)
    (hdest : z.destroyed = false)
    (hlast : ∀ lastFile, z.fileRecord.getLast? = some lastFile → lastFile.done = true)
    (hfits : ∀ file ∈ z.fileRecord, file.Fits z.zip64)
    (hcount : z.fileRecord.length < (if z.zip64 then 2 ^ 64 else 65536))
    (hbound : z.byteCounterBig
        + (z.fileRecord.map (fun file => centralHeaderLength z.zip64 file.name)).sum
      < (if z.zip64 then 2 ^ 64 else 2 ^ 32)) :
    ∃ bytes : Bytes,
      bytes.length = (z.fileRecord.map (fun file => centralHeaderLength z.zip64 file.name)).sum
        + endRecordsLength z.zip64 ∧
      z.finish C
        = ({ z with output := z.output ++ bytes
                    byteCounterBig := z.byteCounterBig + bytes.length
                    ended := true
                    finished := true }, .ok ()) := by
  have hc1 : z.zip64 = true → z.fileRecord.length < 2 ^ 64 := fun h => by
    rw [h] at hcount; exact hcount
  have hc2 : z.zip64 = false → z.fileRecord.length < 65536 := fun h => by
    rw [h] at hcount; exact hcount
  have hb64 : z.zip64 = true → z.byteCounterBig
      + (z.fileRecord.map (fun file => centralHeaderLength z.zip64 file.name)).sum < 2 ^ 64 :=
    fun h => by rw [if_pos h] at hbound; exact hbound
  have hb32 : z.zip64 = false → z.byteCounterBig
      + (z.fileRecord.map (fun file => centralHeaderLength z.zip64 file.name)).sum < 2 ^ 32 :=
    fun h => by rw [if_neg (by simp [h])] at hbound; exact hbound
  obtain ⟨b1, hb1, h1⟩ := writeCentralDirectory_ok C z.fileRecord z 0 hfits
  obtain ⟨b2, hb2, h2⟩ := writeZip64End_ok
    { z with output := z.output ++ b1, byteCounterBig := z.byteCounterBig + b1.length }
    (0 + b1.length) z.byteCounterBig
    (fun h => hc1 h)
    (fun h => by have := hb64 h; omega)
    (fun h => by have := hb64 h; omega)
    (fun h => by
      have := hb64 h
      show z.byteCounterBig + b1.length < 2 ^ 64
      omega)
  have hwf3 := endOfCentralDirectoryRecordFields_wellFormed z (0 + b1.length) z.byteCounterBig
    (fun h => hc2 h)
    (fun h => by have := hb32 h; omega)
    (fun h => by have := hb32 h; omega)
  have hcb3 := createByteArray_of_wellFormed _ hwf3
  have hl3 := flatMap_encode_length
    (z.endOfCentralDirectoryRecordFields (0 + b1.length) z.byteCounterBig)
  rw [endOfCentralDirectoryRecordFields_width] at hl3
  obtain ⟨b3, hb3⟩ : ∃ b3 : Bytes, b3 =
      (z.endOfCentralDirectoryRecordFields (0 + b1.length) z.byteCounterBig).flatMap
          Entry.encode := ⟨_, rfl⟩
  rw [← hb3] at hcb3 hl3
  have hcongr : ∀ z2 : Zip, z2.zip64 = z.zip64 → z2.fileRecord = z.fileRecord →
      createByteArray (z2.endOfCentralDirectoryRecordFields (0 + b1.length) z.byteCounterBig)
        = .ok b3 := by
    intro z2 hz hr
    rw [← hcb3]
    simp only [Zip.endOfCentralDirectoryRecordFields, hz, hr]
  refine ⟨b1 ++ b2 ++ b3, ?_, ?_⟩
  · have hb2b : b2.length = if z.zip64 = true then 56 + 20 else 0 := hb2
    simp only [List.length_append, hb1, hb2b, hl3, endRecordsLength]
    omega
  · unfold Zip.finish
    rw [checkNotFinished_of_open z hfin]
    simp only
    rw [checkNotWritingFile_of_done z hlast]
    simp only
    rw [if_neg (by rw [hdest]; simp)]
    simp only [h1, h2]
    rw [hcongr]
    · simp only [Zip.push, List.length_append, List.append_assoc, Nat.add_assoc]
    · rfl
    · rfl

theorem runState_getLast_done (total : Nat) (zip64 : Bool) (recs : List FileRecord) (n : Nat)
    (out : Bytes) (cs : List (Nat × Option ZipError))
    (h : ∀ r ∈ recs, r.done = true ∧ r.Fits zip64) :
    ∀ lastFile, (runState total zip64 recs n out cs).fileRecord.getLast? = some lastFile →
      lastFile.done = true := by
  intro l hl
  exact (h l (List.mem_of_getLast?_eq_some hl)).1

theorem startFile_runState (total : Nat) (zip64 : Bool) (recs : List FileRecord) (n : Nat)
    (out : Bytes) (cs : List (Nat × Option ZipError)) (fileName : JSString) (date : JSDate)
    (hrecs : ∀ r ∈ recs, r.done = true ∧ r.Fits zip64)
    (hname : (bufferFromUtf8 fileName).length < 65536) (hdate : date.DosRange)
    (hcnt : n < 2 ^ 64) :
    ∃ hdr : Bytes, hdr.length = localHeaderLength zip64 fileName ∧
      (runState total zip64 recs n out cs).startFile fileName date
        = (runState total zip64 (recs ++ [⟨fileName, 0, [], false, date, n⟩])
            (n + localHeaderLength zip64 fileName) (out ++ hdr) cs, .ok recs.length) := by
  have hstart := startFile_ok (runState total zip64 recs n out cs) fileName date rfl
    (runState_getLast_done total zip64 recs n out cs hrecs) hname hdate hcnt
  refine ⟨_, ?_, hstart⟩
  rw [flatMap_encode_length, localFileHeaderFields_width]
  rfl

theorem sinkWrite_foldl_runState_length (total : Nat) (zip64 : Bool) (pre : List FileRecord)
    (chunks : List (Bytes × Bool)) (file : FileRecord) (n : Nat) (out : Bytes)
    (cs : List (Nat × Option ZipError)) :
    ∃ cs2 crc2, ∃ payload : Bytes,
      payload.length = (chunks.map (fun c => c.1.length)).sum ∧
      chunks.foldl (fun zip chunk => (zip.sinkWrite pre.length chunk.1 0 chunk.2)._read)
        (runState total zip64 (pre ++ [file]) n out cs)
      = runState total zip64
          (pre ++ [{ file with
            crc := crc2, sizeBig := file.sizeBig + (chunks.map (fun c => c.1.length)).sum }])
          (n + (chunks.map (fun c => c.1.length)).sum) (out ++ payload) cs2 := by
  obtain ⟨cs2, crc2, h⟩ := sinkWrite_foldl_runState total zip64 pre chunks file n out cs
  refine ⟨cs2, crc2, _, ?_, h⟩
  rw [List.length_flatten, List.map_map]
  rfl

theorem sinkFinal_runState_length (C : Crc32) (total : Nat) (zip64 : Bool)
    (pre : List FileRecord) (file : FileRecord) (n : Nat) (out : Bytes)
    (cs : List (Nat × Option ZipError)) (callback : Nat)
    (hsize : file.sizeBig < (if zip64 then 2 ^ 64 else 2 ^ 32)) :
    ∃ dd : Bytes, dd.length = dataDescriptorLength zip64 ∧
      (runState total zip64 (pre ++ [file]) n out cs).sinkFinal C pre.length callback
        = runState total zip64 (pre ++ [{ file with done := true }])
            (n + dataDescriptorLength zip64) (out ++ dd) (cs ++ [(callback, none)]) := by
  refine ⟨_, ?_, sinkFinal_runState C total zip64 pre file n out cs callback hsize⟩
  rw [flatMap_encode_length, dataDescriptorFields_width]
  rfl

theorem next_file_ok (C : Crc32) (files : List Download) (total : Nat) (zip64 : Bool)
    (recs : List FileRecord) (n : Nat) (out : Bytes) (cs : List (Nat × Option ZipError))
    (hfiles : ∀ f ∈ files, f.Ok)
    (hrecs : ∀ r ∈ recs, r.done = true ∧ r.Fits zip64)
    (hcount : recs.length + files.length < (if zip64 then 2 ^ 64 else 65536))
    (hbound : n + (files.map (fun f => memberLength zip64 f.name f.size)).sum
        + (recs.map (fun r => centralHeaderLength zip64 r.name)).sum
        + (files.map (fun f => centralHeaderLength zip64 f.name)).sum
      < (if zip64 then 2 ^ 64 else 2 ^ 32)) :
    (next_file C files (runState total zip64 recs n out cs)).finished = true ∧
    (next_file C files (runState total zip64 recs n out cs)).output.length
      = out.length + (files.map (fun f => memberLength zip64 f.name f.size)).sum
        + (recs.map (fun r => centralHeaderLength zip64 r.name)).sum
        + (files.map (fun f => centralHeaderLength zip64 f.name)).sum
        + endRecordsLength zip64 ∧
    (next_file C files (runState total zip64 recs n out cs)).byteCounterBig
      = n + (files.map (fun f => memberLength zip64 f.name f.size)).sum
        + (recs.map (fun r => centralHeaderLength zip64 r.name)).sum
        + (files.map (fun f => centralHeaderLength zip64 f.name)).sum
        + endRecordsLength zip64 := by
  induction files generalizing recs n out cs with
  | nil =>
    simp only [List.length_nil, Nat.add_zero, List.map_nil, List.sum_nil] at hcount hbound ⊢
    obtain ⟨bytes, hb, hf⟩ := finish_ok C (runState total zip64 recs n out cs) rfl rfl
      (runState_getLast_done total zip64 recs n out cs hrecs)
      (fun r hr => (hrecs r hr).2) hcount hbound
    have hnf : next_file C [] (runState total zip64 recs n out cs)
        = ((runState total zip64 recs n out cs).finish C).1 := rfl
    rw [hnf, hf]
    refine ⟨rfl, ?_, ?_⟩
    · show (out ++ bytes).length = _
      rw [List.length_append, hb]
      simp only [runState]
      omega
    · show n + bytes.length = _
      rw [hb]
      simp only [runState]
      omega
  | cons f fs ih =>
    obtain ⟨hname, hdate, hsize⟩ := hfiles f (List.mem_cons_self _ _)
    simp only [List.length_cons, List.map_cons, List.sum_cons] at hcount hbound ⊢
    have hB : (if zip64 = true then 2 ^ 64 else 2 ^ 32) ≤ 2 ^ 64 := by
      split <;> norm_num
    have hfsize : f.size < (if zip64 = true then 2 ^ 64 else 2 ^ 32) := by
      simp only [memberLength] at hbound
      omega
    obtain ⟨hdr, hhdr, hstart⟩ := startFile_runState total zip64 recs n out cs f.name f.date
      hrecs hname hdate (by omega)
    obtain ⟨cs2, crc2, payload, hpay, hw⟩ := sinkWrite_foldl_runState_length total zip64 recs
      f.chunks ⟨f.name, 0, [], false, f.date, n⟩ (n + localHeaderLength zip64 f.name)
      (out ++ hdr) cs
    rw [hsize] at hw hpay
    obtain ⟨dd, hdd, hfin⟩ := sinkFinal_runState_length C total zip64 recs
      ⟨f.name, 0 + f.size, crc2, false, f.date, n⟩
      (n + localHeaderLength zip64 f.name + f.size) (out ++ hdr ++ payload) cs2 0
      (by
        show 0 + f.size < (if zip64 = true then 2 ^ 64 else 2 ^ 32)
        omega)
    have hnf : next_file C (f :: fs) (runState total zip64 recs n out cs)
        = next_file C fs (runState total zip64
            (recs ++ [⟨f.name, 0 + f.size, crc2, true, f.date, n⟩])
            (n + localHeaderLength zip64 f.name + f.size + dataDescriptorLength zip64)
            (out ++ hdr ++ payload ++ dd) (cs2 ++ [(0, none)])) := by
      rw [next_file, hstart]
      have hd : (runState total zip64 recs n out cs).destroyed = false := rfl
      simp only [hd, Bool.false_eq_true, if_false]
      rw [hw, hfin]
    rw [hnf]
    have hih := ih (recs ++ [⟨f.name, 0 + f.size, crc2, true, f.date, n⟩])
      (n + localHeaderLength zip64 f.name + f.size + dataDescriptorLength zip64)
      (out ++ hdr ++ payload ++ dd) (cs2 ++ [(0, none)])
      (fun g hg => hfiles g (List.mem_cons_of_mem _ hg))
      (by
        intro r hr
        rcases List.mem_append.1 hr with hr | hr
        · exact hrecs r hr
        · rw [List.mem_singleton] at hr
          subst hr
          refine ⟨rfl, hname, hdate, ?_, ?_⟩
          · show 0 + f.size < (if zip64 = true then 2 ^ 64 else 2 ^ 32)
            omega
          · show n < (if zip64 = true then 2 ^ 64 else 2 ^ 32)
            omega)
      (by simp only [List.length_append, List.length_singleton]; omega)
      (by
        simp only [List.map_append, List.sum_append, List.map_cons, List.map_nil,
          List.sum_cons, List.sum_nil, memberLength] at hbound ⊢
        omega)
    obtain ⟨h1, h2, h3⟩ := hih
    refine ⟨h1, ?_, ?_⟩
    · rw [h2]
      simp only [List.map_append, List.sum_append, List.map_cons, List.map_nil,
        List.sum_cons, List.sum_nil, List.length_append, hhdr, hpay, hdd, memberLength]
      omega
    · rw [h3]
      simp only [List.map_append, List.sum_append, List.map_cons, List.map_nil,
        List.sum_cons, List.sum_nil, memberLength]
      omega

theorem emitted_eq_standardTotal (zip64 : Bool) (files : List Download)
    (hutf8 : ∀ f ∈ files, (bufferFromUtf8 f.name).length = f.name.length) :
    (files.map (fun f => memberLength zip64 f.name f.size)).sum
      + (files.map (fun f => centralHeaderLength zip64 f.name)).sum + endRecordsLength zip64
    = standardTotal (files.map (fun file => { name := file.name, size := file.size }))
      + (if zip64 then 72 * files.length + 76 else 0) := by
  induction files with
  | nil => cases zip64 <;> simp [standardTotal, endRecordsLength]
  | cons f fs ih =>
    have h1 := hutf8 f (List.mem_cons_self _ _)
    have h2 := ih (fun g hg => hutf8 g (List.mem_cons_of_mem _ hg))
    simp only [List.map_cons, List.sum_cons, standardTotal, List.length_cons, memberLength,
      localHeaderLength, centralHeaderLength, dataDescriptorLength, endRecordsLength, h1]
      at h2 ⊢
    cases zip64 <;> simp only [if_true, if_false, Bool.false_eq_true] at h2 ⊢ <;> omega

/-- When every name has as many UTF-8 bytes as UTF-16 code units and fewer than
65536 of them, the clock is between 1980 and 2107, every response has its
declared size, a standard-mode manifest has fewer than 65536 members and the
total is below 2^64, `zip_files` finishes and hands exactly
`calculateSize(files).total` bytes to the output. -/
theorem zip_files_emits_total (C : Crc32) (files : List Download)
    (hfiles : ∀ f ∈ files, f.Ok)
    (hutf8 : ∀ f ∈ files, (bufferFromUtf8 f.name).length = f.name.length)
    (hcount : (calculateSize (files.map (fun file => { name := file.name, size := file.size }))
      false).zip64 = false → files.length < 65536)
    (htotal : (calculateSize (files.map (fun file => { name := file.name, size := file.size }))
      false).total < 2 ^ 64) :
    (zip_files C files).finished = true ∧
    (zip_files C files).output.length
      = (calculateSize (files.map (fun file => { name := file.name, size := file.size }))
          false).total ∧
    (zip_files C files).byteCounterBig
      = (calculateSize (files.map (fun file => { name := file.name, size := file.size }))
          false).total := by
  have hnew : ∀ (t : Nat) (b : Bool), Zip.new t (some b) = runState t b [] 0 [] [] :=
    fun _ _ => rfl
  unfold zip_files
  simp only [hnew]
  rw [calculateSize_eq] at hcount htotal ⊢
  simp only [List.length_map] at hcount htotal ⊢
  split at htotal
  · rename_i hc
    rw [if_pos hc] at hcount ⊢
    simp only at htotal ⊢
    have hem := emitted_eq_standardTotal true files hutf8
    simp only [if_true] at hem
    have h64 : (2 : Nat) ^ 64 = 18446744073709551616 := by norm_num
    obtain ⟨h1, h2, h3⟩ := next_file_ok C files
      (standardTotal (files.map (fun file => { name := file.name, size := file.size }))
        + 72 * files.length + 76) true [] 0 [] [] hfiles
      (fun r hr => absurd hr (List.not_mem_nil r))
      (by simp only [List.length_nil, if_true]; omega)
      (by
        simp only [List.map_nil, List.sum_nil, if_true]
        simp only [endRecordsLength, if_true] at hem
        omega)
    refine ⟨h1, ?_, ?_⟩
    · rw [h2]
      simp only [List.length_nil, List.map_nil, List.sum_nil]
      omega
    · rw [h3]
      simp only [List.map_nil, List.sum_nil]
      omega
  · rename_i hc
    rw [if_neg hc] at hcount ⊢
    simp only at htotal hcount ⊢
    have hst : standardTotal (files.map (fun file => { name := file.name, size := file.size }))
        < 4294967295 := by
      simp only [not_or, not_le] at hc
      exact hc.1
    have hem := emitted_eq_standardTotal false files hutf8
    simp only [if_false, Bool.false_eq_true, Nat.add_zero] at hem
    obtain ⟨h1, h2, h3⟩ := next_file_ok C files
      (standardTotal (files.map (fun file => { name := file.name, size := file.size })))
      false [] 0 [] [] hfiles
      (fun r hr => absurd hr (List.not_mem_nil r))
      (by
        simp only [List.length_nil, if_false, Bool.false_eq_true]
        have := hcount trivial
        omega)
      (by
        simp only [List.map_nil, List.sum_nil, if_false, Bool.false_eq_true]
        simp only [endRecordsLength, if_false, Bool.false_eq_true] at hem
        norm_num
        omega)
    refine ⟨h1, ?_, ?_⟩
    · rw [h2]
      simp only [List.length_nil, List.map_nil, List.sum_nil]
      omega
    · rw [h3]
      simp only [List.map_nil, List.sum_nil]
      omega

/-- The run of the test "has a size that matches the zip file": "foo" with 4
bytes of payload in two chunks, 120 bytes in total. -/
theorem zip_files_emits_total_example :
    (zip_files zeroCrc [⟨[102, 111, 111], 4, exampleDate, [([1, 2], true), ([3, 4], false)]⟩]
      ).output.length = 120 :=
  (zip_files_emits_total zeroCrc
    [⟨[102, 111, 111], 4, exampleDate, [([1, 2], true), ([3, 4], false)]⟩]
    (by decide) (by decide) (by decide) (by decide)).2.1

/-- The encoder agrees with `calculateSize` on the empty manifest when ZIP64 is
forced: `finish()` on a new ZIP64 archive emits the ZIP64 end record, the
locator and the end record, 98 bytes, and 22 bytes in standard mode. -/
theorem finish_empty_emits (C : Crc32) (total : Nat) :
    ((Zip.new total (some true)).finish C).2 = .ok () ∧
    ((Zip.new total (some true)).finish C).1.output.length = 98 ∧
    ((Zip.new total (some false)).finish C).2 = .ok () ∧
    ((Zip.new total (some false)).finish C).1.output.length = 22 := by
  obtain ⟨b1, hb1, h1⟩ := finish_ok C (Zip.new total (some true)) rfl rfl
    (fun l hl => by simp [Zip.new] at hl) (fun f hf => by simp [Zip.new] at hf)
    (by simp [Zip.new]) (by simp [Zip.new])
  obtain ⟨b2, hb2, h2⟩ := finish_ok C (Zip.new total (some false)) rfl rfl
    (fun l hl => by simp [Zip.new] at hl) (fun f hf => by simp [Zip.new] at hf)
    (by simp [Zip.new]) (by simp [Zip.new])
  rw [h1, h2]
  refine ⟨rfl, ?_, rfl, ?_⟩
  · show ([] ++ b1).length = 98
    rw [List.nil_append, hb1]
    simp [Zip.new, endRecordsLength]
  · show ([] ++ b2).length = 22
    rw [List.nil_append, hb2]
    simp [Zip.new, endRecordsLength]

/-! ## The constructor -/

/-- C14. With `r = calculateSize(manifest)` computed without the force flag, a
`Zip` constructed from `r.total` without a `zip64` option is in ZIP64 mode
exactly when `r.zip64` is true: the constructor derives ZIP64 mode exactly when
the total it is given is at least 0xFFFFFFFF, and a `zip64` option that is
given is used unchanged. -/
theorem constructor_mode_agrees (files : List ManifestFile) :
    (Zip.new (calculateSize files false).total none).zip64 = (calculateSize files false).zip64 ∧
    (∀ total : Nat, (Zip.new total none).zip64 = true ↔ 0xFFFFFFFF ≤ total) ∧
    (∀ (total : Nat) (b : Bool), (Zip.new total (some b)).zip64 = b) := by
  refine ⟨?_, fun total => by simp [Zip.new], fun _ _ => rfl⟩
  rw [calculateSize_eq]
  split
  · rename_i hc
    have h : 0xFFFFFFFF ≤ standardTotal files := by simpa using hc
    simp only [Zip.new, ge_iff_le, decide_eq_true_eq]
    omega
  · rename_i hc
    have h : standardTotal files < 0xFFFFFFFF := by
      simp only [not_or, not_le] at hc
      exact hc.1
    simp only [Zip.new, ge_iff_le, decide_eq_false_iff_not, not_le]
    exact h

/-! ## The effect of each call on records, output and byte counter -/

theorem appends_refl (z : Zip) : z.Appends z := ⟨[], by simp, by simp⟩

theorem appends_trans {a b c : Zip} (h1 : a.Appends b) (h2 : b.Appends c) : a.Appends c := by
  obtain ⟨x, hx1, hx2⟩ := h1
  obtain ⟨y, hy1, hy2⟩ := h2
  exact ⟨x ++ y, by rw [hy1, hx1, List.append_assoc],
    by rw [hy2, hx2, List.length_append, Nat.add_assoc]⟩

theorem appends_of_same {z z2 : Zip} (h : z.SameArchive z2) : z.Appends z2 := by
  obtain ⟨-, -, -, -, hcnt, hout, -⟩ := h
  exact ⟨[], by simp [hout], by simp [hcnt]⟩

theorem appends_push_count (z : Zip) (chunk : Bytes) :
    z.Appends { z.push chunk with
      byteCounterBig := (z.push chunk).byteCounterBig + chunk.length } :=
  ⟨chunk, rfl, rfl⟩

theorem length_modifyAt {α : Type} (g : α → α) (idx : Nat) (l : List α) :
    (modifyAt g idx l).length = l.length := by
  induction l generalizing idx with
  | nil => cases idx <;> rfl
  | cons a l ih => cases idx <;> simp [modifyAt, ih]

theorem getElem?_modifyAt {α : Type} (g : α → α) (idx i : Nat) (l : List α) :
    (modifyAt g idx l)[i]? = if i = idx then l[i]?.map g else l[i]? := by
  induction l generalizing idx i with
  | nil => cases idx <;> simp [modifyAt]
  | cons a l ih =>
    cases idx with
    | zero => cases i <;> simp [modifyAt]
    | succ n => cases i <;> simp [modifyAt, ih]

theorem startFile_shape (z : Zip) (fileName : JSString) (date : JSDate) :
    ((z.startFile fileName date).1.fileRecord = z.fileRecord ∧
      (z.startFile fileName date).1.byteCounterBig = z.byteCounterBig ∧
      (z.startFile fileName date).1.output = z.output ∧
      ∃ e, (z.startFile fileName date).2 = .error e) ∨
    (z.finished = false ∧
      (∀ lastFile, z.fileRecord.getLast? = some lastFile → lastFile.done = true) ∧
      (z.startFile fileName date).1.fileRecord
        = z.fileRecord ++ [⟨fileName, 0, [], false, date, z.byteCounterBig⟩] ∧
      (((z.startFile fileName date).1.byteCounterBig = z.byteCounterBig ∧
          (z.startFile fileName date).1.output = z.output ∧
          ∃ e, (z.startFile fileName date).2 = .error e) ∨
        (∃ header, createByteArray (z.localFileHeaderFields (bufferFromUtf8 fileName) date)
            = .ok header ∧
          (z.startFile fileName date).1.output = z.output ++ header ∧
          (z.startFile fileName date).1.byteCounterBig = z.byteCounterBig + header.length ∧
          (z.startFile fileName date).2 = .ok z.fileRecord.length))) := by
  cases hf : z.finished with
  | true =>
    rw [startFile_of_finished z fileName date hf]
    obtain ⟨-, -, hrec, -, hcnt, hout, -⟩ := destroyIfLive_same z (some .alreadyFinished)
    exact Or.inl ⟨hrec, hcnt, hout, _, rfl⟩
  | false =>
    unfold Zip.startFile
    rw [checkNotFinished_of_open z hf]
    simp only
    cases hw : z.checkNotWritingFile with
    | mk z1 r =>
      cases r with
      | error e =>
        obtain ⟨-, -, hrec, -, hcnt, hout, -⟩ := checkNotWritingFile_error z z1 e hw
        exact Or.inl ⟨hrec, hcnt, hout, _, rfl⟩
      | ok u =>
        obtain ⟨rfl, hlast⟩ := checkNotWritingFile_ok z z1 hw
        simp only
        refine Or.inr ⟨trivial, hlast, ?_⟩
        have hfields : ({ z with fileRecord := z.fileRecord
            ++ [⟨fileName, 0, [], false, date, z.byteCounterBig⟩] } : Zip).localFileHeaderFields
              (bufferFromUtf8 fileName) date
            = z.localFileHeaderFields (bufferFromUtf8 fileName) date := rfl
        rw [hfields]
        cases hcb : createByteArray (z.localFileHeaderFields (bufferFromUtf8 fileName) date) with
        | error e => exact ⟨rfl, Or.inl ⟨rfl, rfl, _, rfl⟩⟩
        | ok header => exact ⟨rfl, Or.inr ⟨header, rfl, rfl, rfl, rfl⟩⟩

theorem sinkWrite_shape (z : Zip) (idx : Nat) (chunk : Bytes) (callback : Nat)
    (pushResult : Bool) :
    (z.fileRecord[idx]? = none ∧ z.sinkWrite idx chunk callback pushResult = z) ∨
    ((∃ file, z.fileRecord[idx]? = some file) ∧
      (z.sinkWrite idx chunk callback pushResult).fileRecord
        = modifyAt (fun file : FileRecord =>
            { file with crc := file.crc ++ [chunk], sizeBig := file.sizeBig + chunk.length })
          idx z.fileRecord ∧
      (z.sinkWrite idx chunk callback pushResult).output = z.output ++ chunk ∧
      (z.sinkWrite idx chunk callback pushResult).byteCounterBig
        = z.byteCounterBig + chunk.length ∧
      (z.sinkWrite idx chunk callback pushResult).destroyed = z.destroyed) := by
  unfold Zip.sinkWrite
  cases hget : z.fileRecord[idx]? with
  | none => exact Or.inl ⟨rfl, rfl⟩
  | some file =>
    refine Or.inr ⟨⟨file, rfl⟩, ?_⟩
    cases hd : z.destroyed <;> cases pushResult <;>
      simp [Zip.push, Zip.complete, hd]

theorem sinkFinal_shape (C : Crc32) (z : Zip) (idx : Nat) (callback : Nat) :
    (z.fileRecord[idx]? = none ∧ z.sinkFinal C idx callback = z) ∨
    (∃ file, z.fileRecord[idx]? = some file ∧
      (((∃ e, createByteArray (z.dataDescriptorFields C file) = .error e) ∧
          (z.sinkFinal C idx callback).fileRecord = z.fileRecord ∧
          (z.sinkFinal C idx callback).output = z.output ∧
          (z.sinkFinal C idx callback).byteCounterBig = z.byteCounterBig ∧
          (z.sinkFinal C idx callback).destroyed = true) ∨
        (∃ dataDescriptor, createByteArray (z.dataDescriptorFields C file) = .ok dataDescriptor ∧
          (z.sinkFinal C idx callback).fileRecord
            = modifyAt (fun file : FileRecord => { file with done := true }) idx z.fileRecord ∧
          (z.sinkFinal C idx callback).output = z.output ++ dataDescriptor ∧
          (z.sinkFinal C idx callback).byteCounterBig
            = z.byteCounterBig + dataDescriptor.length ∧
          (z.sinkFinal C idx callback).destroyed = z.destroyed))) := by
  unfold Zip.sinkFinal
  cases hget : z.fileRecord[idx]? with
  | none => exact Or.inl ⟨rfl, rfl⟩
  | some file =>
    refine Or.inr ⟨file, rfl, ?_⟩
    have hfields : ∀ b : Bool, (if b = true then z.complete callback (some .alreadyDestroyed)
        else z).dataDescriptorFields C file = z.dataDescriptorFields C file := by
      intro b; cases b <;> rfl
    simp only [hfields]
    cases hcb : createByteArray (z.dataDescriptorFields C file) with
    | error e =>
      refine Or.inl ⟨⟨e, rfl⟩, ?_⟩
      simp only
      have hs : z.SameArchive ((if z.destroyed = true
          then z.complete callback (some .alreadyDestroyed) else z).destroy (some e)) := by
        have h1 : z.SameArchive (if z.destroyed = true
            then z.complete callback (some .alreadyDestroyed) else z) := by
          split <;> simp [Zip.SameArchive, Zip.complete]
        obtain ⟨a1, a2, a3, a4, a5, a6, a7⟩ := h1
        obtain ⟨b1, b2, b3, b4, b5, b6, b7⟩ := destroy_same (if z.destroyed = true
            then z.complete callback (some .alreadyDestroyed) else z) (some e)
        exact ⟨b1.trans a1, b2.trans a2, b3.trans a3, b4.trans a4, b5.trans a5, b6.trans a6,
          b7.trans a7⟩
      obtain ⟨-, -, hrec, -, hcnt, hout, -⟩ := hs
      exact ⟨hrec, hout, hcnt, destroy_destroyed _ _⟩
    | ok dataDescriptor =>
      refine Or.inr ⟨dataDescriptor, rfl, ?_⟩
      cases hd : z.destroyed <;> simp [Zip.push, Zip.complete, hd]
theorem writeCentralDirectory_appends (C : Crc32) (files : List FileRecord) (z : Zip) (n : Nat) :
    z.Appends (Zip.writeCentralDirectory C files z n).1 := by
  induction files generalizing z n with
  | nil => exact appends_refl z
  | cons file rest ih =>
    rw [Zip.writeCentralDirectory]
    split
    · exact appends_refl z
    · exact appends_trans (appends_push_count z _) (ih _ _)

theorem writeZip64End_appends (z : Zip) (a b : Nat) :
    z.Appends (z.writeZip64End a b).1 := by
  unfold Zip.writeZip64End
  dsimp only
  split
  · cases createByteArray (z.zip64EndOfCentralDirectoryRecordFields a b) with
    | error e => exact appends_refl z
    | ok r1 =>
      cases createByteArray (Zip.zip64EndOfCentralDirectoryLocatorFields z.byteCounterBig) with
      | error e => exact appends_push_count z _
      | ok r2 => exact appends_trans (appends_push_count z _) (appends_push_count _ _)
  · exact appends_refl z

theorem finish_appends (C : Crc32) (z : Zip) : z.Appends (z.finish C).1 := by
  cases hf : z.finished with
  | true =>
    rw [finish_of_finished C z hf]
    exact appends_of_same (destroyIfLive_same z _)
  | false =>
    unfold Zip.finish
    rw [checkNotFinished_of_open z hf]
    simp only
    cases hw : z.checkNotWritingFile with
    | mk z1 r =>
      cases r with
      | error e => exact appends_of_same (checkNotWritingFile_error z z1 e hw)
      | ok u =>
        obtain ⟨rfl, -⟩ := checkNotWritingFile_ok z z1 hw
        simp only
        split
        · exact appends_refl z
        · have e1 := writeCentralDirectory_appends C z.fileRecord z 0
          cases h1 : Zip.writeCentralDirectory C z.fileRecord z 0 with
          | mk z1 r1 =>
            rw [h1] at e1
            cases r1 with
            | error e => exact e1
            | ok cds =>
              simp only
              have e2 := writeZip64End_appends z1 cds z.byteCounterBig
              cases h2 : z1.writeZip64End cds z.byteCounterBig with
              | mk z2 r2 =>
                rw [h2] at e2
                cases r2 with
                | error e => exact appends_trans e1 e2
                | ok u =>
                  simp only
                  cases createByteArray
                      (z2.endOfCentralDirectoryRecordFields cds z.byteCounterBig) with
                  | error e => exact appends_trans e1 e2
                  | ok eocd =>
                    exact appends_trans (appends_trans e1 e2) ⟨eocd, rfl, rfl⟩

theorem step_appends (C : Crc32) (z : Zip) (e : Event) : z.Appends (z.step C e) := by
  cases e with
  | startFile fileName date =>
    show z.Appends (z.startFile fileName date).1
    rcases startFile_shape z fileName date with ⟨-, hcnt, hout, -⟩ | ⟨-, -, -, h⟩
    · exact ⟨[], by simp [hout], by simp [hcnt]⟩
    · rcases h with ⟨hcnt, hout, -⟩ | ⟨header, -, hout, hcnt, -⟩
      · exact ⟨[], by simp [hout], by simp [hcnt]⟩
      · exact ⟨header, hout, hcnt⟩
  | write idx chunk callback pushResult =>
    show z.Appends (z.sinkWrite idx chunk callback pushResult)
    rcases sinkWrite_shape z idx chunk callback pushResult with ⟨-, h⟩ | ⟨-, -, hout, hcnt, -⟩
    · rw [h]; exact appends_refl z
    · exact ⟨chunk, hout, hcnt⟩
  | final idx callback =>
    show z.Appends (z.sinkFinal C idx callback)
    rcases sinkFinal_shape C z idx callback with ⟨-, h⟩ | ⟨file, -, h⟩
    · rw [h]; exact appends_refl z
    · rcases h with ⟨-, -, hout, hcnt, -⟩ | ⟨dd, -, -, hout, hcnt, -⟩
      · exact ⟨[], by simp [hout], by simp [hcnt]⟩
      · exact ⟨dd, hout, hcnt⟩
  | finish => exact finish_appends C z
  | destroy err => exact appends_of_same (destroy_same z err)
  | read => exact appends_of_same (read_same z)

theorem run_appends (C : Crc32) (events : List Event) (z : Zip) : z.Appends (z.run C events) := by
  induction events generalizing z with
  | nil => exact appends_refl z
  | cons e es ih => exact appends_trans (step_appends C z e) (ih _)

theorem run_append (C : Crc32) (z : Zip) (es1 es2 : List Event) :
    z.run C (es1 ++ es2) = (z.run C es1).run C es2 := by
  simp [Zip.run, List.foldl_append]

theorem counter_eq_output_length (C : Crc32) (z : Zip) (h : z.Reachable C) :
    z.byteCounterBig = z.output.length := by
  obtain ⟨total, zip64, events, rfl⟩ := h
  obtain ⟨bytes, hout, hcnt⟩ := run_appends C events (Zip.new total zip64)
  rw [hout, hcnt]
  simp [Zip.new]

/-! ## One member in flight -/

theorem oneOpenMember_new (total : Nat) (zip64 : Option Bool) :
    (Zip.new total zip64).OneOpenMember := by
  intro i file h
  simp [Zip.new] at h

theorem oneOpenMember_of_fileRecord {z z2 : Zip} (h : z2.fileRecord = z.fileRecord)
    (hi : z.OneOpenMember) : z2.OneOpenMember := by
  unfold Zip.OneOpenMember at *
  rw [h]
  exact hi

theorem oneOpenMember_modifyAt {z z2 : Zip} (g : FileRecord → FileRecord) (idx : Nat)
    (hg : ∀ file, file.done = true → (g file).done = true)
    (h : z2.fileRecord = modifyAt g idx z.fileRecord)
    (hi : z.OneOpenMember) : z2.OneOpenMember := by
  unfold Zip.OneOpenMember at *
  rw [h]
  intro i file hget hlt
  rw [length_modifyAt] at hlt
  rw [getElem?_modifyAt] at hget
  split at hget
  · cases hz : z.fileRecord[i]? with
    | none => rw [hz] at hget; simp at hget
    | some f0 =>
      rw [hz] at hget
      simp only [Option.map_some', Option.some.injEq] at hget
      rw [← hget]
      exact hg f0 (hi i f0 hz hlt)
  · exact hi i file hget hlt

theorem oneOpenMember_append {z z2 : Zip} (file : FileRecord)
    (hlast : ∀ lastFile, z.fileRecord.getLast? = some lastFile → lastFile.done = true)
    (h : z2.fileRecord = z.fileRecord ++ [file])
    (hi : z.OneOpenMember) : z2.OneOpenMember := by
  unfold Zip.OneOpenMember at *
  rw [h]
  intro i f hget hlt
  simp only [List.length_append, List.length_singleton] at hlt
  have hi2 : i < z.fileRecord.length := by omega
  rw [List.getElem?_append_left hi2] at hget
  by_cases hl : i + 1 < z.fileRecord.length
  · exact hi i f hget hl
  · have hil : i = z.fileRecord.length - 1 := by omega
    apply hlast
    rw [List.getLast?_eq_getElem?, ← hil]
    exact hget

theorem oneOpenMember_step (C : Crc32) (z : Zip) (e : Event) (hi : z.OneOpenMember) :
    (z.step C e).OneOpenMember := by
  cases e with
  | startFile fileName date =>
    show ((z.startFile fileName date).1).OneOpenMember
    rcases startFile_shape z fileName date with ⟨hrec, -⟩ | ⟨-, hlast, hrec, -⟩
    · exact oneOpenMember_of_fileRecord hrec hi
    · exact oneOpenMember_append _ hlast hrec hi
  | write idx chunk callback pushResult =>
    show (z.sinkWrite idx chunk callback pushResult).OneOpenMember
    rcases sinkWrite_shape z idx chunk callback pushResult with ⟨-, h⟩ | ⟨-, hrec, -⟩
    · rw [h]; exact hi
    · refine oneOpenMember_modifyAt _ idx ?_ hrec hi
      intro f h
      exact h
  | final idx callback =>
    show (z.sinkFinal C idx callback).OneOpenMember
    rcases sinkFinal_shape C z idx callback with ⟨-, h⟩ | ⟨file, -, h⟩
    · rw [h]; exact hi
    · rcases h with ⟨-, hrec, -⟩ | ⟨dd, -, hrec, -⟩
      · exact oneOpenMember_of_fileRecord hrec hi
      · refine oneOpenMember_modifyAt _ idx ?_ hrec hi
        intro f h
        rfl
  | finish => exact oneOpenMember_of_fileRecord (finish_frame C z).1 hi
  | destroy err => exact oneOpenMember_of_fileRecord (destroy_same z err).2.2.1 hi
  | read => exact oneOpenMember_of_fileRecord (read_same z).2.2.1 hi

theorem oneOpenMember_run (C : Crc32) (events : List Event) (z : Zip) (hi : z.OneOpenMember) :
    (z.run C events).OneOpenMember := by
  induction events generalizing z with
  | nil => exact hi
  | cons e es ih => exact ih _ (oneOpenMember_step C z e hi)

/-- C19. In every state of the archive reached from its construction by
`startFile` calls, payload writes, end-of-member calls, `finish`, `destroy` and
`_read` calls, every record before the last one is done: a record that is not
done is the last record of `fileRecord`, so at most one record is not done. -/
theorem one_member_in_flight (C : Crc32) (z : Zip) (hreach : z.Reachable C) :
    (∀ (i : Nat) (file : FileRecord), z.fileRecord[i]? = some file →
      i + 1 < z.fileRecord.length → file.done = true) ∧
    (∀ (i : Nat) (file : FileRecord), z.fileRecord[i]? = some file → file.done = false →
      i + 1 = z.fileRecord.length) ∧
    (∀ (i j : Nat) (fi fj : FileRecord), z.fileRecord[i]? = some fi →
      z.fileRecord[j]? = some fj → fi.done = false → fj.done = false → i = j) ∧
    (∀ file ∈ z.fileRecord.dropLast, file.done = true) := by
  obtain ⟨total, zip64, events, rfl⟩ := hreach
  have hi := oneOpenMember_run C events _ (oneOpenMember_new total zip64)
  have h2 : ∀ (i : Nat) (file : FileRecord),
      ((Zip.new total zip64).run C events).fileRecord[i]? = some file → file.done = false →
      i + 1 = ((Zip.new total zip64).run C events).fileRecord.length := by
    intro i file hget hd
    have hlt : i < ((Zip.new total zip64).run C events).fileRecord.length := by
      by_contra hc
      rw [List.getElem?_eq_none (by omega)] at hget
      cases hget
    by_contra hne
    have := hi i file hget (by omega)
    rw [hd] at this
    cases this
  refine ⟨hi, h2, ?_, ?_⟩
  · intro i j fi fj hgi hgj hdi hdj
    have := h2 i fi hgi hdi
    have := h2 j fj hgj hdj
    omega
  · intro file hmem
    obtain ⟨i, hlt, hget⟩ := List.getElem_of_mem hmem
    rw [List.length_dropLast] at hlt
    rw [List.getElem_dropLast] at hget
    exact hi i file (by rw [List.getElem?_eq_getElem (by omega), hget]) (by omega)
/-- Witness of C19: after `startFile("a")`, the end of that member and
`startFile("b")`, the first record is done and the second, the last, is not. -/
theorem one_member_in_flight_witness :
    (((Zip.new 0 none).run zeroCrc
        [.startFile [97] exampleDate, .final 0 1, .startFile [98] exampleDate]).fileRecord.map
      fun file => file.done) = [true, false] ∧
    ∀ file ∈ ((Zip.new 0 none).run zeroCrc
        [.startFile [97] exampleDate, .final 0 1, .startFile [98] exampleDate]).fileRecord.dropLast,
      file.done = true :=
  ⟨by decide,
    (one_member_in_flight zeroCrc _
      ⟨0, none, [.startFile [97] exampleDate, .final 0 1, .startFile [98] exampleDate], rfl⟩).2.2.2⟩

/-! ## Calls on a destroyed archive -/

theorem dataDescriptor_encode (C : Crc32) (z : Zip) (file : FileRecord) :
    (z.dataDescriptorFields C file).flatMap Entry.encode
      = specDataDescriptor z.zip64 (C.get file.crc) file.sizeBig := by
  cases hz : z.zip64 <;>
    simp [Zip.dataDescriptorFields, specDataDescriptor, Entry.encode, List.flatMap_cons, hz]

theorem specDataDescriptor_length (zip64 : Bool) (crc size : Nat) :
    (specDataDescriptor zip64 crc size).length = if zip64 then 20 else 12 := by
  cases zip64 <;> simp [specDataDescriptor, leBytes_length]

theorem sinkFinal_of_fits (C : Crc32) (z : Zip) (idx : Nat) (file : FileRecord) (callback : Nat)
    (hget : z.fileRecord[idx]? = some file)
    (hsize : file.sizeBig < (if z.zip64 then 2 ^ 64 else 2 ^ 32)) :
    (z.sinkFinal C idx callback).output
      = z.output ++ specDataDescriptor z.zip64 (C.get file.crc) file.sizeBig ∧
    (z.sinkFinal C idx callback).byteCounterBig
      = z.byteCounterBig + (if z.zip64 then 20 else 12) ∧
    (z.sinkFinal C idx callback).fileRecord
      = modifyAt (fun file => { file with done := true }) idx z.fileRecord ∧
    (z.sinkFinal C idx callback).completions
      = z.completions
        ++ (if z.destroyed then [(callback, some .alreadyDestroyed)] else [])
        ++ [(callback, none)] ∧
    (z.sinkFinal C idx callback).destroyed = z.destroyed ∧
    (z.sinkFinal C idx callback).callback = z.callback := by
  have hwf := dataDescriptorFields_wellFormed C z file hsize
  have hcb := createByteArray_of_wellFormed _ hwf
  rw [dataDescriptor_encode] at hcb
  have hlen := specDataDescriptor_length z.zip64 (C.get file.crc) file.sizeBig
  unfold Zip.sinkFinal
  rw [hget]
  cases hd : z.destroyed
  · simp only [Bool.false_eq_true, if_false]
    rw [hcb]
    simp [Zip.push, Zip.complete, hlen, hd]
  · simp only [if_true]
    have hcb2 : createByteArray
        ((z.complete callback (some .alreadyDestroyed)).dataDescriptorFields C file)
        = .ok (specDataDescriptor z.zip64 (C.get file.crc) file.sizeBig) := hcb
    rw [hcb2]
    simp [Zip.push, Zip.complete, hlen, hd]

theorem sinkWrite_of_record (z : Zip) (idx : Nat) (file : FileRecord) (chunk : Bytes)
    (callback : Nat) (pushResult : Bool) (hget : z.fileRecord[idx]? = some file) :
    (z.sinkWrite idx chunk callback pushResult).output = z.output ++ chunk ∧
    (z.sinkWrite idx chunk callback pushResult).byteCounterBig
      = z.byteCounterBig + chunk.length ∧
    (z.sinkWrite idx chunk callback pushResult).fileRecord
      = modifyAt (fun file =>
          { file with crc := file.crc ++ [chunk], sizeBig := file.sizeBig + chunk.length })
          idx z.fileRecord ∧
    (z.sinkWrite idx chunk callback pushResult).completions
      = z.completions
        ++ (if z.destroyed then [(callback, some .alreadyDestroyed)] else [])
        ++ (if pushResult then [(callback, none)] else []) ∧
    (z.sinkWrite idx chunk callback pushResult).callback
      = (if pushResult then z.callback else some callback) ∧
    (z.sinkWrite idx chunk callback pushResult).destroyed = z.destroyed := by
  unfold Zip.sinkWrite
  rw [hget]
  cases hd : z.destroyed <;> cases pushResult <;> simp [Zip.push, Zip.complete, hd]

theorem getElem?_modifyAt_self {α : Type} (g : α → α) (idx : Nat) (l : List α) (a : α)
    (h : l[idx]? = some a) : (modifyAt g idx l)[idx]? = some (g a) := by
  rw [getElem?_modifyAt, if_pos rfl, h]
  rfl

theorem startFile_after_destroy (z : Zip) (fileName : JSString) (date : JSDate)
    (hfin : z.finished = false)
    (hlast : ∀ lastFile, z.fileRecord.getLast? = some lastFile → lastFile.done = true)
    (hname : (bufferFromUtf8 fileName).length < 65536) (hdate : date.DosRange)
    (hcnt : z.byteCounterBig < 2 ^ 64) :
    (z.startFile fileName date).2 = .ok z.fileRecord.length ∧
    (z.startFile fileName date).1.fileRecord
      = z.fileRecord ++ [⟨fileName, 0, [], false, date, z.byteCounterBig⟩] ∧
    (z.startFile fileName date).1.byteCounterBig
      = z.byteCounterBig + localHeaderLength z.zip64 fileName ∧
    (z.startFile fileName date).1.destroyed = z.destroyed := by
  rw [startFile_ok z fileName date hfin hlast hname hdate hcnt]
  exact ⟨rfl, rfl, rfl, rfl⟩

theorem finish_after_destroy (C : Crc32) (z : Zip) (hdest : z.destroyed = true) :
    (∃ e, (z.finish C).2 = .error e) ∧ (z.finish C).1.output = z.output ∧
    (z.finish C).1.byteCounterBig = z.byteCounterBig ∧
    (z.finish C).1.fileRecord = z.fileRecord := by
  cases hf : z.finished with
  | true =>
    rw [finish_of_finished C z hf]
    obtain ⟨-, -, hrec, -, hcnt, hout, -⟩ := destroyIfLive_same z (some .alreadyFinished)
    exact ⟨⟨_, rfl⟩, hout, hcnt, hrec⟩
  | false =>
    unfold Zip.finish
    rw [checkNotFinished_of_open z hf]
    simp only
    cases hw : z.checkNotWritingFile with
    | mk z1 r =>
      cases r with
      | error e =>
        obtain ⟨-, -, hrec, -, hcnt, hout, -⟩ := checkNotWritingFile_error z z1 e hw
        exact ⟨⟨_, rfl⟩, hout, hcnt, hrec⟩
      | ok u =>
        obtain ⟨rfl, -⟩ := checkNotWritingFile_ok z z1 hw
        simp only
        rw [if_pos hdest]
        exact ⟨⟨_, rfl⟩, rfl, rfl, rfl⟩

/-- C11 (the code does otherwise). On a destroyed archive the `write` and
`final` functions of a payload sink whose record exists report "Already
destroyed" to the completion and then run their body all the same: a write of
`chunk` hands the chunk to the output, advances the cursor by its length, adds
it to the record's size and checksum, and calls the completion a second time,
without error; an end-of-member whose size fits its field hands the data
descriptor to the output, advances the cursor, marks the record done and calls
the completion a second time. -/
theorem sink_calls_after_destroy (C : Crc32) (z : Zip) (idx : Nat) (file : FileRecord)
    (chunk : Bytes) (callback : Nat)
    (hdest : z.destroyed = true) (hget : z.fileRecord[idx]? = some file)
    (hsize : file.sizeBig < (if z.zip64 then 2 ^ 64 else 2 ^ 32)) :
    ((z.sinkWrite idx chunk callback true).output = z.output ++ chunk ∧
      (z.sinkWrite idx chunk callback true).byteCounterBig = z.byteCounterBig + chunk.length ∧
      (z.sinkWrite idx chunk callback true).fileRecord[idx]?
        = some { file with crc := file.crc ++ [chunk], sizeBig := file.sizeBig + chunk.length } ∧
      (z.sinkWrite idx chunk callback true).completions
        = z.completions ++ [(callback, some .alreadyDestroyed), (callback, none)]) ∧
    ((z.sinkFinal C idx callback).output
        = z.output ++ specDataDescriptor z.zip64 (C.get file.crc) file.sizeBig ∧
      (z.sinkFinal C idx callback).byteCounterBig = z.byteCounterBig + (if z.zip64 then 20 else 12) ∧
      (z.sinkFinal C idx callback).fileRecord[idx]? = some { file with done := true } ∧
      (z.sinkFinal C idx callback).completions
        = z.completions ++ [(callback, some .alreadyDestroyed), (callback, none)]) := by
  obtain ⟨w1, w2, w3, w4, -, -⟩ := sinkWrite_of_record z idx file chunk callback true hget
  obtain ⟨f1, f2, f3, f4, -, -⟩ := sinkFinal_of_fits C z idx file callback hget hsize
  refine ⟨⟨w1, w2, ?_, ?_⟩, f1, f2, ?_, ?_⟩
  · rw [w3]
    exact getElem?_modifyAt_self _ idx _ file hget
  · rw [w4, hdest]
    simp
  · rw [f3]
    exact getElem?_modifyAt_self _ idx _ file hget
  · rw [f4, hdest]
    simp

/-- Witness of C11: `startFile("a")` on a new archive, `destroy(err)`, then a
write of the three bytes 1, 2, 3 to the member's sink, or its end-of-member. -/
theorem sink_calls_after_destroy_witness :
    ((Zip.new 0 none).run zeroCrc
      [.startFile [97] exampleDate, .destroy (some (.upstream 1))]).destroyed = true ∧
    (((Zip.new 0 none).run zeroCrc
      [.startFile [97] exampleDate, .destroy (some (.upstream 1))]).sinkWrite 0 [1, 2, 3] 7
        true).byteCounterBig = 31 + 3 ∧
    (((Zip.new 0 none).run zeroCrc
      [.startFile [97] exampleDate, .destroy (some (.upstream 1))]).sinkWrite 0 [1, 2, 3] 7
        true).fileRecord = [⟨[97], 3, [[1, 2, 3]], false, exampleDate, 0⟩] ∧
    (((Zip.new 0 none).run zeroCrc
      [.startFile [97] exampleDate, .destroy (some (.upstream 1))]).sinkWrite 0 [1, 2, 3] 7
        true).completions = [(7, some .alreadyDestroyed), (7, none)] ∧
    (((Zip.new 0 none).run zeroCrc
      [.startFile [97] exampleDate, .destroy (some (.upstream 1))]).sinkFinal zeroCrc 0
        8).fileRecord = [⟨[97], 0, [], true, exampleDate, 0⟩] ∧
    (((Zip.new 0 none).run zeroCrc
      [.startFile [97] exampleDate, .destroy (some (.upstream 1))]).sinkWrite 0 [1, 2, 3] 7
        true).output
      = ((Zip.new 0 none).run zeroCrc
          [.startFile [97] exampleDate, .destroy (some (.upstream 1))]).output ++ [1, 2, 3] :=
  ⟨by decide, by decide, by decide, by decide, by decide,
    (sink_calls_after_destroy zeroCrc _ 0 ⟨[97], 0, [], false, exampleDate, 0⟩ [1, 2, 3] 7
      (by decide) (by decide) (by decide)).1.1⟩

/-- On a destroyed archive with no member open `startFile("a")` returns a sink
all the same: it appends a record and counts the 31 bytes of a local header. -/
theorem startFile_after_destroy_example :
    ((Zip.new 0 none).run zeroCrc [.destroy none]).destroyed = true ∧
    (((Zip.new 0 none).run zeroCrc [.destroy none]).startFile [97] exampleDate).2 = .ok 0 ∧
    (((Zip.new 0 none).run zeroCrc [.destroy none]).startFile [97] exampleDate).1.fileRecord
      = [⟨[97], 0, [], false, exampleDate, 0⟩] ∧
    (((Zip.new 0 none).run zeroCrc [.destroy none]).startFile [97] exampleDate).1.byteCounterBig
      = 31 :=
  ⟨by decide, rfl, by decide, by decide⟩

/-! ## The pending completion -/

theorem destroy_of_live (z : Zip) (err : Option ZipError) (hlive : z.destroyed = false) :
    (z.destroy err).destroyed = true ∧ (z.destroy err).callback = none ∧
    (z.destroy err).completions
      = z.completions ++ (match z.callback with
        | some cb => [(cb, err)]
        | none => []) := by
  unfold Zip.destroy
  rw [if_neg (by rw [hlive]; simp)]
  unfold Zip._destroy Zip.complete
  cases hc : z.callback <;> simp [hc]

theorem read_of_idle (z : Zip) (h : z.callback = none) : z._read = z := by
  unfold Zip._read
  rw [h]

theorem destroy_of_destroyed (z : Zip) (err : Option ZipError) (h : z.destroyed = true) :
    z.destroy err = z := by
  unfold Zip.destroy
  rw [if_pos h]

theorem run_read_destroy_idle (C : Crc32) (events : List Event) (z : Zip)
    (hdest : z.destroyed = true) (hcb : z.callback = none)
    (hev : ∀ ev ∈ events, ev = .read ∨ ∃ err, ev = .destroy err) :
    z.run C events = z := by
  induction events with
  | nil => rfl
  | cons ev rest ih =>
    have hstep : z.step C ev = z := by
      rcases hev ev (List.mem_cons_self _ _) with rfl | ⟨err, rfl⟩
      · exact read_of_idle z hcb
      · exact destroy_of_destroyed z err hdest
    show (z.step C ev).run C rest = z
    rw [hstep]
    exact ih (fun ev2 h2 => hev ev2 (List.mem_cons_of_mem _ h2))

/-- C12. On a live archive, a payload write that the consumer refuses
(`push` returns false) stores its completion as the pending callback without
invoking it; `destroy(e)` then invokes that completion with `e`, once, clears
the pending callback and marks the archive destroyed; after that no sequence of
`_read` and `destroy` calls invokes any completion again. The pending callback
is a single slot, so at most one completion is pending. -/
theorem destroy_fails_pending_write (C : Crc32) (z : Zip) (idx : Nat) (file : FileRecord)
    (chunk : Bytes) (callback : Nat) (e : Option ZipError)
    (hlive : z.destroyed = false) (hget : z.fileRecord[idx]? = some file) :
    (z.sinkWrite idx chunk callback false).callback = some callback ∧
    (z.sinkWrite idx chunk callback false).completions = z.completions ∧
    ((z.sinkWrite idx chunk callback false).destroy e).completions
      = z.completions ++ [(callback, e)] ∧
    ((z.sinkWrite idx chunk callback false).destroy e).callback = none ∧
    ((z.sinkWrite idx chunk callback false).destroy e).destroyed = true ∧
    (((z.sinkWrite idx chunk callback false).destroy e)._read).completions
      = z.completions ++ [(callback, e)] ∧
    (∀ events : List Event, (∀ ev ∈ events, ev = .read ∨ ∃ err, ev = .destroy err) →
      (((z.sinkWrite idx chunk callback false).destroy e).run C events).completions
        = z.completions ++ [(callback, e)]) ∧
    ((z.sinkWrite idx chunk callback false).callback.toList.length ≤ 1) := by
  obtain ⟨-, -, -, w4, w5, w6⟩ := sinkWrite_of_record z idx file chunk callback false hget
  rw [hlive] at w4
  simp only [Bool.false_eq_true, if_false, List.append_nil] at w4 w5
  rw [hlive] at w6
  obtain ⟨d1, d2, d3⟩ := destroy_of_live (z.sinkWrite idx chunk callback false) e w6
  rw [w5, w4] at d3
  refine ⟨w5, w4, d3, d2, d1, ?_, ?_, ?_⟩
  · rw [read_of_idle _ d2, d3]
  · intro events hev
    rw [run_read_destroy_idle C events _ d1 d2 hev, d3]
  · rw [w5]
    simp

/-- Witness of C12: `startFile("a")` on a new archive, a refused write of one
byte with completion 5, then `destroy(err)`. -/
theorem destroy_fails_pending_write_witness :
    ((Zip.new 0 none).run zeroCrc [.startFile [97] exampleDate]).destroyed = false ∧
    ((((Zip.new 0 none).run zeroCrc [.startFile [97] exampleDate]).sinkWrite 0 [1] 5
        false).destroy (some (.upstream 1))).completions
      = ((Zip.new 0 none).run zeroCrc [.startFile [97] exampleDate]).completions
        ++ [(5, some (.upstream 1))] ∧
    ((((Zip.new 0 none).run zeroCrc [.startFile [97] exampleDate]).sinkWrite 0 [1] 5
        false).destroy (some (.upstream 1))).completions = [(5, some (.upstream 1))] :=
  ⟨by decide,
    (destroy_fails_pending_write zeroCrc _ 0 ⟨[97], 0, [], false, exampleDate, 0⟩ [1] 5
      (some (.upstream 1)) (by decide) (by decide)).2.2.1,
    by decide⟩

/-! ## The data descriptor -/

theorem mem_modifyAt {α : Type} (g : α → α) (idx : Nat) (l : List α) (x : α)
    (h : x ∈ modifyAt g idx l) : x ∈ l ∨ ∃ y ∈ l, x = g y := by
  induction l generalizing idx with
  | nil => simp [modifyAt] at h
  | cons a l ih =>
    cases idx with
    | zero =>
      simp only [modifyAt, List.mem_cons] at h
      rcases h with rfl | h
      · exact Or.inr ⟨a, List.mem_cons_self _ _, rfl⟩
      · exact Or.inl (List.mem_cons_of_mem _ h)
    | succ n =>
      simp only [modifyAt, List.mem_cons] at h
      rcases h with rfl | h
      · exact Or.inl (List.mem_cons_self _ _)
      · rcases ih n h with h1 | ⟨y, hy, rfl⟩
        · exact Or.inl (List.mem_cons_of_mem _ h1)
        · exact Or.inr ⟨y, List.mem_cons_of_mem _ hy, rfl⟩

theorem mem_of_getElem?_some {α : Type} (l : List α) (i : Nat) (a : α) (h : l[i]? = some a) :
    a ∈ l := by
  obtain ⟨hl, rfl⟩ := List.getElem?_eq_some.1 h
  exact List.getElem_mem hl

theorem sizesCounted_new (total : Nat) (zip64 : Option Bool) :
    (Zip.new total zip64).SizesCounted := by
  intro file h
  simp [Zip.new] at h

theorem sizesCounted_of_fileRecord {z z2 : Zip} (h : z2.fileRecord = z.fileRecord)
    (hi : z.SizesCounted) : z2.SizesCounted := by
  unfold Zip.SizesCounted at *
  rw [h]
  exact hi

theorem sizesCounted_modifyAt {z z2 : Zip} (g : FileRecord → FileRecord) (idx : Nat)
    (hg : ∀ file : FileRecord, file.sizeBig = (file.crc.map List.length).sum →
      (g file).sizeBig = ((g file).crc.map List.length).sum)
    (h : z2.fileRecord = modifyAt g idx z.fileRecord)
    (hi : z.SizesCounted) : z2.SizesCounted := by
  unfold Zip.SizesCounted at *
  rw [h]
  intro file hmem
  rcases mem_modifyAt g idx _ file hmem with h1 | ⟨y, hy, rfl⟩
  · exact hi file h1
  · exact hg y (hi y hy)

theorem sizesCounted_step (C : Crc32) (z : Zip) (e : Event) (hi : z.SizesCounted) :
    (z.step C e).SizesCounted := by
  cases e with
  | startFile fileName date =>
    show ((z.startFile fileName date).1).SizesCounted
    rcases startFile_shape z fileName date with ⟨hrec, -⟩ | ⟨-, -, hrec, -⟩
    · exact sizesCounted_of_fileRecord hrec hi
    · unfold Zip.SizesCounted at *
      rw [hrec]
      intro file hmem
      rcases List.mem_append.1 hmem with h1 | h1
      · exact hi file h1
      · rw [List.mem_singleton] at h1
        rw [h1]
        rfl
  | write idx chunk callback pushResult =>
    show (z.sinkWrite idx chunk callback pushResult).SizesCounted
    rcases sinkWrite_shape z idx chunk callback pushResult with ⟨-, h⟩ | ⟨-, hrec, -⟩
    · rw [h]; exact hi
    · refine sizesCounted_modifyAt _ idx ?_ hrec hi
      intro f h
      simp [h]
  | final idx callback =>
    show (z.sinkFinal C idx callback).SizesCounted
    rcases sinkFinal_shape C z idx callback with ⟨-, h⟩ | ⟨file, -, h⟩
    · rw [h]; exact hi
    · rcases h with ⟨-, hrec, -⟩ | ⟨dd, -, hrec, -⟩
      · exact sizesCounted_of_fileRecord hrec hi
      · refine sizesCounted_modifyAt _ idx ?_ hrec hi
        intro f h
        exact h
  | finish => exact sizesCounted_of_fileRecord (finish_frame C z).1 hi
  | destroy err => exact sizesCounted_of_fileRecord (destroy_same z err).2.2.1 hi
  | read => exact sizesCounted_of_fileRecord (read_same z).2.2.1 hi

theorem sizesCounted_run (C : Crc32) (events : List Event) (z : Zip) (hi : z.SizesCounted) :
    (z.run C events).SizesCounted := by
  induction events generalizing z with
  | nil => exact hi
  | cons e es ih => exact ih _ (sizesCounted_step C z e hi)

theorem sizesCounted_of_reachable (C : Crc32) (z : Zip) (h : z.Reachable C) : z.SizesCounted := by
  obtain ⟨total, zip64, events, rfl⟩ := h
  exact sizesCounted_run C events _ (sizesCounted_new total zip64)

theorem sinkFinal_of_not_fits (C : Crc32) (z : Zip) (idx : Nat) (file : FileRecord)
    (callback : Nat) (hget : z.fileRecord[idx]? = some file)
    (hsize : ¬ file.sizeBig < (if z.zip64 then 2 ^ 64 else 2 ^ 32)) :
    (z.sinkFinal C idx callback).output = z.output ∧
    (z.sinkFinal C idx callback).byteCounterBig = z.byteCounterBig ∧
    (z.sinkFinal C idx callback).fileRecord = z.fileRecord ∧
    (z.sinkFinal C idx callback).destroyed = true ∧
    ∃ e, (z.sinkFinal C idx callback).completions.getLast? = some (callback, some e) := by
  have hnw : ¬ (Entry.int file.sizeBig (if z.zip64 then 8 else 4)).WellFormed := by
    rw [wellFormed_int_iff]
    intro hc
    apply hsize
    have h2 := hc.2.2
    cases hz : z.zip64 <;> rw [hz] at h2 <;> simp only [if_true, if_false, Bool.false_eq_true] at h2 ⊢ <;>
      norm_num at h2 ⊢ <;> omega
  obtain ⟨e, he⟩ := createByteArray_error_of_not_wellFormed (z.dataDescriptorFields C file)
    (Entry.int file.sizeBig (if z.zip64 then 8 else 4)) (by simp [Zip.dataDescriptorFields]) hnw
  have hs : ∀ (b : Bool) (err : Option ZipError),
      z.SameArchive (if b = true then z.complete callback err else z) := by
    intro b err
    split <;> simp [Zip.SameArchive, Zip.complete]
  have hz := hs z.destroyed (some .alreadyDestroyed)
  unfold Zip.sinkFinal
  rw [hget]
  dsimp only
  generalize (if z.destroyed = true then z.complete callback (some .alreadyDestroyed) else z)
    = z1 at hz ⊢
  have he1 : createByteArray (z1.dataDescriptorFields C file) = .error e := by
    have : z1.dataDescriptorFields C file = z.dataDescriptorFields C file := by
      simp only [Zip.dataDescriptorFields, hz.2.1]
    rw [this, he]
  rw [he1]
  obtain ⟨-, -, hrec, -, hcnt, hout, -⟩ := hz
  obtain ⟨-, -, hrec2, -, hcnt2, hout2, -⟩ := destroy_same z1 (some e)
  refine ⟨?_, ?_, ?_, ?_, e, ?_⟩
  · show (z1.destroy (some e)).output = _
    rw [hout2, hout]
  · show (z1.destroy (some e)).byteCounterBig = _
    rw [hcnt2, hcnt]
  · show (z1.destroy (some e)).fileRecord = _
    rw [hrec2, hrec]
  · exact destroy_destroyed z1 (some e)
  · simp [Zip.complete]

/-- C16 (amended). On a live archive reached by calls from its construction,
the end-of-member of a sink whose record exists has two outcomes. The record's
size is always the total length of the chunks written to the sink. If the size
is below 2^32 in Standard mode, below 2^64 in Zip64 mode, the bytes handed to
the output are the checksum as 4 little-endian bytes followed by the size twice,
each as 4 bytes (12 in all) in Standard mode or 8 bytes (20 in all) in Zip64
mode; the cursor advances by that length, the record becomes done, the
completion is called once without error and the archive stays live. Otherwise
nothing is handed to the output, cursor and records are unchanged (the member
stays not done), the archive is destroyed and the completion is called with the
encoding error. -/
theorem sinkFinal_emits_descriptor (C : Crc32) (z : Zip) (hreach : z.Reachable C) (idx : Nat)
    (file : FileRecord) (callback : Nat) (hlive : z.destroyed = false)
    (hget : z.fileRecord[idx]? = some file) :
    file.sizeBig = (file.crc.map List.length).sum ∧
    (file.sizeBig < (if z.zip64 then 2 ^ 64 else 2 ^ 32) →
      (z.sinkFinal C idx callback).output
        = z.output ++ (leBytes 4 (C.get file.crc)
            ++ leBytes (if z.zip64 then 8 else 4) file.sizeBig
            ++ leBytes (if z.zip64 then 8 else 4) file.sizeBig) ∧
      (leBytes 4 (C.get file.crc) ++ leBytes (if z.zip64 then 8 else 4) file.sizeBig
            ++ leBytes (if z.zip64 then 8 else 4) file.sizeBig).length
        = (if z.zip64 then 20 else 12) ∧
      leValue (leBytes 4 (C.get file.crc)) = C.get file.crc ∧
      leValue (leBytes (if z.zip64 then 8 else 4) file.sizeBig) = file.sizeBig ∧
      (z.sinkFinal C idx callback).byteCounterBig
        = z.byteCounterBig + (if z.zip64 then 20 else 12) ∧
      (z.sinkFinal C idx callback).fileRecord[idx]? = some { file with done := true } ∧
      (z.sinkFinal C idx callback).fileRecord
        = modifyAt (fun file => { file with done := true }) idx z.fileRecord ∧
      (z.sinkFinal C idx callback).completions = z.completions ++ [(callback, none)] ∧
      (z.sinkFinal C idx callback).destroyed = false) ∧
    (¬ file.sizeBig < (if z.zip64 then 2 ^ 64 else 2 ^ 32) →
      (z.sinkFinal C idx callback).output = z.output ∧
      (z.sinkFinal C idx callback).byteCounterBig = z.byteCounterBig ∧
      (z.sinkFinal C idx callback).fileRecord = z.fileRecord ∧
      (z.sinkFinal C idx callback).destroyed = true ∧
      ∃ e, (z.sinkFinal C idx callback).completions.getLast? = some (callback, some e)) := by
  refine ⟨sizesCounted_of_reachable C z hreach file (mem_of_getElem?_some _ idx file hget), ?_,
    sinkFinal_of_not_fits C z idx file callback hget⟩
  intro hsize
  obtain ⟨f1, f2, f3, f4, f5, -⟩ := sinkFinal_of_fits C z idx file callback hget hsize
  have hlen := specDataDescriptor_length z.zip64 (C.get file.crc) file.sizeBig
  refine ⟨f1, hlen, leValue_leBytes 4 _ (C.get_lt file.crc), ?_, f2, ?_, f3, ?_, ?_⟩
  · apply leValue_leBytes
    cases hz : z.zip64 <;> rw [hz] at hsize <;>
      simp only [if_true, if_false, Bool.false_eq_true] at hsize ⊢ <;> exact hsize
  · rw [f3]
    exact getElem?_modifyAt_self _ idx _ file hget
  · rw [f4, hlive]
    simp
  · rw [f5, hlive]

theorem sinkWrite_accepted_runState (total : Nat) (zip64 : Bool) (pre : List FileRecord)
    (file : FileRecord) (n : Nat) (out : Bytes) (cs : List (Nat × Option ZipError))
    (chunk : Bytes) (callback : Nat) :
    (runState total zip64 (pre ++ [file]) n out cs).sinkWrite pre.length chunk callback true
      = runState total zip64
          (pre ++ [{ file with crc := file.crc ++ [chunk], sizeBig := file.sizeBig + chunk.length }])
          (n + chunk.length) (out ++ chunk) (cs ++ [(callback, none)]) := by
  simp [Zip.sinkWrite, runState, getElem?_length_append, modifyAt_length_append, Zip.push,
    Zip.complete]

theorem sinkWrite_replicate_runState (C : Crc32) (total : Nat) (zip64 : Bool)
    (pre : List FileRecord) (chunk : Bytes) (callback : Nat) (k : Nat) (file : FileRecord)
    (n : Nat) (out : Bytes) (cs : List (Nat × Option ZipError)) :
    ∃ out2 cs2 crc2,
      (runState total zip64 (pre ++ [file]) n out cs).run C
          (List.replicate k (.write pre.length chunk callback true))
        = runState total zip64
            (pre ++ [{ file with crc := crc2, sizeBig := file.sizeBig + k * chunk.length }])
            (n + k * chunk.length) out2 cs2 := by
  induction k generalizing file n out cs with
  | zero => exact ⟨out, cs, file.crc, by simp [Zip.run]⟩
  | succ k ih =>
    obtain ⟨out2, cs2, crc2, h⟩ := ih
      { file with crc := file.crc ++ [chunk], sizeBig := file.sizeBig + chunk.length }
      (n + chunk.length) (out ++ chunk) (cs ++ [(callback, none)])
    refine ⟨out2, cs2, crc2, ?_⟩
    rw [List.replicate_succ]
    show ((runState total zip64 (pre ++ [file]) n out cs).sinkWrite pre.length chunk callback
      true).run C _ = _
    rw [sinkWrite_accepted_runState, h]
    have e1 : file.sizeBig + chunk.length + k * chunk.length
        = file.sizeBig + (k + 1) * chunk.length := by ring
    have e2 : n + chunk.length + k * chunk.length = n + (k + 1) * chunk.length := by ring
    simp only [e1, e2]

theorem run_cons (C : Crc32) (z : Zip) (e : Event) (es : List Event) :
    z.run C (e :: es) = (z.step C e).run C es := rfl

/-- Counterexample to C16 as stated: a Standard-mode archive, live, whose one
member was written 65536 chunks of 65536 bytes. Its size is 2^32, which does not
fit the 4-byte size field: the end-of-member hands nothing to the output,
leaves the cursor where it was and the member not done, and destroys the
archive. -/
theorem sinkFinal_oversized_member :
    ((Zip.new 0 (some false)).run zeroCrc (.startFile [97] exampleDate
        :: List.replicate 65536 (.write 0 (List.replicate 65536 0) 1 true))).destroyed = false ∧
    ((Zip.new 0 (some false)).run zeroCrc (.startFile [97] exampleDate
        :: List.replicate 65536 (.write 0 (List.replicate 65536 0) 1 true))).zip64 = false ∧
    ((Zip.new 0 (some false)).run zeroCrc (.startFile [97] exampleDate
        :: List.replicate 65536 (.write 0 (List.replicate 65536 0) 1 true))).fileRecord.map
      (fun file => (file.sizeBig, file.done)) = [(4294967296, false)] ∧
    (((Zip.new 0 (some false)).run zeroCrc (.startFile [97] exampleDate
        :: List.replicate 65536 (.write 0 (List.replicate 65536 0) 1 true))).sinkFinal zeroCrc 0
        2).output
      = ((Zip.new 0 (some false)).run zeroCrc (.startFile [97] exampleDate
        :: List.replicate 65536 (.write 0 (List.replicate 65536 0) 1 true))).output ∧
    (((Zip.new 0 (some false)).run zeroCrc (.startFile [97] exampleDate
        :: List.replicate 65536 (.write 0 (List.replicate 65536 0) 1 true))).sinkFinal zeroCrc 0
        2).byteCounterBig
      = ((Zip.new 0 (some false)).run zeroCrc (.startFile [97] exampleDate
        :: List.replicate 65536 (.write 0 (List.replicate 65536 0) 1 true))).byteCounterBig ∧
    (((Zip.new 0 (some false)).run zeroCrc (.startFile [97] exampleDate
        :: List.replicate 65536 (.write 0 (List.replicate 65536 0) 1 true))).sinkFinal zeroCrc 0
        2).fileRecord.map (fun file => file.done) = [false] ∧
    (((Zip.new 0 (some false)).run zeroCrc (.startFile [97] exampleDate
        :: List.replicate 65536 (.write 0 (List.replicate 65536 0) 1 true))).sinkFinal zeroCrc 0
        2).destroyed = true := by
  have hstart : ∃ out, (Zip.new 0 (some false)).step zeroCrc (.startFile [97] exampleDate)
      = runState 0 false ([] ++ [⟨[97], 0, [], false, exampleDate, 0⟩]) 31 out [] :=
    ⟨_, rfl⟩
  obtain ⟨out, hstart⟩ := hstart
  obtain ⟨out2, cs2, crc2, h⟩ := sinkWrite_replicate_runState zeroCrc 0 false []
    (List.replicate 65536 0) 1 65536 ⟨[97], 0, [], false, exampleDate, 0⟩ 31 out []
  rw [List.length_replicate] at h
  have hrun : (Zip.new 0 (some false)).run zeroCrc (.startFile [97] exampleDate
        :: List.replicate 65536 (.write 0 (List.replicate 65536 0) 1 true))
      = runState 0 false [⟨[97], 4294967296, crc2, false, exampleDate, 0⟩]
          (31 + 4294967296) out2 cs2 := by
    rw [run_cons, hstart]
    exact h
  rw [hrun]
  obtain ⟨f1, f2, f3, f4, -⟩ := sinkFinal_of_not_fits zeroCrc
    (runState 0 false [⟨[97], 4294967296, crc2, false, exampleDate, 0⟩] (31 + 4294967296) out2 cs2)
    0 ⟨[97], 4294967296, crc2, false, exampleDate, 0⟩ 2 rfl (by simp [runState])
  refine ⟨rfl, rfl, rfl, f1, f2, ?_, f4⟩
  rw [f3]
  rfl

/-- Witness of C16: the end of the member `a` after a write of the three bytes
1, 2, 3, in Standard mode. -/
theorem sinkFinal_emits_descriptor_witness :
    ((Zip.new 0 none).run zeroCrc
      [.startFile [97] exampleDate, .write 0 [1, 2, 3] 1 true]).destroyed = false ∧
    ((Zip.new 0 none).run zeroCrc
      [.startFile [97] exampleDate, .write 0 [1, 2, 3] 1 true]).fileRecord[0]?
      = some ⟨[97], 3, [[1, 2, 3]], false, exampleDate, 0⟩ ∧
    (((Zip.new 0 none).run zeroCrc
      [.startFile [97] exampleDate, .write 0 [1, 2, 3] 1 true]).sinkFinal zeroCrc 0 2).output
      = ((Zip.new 0 none).run zeroCrc
          [.startFile [97] exampleDate, .write 0 [1, 2, 3] 1 true]).output
        ++ [0, 0, 0, 0, 3, 0, 0, 0, 3, 0, 0, 0] ∧
    (((Zip.new 0 none).run zeroCrc
      [.startFile [97] exampleDate, .write 0 [1, 2, 3] 1 true]).sinkFinal zeroCrc 0
        2).byteCounterBig = 34 + 12 :=
  ⟨by decide, by decide,
    ((sinkFinal_emits_descriptor zeroCrc _
      ⟨0, none, [.startFile [97] exampleDate, .write 0 [1, 2, 3] 1 true], rfl⟩ 0
      ⟨[97], 3, [[1, 2, 3]], false, exampleDate, 0⟩ 2 (by decide) (by decide)).2.1
        (by decide)).1,
    ((sinkFinal_emits_descriptor zeroCrc _
      ⟨0, none, [.startFile [97] exampleDate, .write 0 [1, 2, 3] 1 true], rfl⟩ 0
      ⟨[97], 3, [[1, 2, 3]], false, exampleDate, 0⟩ 2 (by decide) (by decide)).2.1
        (by decide)).2.2.2.2.1⟩

/-! ## The local file header -/

theorem localFileHeader_encode (z : Zip) (nameBuffer : Bytes) (date : JSDate) :
    (z.localFileHeaderFields nameBuffer date).flatMap Entry.encode
      = specLocalHeader z.zip64 (getTimeStruct date).toNat (getDateStruct date).toNat nameBuffer
          z.byteCounterBig := by
  cases hz : z.zip64 <;>
    simp [Zip.localFileHeaderFields, Zip.getZip64ExtraField, specLocalHeader, specZip64Extra,
      Entry.encode, List.flatMap_cons, hz]

theorem specLocalHeader_length (zip64 : Bool) (time date : Nat) (nameBytes : Bytes)
    (cursor : Nat) :
    (specLocalHeader zip64 time date nameBytes cursor).length
      = 30 + nameBytes.length + (if zip64 then 32 else 0) := by
  cases zip64 <;> simp [specLocalHeader, specZip64Extra, leBytes_length] <;> omega

theorem startFile_of_encode_error (z : Zip) (fileName : JSString) (date : JSDate)
    (hfin : z.finished = false)
    (hlast : ∀ lastFile, z.fileRecord.getLast? = some lastFile → lastFile.done = true)
    (e : ZipError)
    (hc : createByteArray (z.localFileHeaderFields (bufferFromUtf8 fileName) date) = .error e) :
    z.startFile fileName date
      = ({ z with fileRecord := z.fileRecord ++ [⟨fileName, 0, [], false, date, z.byteCounterBig⟩] },
          .error e) := by
  unfold Zip.startFile
  rw [checkNotFinished_of_open z hfin]
  simp only
  rw [checkNotWritingFile_of_done z hlast]
  simp only
  have hc2 : createByteArray
      (({ z with fileRecord := z.fileRecord ++ [⟨fileName, 0, [], false, date, z.byteCounterBig⟩] }
        : Zip).localFileHeaderFields (bufferFromUtf8 fileName) date) = .error e := hc
  rw [hc2]

theorem getDateStruct_epochDate : getDateStruct epochDate = -5087 := by
  have h1 : shl32 (epochDate.fullYear - 1980) 4 = -160 := by decide
  have h2 : toInt32 (-160) = Int.negSucc 159 := by decide
  have h3 : toInt32 (epochDate.month + 1) = Int.ofNat 1 := by decide
  have h4 : Nat.ldiff 159 1 = 158 := by
    unfold Nat.ldiff
    simp [Nat.bitwise]
  have h5 : toInt32 (Int.negSucc 158) = -159 := by decide
  have h6 : shl32 (-159) 5 = -5088 := by decide
  have h7 : toInt32 (-5088) = Int.negSucc 5087 := by decide
  have h8 : toInt32 epochDate.date = Int.ofNat 1 := by decide
  have h9 : Nat.ldiff 5087 1 = 5086 := by
    unfold Nat.ldiff
    simp [Nat.bitwise]
  have h10 : toInt32 (Int.negSucc 5086) = -5087 := by decide
  have l1 : Int.lor (Int.negSucc 159) (Int.ofNat 1) = Int.negSucc (Nat.ldiff 159 1) := rfl
  have l2 : Int.lor (Int.negSucc 5087) (Int.ofNat 1) = Int.negSucc (Nat.ldiff 5087 1) := rfl
  unfold getDateStruct
  rw [h1]
  unfold or32
  rw [h2, h3, l1, h4, h5, h6, h7, h8, l2, h9, h10]

theorem localFileHeader_epochDate_error :
    createByteArray ((Zip.new 0 none).localFileHeaderFields (bufferFromUtf8 [97]) epochDate)
      = .error .outOfRange := by
  have ht : getTimeStruct epochDate = 0 := by decide
  rw [Zip.localFileHeaderFields, ht, getDateStruct_epochDate]
  rfl

/-- Counterexample to C15 as stated: on a new archive with the clock at
1 January 1970 the packed date is negative and `startFile("a")` throws the
range error of the 2-byte date field; no header byte is handed to the output,
the cursor stays 0, and the record has been appended all the same. -/
theorem startFile_before_1980 :
    (bufferFromUtf8 [97]).length = 1 ∧
    (Zip.new 0 none).finished = false ∧ (Zip.new 0 none).fileRecord = [] ∧
    getDateStruct epochDate = -5087 ∧
    ((Zip.new 0 none).startFile [97] epochDate).2 = .error .outOfRange ∧
    ((Zip.new 0 none).startFile [97] epochDate).1.output = [] ∧
    ((Zip.new 0 none).startFile [97] epochDate).1.byteCounterBig = 0 ∧
    ((Zip.new 0 none).startFile [97] epochDate).1.fileRecord
      = [⟨[97], 0, [], false, epochDate, 0⟩] := by
  rw [startFile_of_encode_error (Zip.new 0 none) [97] epochDate rfl
    (by intro l h; simp [Zip.new] at h) .outOfRange localFileHeader_epochDate_error]
  exact ⟨by decide, rfl, rfl, getDateStruct_epochDate, rfl, rfl, rfl, rfl⟩

/-! ## Sessions -/

theorem writeCentralDirectory_zip64 (C : Crc32) (files : List FileRecord) (z : Zip) (n : Nat) :
    (Zip.writeCentralDirectory C files z n).1.zip64 = z.zip64 :=
  (emitsOnly_fields (writeCentralDirectory_emitsOnly C files z n)).2.1

theorem finish_shape (C : Crc32) (z : Zip) :
    (z.SameArchive (z.finish C).1 ∧ ∃ e, (z.finish C).2 = .error e) ∨
    (z.finished = false ∧ z.destroyed = false ∧
      (∀ lastFile, z.fileRecord.getLast? = some lastFile → lastFile.done = true) ∧
      z.Appends (z.finish C).1 ∧ (z.finish C).1.zip64 = z.zip64 ∧
      (z.finish C).1.fileRecord = z.fileRecord) := by
  cases hf : z.finished with
  | true =>
    rw [finish_of_finished C z hf]
    exact Or.inl ⟨destroyIfLive_same z _, _, rfl⟩
  | false =>
    have happ := finish_appends C z
    have hrec := (finish_frame C z).1
    unfold Zip.finish at happ hrec ⊢
    rw [checkNotFinished_of_open z hf] at happ hrec ⊢
    simp only at happ hrec ⊢
    cases hw : z.checkNotWritingFile with
    | mk z1 r =>
      rw [hw] at happ hrec
      cases r with
      | error e => exact Or.inl ⟨checkNotWritingFile_error z z1 e hw, _, rfl⟩
      | ok u =>
        obtain ⟨rfl, hlast⟩ := checkNotWritingFile_ok z z1 hw
        simp only at happ hrec ⊢
        cases hd : z.destroyed with
        | true =>
          rw [if_pos rfl]
          exact Or.inl ⟨sameArchive_refl z, _, rfl⟩
        | false =>
          rw [hd] at happ hrec
          rw [if_neg (by simp)] at happ hrec ⊢
          refine Or.inr ⟨trivial, rfl, hlast, happ, ?_, hrec⟩
          have e1 := writeCentralDirectory_emitsOnly C z.fileRecord z 0
          cases h1 : Zip.writeCentralDirectory C z.fileRecord z 0 with
          | mk z1 r1 =>
            rw [h1] at e1
            cases r1 with
            | error e => exact (emitsOnly_fields e1).2.1
            | ok cds =>
              simp only
              have e2 := writeZip64End_emitsOnly z1 cds z.byteCounterBig
              cases h2 : z1.writeZip64End cds z.byteCounterBig with
              | mk z2 r2 =>
                rw [h2] at e2
                have hz2 : z2.zip64 = z.zip64 := by
                  rw [(emitsOnly_fields e2).2.1, (emitsOnly_fields e1).2.1]
                cases r2 with
                | error e => exact hz2
                | ok u =>
                  simp only
                  cases createByteArray
                      (z2.endOfCentralDirectoryRecordFields cds z.byteCounterBig) with
                  | error e => exact hz2
                  | ok eocd => exact hz2

theorem step_zip64 (C : Crc32) (z : Zip) (e : Event) : (z.step C e).zip64 = z.zip64 := by
  cases e with
  | startFile fileName date =>
    show (z.startFile fileName date).1.zip64 = z.zip64
    cases hf : z.finished with
    | true =>
      rw [startFile_of_finished z fileName date hf]
      exact (destroyIfLive_same z _).2.1
    | false =>
      unfold Zip.startFile
      rw [checkNotFinished_of_open z hf]
      simp only
      cases hw : z.checkNotWritingFile with
      | mk z1 r =>
        cases r with
        | error e => exact (checkNotWritingFile_error z z1 e hw).2.1
        | ok u =>
          obtain ⟨rfl, -⟩ := checkNotWritingFile_ok z z1 hw
          simp only
          split <;> rfl
  | write idx chunk callback pushResult =>
    show (z.sinkWrite idx chunk callback pushResult).zip64 = z.zip64
    unfold Zip.sinkWrite
    cases z.fileRecord[idx]? with
    | none => rfl
    | some file => cases z.destroyed <;> cases pushResult <;> rfl
  | final idx callback =>
    show (z.sinkFinal C idx callback).zip64 = z.zip64
    unfold Zip.sinkFinal
    cases z.fileRecord[idx]? with
    | none => rfl
    | some file =>
      have hs : ∀ b : Bool, z.SameArchive
          (if b = true then z.complete callback (some .alreadyDestroyed) else z) := by
        intro b
        split <;> simp [Zip.SameArchive, Zip.complete]
      have hz := hs z.destroyed
      dsimp only
      generalize (if z.destroyed = true then z.complete callback (some .alreadyDestroyed) else z)
        = z1 at hz ⊢
      split
      · show (z1.destroy _).zip64 = _
        rw [(destroy_same z1 _).2.1, hz.2.1]
      · exact hz.2.1
  | finish =>
    show (z.finish C).1.zip64 = z.zip64
    rcases finish_shape C z with ⟨h, -⟩ | ⟨-, -, -, -, h, -⟩
    · exact h.2.1
    · exact h
  | destroy err => exact (destroy_same z err).2.1
  | read => exact (read_same z).2.1

theorem session_step_zip (C : Crc32) (s : Session) (e : Event) :
    (s.step C e).zip = s.zip ∨ (s.step C e).zip = s.zip.step C e := by
  cases e with
  | startFile fileName date =>
    right
    show (match s.zip.startFile fileName date with
      | (z, .ok idx) => (⟨z, s.sinks ++ [idx]⟩ : Session)
      | (z, .error _) => ⟨z, s.sinks⟩).zip = (s.zip.startFile fileName date).1
    cases s.zip.startFile fileName date with
    | mk z1 r => cases r <;> rfl
  | write idx chunk callback pushResult =>
    by_cases hm : idx ∈ s.sinks
    · right
      show (if idx ∈ s.sinks then
        (⟨s.zip.sinkWrite idx chunk callback pushResult, s.sinks⟩ : Session) else s).zip = _
      rw [if_pos hm]
      rfl
    · left
      show (if idx ∈ s.sinks then
        (⟨s.zip.sinkWrite idx chunk callback pushResult, s.sinks⟩ : Session) else s).zip = _
      rw [if_neg hm]
  | final idx callback =>
    by_cases hm : idx ∈ s.sinks
    · right
      show (if idx ∈ s.sinks then
        (⟨s.zip.sinkFinal C idx callback, s.sinks.filter (fun i => i != idx)⟩ : Session)
        else s).zip = _
      rw [if_pos hm]
      rfl
    · left
      show (if idx ∈ s.sinks then
        (⟨s.zip.sinkFinal C idx callback, s.sinks.filter (fun i => i != idx)⟩ : Session)
        else s).zip = _
      rw [if_neg hm]
  | finish => exact Or.inr rfl
  | destroy err => exact Or.inr rfl
  | read => exact Or.inr rfl

theorem session_run_zip (C : Crc32) (events : List Event) (s : Session) :
    ∃ events2, (s.run C events).zip = s.zip.run C events2 := by
  induction events generalizing s with
  | nil => exact ⟨[], rfl⟩
  | cons e es ih =>
    obtain ⟨ev2, h2⟩ := ih (s.step C e)
    rcases session_step_zip C s e with h | h
    · exact ⟨ev2, by rw [← h]; exact h2⟩
    · exact ⟨e :: ev2, by rw [run_cons, ← h]; exact h2⟩

theorem zip_reachable_of_session (C : Crc32) (s : Session) (h : s.Reachable C) :
    s.zip.Reachable C := by
  obtain ⟨total, zip64, events, rfl⟩ := h
  obtain ⟨ev2, h2⟩ := session_run_zip C events (Session.new total zip64)
  exact ⟨total, zip64, ev2, h2⟩

theorem wellFormed_of_createByteArray_ok (data : List Entry) (bytes : Bytes)
    (h : createByteArray data = .ok bytes) :
    (∀ e ∈ data, e.WellFormed) ∧ bytes = data.flatMap Entry.encode := by
  have hwf : ∀ e ∈ data, e.WellFormed := by
    intro e he
    by_contra hn
    obtain ⟨err, herr⟩ := createByteArray_error_of_not_wellFormed data e he hn
    rw [herr] at h
    cases h
  refine ⟨hwf, ?_⟩
  rw [createByteArray_of_wellFormed data hwf] at h
  cases h
  rfl

theorem headerFits_of_wellFormed (z : Zip) (fileName : JSString) (date : JSDate)
    (h : ∀ e ∈ z.localFileHeaderFields (bufferFromUtf8 fileName) date, e.WellFormed) :
    FileRecord.HeaderFits z.zip64 ⟨fileName, 0, [], false, date, z.byteCounterBig⟩ := by
  have ht := h (.int (getTimeStruct date) 2) (by simp [Zip.localFileHeaderFields])
  have hd := h (.int (getDateStruct date) 2) (by simp [Zip.localFileHeaderFields])
  have hn := h (.int (bufferFromUtf8 fileName).length 2) (by simp [Zip.localFileHeaderFields])
  rw [wellFormed_int_iff] at ht hd hn
  refine ⟨?_, ⟨ht.2.1, by have := ht.2.2; norm_num at this; exact this⟩,
    ⟨hd.2.1, by have := hd.2.2; norm_num at this; exact this⟩, ?_⟩
  · have := hn.2.2
    norm_num at this
    exact_mod_cast this
  · intro hz
    have ho := h (.int z.byteCounterBig 8)
      (by simp [Zip.localFileHeaderFields, Zip.getZip64ExtraField, hz])
    rw [wellFormed_int_iff] at ho
    have := ho.2.2
    norm_num at this
    exact_mod_cast this

theorem memberAt_mono (C : Crc32) {z z2 : Zip} (file : FileRecord) (hz : z2.zip64 = z.zip64)
    (bytes : Bytes) (hout : z2.output = z.output ++ bytes) (hdone : file.done = true)
    (h : z.MemberAt C file) : z2.MemberAt C file := by
  obtain ⟨hfits, pre, post, ho, hpre, -, hd⟩ := h
  obtain ⟨hsize, rest, hrest⟩ := hd hdone
  refine ⟨by rw [hz]; exact hfits, pre, post ++ bytes, ?_, hpre, ?_, ?_⟩
  · rw [hout, ho, hz]
    simp only [List.append_assoc]
  · intro hf
    rw [hdone] at hf
    cases hf
  · intro _
    rw [hz]
    exact ⟨hsize, rest ++ bytes, by rw [hrest, List.append_assoc]⟩

theorem memberAt_same (C : Crc32) {z z2 : Zip} (file : FileRecord) (hz : z2.zip64 = z.zip64)
    (hout : z2.output = z.output) (h : z.MemberAt C file) : z2.MemberAt C file := by
  unfold Zip.MemberAt at *
  rw [hz, hout]
  exact h

theorem sink_is_last (C : Crc32) (s : Session) (hinv : s.Inv C) (i : Nat) (hi : i ∈ s.sinks) :
    i + 1 = s.zip.fileRecord.length := by
  obtain ⟨file, hget, hdone⟩ := hinv.2.1 i hi
  have hlt : i < s.zip.fileRecord.length := by
    by_contra hc
    rw [List.getElem?_eq_none (by omega)] at hget
    cases hget
  by_contra hne
  have := hinv.2.2.2 i file hget (by omega)
  rw [hdone] at this
  cases this

theorem no_sink_of_last_done (C : Crc32) (s : Session) (hinv : s.Inv C)
    (hlast : ∀ lastFile, s.zip.fileRecord.getLast? = some lastFile → lastFile.done = true)
    (i : Nat) (hi : i ∈ s.sinks) : False := by
  obtain ⟨file, hget, hdone⟩ := hinv.2.1 i hi
  have hl := sink_is_last C s hinv i hi
  have : s.zip.fileRecord.getLast? = some file := by
    rw [List.getLast?_eq_getElem?, ← hl]
    exact hget
  have := hlast file this
  rw [hdone] at this
  cases this

theorem session_inv_new (C : Crc32) (total : Nat) (zip64 : Option Bool) :
    (Session.new total zip64).Inv C := by
  refine ⟨rfl, ?_, ?_, oneOpenMember_new total zip64⟩
  · intro i hi
    simp [Session.new] at hi
  · intro i file h
    simp [Session.new, Zip.new] at h

theorem session_inv_of_same (C : Crc32) (s : Session) (z2 : Zip) (hinv : s.Inv C)
    (hz : z2.zip64 = s.zip.zip64) (hrec : z2.fileRecord = s.zip.fileRecord)
    (hcnt : z2.byteCounterBig = s.zip.byteCounterBig) (hout : z2.output = s.zip.output) :
    (Session.mk z2 s.sinks).Inv C := by
  obtain ⟨h1, h2, h3, h4⟩ := hinv
  refine ⟨?_, ?_, ?_, oneOpenMember_of_fileRecord hrec h4⟩
  · show z2.byteCounterBig = z2.output.length
    rw [hcnt, hout]
    exact h1
  · intro i hi
    show ∃ file, z2.fileRecord[i]? = some file ∧ _
    rw [hrec]
    exact h2 i hi
  · intro i file hget hor
    show z2.MemberAt C file
    have hget2 : z2.fileRecord[i]? = some file := hget
    rw [hrec] at hget2
    exact memberAt_same C file hz hout (h3 i file hget2 hor)

theorem session_inv_of_appended (C : Crc32) (s : Session) (z2 : Zip) (hinv : s.Inv C)
    (hz : z2.zip64 = s.zip.zip64) (hrec : z2.fileRecord = s.zip.fileRecord)
    (happ : s.zip.Appends z2)
    (hlast : ∀ lastFile, s.zip.fileRecord.getLast? = some lastFile → lastFile.done = true) :
    (Session.mk z2 s.sinks).Inv C := by
  obtain ⟨bytes, hout, hcnt⟩ := happ
  have hno := no_sink_of_last_done C s hinv hlast
  obtain ⟨h1, h2, h3, h4⟩ := hinv
  refine ⟨?_, ?_, ?_, oneOpenMember_of_fileRecord hrec h4⟩
  · show z2.byteCounterBig = z2.output.length
    rw [hcnt, hout, h1, List.length_append]
  · intro i hi
    exact (hno i hi).elim
  · intro i file hget hor
    show z2.MemberAt C file
    have hget2 : z2.fileRecord[i]? = some file := hget
    rw [hrec] at hget2
    rcases hor with hd | hi
    · exact memberAt_mono C file hz bytes hout hd (h3 i file hget2 (Or.inl hd))
    · exact (hno i hi).elim

theorem session_inv_startFile (C : Crc32) (s : Session) (fileName : JSString) (date : JSDate)
    (hinv : s.Inv C) : (s.step C (.startFile fileName date)).Inv C := by
  have hshape := startFile_shape s.zip fileName date
  have hz64 : (s.zip.startFile fileName date).1.zip64 = s.zip.zip64 :=
    step_zip64 C s.zip (.startFile fileName date)
  have hone : ((s.zip.startFile fileName date).1).OneOpenMember :=
    oneOpenMember_step C s.zip (.startFile fileName date) hinv.2.2.2
  show (match s.zip.startFile fileName date with
    | (z, .ok idx) => (⟨z, s.sinks ++ [idx]⟩ : Session)
    | (z, .error _) => ⟨z, s.sinks⟩).Inv C
  cases hst : s.zip.startFile fileName date with
  | mk z1 res =>
    rw [hst] at hshape hz64 hone
    simp only at hshape hz64 hone
    obtain ⟨h1, h2, h3, h4⟩ := hinv
    rcases hshape with ⟨hrec, hcnt, hout, e, he⟩ | ⟨-, hlast, hrec, hcase⟩
    · subst he
      exact session_inv_of_same C s z1 ⟨h1, h2, h3, h4⟩ hz64 hrec hcnt hout
    · have hno := no_sink_of_last_done C s ⟨h1, h2, h3, h4⟩ hlast
      rcases hcase with ⟨hcnt, hout, e, he⟩ | ⟨header, hcb, hout, hcnt, he⟩
      · subst he
        refine ⟨?_, ?_, ?_, hone⟩
        · show z1.byteCounterBig = z1.output.length
          rw [hcnt, hout]
          exact h1
        · intro i hi
          exact (hno i hi).elim
        · intro i file hget hor
          show z1.MemberAt C file
          have hget2 : z1.fileRecord[i]? = some file := hget
          rw [hrec] at hget2
          rcases hor with hd | hi
          · by_cases hil : i < s.zip.fileRecord.length
            · rw [List.getElem?_append_left hil] at hget2
              exact memberAt_same C file hz64 hout (h3 i file hget2 (Or.inl hd))
            · rw [List.getElem?_append_right (by omega)] at hget2
              have hfile : file = ⟨fileName, 0, [], false, date, s.zip.byteCounterBig⟩ := by
                cases hk : i - s.zip.fileRecord.length with
                | zero =>
                  rw [hk] at hget2
                  simp at hget2
                  exact hget2.symm
                | succ k =>
                  rw [hk] at hget2
                  simp at hget2
              rw [hfile] at hd
              cases hd
          · exact (hno i hi).elim
      · subst he
        obtain ⟨hwf, hbytes⟩ := wellFormed_of_createByteArray_ok _ header hcb
        rw [localFileHeader_encode] at hbytes
        refine ⟨?_, ?_, ?_, hone⟩
        · show z1.byteCounterBig = z1.output.length
          rw [hcnt, hout, h1, List.length_append]
        · intro i hi
          show ∃ file, z1.fileRecord[i]? = some file ∧ _
          rcases List.mem_append.1 hi with hi | hi
          · exact (hno i hi).elim
          · rw [List.mem_singleton] at hi
            subst hi
            refine ⟨⟨fileName, 0, [], false, date, s.zip.byteCounterBig⟩, ?_, rfl⟩
            rw [hrec, List.getElem?_append_right (le_refl _)]
            simp
        · intro i file hget hor
          show z1.MemberAt C file
          have hget2 : z1.fileRecord[i]? = some file := hget
          rw [hrec] at hget2
          by_cases hil : i < s.zip.fileRecord.length
          · rw [List.getElem?_append_left hil] at hget2
            have hd : file.done = true := by
              rcases hor with hd | hi
              · exact hd
              · rcases List.mem_append.1 hi with hi | hi
                · exact (hno i hi).elim
                · rw [List.mem_singleton] at hi
                  omega
            exact memberAt_mono C file hz64 header hout hd (h3 i file hget2 (Or.inl hd))
          · rw [List.getElem?_append_right (by omega)] at hget2
            have hfile : file = ⟨fileName, 0, [], false, date, s.zip.byteCounterBig⟩ := by
              cases hk : i - s.zip.fileRecord.length with
              | zero =>
                rw [hk] at hget2
                simp at hget2
                exact hget2.symm
              | succ k =>
                rw [hk] at hget2
                simp at hget2
            subst hfile
            refine ⟨by rw [hz64]; exact headerFits_of_wellFormed s.zip fileName date hwf,
              s.zip.output, [], ?_, h1.symm, fun _ => rfl, fun hd => by cases hd⟩
            rw [hout, hbytes, hz64]
            simp [FileRecord.localHeader]

theorem session_inv_write (C : Crc32) (s : Session) (idx : Nat) (chunk : Bytes)
    (callback : Nat) (pushResult : Bool) (hinv : s.Inv C) :
    (s.step C (.write idx chunk callback pushResult)).Inv C := by
  show (if idx ∈ s.sinks then
    (⟨s.zip.sinkWrite idx chunk callback pushResult, s.sinks⟩ : Session) else s).Inv C
  by_cases hm : idx ∈ s.sinks
  · rw [if_pos hm]
    have hz64 : (s.zip.sinkWrite idx chunk callback pushResult).zip64 = s.zip.zip64 :=
      step_zip64 C s.zip (.write idx chunk callback pushResult)
    have hone : (s.zip.sinkWrite idx chunk callback pushResult).OneOpenMember :=
      oneOpenMember_step C s.zip (.write idx chunk callback pushResult) hinv.2.2.2
    have hlastidx := sink_is_last C s hinv
    obtain ⟨h1, h2, h3, h4⟩ := hinv
    obtain ⟨file0, hget0, hdone0⟩ := h2 idx hm
    obtain ⟨hout, hcnt, hrec, -⟩ := sinkWrite_of_record s.zip idx file0 chunk callback pushResult
      hget0
    refine ⟨?_, ?_, ?_, hone⟩
    · show (s.zip.sinkWrite idx chunk callback pushResult).byteCounterBig = _
      rw [hcnt, hout, h1, List.length_append]
    · intro i hi
      show ∃ file, (s.zip.sinkWrite idx chunk callback pushResult).fileRecord[i]? = some file ∧ _
      obtain ⟨fi, hgi, hdi⟩ := h2 i hi
      rw [hrec, getElem?_modifyAt]
      split
      · rw [hgi]
        exact ⟨_, rfl, hdi⟩
      · exact ⟨fi, hgi, hdi⟩
    · intro i file hget hor
      show (s.zip.sinkWrite idx chunk callback pushResult).MemberAt C file
      have hget2 : (s.zip.sinkWrite idx chunk callback pushResult).fileRecord[i]? = some file :=
        hget
      rw [hrec, getElem?_modifyAt] at hget2
      by_cases hii : i = idx
      · subst hii
        rw [if_pos rfl, hget0] at hget2
        simp only [Option.map_some', Option.some.injEq] at hget2
        subst hget2
        obtain ⟨hfits, pre, post, ho, hpre, hopen, -⟩ := h3 i file0 hget0 (Or.inr hm)
        have hpost := hopen hdone0
        subst hpost
        refine ⟨by rw [hz64]; exact hfits, pre, [], ?_, hpre, fun _ => rfl, ?_⟩
        · rw [hout, ho, hz64]
          simp [FileRecord.localHeader]
        · intro hd
          rw [hdone0] at hd
          cases hd
      · rw [if_neg hii] at hget2
        have hd : file.done = true := by
          rcases hor with hd | hi
          · exact hd
          · have := hlastidx i hi
            have := hlastidx idx hm
            omega
        exact memberAt_mono C file hz64 chunk hout hd (h3 i file hget2 (Or.inl hd))
  · rw [if_neg hm]
    exact hinv

theorem session_inv_final (C : Crc32) (s : Session) (idx : Nat) (callback : Nat)
    (hinv : s.Inv C) : (s.step C (.final idx callback)).Inv C := by
  show (if idx ∈ s.sinks then
    (⟨s.zip.sinkFinal C idx callback, s.sinks.filter (fun i => i != idx)⟩ : Session)
    else s).Inv C
  by_cases hm : idx ∈ s.sinks
  · rw [if_pos hm]
    have hz64 : (s.zip.sinkFinal C idx callback).zip64 = s.zip.zip64 :=
      step_zip64 C s.zip (.final idx callback)
    have hone : (s.zip.sinkFinal C idx callback).OneOpenMember :=
      oneOpenMember_step C s.zip (.final idx callback) hinv.2.2.2
    have hlastidx := sink_is_last C s hinv
    obtain ⟨h1, h2, h3, h4⟩ := hinv
    obtain ⟨file0, hget0, hdone0⟩ := h2 idx hm
    have hfilter : ∀ i, i ∈ s.sinks.filter (fun i => i != idx) → False := by
      intro i hi
      rw [List.mem_filter] at hi
      have := hlastidx i hi.1
      have := hlastidx idx hm
      have hne : i ≠ idx := by simpa using hi.2
      omega
    rcases sinkFinal_shape C s.zip idx callback with ⟨hnone, -⟩ | ⟨file, hget, hcase⟩
    · rw [hget0] at hnone
      cases hnone
    · rw [hget0] at hget
      cases hget
      rcases hcase with ⟨-, hrec, hout, hcnt, -⟩ | ⟨dd, hcb, hrec, hout, hcnt, -⟩
      · refine ⟨?_, ?_, ?_, hone⟩
        · show (s.zip.sinkFinal C idx callback).byteCounterBig = _
          rw [hcnt, hout]
          exact h1
        · intro i hi
          exact (hfilter i hi).elim
        · intro i file hget hor
          show (s.zip.sinkFinal C idx callback).MemberAt C file
          have hget2 : (s.zip.sinkFinal C idx callback).fileRecord[i]? = some file := hget
          rw [hrec] at hget2
          rcases hor with hd | hi
          · exact memberAt_same C file hz64 hout (h3 i file hget2 (Or.inl hd))
          · exact (hfilter i hi).elim
      · obtain ⟨hwf, hbytes⟩ := wellFormed_of_createByteArray_ok _ dd hcb
        rw [dataDescriptor_encode] at hbytes
        have hsize : file0.sizeBig < (if s.zip.zip64 then 2 ^ 64 else 2 ^ 32) := by
          have hw := hwf (.int file0.sizeBig (if s.zip.zip64 then 8 else 4))
            (by simp [Zip.dataDescriptorFields])
          rw [wellFormed_int_iff] at hw
          have h2 := hw.2.2
          cases hz : s.zip.zip64 <;> rw [hz] at h2 <;>
            simp only [if_true, if_false, Bool.false_eq_true] at h2 ⊢ <;>
            norm_num at h2 ⊢ <;> omega
        refine ⟨?_, ?_, ?_, hone⟩
        · show (s.zip.sinkFinal C idx callback).byteCounterBig = _
          rw [hcnt, hout, h1, List.length_append]
        · intro i hi
          exact (hfilter i hi).elim
        · intro i file hget hor
          show (s.zip.sinkFinal C idx callback).MemberAt C file
          have hget2 : (s.zip.sinkFinal C idx callback).fileRecord[i]? = some file := hget
          rw [hrec, getElem?_modifyAt] at hget2
          by_cases hii : i = idx
          · subst hii
            rw [if_pos rfl, hget0] at hget2
            simp only [Option.map_some', Option.some.injEq] at hget2
            subst hget2
            obtain ⟨hfits, pre, post, ho, hpre, hopen, -⟩ := h3 i file0 hget0 (Or.inr hm)
            have hpost := hopen hdone0
            subst hpost
            refine ⟨by rw [hz64]; exact hfits, pre, dd, ?_, hpre, ?_, ?_⟩
            · rw [hout, ho, hz64]
              simp [FileRecord.localHeader]
            · intro hd
              cases hd
            · intro _
              rw [hz64]
              exact ⟨hsize, [], by rw [hbytes, List.append_nil]⟩
          · rw [if_neg hii] at hget2
            have hd : file.done = true := by
              rcases hor with hd | hi
              · exact hd
              · exact (hfilter i hi).elim
            exact memberAt_mono C file hz64 dd hout hd (h3 i file hget2 (Or.inl hd))
  · rw [if_neg hm]
    exact hinv

theorem session_inv_step (C : Crc32) (s : Session) (e : Event) (hinv : s.Inv C) :
    (s.step C e).Inv C := by
  cases e with
  | startFile fileName date => exact session_inv_startFile C s fileName date hinv
  | write idx chunk callback pushResult =>
    exact session_inv_write C s idx chunk callback pushResult hinv
  | final idx callback => exact session_inv_final C s idx callback hinv
  | finish =>
    show (Session.mk (s.zip.finish C).1 s.sinks).Inv C
    rcases finish_shape C s.zip with ⟨hs, -⟩ | ⟨-, -, hlast, happ, hz, hrec⟩
    · exact session_inv_of_same C s _ hinv hs.2.1 hs.2.2.1 hs.2.2.2.2.1 hs.2.2.2.2.2.1
    · exact session_inv_of_appended C s _ hinv hz hrec happ hlast
  | destroy err =>
    have hs := destroy_same s.zip err
    exact session_inv_of_same C s _ hinv hs.2.1 hs.2.2.1 hs.2.2.2.2.1 hs.2.2.2.2.2.1
  | read =>
    have hs := read_same s.zip
    exact session_inv_of_same C s _ hinv hs.2.1 hs.2.2.1 hs.2.2.2.2.1 hs.2.2.2.2.2.1

theorem session_inv_run (C : Crc32) (events : List Event) (s : Session) (hinv : s.Inv C) :
    (s.run C events).Inv C := by
  induction events generalizing s with
  | nil => exact hinv
  | cons e es ih => exact ih _ (session_inv_step C s e hinv)

theorem session_inv_of_reachable (C : Crc32) (s : Session) (h : s.Reachable C) : s.Inv C := by
  obtain ⟨total, zip64, events, rfl⟩ := h
  exact session_inv_run C events _ (session_inv_new C total zip64)

/-! ## The bytes of `finish` -/

theorem centralHeader_wellFormed (C : Crc32) (z : Zip) (file : FileRecord)
    (hfits : file.Encodable z.zip64) :
    ∀ e ∈ z.centralDirectoryHeaderFields C file, e.WellFormed := by
  obtain ⟨⟨hname, ht, hd, -⟩, hsize, hoff⟩ := hfits
  have hc := C.get_lt file.crc
  simp only [Zip.centralDirectoryHeaderFields, Zip.getZip64ExtraField]
  cases hz : z.zip64 <;> rw [hz] at hsize hoff <;>
    simp only [if_true, if_false, Bool.false_eq_true, List.cons_append, List.nil_append,
      List.append_nil, List.forall_mem_cons, List.not_mem_nil, false_implies, implies_true,
      and_true, wellFormed_int_iff, wellFormed_buf] at hsize hoff ⊢ <;>
    norm_num at hsize hoff hc ⊢ <;> omega

theorem centralHeader_encode (C : Crc32) (z : Zip) (file : FileRecord) :
    (z.centralDirectoryHeaderFields C file).flatMap Entry.encode
      = file.centralHeader C z.zip64 := by
  cases hz : z.zip64 <;>
    simp [Zip.centralDirectoryHeaderFields, Zip.getZip64ExtraField, FileRecord.centralHeader,
      specZip64Extra, Entry.encode, List.flatMap_cons, hz]

theorem centralHeader_length (C : Crc32) (zip64 : Bool) (file : FileRecord) :
    (file.centralHeader C zip64).length
      = 46 + (bufferFromUtf8 file.name).length + (if zip64 then 32 else 0) := by
  cases zip64 <;> simp [FileRecord.centralHeader, specZip64Extra, leBytes_length] <;> omega

theorem writeCentralDirectory_bytes (C : Crc32) (files : List FileRecord) (z : Zip) (cds : Nat)
    (hfits : ∀ file ∈ files, file.Encodable z.zip64) :
    Zip.writeCentralDirectory C files z cds
      = ({ z with
            output := z.output ++ specCentralDirectory C z.zip64 files
            byteCounterBig := z.byteCounterBig + (specCentralDirectory C z.zip64 files).length },
          .ok (cds + (specCentralDirectory C z.zip64 files).length)) := by
  induction files generalizing z cds with
  | nil => simp [Zip.writeCentralDirectory, specCentralDirectory]
  | cons file rest ih =>
    have hwf := centralHeader_wellFormed C z file (hfits file (List.mem_cons_self _ _))
    have hcb := createByteArray_of_wellFormed _ hwf
    rw [centralHeader_encode] at hcb
    rw [Zip.writeCentralDirectory, hcb]
    simp only
    rw [ih]
    · simp only [Zip.push, specCentralDirectory, List.map_cons, List.flatten_cons,
        List.length_append, List.append_assoc, Nat.add_assoc]
    · exact fun f hf => hfits f (List.mem_cons_of_mem _ hf)

theorem zip64End_encode (z : Zip) (cds start : Nat) :
    (z.zip64EndOfCentralDirectoryRecordFields cds start).flatMap Entry.encode
      = specZip64EndRecord z.fileRecord.length cds start := by
  simp [Zip.zip64EndOfCentralDirectoryRecordFields, specZip64EndRecord, Entry.encode,
    List.flatMap_cons]

theorem zip64Locator_encode (recordStart : Nat) :
    (Zip.zip64EndOfCentralDirectoryLocatorFields recordStart).flatMap Entry.encode
      = specZip64Locator recordStart := by
  simp [Zip.zip64EndOfCentralDirectoryLocatorFields, specZip64Locator, Entry.encode,
    List.flatMap_cons]

theorem endRecord_encode (z : Zip) (cds start : Nat) :
    (z.endOfCentralDirectoryRecordFields cds start).flatMap Entry.encode
      = specEndRecord z.zip64 z.fileRecord.length cds start := by
  cases hz : z.zip64 <;>
    simp [Zip.endOfCentralDirectoryRecordFields, specEndRecord, Entry.encode,
      List.flatMap_cons, hz]

theorem specZip64EndRecord_length (count cds start : Nat) :
    (specZip64EndRecord count cds start).length = 56 := by
  simp [specZip64EndRecord, leBytes_length]

theorem specZip64Locator_length (recordStart : Nat) :
    (specZip64Locator recordStart).length = 20 := by
  simp [specZip64Locator, leBytes_length]

theorem specEndRecord_length (zip64 : Bool) (count cds start : Nat) :
    (specEndRecord zip64 count cds start).length = 22 := by
  simp [specEndRecord, leBytes_length]

theorem writeZip64End_bytes (z : Zip) (cds start : Nat)
    (hcount : z.zip64 = true → z.fileRecord.length < 2 ^ 64)
    (hcds : z.zip64 = true → cds < 2 ^ 64) (hstart : z.zip64 = true → start < 2 ^ 64)
    (hcnt : z.zip64 = true → z.byteCounterBig < 2 ^ 64) :
    z.writeZip64End cds start
      = ({ z with
            output := z.output ++ (if z.zip64 then
              specZip64EndRecord z.fileRecord.length cds start
                ++ specZip64Locator z.byteCounterBig else [])
            byteCounterBig := z.byteCounterBig + (if z.zip64 then 76 else 0) }, .ok ()) := by
  unfold Zip.writeZip64End
  by_cases hz : z.zip64 = true
  · have h1 := hcount hz
    have h2 := hcds hz
    have h3 := hstart hz
    have h4 := hcnt hz
    have hwf1 : ∀ e ∈ z.zip64EndOfCentralDirectoryRecordFields cds start, e.WellFormed := by
      simp only [Zip.zip64EndOfCentralDirectoryRecordFields, List.forall_mem_cons,
        List.not_mem_nil, false_implies, implies_true, and_true, wellFormed_int_iff]
      norm_num at h1 h2 h3 ⊢
      omega
    have hwf2 : ∀ e ∈ Zip.zip64EndOfCentralDirectoryLocatorFields z.byteCounterBig,
        e.WellFormed := by
      simp only [Zip.zip64EndOfCentralDirectoryLocatorFields, List.forall_mem_cons,
        List.not_mem_nil, false_implies, implies_true, and_true, wellFormed_int_iff]
      norm_num at h4 ⊢
      omega
    have hcb1 := createByteArray_of_wellFormed _ hwf1
    have hcb2 := createByteArray_of_wellFormed _ hwf2
    rw [zip64End_encode] at hcb1
    rw [zip64Locator_encode] at hcb2
    rw [if_pos hz, if_pos hz, if_pos hz]
    simp only [hcb1, hcb2, Zip.push, List.length_append, List.append_assoc, Nat.add_assoc,
      specZip64EndRecord_length, specZip64Locator_length]
  · rw [if_neg hz, if_neg hz, if_neg hz]
    simp

theorem specTrailer_length (C : Crc32) (zip64 : Bool) (files : List FileRecord) (cdStart : Nat) :
    (specTrailer C zip64 files cdStart).length
      = (specCentralDirectory C zip64 files).length + (if zip64 then 76 else 0) + 22 := by
  cases zip64 <;>
    simp [specTrailer, specZip64EndRecord_length, specZip64Locator_length, specEndRecord_length]

theorem finish_fields_bytes (C : Crc32) (z : Zip) (hfin : z.finished = false)
    (hdest : z.destroyed = false)
    (hlast : ∀ lastFile, z.fileRecord.getLast? = some lastFile → lastFile.done = true)
    (hfits : ∀ file ∈ z.fileRecord, file.Encodable z.zip64)
    (hcount : z.fileRecord.length < (if z.zip64 then 2 ^ 64 else 65536))
    (hstart : z.zip64 = false → z.byteCounterBig < 2 ^ 32)
    (hsize : z.zip64 = false → (specCentralDirectory C z.zip64 z.fileRecord).length < 2 ^ 32)
    (hb64 : z.zip64 = true → z.byteCounterBig
      + (specCentralDirectory C z.zip64 z.fileRecord).length < 2 ^ 64) :
    z.finish C
      = ({ z with
            output := z.output ++ specTrailer C z.zip64 z.fileRecord z.byteCounterBig
            byteCounterBig := z.byteCounterBig
              + (specTrailer C z.zip64 z.fileRecord z.byteCounterBig).length
            ended := true
            finished := true }, .ok ()) := by
  have hc1 : z.zip64 = true → z.fileRecord.length < 2 ^ 64 := fun h => by
    rw [h] at hcount; exact hcount
  have hc2 : z.zip64 = false → z.fileRecord.length < 65536 := fun h => by
    rw [h] at hcount; exact hcount
  have h1 := writeCentralDirectory_bytes C z.fileRecord z 0 hfits
  have h2 := writeZip64End_bytes
    { z with
      output := z.output ++ specCentralDirectory C z.zip64 z.fileRecord
      byteCounterBig := z.byteCounterBig + (specCentralDirectory C z.zip64 z.fileRecord).length }
    (0 + (specCentralDirectory C z.zip64 z.fileRecord).length) z.byteCounterBig
    (fun h => hc1 h)
    (fun h => by have := hb64 h; omega)
    (fun h => by have := hb64 h; omega)
    (fun h => hb64 h)
  have hwf3 := endOfCentralDirectoryRecordFields_wellFormed z
    (0 + (specCentralDirectory C z.zip64 z.fileRecord).length) z.byteCounterBig
    (fun h => hc2 h)
    (fun h => by have := hsize h; omega)
    (fun h => hstart h)
  have hcb3 := createByteArray_of_wellFormed _ hwf3
  rw [endRecord_encode] at hcb3
  have hcongr : ∀ z2 : Zip, z2.zip64 = z.zip64 → z2.fileRecord = z.fileRecord →
      createByteArray (z2.endOfCentralDirectoryRecordFields
          (0 + (specCentralDirectory C z.zip64 z.fileRecord).length) z.byteCounterBig)
        = .ok (specEndRecord z.zip64 z.fileRecord.length
            (0 + (specCentralDirectory C z.zip64 z.fileRecord).length) z.byteCounterBig) := by
    intro z2 hz hr
    rw [← hcb3]
    simp only [Zip.endOfCentralDirectoryRecordFields, hz, hr]
  have hlen := specTrailer_length C z.zip64 z.fileRecord z.byteCounterBig
  unfold Zip.finish
  rw [checkNotFinished_of_open z hfin]
  simp only
  rw [checkNotWritingFile_of_done z hlast]
  simp only
  rw [if_neg (by rw [hdest]; simp)]
  simp only [h1, h2]
  rw [hcongr]
  · simp only [Zip.push, List.length_append, List.append_assoc, Nat.add_assoc, hlen,
      specEndRecord_length, specTrailer, Nat.zero_add]
    by_cases hz : z.zip64 = true <;>
      simp [hz, specZip64EndRecord_length, specZip64Locator_length]
  · rfl
  · rfl

theorem finish_bytes (C : Crc32) (z : Zip) (hfin : z.finished = false)
    (hdest : z.destroyed = false)
    (hlast : ∀ lastFile, z.fileRecord.getLast? = some lastFile → lastFile.done = true)
    (hfits : ∀ file ∈ z.fileRecord, file.Encodable z.zip64)
    (hcount : z.fileRecord.length < (if z.zip64 then 2 ^ 64 else 65536))
    (hbound : z.byteCounterBig + (specCentralDirectory C z.zip64 z.fileRecord).length
      < (if z.zip64 then 2 ^ 64 else 2 ^ 32)) :
    z.finish C
      = ({ z with
            output := z.output ++ specTrailer C z.zip64 z.fileRecord z.byteCounterBig
            byteCounterBig := z.byteCounterBig
              + (specTrailer C z.zip64 z.fileRecord z.byteCounterBig).length
            ended := true
            finished := true }, .ok ()) := by
  have hb64 : z.zip64 = true → z.byteCounterBig
      + (specCentralDirectory C z.zip64 z.fileRecord).length < 2 ^ 64 :=
    fun h => by rw [if_pos h] at hbound; exact hbound
  have hb32 : z.zip64 = false → z.byteCounterBig
      + (specCentralDirectory C z.zip64 z.fileRecord).length < 2 ^ 32 :=
    fun h => by rw [if_neg (by simp [h])] at hbound; exact hbound
  exact finish_fields_bytes C z hfin hdest hlast hfits hcount
    (fun h => by have := hb32 h; omega) (fun h => by have := hb32 h; omega) hb64

/-! ## The central directory -/

theorem specCentralDirectory_length (C : Crc32) (zip64 : Bool) (files : List FileRecord) :
    (specCentralDirectory C zip64 files).length
      = (files.map (fun file =>
          46 + (bufferFromUtf8 file.name).length + (if zip64 then 32 else 0))).sum := by
  induction files with
  | nil => rfl
  | cons file rest ih =>
    simp only [specCentralDirectory, List.map_cons, List.flatten_cons, List.length_append,
      List.sum_cons, centralHeader_length] at ih ⊢
    rw [ih]

theorem memberAt_bounds (C : Crc32) (z : Zip) (file : FileRecord) (h : z.MemberAt C file) :
    file.headerOffsetBig + (file.localHeader z.zip64).length + file.crc.flatten.length
      ≤ z.output.length := by
  obtain ⟨-, pre, post, ho, hpre, -, -⟩ := h
  rw [ho]
  simp only [List.length_append]
  omega

theorem encodable_of_memberAt (C : Crc32) (z : Zip) (file : FileRecord) (h : z.MemberAt C file)
    (hdone : file.done = true)
    (hbound : z.output.length < (if z.zip64 then 2 ^ 64 else 2 ^ 32)) :
    file.Encodable z.zip64 := by
  have hb := memberAt_bounds C z file h
  obtain ⟨hfits, pre, post, -, -, -, hd⟩ := h
  refine ⟨hfits, (hd hdone).1, ?_⟩
  cases hz : z.zip64
  · rw [hz] at hbound
    simp only [if_false, Bool.false_eq_true] at hbound ⊢
    omega
  · rw [hz] at hbound
    simp only [if_true] at hbound ⊢
    omega

theorem centralHeader_reads (C : Crc32) (zip64 : Bool) (file : FileRecord) (rest : Bytes)
    (hfits : file.Encodable zip64) :
    readLE (file.centralHeader C zip64 ++ rest) 0 4 = 0x02014b50 ∧
    readLE (file.centralHeader C zip64 ++ rest) 16 4 = C.get file.crc ∧
    readLE (file.centralHeader C zip64 ++ rest) 20 4
      = (if zip64 then 0xFFFFFFFF else file.sizeBig) ∧
    readLE (file.centralHeader C zip64 ++ rest) 24 4
      = (if zip64 then 0xFFFFFFFF else file.sizeBig) ∧
    readLE (file.centralHeader C zip64 ++ rest) 28 2 = (bufferFromUtf8 file.name).length ∧
    readLE (file.centralHeader C zip64 ++ rest) 30 2 = (if zip64 then 32 else 0) ∧
    readLE (file.centralHeader C zip64 ++ rest) 32 2 = 0 ∧
    readLE (file.centralHeader C zip64 ++ rest) 42 4
      = (if zip64 then 0xFFFFFFFF else file.headerOffsetBig) ∧
    (file.centralHeader C zip64 ++ rest).drop 46
      = bufferFromUtf8 file.name
        ++ ((if zip64 then specZip64Extra file.sizeBig file.headerOffsetBig else []) ++ rest) := by
  obtain ⟨⟨hname, -, -, -⟩, hsize, hoff⟩ := hfits
  have hc := C.get_lt file.crc
  have e0 : ((file.centralHeader C zip64 ++ rest).drop 0).take 4 = leBytes 4 0x02014b50 := by
    simp [FileRecord.centralHeader, leBytes]
  have e16 : ((file.centralHeader C zip64 ++ rest).drop 16).take 4
      = leBytes 4 (C.get file.crc) := by
    simp [FileRecord.centralHeader, leBytes]
  have e20 : ((file.centralHeader C zip64 ++ rest).drop 20).take 4
      = leBytes 4 (if zip64 then 0xFFFFFFFF else file.sizeBig) := by
    simp [FileRecord.centralHeader, leBytes]
  have e24 : ((file.centralHeader C zip64 ++ rest).drop 24).take 4
      = leBytes 4 (if zip64 then 0xFFFFFFFF else file.sizeBig) := by
    simp [FileRecord.centralHeader, leBytes]
  have e28 : ((file.centralHeader C zip64 ++ rest).drop 28).take 2
      = leBytes 2 (bufferFromUtf8 file.name).length := by
    simp [FileRecord.centralHeader, leBytes]
  have e30 : ((file.centralHeader C zip64 ++ rest).drop 30).take 2
      = leBytes 2 (if zip64 then 32 else 0) := by
    simp [FileRecord.centralHeader, leBytes]
  have e32 : ((file.centralHeader C zip64 ++ rest).drop 32).take 2 = leBytes 2 0 := by
    simp [FileRecord.centralHeader, leBytes]
  have e42 : ((file.centralHeader C zip64 ++ rest).drop 42).take 4
      = leBytes 4 (if zip64 then 0xFFFFFFFF else file.headerOffsetBig) := by
    simp [FileRecord.centralHeader, leBytes]
  unfold readLE
  rw [e0, e16, e20, e24, e28, e30, e32, e42]
  refine ⟨leValue_leBytes 4 _ (by norm_num), leValue_leBytes 4 _ hc, ?_, ?_,
    leValue_leBytes 2 _ (by norm_num; omega), ?_, leValue_leBytes 2 _ (by norm_num), ?_, ?_⟩
  · apply leValue_leBytes
    cases zip64
    · simp only [if_false, Bool.false_eq_true] at hsize ⊢
      norm_num at hsize ⊢
      omega
    · norm_num
  · apply leValue_leBytes
    cases zip64
    · simp only [if_false, Bool.false_eq_true] at hsize ⊢
      norm_num at hsize ⊢
      omega
    · norm_num
  · apply leValue_leBytes
    cases zip64 <;> norm_num
  · apply leValue_leBytes
    cases zip64
    · simp only [if_false, Bool.false_eq_true] at hoff ⊢
      norm_num at hoff ⊢
      omega
    · norm_num
  · simp [FileRecord.centralHeader, leBytes]

theorem endRecord_reads (zip64 : Bool) (count cdSize cdStart : Nat)
    (hcount : zip64 = false → count < 65536) (hsize : zip64 = false → cdSize < 2 ^ 32)
    (hstart : zip64 = false → cdStart < 2 ^ 32) :
    readLE (specEndRecord zip64 count cdSize cdStart) 0 4 = 0x06054b50 ∧
    readLE (specEndRecord zip64 count cdSize cdStart) 8 2 = (if zip64 then 0xFFFF else count) ∧
    readLE (specEndRecord zip64 count cdSize cdStart) 10 2 = (if zip64 then 0xFFFF else count) ∧
    readLE (specEndRecord zip64 count cdSize cdStart) 12 4
      = (if zip64 then 0xFFFFFFFF else cdSize) ∧
    readLE (specEndRecord zip64 count cdSize cdStart) 16 4
      = (if zip64 then 0xFFFFFFFF else cdStart) ∧
    readLE (specEndRecord zip64 count cdSize cdStart) 20 2 = 0 := by
  have e0 : ((specEndRecord zip64 count cdSize cdStart).drop 0).take 4 = leBytes 4 0x06054b50 := by
    simp [specEndRecord, leBytes]
  have e8 : ((specEndRecord zip64 count cdSize cdStart).drop 8).take 2
      = leBytes 2 (if zip64 then 0xFFFF else count) := by
    simp [specEndRecord, leBytes]
  have e10 : ((specEndRecord zip64 count cdSize cdStart).drop 10).take 2
      = leBytes 2 (if zip64 then 0xFFFF else count) := by
    simp [specEndRecord, leBytes]
  have e12 : ((specEndRecord zip64 count cdSize cdStart).drop 12).take 4
      = leBytes 4 (if zip64 then 0xFFFFFFFF else cdSize) := by
    simp [specEndRecord, leBytes]
  have e16 : ((specEndRecord zip64 count cdSize cdStart).drop 16).take 4
      = leBytes 4 (if zip64 then 0xFFFFFFFF else cdStart) := by
    simp [specEndRecord, leBytes]
  have e20 : ((specEndRecord zip64 count cdSize cdStart).drop 20).take 2 = leBytes 2 0 := by
    simp [specEndRecord, leBytes]
  unfold readLE
  rw [e0, e8, e10, e12, e16, e20]
  refine ⟨leValue_leBytes 4 _ (by norm_num), ?_, ?_, ?_, ?_, leValue_leBytes 2 _ (by norm_num)⟩
  · apply leValue_leBytes
    cases zip64
    · have := hcount rfl
      simp only [if_false, Bool.false_eq_true]
      norm_num
      omega
    · norm_num
  · apply leValue_leBytes
    cases zip64
    · have := hcount rfl
      simp only [if_false, Bool.false_eq_true]
      norm_num
      omega
    · norm_num
  · apply leValue_leBytes
    cases zip64
    · have := hsize rfl
      simp only [if_false, Bool.false_eq_true]
      norm_num at this ⊢
      omega
    · norm_num
  · apply leValue_leBytes
    cases zip64
    · have := hstart rfl
      simp only [if_false, Bool.false_eq_true]
      norm_num at this ⊢
      omega
    · norm_num

theorem encodable_of_session (C : Crc32) (s : Session) (hinv : s.Inv C)
    (hdone : ∀ file ∈ s.zip.fileRecord, file.done = true)
    (hbound : s.zip.output.length < (if s.zip.zip64 then 2 ^ 64 else 2 ^ 32)) :
    ∀ file ∈ s.zip.fileRecord, s.zip.MemberAt C file ∧ file.Encodable s.zip.zip64 := by
  intro file hmem
  obtain ⟨i, hlt, hget⟩ := List.getElem_of_mem hmem
  have hm := hinv.2.2.1 i file (by rw [List.getElem?_eq_getElem hlt, hget])
    (Or.inl (hdone file hmem))
  exact ⟨hm, encodable_of_memberAt C s.zip file hm (hdone file hmem) hbound⟩

theorem last_done_of_all_done (z : Zip) (hdone : ∀ file ∈ z.fileRecord, file.done = true) :
    ∀ lastFile, z.fileRecord.getLast? = some lastFile → lastFile.done = true :=
  fun lastFile h => hdone lastFile (List.mem_of_getLast?_eq_some h)

theorem finish_standard_ok (C : Crc32) (s : Session) (hreach : s.Reachable C)
    (hmode : s.zip.zip64 = false) (hfin : s.zip.finished = false)
    (hlive : s.zip.destroyed = false)
    (hdone : ∀ file ∈ s.zip.fileRecord, file.done = true)
    (hcount : s.zip.fileRecord.length < 65536)
    (hcursor : s.zip.byteCounterBig < 2 ^ 32)
    (hcd : (s.zip.fileRecord.map (fun file => 46 + (bufferFromUtf8 file.name).length)).sum
      < 2 ^ 32) :
    (s.zip.finish C).2 = .ok () ∧
    (s.zip.finish C).1.output
      = s.zip.output ++ (s.zip.fileRecord.map (FileRecord.centralHeader C false)).flatten
        ++ specEndRecord false s.zip.fileRecord.length
            (s.zip.fileRecord.map (fun file => 46 + (bufferFromUtf8 file.name).length)).sum
            s.zip.output.length ∧
    (∀ file ∈ s.zip.fileRecord,
      (file.centralHeader C false).length = 46 + (bufferFromUtf8 file.name).length ∧
      readLE (file.centralHeader C false) 16 4 = C.get file.crc ∧
      readLE (file.centralHeader C false) 20 4 = file.sizeBig ∧
      readLE (file.centralHeader C false) 24 4 = file.sizeBig ∧
      readLE (file.centralHeader C false) 42 4 = file.headerOffsetBig ∧
      file.sizeBig = (file.crc.map List.length).sum ∧
      ∃ pre post : Bytes, s.zip.output = pre ++ file.localHeader false ++ post ∧
        pre.length = file.headerOffsetBig) ∧
    (specEndRecord false s.zip.fileRecord.length
        (s.zip.fileRecord.map (fun file => 46 + (bufferFromUtf8 file.name).length)).sum
        s.zip.output.length).length = 22 ∧
    readLE (specEndRecord false s.zip.fileRecord.length
        (s.zip.fileRecord.map (fun file => 46 + (bufferFromUtf8 file.name).length)).sum
        s.zip.output.length) 8 2 = s.zip.fileRecord.length ∧
    readLE (specEndRecord false s.zip.fileRecord.length
        (s.zip.fileRecord.map (fun file => 46 + (bufferFromUtf8 file.name).length)).sum
        s.zip.output.length) 10 2 = s.zip.fileRecord.length ∧
    readLE (specEndRecord false s.zip.fileRecord.length
        (s.zip.fileRecord.map (fun file => 46 + (bufferFromUtf8 file.name).length)).sum
        s.zip.output.length) 12 4
      = (s.zip.fileRecord.map (fun file => (file.centralHeader C false).length)).sum ∧
    readLE (specEndRecord false s.zip.fileRecord.length
        (s.zip.fileRecord.map (fun file => 46 + (bufferFromUtf8 file.name).length)).sum
        s.zip.output.length) 16 4 = s.zip.output.length ∧
    s.zip.byteCounterBig = s.zip.output.length ∧
    (s.zip.finish C).1.finished = true ∧ (s.zip.finish C).1.ended = true := by
  have hinv := session_inv_of_reachable C s hreach
  have hcur := hinv.1
  have hsizes := sizesCounted_of_reachable C s.zip (zip_reachable_of_session C s hreach)
  have hlen := specCentralDirectory_length C false s.zip.fileRecord
  simp only [Bool.false_eq_true, if_false, Nat.add_zero] at hlen
  have henc := encodable_of_session C s hinv hdone (by rw [hmode]; simp only [Bool.false_eq_true, if_false]; omega)
  rw [hmode] at henc
  have hfinish := finish_fields_bytes C s.zip hfin hlive (last_done_of_all_done s.zip hdone)
    (by rw [hmode]; exact fun file hm => (henc file hm).2)
    (by rw [hmode]; exact hcount)
    (fun _ => hcursor)
    (fun _ => by rw [hmode, hlen]; exact hcd)
    (fun h => by rw [hmode] at h; cases h)
  rw [hmode] at hfinish
  have htrailer : specTrailer C false s.zip.fileRecord s.zip.byteCounterBig
      = (s.zip.fileRecord.map (FileRecord.centralHeader C false)).flatten
        ++ specEndRecord false s.zip.fileRecord.length
            (s.zip.fileRecord.map (fun file => 46 + (bufferFromUtf8 file.name).length)).sum
            s.zip.output.length := by
    simp only [specTrailer, Bool.false_eq_true, if_false, List.append_nil, hlen, hcur]
    rfl
  rw [htrailer] at hfinish
  have hreads := endRecord_reads false s.zip.fileRecord.length
    (s.zip.fileRecord.map (fun file => 46 + (bufferFromUtf8 file.name).length)).sum
    s.zip.output.length (fun _ => hcount) (fun _ => by omega) (fun _ => by omega)
  simp only [Bool.false_eq_true, if_false] at hreads
  have hsum : (s.zip.fileRecord.map (fun file => (file.centralHeader C false).length)).sum
      = (s.zip.fileRecord.map (fun file => 46 + (bufferFromUtf8 file.name).length)).sum := by
    have hfun : (fun file : FileRecord => (file.centralHeader C false).length)
        = fun file => 46 + (bufferFromUtf8 file.name).length := by
      funext file
      rw [centralHeader_length]
      simp
    rw [hfun]
  rw [hfinish]
  refine ⟨rfl, by simp only [List.append_assoc], ?_, specEndRecord_length _ _ _ _, hreads.2.1,
    hreads.2.2.1, by rw [hsum]; exact hreads.2.2.2.1, hreads.2.2.2.2.1, hcur, rfl, rfl⟩
  intro file hm
  obtain ⟨hmem, hfits⟩ := henc file hm
  have hr := centralHeader_reads C false file [] hfits
  simp only [List.append_nil, Bool.false_eq_true, if_false] at hr
  obtain ⟨-, pre, post, ho, hpre, -, -⟩ := hmem
  refine ⟨by rw [centralHeader_length]; simp, hr.2.1, hr.2.2.1, hr.2.2.2.1,
    hr.2.2.2.2.2.2.2.1, hsizes file hm, pre, file.crc.flatten ++ post, ?_, hpre⟩
  rw [ho, hmode]
  simp only [List.append_assoc]

theorem finish_start_overflow (C : Crc32) (z : Zip) (hmode : z.zip64 = false)
    (hfin : z.finished = false) (hdest : z.destroyed = false)
    (hlast : ∀ lastFile, z.fileRecord.getLast? = some lastFile → lastFile.done = true)
    (hfits : ∀ file ∈ z.fileRecord, file.Encodable z.zip64)
    (hstart : 2 ^ 32 ≤ z.byteCounterBig) :
    ∃ e, z.finish C
      = ({ z with
            output := z.output ++ specCentralDirectory C z.zip64 z.fileRecord
            byteCounterBig := z.byteCounterBig
              + (specCentralDirectory C z.zip64 z.fileRecord).length },
          .error e) := by
  have h1 := writeCentralDirectory_bytes C z.fileRecord z 0 hfits
  have h2 := writeZip64End_bytes
    { z with
      output := z.output ++ specCentralDirectory C z.zip64 z.fileRecord
      byteCounterBig := z.byteCounterBig + (specCentralDirectory C z.zip64 z.fileRecord).length }
    (0 + (specCentralDirectory C z.zip64 z.fileRecord).length) z.byteCounterBig
    (fun h => by rw [hmode] at h; cases h) (fun h => by rw [hmode] at h; cases h)
    (fun h => by rw [hmode] at h; cases h) (fun h => by rw [hmode] at h; cases h)
  have hnw : ¬ (Entry.int z.byteCounterBig 4).WellFormed := by
    rw [wellFormed_int_iff]
    intro hc
    have := hc.2.2
    norm_num at this
    omega
  obtain ⟨e, he⟩ := createByteArray_error_of_not_wellFormed
    (z.endOfCentralDirectoryRecordFields
      (0 + (specCentralDirectory C z.zip64 z.fileRecord).length) z.byteCounterBig)
    (Entry.int z.byteCounterBig 4)
    (by simp [Zip.endOfCentralDirectoryRecordFields, hmode]) hnw
  have hcongr : ∀ z2 : Zip, z2.zip64 = z.zip64 → z2.fileRecord = z.fileRecord →
      createByteArray (z2.endOfCentralDirectoryRecordFields
          (0 + (specCentralDirectory C z.zip64 z.fileRecord).length) z.byteCounterBig)
        = .error e := by
    intro z2 hz hr
    rw [← he]
    simp only [Zip.endOfCentralDirectoryRecordFields, hz, hr]
  have hif : (if z.zip64 = true then (76 : Nat) else 0) = 0 := by rw [hmode]; rfl
  have hif2 : ∀ a b : Bytes, (if z.zip64 = true then a ++ b else []) = [] := by
    intro a b
    rw [hmode]
    rfl
  refine ⟨e, ?_⟩
  unfold Zip.finish
  rw [checkNotFinished_of_open z hfin]
  simp only
  rw [checkNotWritingFile_of_done z hlast]
  simp only
  rw [if_neg (by rw [hdest]; simp)]
  simp only [h1, h2]
  rw [hcongr]
  · simp only [hif, hif2, List.append_nil, Nat.add_zero]
  · rfl
  · rfl

theorem run_singleton (C : Crc32) (z : Zip) (e : Event) : z.run C [e] = z.step C e := rfl

theorem step_final (C : Crc32) (z : Zip) (idx callback : Nat) :
    z.step C (.final idx callback) = z.sinkFinal C idx callback := rfl

/-- Counterexample to C17 as stated: a Standard-mode archive, live and not
finished, whose one member was written 65537 chunks of 65535 bytes (2^32 - 1
bytes, which fits the 4-byte size fields) and ended. The cursor, 2^32 + 42,
does not fit the 4-byte offset field of the end record: `finish()` hands the
47 bytes of the central header to the output and then throws; no end of
central directory record is emitted and the archive is not finished. -/
theorem finish_standard_cursor_overflow :
    ((Zip.new 0 (some false)).run zeroCrc (.startFile [97] exampleDate
      :: (List.replicate 65537 (.write 0 (List.replicate 65535 0) 1 true)
        ++ [.final 0 2]))).zip64 = false ∧
    ((Zip.new 0 (some false)).run zeroCrc (.startFile [97] exampleDate
      :: (List.replicate 65537 (.write 0 (List.replicate 65535 0) 1 true)
        ++ [.final 0 2]))).finished = false ∧
    ((Zip.new 0 (some false)).run zeroCrc (.startFile [97] exampleDate
      :: (List.replicate 65537 (.write 0 (List.replicate 65535 0) 1 true)
        ++ [.final 0 2]))).destroyed = false ∧
    ((Zip.new 0 (some false)).run zeroCrc (.startFile [97] exampleDate
      :: (List.replicate 65537 (.write 0 (List.replicate 65535 0) 1 true)
        ++ [.final 0 2]))).fileRecord.map (fun file => (file.sizeBig, file.done))
      = [(4294967295, true)] ∧
    ((Zip.new 0 (some false)).run zeroCrc (.startFile [97] exampleDate
      :: (List.replicate 65537 (.write 0 (List.replicate 65535 0) 1 true)
        ++ [.final 0 2]))).byteCounterBig = 4294967338 ∧
    (∃ e, (((Zip.new 0 (some false)).run zeroCrc (.startFile [97] exampleDate
      :: (List.replicate 65537 (.write 0 (List.replicate 65535 0) 1 true)
        ++ [.final 0 2]))).finish zeroCrc).2 = .error e) ∧
    (((Zip.new 0 (some false)).run zeroCrc (.startFile [97] exampleDate
      :: (List.replicate 65537 (.write 0 (List.replicate 65535 0) 1 true)
        ++ [.final 0 2]))).finish zeroCrc).1.output.length
      = ((Zip.new 0 (some false)).run zeroCrc (.startFile [97] exampleDate
        :: (List.replicate 65537 (.write 0 (List.replicate 65535 0) 1 true)
          ++ [.final 0 2]))).output.length + 47 ∧
    (((Zip.new 0 (some false)).run zeroCrc (.startFile [97] exampleDate
      :: (List.replicate 65537 (.write 0 (List.replicate 65535 0) 1 true)
        ++ [.final 0 2]))).finish zeroCrc).1.finished = false ∧
    (((Zip.new 0 (some false)).run zeroCrc (.startFile [97] exampleDate
      :: (List.replicate 65537 (.write 0 (List.replicate 65535 0) 1 true)
        ++ [.final 0 2]))).finish zeroCrc).1.ended = false := by
  have hstart : ∃ out, (Zip.new 0 (some false)).step zeroCrc (.startFile [97] exampleDate)
      = runState 0 false ([] ++ [⟨[97], 0, [], false, exampleDate, 0⟩]) 31 out [] :=
    ⟨_, rfl⟩
  obtain ⟨out, hstart⟩ := hstart
  obtain ⟨out2, cs2, crc2, h⟩ := sinkWrite_replicate_runState zeroCrc 0 false []
    (List.replicate 65535 0) 1 65537 ⟨[97], 0, [], false, exampleDate, 0⟩ 31 out []
  rw [List.length_replicate] at h
  have hfinal := sinkFinal_runState zeroCrc 0 false []
    ⟨[97], 0 + 65537 * 65535, crc2, false, exampleDate, 0⟩ (31 + 65537 * 65535) out2 cs2 2
    (by norm_num)
  obtain ⟨out3, hout3⟩ : ∃ out3 : Bytes, out3 = out2
      ++ ((runState 0 false ([] ++ [⟨[97], 0 + 65537 * 65535, crc2, false, exampleDate, 0⟩])
        (31 + 65537 * 65535) out2 cs2).dataDescriptorFields zeroCrc
          ⟨[97], 0 + 65537 * 65535, crc2, false, exampleDate, 0⟩).flatMap Entry.encode :=
    ⟨_, rfl⟩
  rw [← hout3] at hfinal
  have hrun : (Zip.new 0 (some false)).run zeroCrc (.startFile [97] exampleDate
        :: (List.replicate 65537 (.write 0 (List.replicate 65535 0) 1 true) ++ [.final 0 2]))
      = runState 0 false [⟨[97], 4294967295, crc2, true, exampleDate, 0⟩]
          4294967338 out3 (cs2 ++ [(2, none)]) := by
    have h2 : (runState 0 false ([] ++ [⟨[97], 0, [], false, exampleDate, 0⟩]) 31 out []).run
        zeroCrc (List.replicate 65537 (.write 0 (List.replicate 65535 0) 1 true))
        = runState 0 false ([] ++ [⟨[97], 0 + 65537 * 65535, crc2, false, exampleDate, 0⟩])
            (31 + 65537 * 65535) out2 cs2 := h
    have e1 : (0 : Nat) + 65537 * 65535 = 4294967295 := by norm_num
    have e2 : 31 + 65537 * 65535 + dataDescriptorLength false = 4294967338 := by
      norm_num [dataDescriptorLength]
    rw [run_cons, hstart, run_append, h2, run_singleton, step_final]
    rw [List.length_nil] at hfinal
    rw [hfinal, e2]
    simp only [List.nil_append, e1]
  rw [hrun]
  have henc : ∀ file ∈ (runState 0 false [⟨[97], 4294967295, crc2, true, exampleDate, 0⟩]
      4294967338 out3 (cs2 ++ [(2, none)])).fileRecord, file.Encodable false := by
    intro file hm
    have hf : file = ⟨[97], 4294967295, crc2, true, exampleDate, 0⟩ := by
      simpa [runState] using hm
    subst hf
    refine ⟨⟨?_, ⟨?_, ?_⟩, ⟨?_, ?_⟩, fun hc => by cases hc⟩, ?_, ?_⟩
    · show (bufferFromUtf8 [97]).length < 65536
      decide
    · show 0 ≤ getTimeStruct exampleDate
      decide
    · show getTimeStruct exampleDate < 65536
      decide
    · show 0 ≤ getDateStruct exampleDate
      decide
    · show getDateStruct exampleDate < 65536
      decide
    · show 4294967295 < 2 ^ 32
      norm_num
    · show 0 < 2 ^ 32
      norm_num
  obtain ⟨e, he⟩ := finish_start_overflow zeroCrc
    (runState 0 false [⟨[97], 4294967295, crc2, true, exampleDate, 0⟩] 4294967338 out3
      (cs2 ++ [(2, none)])) rfl rfl rfl
    (fun lastFile hl => by
      have : lastFile = ⟨[97], 4294967295, crc2, true, exampleDate, 0⟩ := by
        simpa [runState] using hl.symm
      rw [this])
    henc (by show 2 ^ 32 ≤ 4294967338; norm_num)
  rw [he]
  refine ⟨rfl, rfl, rfl, rfl, rfl, ⟨e, rfl⟩, ?_, rfl, rfl⟩
  show (out3 ++ specCentralDirectory zeroCrc false
    [⟨[97], 4294967295, crc2, true, exampleDate, 0⟩]).length = out3.length + 47
  rw [List.length_append, specCentralDirectory_length]
  rfl

/-! ## The Zip64 trailer -/

theorem zip64Extra_reads (size offset : Nat) (hsize : size < 2 ^ 64) (hoff : offset < 2 ^ 64)
    (rest : Bytes) :
    (specZip64Extra size offset).length = 32 ∧
    readLE (specZip64Extra size offset ++ rest) 0 2 = 0x0001 ∧
    readLE (specZip64Extra size offset ++ rest) 2 2 = 28 ∧
    readLE (specZip64Extra size offset ++ rest) 4 8 = size ∧
    readLE (specZip64Extra size offset ++ rest) 12 8 = size ∧
    readLE (specZip64Extra size offset ++ rest) 20 8 = offset ∧
    readLE (specZip64Extra size offset ++ rest) 28 4 = 0 := by
  have e0 : ((specZip64Extra size offset ++ rest).drop 0).take 2 = leBytes 2 0x0001 := by
    simp [specZip64Extra, leBytes]
  have e2 : ((specZip64Extra size offset ++ rest).drop 2).take 2 = leBytes 2 28 := by
    simp [specZip64Extra, leBytes]
  have e4 : ((specZip64Extra size offset ++ rest).drop 4).take 8 = leBytes 8 size := by
    simp [specZip64Extra, leBytes]
  have e12 : ((specZip64Extra size offset ++ rest).drop 12).take 8 = leBytes 8 size := by
    simp [specZip64Extra, leBytes]
  have e20 : ((specZip64Extra size offset ++ rest).drop 20).take 8 = leBytes 8 offset := by
    simp [specZip64Extra, leBytes]
  have e28 : ((specZip64Extra size offset ++ rest).drop 28).take 4 = leBytes 4 0 := by
    simp [specZip64Extra, leBytes]
  unfold readLE
  rw [e0, e2, e4, e12, e20, e28]
  exact ⟨by simp [specZip64Extra, leBytes_length], leValue_leBytes 2 _ (by norm_num),
    leValue_leBytes 2 _ (by norm_num), leValue_leBytes 8 _ (by norm_num; omega),
    leValue_leBytes 8 _ (by norm_num; omega), leValue_leBytes 8 _ (by norm_num; omega),
    leValue_leBytes 4 _ (by norm_num)⟩

theorem zip64EndRecord_reads (count cdSize cdStart : Nat) (hcount : count < 2 ^ 64)
    (hsize : cdSize < 2 ^ 64) (hstart : cdStart < 2 ^ 64) (rest : Bytes) :
    readLE (specZip64EndRecord count cdSize cdStart ++ rest) 0 4 = 0x06064b50 ∧
    readLE (specZip64EndRecord count cdSize cdStart ++ rest) 4 8 = 44 ∧
    readLE (specZip64EndRecord count cdSize cdStart ++ rest) 24 8 = count ∧
    readLE (specZip64EndRecord count cdSize cdStart ++ rest) 32 8 = count ∧
    readLE (specZip64EndRecord count cdSize cdStart ++ rest) 40 8 = cdSize ∧
    readLE (specZip64EndRecord count cdSize cdStart ++ rest) 48 8 = cdStart := by
  have e0 : ((specZip64EndRecord count cdSize cdStart ++ rest).drop 0).take 4
      = leBytes 4 0x06064b50 := by
    simp [specZip64EndRecord, leBytes]
  have e4 : ((specZip64EndRecord count cdSize cdStart ++ rest).drop 4).take 8
      = leBytes 8 44 := by
    simp [specZip64EndRecord, leBytes]
  have e24 : ((specZip64EndRecord count cdSize cdStart ++ rest).drop 24).take 8
      = leBytes 8 count := by
    simp [specZip64EndRecord, leBytes]
  have e32 : ((specZip64EndRecord count cdSize cdStart ++ rest).drop 32).take 8
      = leBytes 8 count := by
    simp [specZip64EndRecord, leBytes]
  have e40 : ((specZip64EndRecord count cdSize cdStart ++ rest).drop 40).take 8
      = leBytes 8 cdSize := by
    simp [specZip64EndRecord, leBytes]
  have e48 : ((specZip64EndRecord count cdSize cdStart ++ rest).drop 48).take 8
      = leBytes 8 cdStart := by
    simp [specZip64EndRecord, leBytes]
  unfold readLE
  rw [e0, e4, e24, e32, e40, e48]
  exact ⟨leValue_leBytes 4 _ (by norm_num), leValue_leBytes 8 _ (by norm_num),
    leValue_leBytes 8 _ (by norm_num; omega), leValue_leBytes 8 _ (by norm_num; omega),
    leValue_leBytes 8 _ (by norm_num; omega), leValue_leBytes 8 _ (by norm_num; omega)⟩

theorem zip64Locator_reads (recordStart : Nat) (hstart : recordStart < 2 ^ 64) (rest : Bytes) :
    readLE (specZip64Locator recordStart ++ rest) 0 4 = 0x07064b50 ∧
    readLE (specZip64Locator recordStart ++ rest) 4 4 = 0 ∧
    readLE (specZip64Locator recordStart ++ rest) 8 8 = recordStart ∧
    readLE (specZip64Locator recordStart ++ rest) 16 4 = 1 := by
  have e0 : ((specZip64Locator recordStart ++ rest).drop 0).take 4 = leBytes 4 0x07064b50 := by
    simp [specZip64Locator, leBytes]
  have e4 : ((specZip64Locator recordStart ++ rest).drop 4).take 4 = leBytes 4 0 := by
    simp [specZip64Locator, leBytes]
  have e8 : ((specZip64Locator recordStart ++ rest).drop 8).take 8 = leBytes 8 recordStart := by
    simp [specZip64Locator, leBytes]
  have e16 : ((specZip64Locator recordStart ++ rest).drop 16).take 4 = leBytes 4 1 := by
    simp [specZip64Locator, leBytes]
  unfold readLE
  rw [e0, e4, e8, e16]
  exact ⟨leValue_leBytes 4 _ (by norm_num), leValue_leBytes 4 _ (by norm_num),
    leValue_leBytes 8 _ (by norm_num; omega), leValue_leBytes 4 _ (by norm_num)⟩

/-- C18. In Zip64 mode, on a live archive that is not finished, reached by
calls from its construction, with every member ended and the member count and
the cursor plus the size of the central directory below 2^64, `finish()`
returns normally and hands to the output: one central directory header per
record, whose 4-byte size and offset fields are 0xFFFFFFFF and whose last 32
bytes are the ZIP64 extra field (tag 1, size 28) with the record's size twice
and its header offset as 8-byte values, the local file header of the member
starting at that offset of the output; the 56-byte ZIP64 end of central
directory record (record size 44) with the number of records twice, the size
of the central directory and its start, the length of the output before the
call; the 20-byte locator with the position of that record, the length of the
output before the call plus the size of the central directory; and the 22-byte
end of central directory record with counts 0xFFFF and size and offset
0xFFFFFFFF. -/
theorem finish_zip64_directory (C : Crc32) (s : Session) (hreach : s.Reachable C)
    (hmode : s.zip.zip64 = true) (hfin : s.zip.finished = false)
    (hlive : s.zip.destroyed = false)
    (hdone : ∀ file ∈ s.zip.fileRecord, file.done = true)
    (hcount : s.zip.fileRecord.length < 2 ^ 64)
    (hbound : s.zip.byteCounterBig
      + (s.zip.fileRecord.map (fun file => 46 + (bufferFromUtf8 file.name).length + 32)).sum
      < 2 ^ 64) :
    (s.zip.finish C).2 = .ok () ∧
    (s.zip.finish C).1.output
      = s.zip.output ++ (s.zip.fileRecord.map (FileRecord.centralHeader C true)).flatten
        ++ specZip64EndRecord s.zip.fileRecord.length
            (s.zip.fileRecord.map (fun file => 46 + (bufferFromUtf8 file.name).length + 32)).sum
            s.zip.output.length
        ++ specZip64Locator (s.zip.output.length
            + (s.zip.fileRecord.map (fun file => 46 + (bufferFromUtf8 file.name).length + 32)).sum)
        ++ specEndRecord true s.zip.fileRecord.length
            (s.zip.fileRecord.map (fun file => 46 + (bufferFromUtf8 file.name).length + 32)).sum
            s.zip.output.length ∧
    (∀ file ∈ s.zip.fileRecord,
      (file.centralHeader C true).length = 46 + (bufferFromUtf8 file.name).length + 32 ∧
      readLE (file.centralHeader C true) 16 4 = C.get file.crc ∧
      readLE (file.centralHeader C true) 20 4 = 0xFFFFFFFF ∧
      readLE (file.centralHeader C true) 24 4 = 0xFFFFFFFF ∧
      readLE (file.centralHeader C true) 30 2 = 32 ∧
      readLE (file.centralHeader C true) 42 4 = 0xFFFFFFFF ∧
      (file.centralHeader C true).drop (46 + (bufferFromUtf8 file.name).length)
        = specZip64Extra file.sizeBig file.headerOffsetBig ∧
      (specZip64Extra file.sizeBig file.headerOffsetBig).length = 32 ∧
      readLE (specZip64Extra file.sizeBig file.headerOffsetBig) 0 2 = 0x0001 ∧
      readLE (specZip64Extra file.sizeBig file.headerOffsetBig) 2 2 = 28 ∧
      readLE (specZip64Extra file.sizeBig file.headerOffsetBig) 4 8 = file.sizeBig ∧
      readLE (specZip64Extra file.sizeBig file.headerOffsetBig) 12 8 = file.sizeBig ∧
      readLE (specZip64Extra file.sizeBig file.headerOffsetBig) 20 8 = file.headerOffsetBig ∧
      file.sizeBig = (file.crc.map List.length).sum ∧
      ∃ pre post : Bytes, s.zip.output = pre ++ file.localHeader true ++ post ∧
        pre.length = file.headerOffsetBig) ∧
    ((specZip64EndRecord s.zip.fileRecord.length
        (s.zip.fileRecord.map (fun file => 46 + (bufferFromUtf8 file.name).length + 32)).sum
        s.zip.output.length).length = 56 ∧
      readLE (specZip64EndRecord s.zip.fileRecord.length
        (s.zip.fileRecord.map (fun file => 46 + (bufferFromUtf8 file.name).length + 32)).sum
        s.zip.output.length) 4 8 = 44 ∧
      readLE (specZip64EndRecord s.zip.fileRecord.length
        (s.zip.fileRecord.map (fun file => 46 + (bufferFromUtf8 file.name).length + 32)).sum
        s.zip.output.length) 24 8 = s.zip.fileRecord.length ∧
      readLE (specZip64EndRecord s.zip.fileRecord.length
        (s.zip.fileRecord.map (fun file => 46 + (bufferFromUtf8 file.name).length + 32)).sum
        s.zip.output.length) 32 8 = s.zip.fileRecord.length ∧
      readLE (specZip64EndRecord s.zip.fileRecord.length
        (s.zip.fileRecord.map (fun file => 46 + (bufferFromUtf8 file.name).length + 32)).sum
        s.zip.output.length) 40 8
        = (s.zip.fileRecord.map (fun file => (file.centralHeader C true).length)).sum ∧
      readLE (specZip64EndRecord s.zip.fileRecord.length
        (s.zip.fileRecord.map (fun file => 46 + (bufferFromUtf8 file.name).length + 32)).sum
        s.zip.output.length) 48 8 = s.zip.output.length) ∧
    ((specZip64Locator (s.zip.output.length
        + (s.zip.fileRecord.map (fun file => 46 + (bufferFromUtf8 file.name).length + 32)).sum)).length
        = 20 ∧
      readLE (specZip64Locator (s.zip.output.length
        + (s.zip.fileRecord.map (fun file => 46 + (bufferFromUtf8 file.name).length + 32)).sum))
          8 8
        = (s.zip.output
            ++ (s.zip.fileRecord.map (FileRecord.centralHeader C true)).flatten).length) ∧
    ((specEndRecord true s.zip.fileRecord.length
        (s.zip.fileRecord.map (fun file => 46 + (bufferFromUtf8 file.name).length + 32)).sum
        s.zip.output.length).length = 22 ∧
      readLE (specEndRecord true s.zip.fileRecord.length
        (s.zip.fileRecord.map (fun file => 46 + (bufferFromUtf8 file.name).length + 32)).sum
        s.zip.output.length) 8 2 = 0xFFFF ∧
      readLE (specEndRecord true s.zip.fileRecord.length
        (s.zip.fileRecord.map (fun file => 46 + (bufferFromUtf8 file.name).length + 32)).sum
        s.zip.output.length) 10 2 = 0xFFFF ∧
      readLE (specEndRecord true s.zip.fileRecord.length
        (s.zip.fileRecord.map (fun file => 46 + (bufferFromUtf8 file.name).length + 32)).sum
        s.zip.output.length) 12 4 = 0xFFFFFFFF ∧
      readLE (specEndRecord true s.zip.fileRecord.length
        (s.zip.fileRecord.map (fun file => 46 + (bufferFromUtf8 file.name).length + 32)).sum
        s.zip.output.length) 16 4 = 0xFFFFFFFF) ∧
    s.zip.byteCounterBig = s.zip.output.length ∧
    (s.zip.finish C).1.finished = true ∧ (s.zip.finish C).1.ended = true := by
  have hinv := session_inv_of_reachable C s hreach
  have hcur := hinv.1
  have hsizes := sizesCounted_of_reachable C s.zip (zip_reachable_of_session C s hreach)
  have hlen := specCentralDirectory_length C true s.zip.fileRecord
  simp only [if_true] at hlen
  have henc := encodable_of_session C s hinv hdone
    (by rw [hmode]; simp only [if_true]; omega)
  rw [hmode] at henc
  have hfinish := finish_bytes C s.zip hfin hlive (last_done_of_all_done s.zip hdone)
    (by rw [hmode]; exact fun file hm => (henc file hm).2)
    (by rw [hmode]; exact hcount)
    (by rw [hmode, hlen]; exact hbound)
  rw [hmode] at hfinish
  have htrailer : specTrailer C true s.zip.fileRecord s.zip.byteCounterBig
      = (s.zip.fileRecord.map (FileRecord.centralHeader C true)).flatten
        ++ (specZip64EndRecord s.zip.fileRecord.length
            (s.zip.fileRecord.map (fun file => 46 + (bufferFromUtf8 file.name).length + 32)).sum
            s.zip.output.length
        ++ specZip64Locator (s.zip.output.length
            + (s.zip.fileRecord.map (fun file => 46 + (bufferFromUtf8 file.name).length + 32)).sum))
        ++ specEndRecord true s.zip.fileRecord.length
            (s.zip.fileRecord.map (fun file => 46 + (bufferFromUtf8 file.name).length + 32)).sum
            s.zip.output.length := by
    simp only [specTrailer, if_true, hlen, hcur]
    rfl
  rw [htrailer] at hfinish
  have hr64 := zip64EndRecord_reads s.zip.fileRecord.length
    (s.zip.fileRecord.map (fun file => 46 + (bufferFromUtf8 file.name).length + 32)).sum
    s.zip.output.length hcount (by omega) (by omega) []
  have hrl := zip64Locator_reads (s.zip.output.length
    + (s.zip.fileRecord.map (fun file => 46 + (bufferFromUtf8 file.name).length + 32)).sum)
    (by omega) []
  have hre := endRecord_reads true s.zip.fileRecord.length
    (s.zip.fileRecord.map (fun file => 46 + (bufferFromUtf8 file.name).length + 32)).sum
    s.zip.output.length (fun h => by cases h) (fun h => by cases h) (fun h => by cases h)
  simp only [List.append_nil] at hr64 hrl
  simp only [if_true] at hre
  have hfun : (fun file : FileRecord => (file.centralHeader C true).length)
      = fun file => 46 + (bufferFromUtf8 file.name).length + 32 := by
    funext file
    rw [centralHeader_length]
    simp
  have hcdlen : ((s.zip.fileRecord.map (FileRecord.centralHeader C true)).flatten).length
      = (s.zip.fileRecord.map (fun file => 46 + (bufferFromUtf8 file.name).length + 32)).sum :=
    hlen
  rw [hfinish]
  refine ⟨rfl, by simp only [List.append_assoc], ?_,
    ⟨specZip64EndRecord_length _ _ _, hr64.2.1, hr64.2.2.1, hr64.2.2.2.1,
      by rw [hfun]; exact hr64.2.2.2.2.1, hr64.2.2.2.2.2⟩,
    ⟨specZip64Locator_length _, by rw [hrl.2.2.1, List.length_append, hcdlen]⟩,
    ⟨specEndRecord_length _ _ _ _, hre.2.1, hre.2.2.1, hre.2.2.2.1, hre.2.2.2.2.1⟩,
    hcur, rfl, rfl⟩
  intro file hm
  obtain ⟨hmem, hfits⟩ := henc file hm
  have hr := centralHeader_reads C true file [] hfits
  simp only [List.append_nil, if_true] at hr
  have hx := zip64Extra_reads file.sizeBig file.headerOffsetBig
    (by have := hfits.2.1; simpa using this) (by have := hfits.2.2; simpa using this) []
  simp only [List.append_nil] at hx
  obtain ⟨-, pre, post, ho, hpre, -, -⟩ := hmem
  refine ⟨by rw [centralHeader_length]; simp, hr.2.1, hr.2.2.1, hr.2.2.2.1, hr.2.2.2.2.2.1,
    hr.2.2.2.2.2.2.2.1, ?_, hx.1, hx.2.1, hx.2.2.1, hx.2.2.2.1, hx.2.2.2.2.1, hx.2.2.2.2.2.1,
    hsizes file hm, pre, file.crc.flatten ++ post, ?_, hpre⟩
  · have h46 := hr.2.2.2.2.2.2.2.2
    rw [← List.drop_drop, h46, List.drop_left]
  · rw [ho, hmode]
    simp only [List.append_assoc]

/-- Witness of C18: the member `a` with the payload 1, 2, 3, started, written
and ended on a new Zip64 archive; `finish()` then returns normally. -/
theorem finish_zip64_directory_witness :
    ((Session.new 0 (some true)).run zeroCrc
      [.startFile [97] exampleDate, .write 0 [1, 2, 3] 1 true, .final 0 2]).zip.zip64 = true ∧
    ((Session.new 0 (some true)).run zeroCrc
      [.startFile [97] exampleDate, .write 0 [1, 2, 3] 1 true, .final 0 2]).zip.byteCounterBig
      = 86 ∧
    (((Session.new 0 (some true)).run zeroCrc
      [.startFile [97] exampleDate, .write 0 [1, 2, 3] 1 true, .final 0 2]).zip.finish
        zeroCrc).2 = .ok () :=
  ⟨by decide, by decide,
    (finish_zip64_directory zeroCrc _
      ⟨0, some true, [.startFile [97] exampleDate, .write 0 [1, 2, 3] 1 true, .final 0 2], rfl⟩
      (by decide) (by decide) (by decide) (by decide) (by decide) (by decide)).1⟩

/-! ## Offsets, sizes and the cursor -/

theorem offsetsBounded_new (total : Nat) (zip64 : Option Bool) :
    (Zip.new total zip64).OffsetsBounded := by
  intro file h
  simp [Zip.new] at h

theorem offsetsBounded_of_appends {z z2 : Zip} (hrec : z2.fileRecord = z.fileRecord)
    (happ : z.Appends z2) (hi : z.OffsetsBounded) : z2.OffsetsBounded := by
  obtain ⟨bytes, -, hcnt⟩ := happ
  intro file hm
  rw [hrec] at hm
  have := hi file hm
  rw [hcnt]
  omega

theorem offsetsBounded_step (C : Crc32) (z : Zip) (e : Event) (hi : z.OffsetsBounded) :
    (z.step C e).OffsetsBounded := by
  have happ := step_appends C z e
  cases e with
  | startFile fileName date =>
    show ((z.startFile fileName date).1).OffsetsBounded
    rcases startFile_shape z fileName date with ⟨hrec, -⟩ | ⟨-, -, hrec, -⟩
    · exact offsetsBounded_of_appends hrec happ hi
    · obtain ⟨bytes, -, hcnt⟩ := happ
      intro file hm
      have hcnt2 : (z.startFile fileName date).1.byteCounterBig
          = z.byteCounterBig + bytes.length := hcnt
      rw [hrec] at hm
      rw [hcnt2]
      rcases List.mem_append.1 hm with h1 | h1
      · have := hi file h1
        omega
      · rw [List.mem_singleton] at h1
        rw [h1]
        show z.byteCounterBig + 0 ≤ _
        omega
  | write idx chunk callback pushResult =>
    show (z.sinkWrite idx chunk callback pushResult).OffsetsBounded
    rcases sinkWrite_shape z idx chunk callback pushResult with ⟨-, h⟩ | ⟨-, hrec, -, hcnt, -⟩
    · rw [h]; exact hi
    · intro file hm
      rw [hrec] at hm
      rw [hcnt]
      rcases mem_modifyAt _ idx _ file hm with h1 | ⟨y, hy, rfl⟩
      · have := hi file h1
        omega
      · have := hi y hy
        show y.headerOffsetBig + (y.sizeBig + chunk.length) ≤ _
        omega
  | final idx callback =>
    show (z.sinkFinal C idx callback).OffsetsBounded
    have happ2 : z.Appends (z.sinkFinal C idx callback) := happ
    rcases sinkFinal_shape C z idx callback with ⟨-, h⟩ | ⟨file, -, h⟩
    · rw [h]; exact hi
    · rcases h with ⟨-, hrec, -⟩ | ⟨dd, -, hrec, -, hcnt, -⟩
      · exact offsetsBounded_of_appends hrec happ2 hi
      · intro f hm
        rw [hrec] at hm
        rw [hcnt]
        rcases mem_modifyAt _ idx _ f hm with h1 | ⟨y, hy, rfl⟩
        · have := hi f h1
          omega
        · have := hi y hy
          show y.headerOffsetBig + y.sizeBig ≤ _
          omega
  | finish => exact offsetsBounded_of_appends (finish_frame C z).1 happ hi
  | destroy err => exact offsetsBounded_of_appends (destroy_same z err).2.2.1 happ hi
  | read => exact offsetsBounded_of_appends (read_same z).2.2.1 happ hi

theorem offsetsBounded_run (C : Crc32) (events : List Event) (z : Zip) (hi : z.OffsetsBounded) :
    (z.run C events).OffsetsBounded := by
  induction events generalizing z with
  | nil => exact hi
  | cons e es ih => exact ih _ (offsetsBounded_step C z e hi)

theorem run_counter_mono (C : Crc32) (events : List Event) (z : Zip) :
    z.byteCounterBig ≤ (z.run C events).byteCounterBig := by
  obtain ⟨bytes, -, hcnt⟩ := run_appends C events z
  rw [hcnt]
  omega

theorem writeCentralDirectory_counter (C : Crc32) (files : List FileRecord) (z z1 : Zip)
    (cds cds1 : Nat) (h : Zip.writeCentralDirectory C files z cds = (z1, .ok cds1)) :
    z.byteCounterBig + cds1 = z1.byteCounterBig + cds ∧ cds ≤ cds1 := by
  induction files generalizing z cds with
  | nil =>
    simp only [Zip.writeCentralDirectory, Prod.mk.injEq, Except.ok.injEq] at h
    obtain ⟨rfl, rfl⟩ := h
    exact ⟨rfl, le_refl _⟩
  | cons file rest ih =>
    rw [Zip.writeCentralDirectory] at h
    cases hcb : createByteArray (z.centralDirectoryHeaderFields C file) with
    | error e =>
      rw [hcb] at h
      simp at h
    | ok header =>
      rw [hcb] at h
      simp only at h
      obtain ⟨h1, h2⟩ := ih _ _ h
      simp only [Zip.push] at h1
      constructor <;> omega

theorem finish_counter_ge (C : Crc32) (z z1 : Zip) (cds : Nat) (hfin : z.finished = false)
    (hdest : z.destroyed = false)
    (hlast : ∀ lastFile, z.fileRecord.getLast? = some lastFile → lastFile.done = true)
    (h : Zip.writeCentralDirectory C z.fileRecord z 0 = (z1, .ok cds)) :
    z.byteCounterBig + cds ≤ (z.finish C).1.byteCounterBig := by
  have hc := (writeCentralDirectory_counter C z.fileRecord z z1 0 cds h).1
  have e2 := writeZip64End_appends z1 cds z.byteCounterBig
  unfold Zip.finish
  rw [checkNotFinished_of_open z hfin]
  simp only
  rw [checkNotWritingFile_of_done z hlast]
  simp only
  rw [if_neg (by rw [hdest]; simp)]
  rw [h]
  simp only
  cases h2 : z1.writeZip64End cds z.byteCounterBig with
  | mk z2 r2 =>
    rw [h2] at e2
    obtain ⟨bytes, -, hcnt0⟩ := e2
    have hcnt : z2.byteCounterBig = z1.byteCounterBig + bytes.length := hcnt0
    cases r2 with
    | error e =>
      show z.byteCounterBig + cds ≤ z2.byteCounterBig
      omega
    | ok u =>
      simp only
      cases createByteArray (z2.endOfCentralDirectoryRecordFields cds z.byteCounterBig) with
      | error e =>
        show z.byteCounterBig + cds ≤ z2.byteCounterBig
        omega
      | ok eocd =>
        show z.byteCounterBig + cds ≤ z2.byteCounterBig + eocd.length
        omega

theorem writeUIntLE_ok (w v : Nat) (buffer : Bytes) (i : Nat) (hv : v < 2 ^ (8 * w))
    (hi : i + w ≤ buffer.length) :
    writeUIntLE w (v : Int) buffer i = .ok (writeAt buffer i (leBytes w v)) := by
  show (if v < 2 ^ (8 * w) ∧ i + w ≤ buffer.length then _ else _) = _
  rw [if_pos ⟨hv, hi⟩]

/-- C20. The cursor is the number of bytes handed to the output. In every
state of the archive reached by calls from its construction, each record's header offset plus its size is at most the cursor;
in the loop of `finish()` over the records, the cursor is the start of the
central directory plus the size accumulated so far. Hence, in Standard mode, if
the cursor at the end of a run that goes on from the state is below
0xFFFFFFFF: every record's size and header offset are below 2^32, so that a
4-byte field written with either of them is encoded without error and the data
descriptor of the record can be built; and if the next call is a `finish()`
that reaches the end of its loop, the size and the start of the central
directory are below 2^32 and their 4-byte fields are encoded without error. -/
theorem sizes_and_offsets_fit (C : Crc32) (total : Nat) (zip64 : Option Bool)
    (es1 es2 : List Event) :
    (((Zip.new total zip64).run C es1).run C es2).byteCounterBig
      = (((Zip.new total zip64).run C es1).run C es2).output.length ∧
    (∀ file ∈ ((Zip.new total zip64).run C es1).fileRecord,
      file.headerOffsetBig + file.sizeBig ≤ ((Zip.new total zip64).run C es1).byteCounterBig) ∧
    (∀ (files : List FileRecord) (z1 : Zip) (cds : Nat),
      Zip.writeCentralDirectory C files ((Zip.new total zip64).run C es1) 0 = (z1, .ok cds) →
      ((Zip.new total zip64).run C es1).byteCounterBig + cds = z1.byteCounterBig) ∧
    (((Zip.new total zip64).run C es1).zip64 = false →
      (((Zip.new total zip64).run C es1).run C es2).byteCounterBig < 0xFFFFFFFF →
      (∀ file ∈ ((Zip.new total zip64).run C es1).fileRecord,
        file.sizeBig < 2 ^ 32 ∧ file.headerOffsetBig < 2 ^ 32 ∧
        (∃ dataDescriptor, createByteArray
          (((Zip.new total zip64).run C es1).dataDescriptorFields C file) = .ok dataDescriptor) ∧
        (∀ (buffer : Bytes) (i : Nat), i + 4 ≤ buffer.length →
          writeUIntLE 4 file.sizeBig buffer i
            = .ok (writeAt buffer i (leBytes 4 file.sizeBig)) ∧
          writeUIntLE 4 file.headerOffsetBig buffer i
            = .ok (writeAt buffer i (leBytes 4 file.headerOffsetBig)))) ∧
      (∀ (rest : List Event) (z1 : Zip) (cds : Nat), es2 = .finish :: rest →
        ((Zip.new total zip64).run C es1).finished = false →
        ((Zip.new total zip64).run C es1).destroyed = false →
        (∀ lastFile, ((Zip.new total zip64).run C es1).fileRecord.getLast? = some lastFile →
          lastFile.done = true) →
        Zip.writeCentralDirectory C ((Zip.new total zip64).run C es1).fileRecord
          ((Zip.new total zip64).run C es1) 0 = (z1, .ok cds) →
        cds < 2 ^ 32 ∧ ((Zip.new total zip64).run C es1).byteCounterBig < 2 ^ 32 ∧
        (∀ (buffer : Bytes) (i : Nat), i + 4 ≤ buffer.length →
          writeUIntLE 4 cds buffer i = .ok (writeAt buffer i (leBytes 4 cds)) ∧
          writeUIntLE 4 ((Zip.new total zip64).run C es1).byteCounterBig buffer i
            = .ok (writeAt buffer i
                (leBytes 4 ((Zip.new total zip64).run C es1).byteCounterBig))))) := by
  have hob := offsetsBounded_run C es1 _ (offsetsBounded_new total zip64)
  have hmono := run_counter_mono C es2 ((Zip.new total zip64).run C es1)
  refine ⟨counter_eq_output_length C _ ⟨total, zip64, es1 ++ es2, by rw [run_append]⟩, hob,
    ?_, ?_⟩
  · intro files z1 cds h
    have := (writeCentralDirectory_counter C files _ z1 0 cds h).1
    omega
  · intro hmode hbound
    constructor
    · intro file hm
      have hb := hob file hm
      have hs : file.sizeBig < 2 ^ 32 := by norm_num at hbound ⊢; omega
      have ho : file.headerOffsetBig < 2 ^ 32 := by norm_num at hbound ⊢; omega
      have hwf := dataDescriptorFields_wellFormed C ((Zip.new total zip64).run C es1) file
        (by rw [hmode]; exact hs)
      exact ⟨hs, ho, ⟨_, createByteArray_of_wellFormed _ hwf⟩, fun buffer i hi =>
        ⟨writeUIntLE_ok 4 file.sizeBig buffer i hs hi,
          writeUIntLE_ok 4 file.headerOffsetBig buffer i ho hi⟩⟩
    · intro rest z1 cds hes hfin hdest hlast hloop
      have hge := finish_counter_ge C _ z1 cds hfin hdest hlast hloop
      have hrest : (((Zip.new total zip64).run C es1).finish C).1.byteCounterBig
          ≤ (((Zip.new total zip64).run C es1).run C es2).byteCounterBig := by
        rw [hes, run_cons]
        exact run_counter_mono C rest _
      have hc : cds < 2 ^ 32 := by norm_num at hbound ⊢; omega
      have hst : ((Zip.new total zip64).run C es1).byteCounterBig < 2 ^ 32 := by
        norm_num at hbound ⊢
        omega
      exact ⟨hc, hst, fun buffer i hi =>
        ⟨writeUIntLE_ok 4 cds buffer i hc hi, writeUIntLE_ok 4 _ buffer i hst hi⟩⟩

/-- An instance of C20: in the run `startFile("a")`, a write of 1, 2, 3, the
end of the member, `finish()` on a new archive, which ends with the cursor at
115, the record after the write has offset 0 and size 3, both below 2^32. -/
theorem sizes_and_offsets_fit_witness :
    ((Zip.new 0 none).run zeroCrc
      [.startFile [97] exampleDate, .write 0 [1, 2, 3] 1 true]).zip64 = false ∧
    (((Zip.new 0 none).run zeroCrc
      [.startFile [97] exampleDate, .write 0 [1, 2, 3] 1 true]).run zeroCrc
        [.final 0 2, .finish]).byteCounterBig = 115 ∧
    (∀ file ∈ ((Zip.new 0 none).run zeroCrc
        [.startFile [97] exampleDate, .write 0 [1, 2, 3] 1 true]).fileRecord,
      file.sizeBig < 2 ^ 32 ∧ file.headerOffsetBig < 2 ^ 32 ∧
      (∃ dataDescriptor, createByteArray
        (((Zip.new 0 none).run zeroCrc
          [.startFile [97] exampleDate, .write 0 [1, 2, 3] 1 true]).dataDescriptorFields zeroCrc
            file) = .ok dataDescriptor) ∧
      (∀ (buffer : Bytes) (i : Nat), i + 4 ≤ buffer.length →
        writeUIntLE 4 file.sizeBig buffer i
          = .ok (writeAt buffer i (leBytes 4 file.sizeBig)) ∧
        writeUIntLE 4 file.headerOffsetBig buffer i
          = .ok (writeAt buffer i (leBytes 4 file.headerOffsetBig)))) :=
  ⟨by decide, by decide,
    ((sizes_and_offsets_fit zeroCrc 0 none
      [.startFile [97] exampleDate, .write 0 [1, 2, 3] 1 true] [.final 0 2, .finish]).2.2.2
        (by decide) (by decide)).1⟩

/-! ## Reading the archive back -/

theorem readLE_append_left (pre bs : Bytes) (k w : Nat) :
    readLE (pre ++ bs) (pre.length + k) w = readLE bs k w := by
  unfold readLE
  rw [← List.drop_drop, List.drop_left]

theorem slice_append_left (pre bs : Bytes) (k n : Nat) :
    slice (pre ++ bs) (pre.length + k) n = slice bs k n := by
  unfold slice
  rw [← List.drop_drop, List.drop_left]

theorem slice_left (bs rest : Bytes) : slice (bs ++ rest) 0 bs.length = bs := by
  unfold slice
  rw [List.drop_zero, List.take_left]

theorem localHeader_reads (zip64 : Bool) (file : FileRecord) (rest : Bytes)
    (hfits : file.HeaderFits zip64) :
    readLE (file.localHeader zip64 ++ rest) 0 4 = 0x04034b50 ∧
    readLE (file.localHeader zip64 ++ rest) 26 2 = (bufferFromUtf8 file.name).length ∧
    readLE (file.localHeader zip64 ++ rest) 28 2 = (if zip64 then 32 else 0) ∧
    (file.localHeader zip64).length
      = 30 + (bufferFromUtf8 file.name).length + (if zip64 then 32 else 0) := by
  obtain ⟨hname, -, -, -⟩ := hfits
  have e0 : ((file.localHeader zip64 ++ rest).drop 0).take 4 = leBytes 4 0x04034b50 := by
    simp [FileRecord.localHeader, specLocalHeader, leBytes]
  have e26 : ((file.localHeader zip64 ++ rest).drop 26).take 2
      = leBytes 2 (bufferFromUtf8 file.name).length := by
    simp [FileRecord.localHeader, specLocalHeader, leBytes]
  have e28 : ((file.localHeader zip64 ++ rest).drop 28).take 2
      = leBytes 2 (if zip64 then 32 else 0) := by
    simp [FileRecord.localHeader, specLocalHeader, leBytes]
  unfold readLE
  rw [e0, e26, e28]
  refine ⟨leValue_leBytes 4 _ (by norm_num), leValue_leBytes 2 _ (by norm_num; omega), ?_,
    specLocalHeader_length _ _ _ _ _⟩
  apply leValue_leBytes
  cases zip64 <;> norm_num

theorem readMember_of_memberAt (C : Crc32) (z : Zip) (file : FileRecord) (tail : Bytes)
    (hm : z.MemberAt C file) (hsize : file.sizeBig = (file.crc.map List.length).sum) :
    readMember (z.output ++ tail) (file.centralEntry C) = some (file.entry C) := by
  obtain ⟨hfits, pre, post, ho, hpre, -, -⟩ := hm
  obtain ⟨r0, r26, r28, rlen⟩ := localHeader_reads z.zip64 file
    (file.crc.flatten ++ (post ++ tail)) hfits
  have hout : z.output ++ tail
      = pre ++ (file.localHeader z.zip64 ++ (file.crc.flatten ++ (post ++ tail))) := by
    rw [ho]
    simp only [List.append_assoc]
  have hout2 : z.output ++ tail
      = (pre ++ file.localHeader z.zip64) ++ (file.crc.flatten ++ (post ++ tail)) := by
    rw [ho]
    simp only [List.append_assoc]
  have hflat : file.crc.flatten.length = file.sizeBig := by
    rw [hsize, List.length_flatten]
  have h0 : readLE (z.output ++ tail) file.headerOffsetBig 4 = 0x04034b50 := by
    rw [hout, ← hpre]
    have := readLE_append_left pre
      (file.localHeader z.zip64 ++ (file.crc.flatten ++ (post ++ tail))) 0 4
    rw [Nat.add_zero] at this
    rw [this, r0]
  have h26 : readLE (z.output ++ tail) (file.headerOffsetBig + 26) 2
      = (bufferFromUtf8 file.name).length := by
    rw [hout, ← hpre, readLE_append_left, r26]
  have h28 : readLE (z.output ++ tail) (file.headerOffsetBig + 28) 2
      = (if z.zip64 then 32 else 0) := by
    rw [hout, ← hpre, readLE_append_left, r28]
  have hdata : slice (z.output ++ tail)
      (file.headerOffsetBig + 30 + (bufferFromUtf8 file.name).length
        + (if z.zip64 then 32 else 0)) file.sizeBig = file.crc.flatten := by
    have hpos : file.headerOffsetBig + 30 + (bufferFromUtf8 file.name).length
        + (if z.zip64 then 32 else 0) = (pre ++ file.localHeader z.zip64).length + 0 := by
      rw [List.length_append, rlen, hpre]
      omega
    rw [hpos, hout2, slice_append_left, ← hflat, slice_left]
  unfold readMember
  simp only [FileRecord.centralEntry]
  rw [if_pos h0, h26, h28, hdata]
  rfl

theorem readMembers_of_memberAt (C : Crc32) (z : Zip) (files : List FileRecord) (tail : Bytes)
    (hm : ∀ file ∈ files, z.MemberAt C file ∧ file.sizeBig = (file.crc.map List.length).sum) :
    readMembers (z.output ++ tail) (files.map (FileRecord.centralEntry C))
      = some (files.map (FileRecord.entry C)) := by
  induction files with
  | nil => rfl
  | cons file rest ih =>
    have h1 := hm file (List.mem_cons_self _ _)
    rw [List.map_cons, readMembers, readMember_of_memberAt C z file tail h1.1 h1.2]
    simp only
    rw [ih (fun f hf => hm f (List.mem_cons_of_mem _ hf))]
    rfl

theorem readLE_drop (bs : Bytes) (a k w : Nat) : readLE bs (a + k) w = readLE (bs.drop a) k w := by
  unfold readLE
  rw [List.drop_drop, Nat.add_comm]

theorem readLE_append_left_zero (pre bs : Bytes) (w : Nat) :
    readLE (pre ++ bs) pre.length w = readLE bs 0 w := by
  have := readLE_append_left pre bs 0 w
  rw [Nat.add_zero] at this
  exact this

theorem readCentralHeader_standard (C : Crc32) (file : FileRecord)
    (pre rest : Bytes) (hfits : file.Encodable false) :
    readCentralHeader (pre ++ (file.centralHeader C false ++ rest)) pre.length
      = some (file.centralEntry C, (pre ++ file.centralHeader C false).length) := by
  obtain ⟨r0, r16, r20, r24, r28, r30, r32, r42, hdrop⟩ :=
    centralHeader_reads C false file rest hfits
  have hlen := centralHeader_length C false file
  simp only [Bool.false_eq_true, if_false] at r20 r24 r30 r42 hdrop hlen
  have hname : slice (pre ++ (file.centralHeader C false ++ rest)) (pre.length + 46)
      (bufferFromUtf8 file.name).length = bufferFromUtf8 file.name := by
    rw [slice_append_left]
    unfold slice
    rw [hdrop, List.take_left]
  unfold readCentralHeader
  rw [readLE_append_left_zero, r0]
  simp only [if_true, readLE_append_left, r16, r24, r28, r30, r32, r42, hname]
  rw [List.length_append, hlen]
  simp only [FileRecord.centralEntry, Option.some.injEq, Prod.mk.injEq, true_and]
  omega

theorem readCentralHeader_zip64 (C : Crc32) (file : FileRecord)
    (pre rest : Bytes) (hfits : file.Encodable true) :
    readCentralHeader (pre ++ (file.centralHeader C true ++ rest)) pre.length
      = some (file.centralEntry C, (pre ++ file.centralHeader C true).length) := by
  obtain ⟨r0, r16, r20, r24, r28, r30, r32, r42, hdrop⟩ :=
    centralHeader_reads C true file rest hfits
  have hlen := centralHeader_length C true file
  simp only [if_true] at r20 r24 r30 r42 hdrop hlen
  have hname : slice (pre ++ (file.centralHeader C true ++ rest)) (pre.length + 46)
      (bufferFromUtf8 file.name).length = bufferFromUtf8 file.name := by
    rw [slice_append_left]
    unfold slice
    rw [hdrop, List.take_left]
  have hextra : ∀ k w, readLE (pre ++ (file.centralHeader C true ++ rest))
      (pre.length + 46 + (bufferFromUtf8 file.name).length + k) w
      = readLE (specZip64Extra file.sizeBig file.headerOffsetBig ++ rest) k w := by
    intro k w
    rw [Nat.add_assoc, Nat.add_assoc, readLE_append_left, readLE_drop, hdrop, readLE_drop,
      List.drop_left]
  have hextra0 : readLE (pre ++ (file.centralHeader C true ++ rest))
      (pre.length + 46 + (bufferFromUtf8 file.name).length) 2
      = readLE (specZip64Extra file.sizeBig file.headerOffsetBig ++ rest) 0 2 := by
    have := hextra 0 2
    rw [Nat.add_zero] at this
    exact this
  have hx := zip64Extra_reads file.sizeBig file.headerOffsetBig
    (by have := hfits.2.1; simpa using this) (by have := hfits.2.2; simpa using this) rest
  unfold readCentralHeader
  rw [readLE_append_left_zero, r0]
  simp only [if_true, readLE_append_left, r16, r20, r24, r28, r30, r32, r42, hname, hextra,
    hextra0, hx.2.1, hx.2.2.2.1, hx.2.2.2.2.2.1]
  rw [List.length_append, hlen]
  simp only [FileRecord.centralEntry, Option.some.injEq, Prod.mk.injEq, true_and]
  norm_num
  omega

theorem readCentralHeader_of_header (C : Crc32) (zip64 : Bool) (file : FileRecord)
    (pre rest : Bytes) (hfits : file.Encodable zip64) :
    readCentralHeader (pre ++ (file.centralHeader C zip64 ++ rest)) pre.length
      = some (file.centralEntry C, (pre ++ file.centralHeader C zip64).length) := by
  cases zip64 with
  | false => exact readCentralHeader_standard C file pre rest hfits
  | true => exact readCentralHeader_zip64 C file pre rest hfits

theorem readCentralDirectory_of_directory (C : Crc32) (zip64 : Bool) (files : List FileRecord)
    (pre rest : Bytes) (hfits : ∀ file ∈ files, file.Encodable zip64) :
    readCentralDirectory (pre ++ (specCentralDirectory C zip64 files ++ rest)) files.length
        pre.length
      = some (files.map (FileRecord.centralEntry C)) := by
  induction files generalizing pre with
  | nil => rfl
  | cons file more ih =>
    have hbs : pre ++ (specCentralDirectory C zip64 (file :: more) ++ rest)
        = pre ++ (file.centralHeader C zip64 ++ (specCentralDirectory C zip64 more ++ rest)) := by
      simp only [specCentralDirectory, List.map_cons, List.flatten_cons, List.append_assoc]
    have hbs2 : pre ++ (file.centralHeader C zip64 ++ (specCentralDirectory C zip64 more ++ rest))
        = (pre ++ file.centralHeader C zip64) ++ (specCentralDirectory C zip64 more ++ rest) := by
      simp only [List.append_assoc]
    rw [hbs, List.length_cons, readCentralDirectory,
      readCentralHeader_of_header C zip64 file pre _ (hfits file (List.mem_cons_self _ _))]
    simp only
    rw [hbs2, ih (pre ++ file.centralHeader C zip64)
      (fun f hf => hfits f (List.mem_cons_of_mem _ hf))]
    rfl

theorem readEnd_zip64 (C : Crc32) (files : List FileRecord) (out : Bytes)
    (hcount : files.length < 2 ^ 64)
    (hbound : out.length + (specCentralDirectory C true files).length < 2 ^ 64) :
    readEnd (out ++ specTrailer C true files out.length)
      = some (files.length, (specCentralDirectory C true files).length, out.length) := by
  obtain ⟨r0, r8, r10, r12, r16, -⟩ := endRecord_reads true files.length
    (specCentralDirectory C true files).length out.length (fun h => by cases h)
    (fun h => by cases h) (fun h => by cases h)
  simp only [if_true] at r8 r10 r12 r16
  obtain ⟨l0, -, l8, -⟩ := zip64Locator_reads
    (out.length + (specCentralDirectory C true files).length) hbound
    (specEndRecord true files.length (specCentralDirectory C true files).length out.length)
  obtain ⟨z0, -, -, z32, z40, z48⟩ := zip64EndRecord_reads files.length
    (specCentralDirectory C true files).length out.length hcount (by omega) (by omega)
    (specZip64Locator (out.length + (specCentralDirectory C true files).length)
      ++ specEndRecord true files.length (specCentralDirectory C true files).length out.length)
  have hbs : out ++ specTrailer C true files out.length
      = ((out ++ specCentralDirectory C true files)
          ++ specZip64EndRecord files.length (specCentralDirectory C true files).length
              out.length
          ++ specZip64Locator (out.length + (specCentralDirectory C true files).length))
        ++ specEndRecord true files.length (specCentralDirectory C true files).length
            out.length := by
    simp only [specTrailer, if_true, List.append_assoc]
  have hbs2 : ((out ++ specCentralDirectory C true files)
          ++ specZip64EndRecord files.length (specCentralDirectory C true files).length
              out.length
          ++ specZip64Locator (out.length + (specCentralDirectory C true files).length))
        ++ specEndRecord true files.length (specCentralDirectory C true files).length
            out.length
      = ((out ++ specCentralDirectory C true files)
          ++ specZip64EndRecord files.length (specCentralDirectory C true files).length
              out.length)
        ++ (specZip64Locator (out.length + (specCentralDirectory C true files).length)
          ++ specEndRecord true files.length (specCentralDirectory C true files).length
              out.length) := by
    simp only [List.append_assoc]
  have hbs3 : ((out ++ specCentralDirectory C true files)
          ++ specZip64EndRecord files.length (specCentralDirectory C true files).length
              out.length)
        ++ (specZip64Locator (out.length + (specCentralDirectory C true files).length)
          ++ specEndRecord true files.length (specCentralDirectory C true files).length
              out.length)
      = (out ++ specCentralDirectory C true files)
        ++ (specZip64EndRecord files.length (specCentralDirectory C true files).length
              out.length
          ++ (specZip64Locator (out.length + (specCentralDirectory C true files).length)
            ++ specEndRecord true files.length (specCentralDirectory C true files).length
                out.length)) := by
    simp only [List.append_assoc]
  have hlenE := specEndRecord_length true files.length
    (specCentralDirectory C true files).length out.length
  have hlenL := specZip64Locator_length
    (out.length + (specCentralDirectory C true files).length)
  have hlenR := specZip64EndRecord_length files.length
    (specCentralDirectory C true files).length out.length
  have hp : (((out ++ specCentralDirectory C true files)
          ++ specZip64EndRecord files.length (specCentralDirectory C true files).length
              out.length
          ++ specZip64Locator (out.length + (specCentralDirectory C true files).length))
        ++ specEndRecord true files.length (specCentralDirectory C true files).length
            out.length).length - 22
      = ((out ++ specCentralDirectory C true files)
          ++ specZip64EndRecord files.length (specCentralDirectory C true files).length
              out.length
          ++ specZip64Locator (out.length + (specCentralDirectory C true files).length)).length := by
    rw [List.length_append _ (specEndRecord _ _ _ _), hlenE]
    omega
  have h22 : 22 ≤ (((out ++ specCentralDirectory C true files)
          ++ specZip64EndRecord files.length (specCentralDirectory C true files).length
              out.length
          ++ specZip64Locator (out.length + (specCentralDirectory C true files).length))
        ++ specEndRecord true files.length (specCentralDirectory C true files).length
            out.length).length := by
    rw [List.length_append _ (specEndRecord _ _ _ _), hlenE]
    omega
  have hq : ((out ++ specCentralDirectory C true files)
          ++ specZip64EndRecord files.length (specCentralDirectory C true files).length
              out.length
          ++ specZip64Locator (out.length + (specCentralDirectory C true files).length)).length
        - 20
      = ((out ++ specCentralDirectory C true files)
          ++ specZip64EndRecord files.length (specCentralDirectory C true files).length
              out.length).length := by
    rw [List.length_append _ (specZip64Locator _), hlenL]
    omega
  have h20 : 20 ≤ ((out ++ specCentralDirectory C true files)
          ++ specZip64EndRecord files.length (specCentralDirectory C true files).length
              out.length
          ++ specZip64Locator (out.length + (specCentralDirectory C true files).length)).length := by
    rw [List.length_append _ (specZip64Locator _), hlenL]
    omega
  have hr : out.length + (specCentralDirectory C true files).length
      = (out ++ specCentralDirectory C true files).length := by
    rw [List.length_append]
  rw [hbs]
  unfold readEnd
  simp only [hp, readLE_append_left, readLE_append_left_zero, r0, r10, r12, r16, h22, true_and,
    if_true, hq, h20]
  rw [hbs2]
  simp only [readLE_append_left, readLE_append_left_zero, l0, l8, if_true]
  rw [hbs3, hr]
  rw [hr] at z0 z32 z40 z48
  simp only [readLE_append_left, readLE_append_left_zero, z0, z32, z40, z48, if_true]

/-! ## A run of whole members -/

theorem session_run_append (C : Crc32) (s : Session) (es1 es2 : List Event) :
    s.run C (es1 ++ es2) = (s.run C es1).run C es2 := by
  simp [Session.run, List.foldl_append]

theorem session_run_cons (C : Crc32) (s : Session) (e : Event) (es : List Event) :
    s.run C (e :: es) = (s.step C e).run C es := rfl

theorem read_destroyed (z : Zip) : z._read.destroyed = z.destroyed := by
  unfold Zip._read Zip.complete
  split <;> rfl

theorem session_startFile_idle (C : Crc32) (s : Session) (zip64 : Bool)
    (recs : List FileRecord) (n : Nat) (fileName : JSString) (date : JSDate)
    (hs : s.Idle zip64 recs n) (hrecs : ∀ r ∈ recs, r.done = true)
    (hname : (bufferFromUtf8 fileName).length < 65536) (hdate : date.DosRange)
    (hn : n < 2 ^ 64) :
    (s.step C (.startFile fileName date)).Writing zip64 recs ⟨fileName, 0, [], false, date, n⟩
      (n + localHeaderLength zip64 fileName) := by
  obtain ⟨hsinks, hz, hrec, hcnt, hfin, hdest⟩ := hs
  have hlast : ∀ lastFile, s.zip.fileRecord.getLast? = some lastFile → lastFile.done = true := by
    intro lastFile hl
    rw [hrec] at hl
    exact hrecs lastFile (List.mem_of_getLast?_eq_some hl)
  have hstart := startFile_ok s.zip fileName date hfin hlast hname hdate (by rw [hcnt]; exact hn)
  show (match s.zip.startFile fileName date with
    | (z, .ok idx) => (⟨z, s.sinks ++ [idx]⟩ : Session)
    | (z, .error _) => ⟨z, s.sinks⟩).Writing zip64 recs _ _
  rw [hstart]
  refine ⟨?_, hz, ?_, ?_, hfin, hdest⟩
  · show s.sinks ++ [s.zip.fileRecord.length] = [recs.length]
    rw [hsinks, hrec]
    rfl
  · show s.zip.fileRecord ++ [⟨fileName, 0, [], false, date, s.zip.byteCounterBig⟩] = _
    rw [hrec, hcnt]
  · show s.zip.byteCounterBig + localHeaderLength s.zip.zip64 fileName = _
    rw [hcnt, hz]

theorem session_write_writing (C : Crc32) (s : Session) (zip64 : Bool)
    (recs : List FileRecord) (file : FileRecord) (n : Nat) (chunk : Bytes) (callback : Nat)
    (pushResult : Bool) (hs : s.Writing zip64 recs file n) :
    (s.step C (.write recs.length chunk callback pushResult)).Writing zip64 recs
      { file with crc := file.crc ++ [chunk], sizeBig := file.sizeBig + chunk.length }
      (n + chunk.length) := by
  obtain ⟨hsinks, hz, hrec, hcnt, hfin, hdest⟩ := hs
  have hmem : recs.length ∈ s.sinks := by rw [hsinks]; exact List.mem_singleton_self _
  have hget : s.zip.fileRecord[recs.length]? = some file := by
    rw [hrec]
    exact getElem?_length_append recs file []
  obtain ⟨-, w2, w3, -, -, w6⟩ :=
    sinkWrite_of_record s.zip recs.length file chunk callback pushResult hget
  show (if recs.length ∈ s.sinks then
    (⟨s.zip.sinkWrite recs.length chunk callback pushResult, s.sinks⟩ : Session)
    else s).Writing zip64 recs _ _
  rw [if_pos hmem]
  refine ⟨hsinks, ?_, ?_, ?_, ?_, ?_⟩
  · exact (step_zip64 C s.zip (.write recs.length chunk callback pushResult)).trans hz
  · show (s.zip.sinkWrite recs.length chunk callback pushResult).fileRecord = _
    rw [w3, hrec]
    exact modifyAt_length_append _ recs file []
  · show (s.zip.sinkWrite recs.length chunk callback pushResult).byteCounterBig = _
    rw [w2, hcnt]
  · exact (sinkWrite_frame s.zip recs.length chunk callback pushResult).1.trans hfin
  · exact w6.trans hdest

theorem session_read_writing (C : Crc32) (s : Session) (zip64 : Bool)
    (recs : List FileRecord) (file : FileRecord) (n : Nat) (hs : s.Writing zip64 recs file n) :
    (s.step C .read).Writing zip64 recs file n := by
  obtain ⟨hsinks, hz, hrec, hcnt, hfin, hdest⟩ := hs
  obtain ⟨-, r2, r3, r4, r5, -, -⟩ := read_same s.zip
  exact ⟨hsinks, r2.trans hz, r3.trans hrec, r5.trans hcnt, r4.trans hfin,
    (read_destroyed s.zip).trans hdest⟩

theorem session_chunks_writing (C : Crc32) (zip64 : Bool) (recs : List FileRecord)
    (chunks : List (Bytes × Bool)) (s : Session) (file : FileRecord) (n : Nat)
    (hs : s.Writing zip64 recs file n) :
    (s.run C (chunks.flatMap (fun chunk =>
        .write recs.length chunk.1 0 chunk.2 :: (if chunk.2 then [] else [.read])))).Writing
      zip64 recs
      { file with
        crc := file.crc ++ chunks.map (fun chunk => chunk.1)
        sizeBig := file.sizeBig + (chunks.map (fun chunk => chunk.1.length)).sum }
      (n + (chunks.map (fun chunk => chunk.1.length)).sum) := by
  induction chunks generalizing s file n with
  | nil =>
    simp only [List.flatMap_nil, List.map_nil, List.sum_nil, List.append_nil, Nat.add_zero]
    exact hs
  | cons chunk rest ih =>
    obtain ⟨bytes, pushResult⟩ := chunk
    have h1 := session_write_writing C s zip64 recs file n bytes 0 pushResult hs
    have h2 : ((s.step C (.write recs.length bytes 0 pushResult)).run C
        (if pushResult then [] else [.read])).Writing zip64 recs
        { file with crc := file.crc ++ [bytes], sizeBig := file.sizeBig + bytes.length }
        (n + bytes.length) := by
      cases pushResult with
      | true => exact h1
      | false => exact session_read_writing C _ zip64 recs _ _ h1
    have h3 := ih _ _ _ h2
    rw [List.flatMap_cons, session_run_append, session_run_cons]
    simp only [List.map_cons, List.sum_cons, List.append_assoc, List.singleton_append,
      Nat.add_assoc] at h3 ⊢
    exact h3

theorem session_final_writing (C : Crc32) (s : Session) (zip64 : Bool)
    (recs : List FileRecord) (file : FileRecord) (n : Nat) (callback : Nat)
    (hs : s.Writing zip64 recs file n)
    (hsize : file.sizeBig < (if zip64 then 2 ^ 64 else 2 ^ 32)) :
    (s.step C (.final recs.length callback)).Idle zip64 (recs ++ [{ file with done := true }])
      (n + dataDescriptorLength zip64) := by
  obtain ⟨hsinks, hz, hrec, hcnt, hfin, hdest⟩ := hs
  have hmem : recs.length ∈ s.sinks := by rw [hsinks]; exact List.mem_singleton_self _
  have hget : s.zip.fileRecord[recs.length]? = some file := by
    rw [hrec]
    exact getElem?_length_append recs file []
  obtain ⟨-, f2, f3, -, f5, -⟩ :=
    sinkFinal_of_fits C s.zip recs.length file callback hget (by rw [hz]; exact hsize)
  show (if recs.length ∈ s.sinks then
    (⟨s.zip.sinkFinal C recs.length callback,
      s.sinks.filter (fun i => i != recs.length)⟩ : Session)
    else s).Idle zip64 _ _
  rw [if_pos hmem]
  refine ⟨?_, ?_, ?_, ?_, ?_, ?_⟩
  · show s.sinks.filter (fun i => i != recs.length) = []
    rw [hsinks]
    simp
  · exact (step_zip64 C s.zip (.final recs.length callback)).trans hz
  · show (s.zip.sinkFinal C recs.length callback).fileRecord = _
    rw [f3, hrec]
    exact modifyAt_length_append _ recs file []
  · show (s.zip.sinkFinal C recs.length callback).byteCounterBig = _
    rw [f2, hcnt, hz]
    rfl
  · exact (sinkFinal_frame C s.zip recs.length callback).1.trans hfin
  · exact f5.trans hdest

theorem session_member_idle (C : Crc32) (s : Session) (zip64 : Bool) (recs : List FileRecord)
    (n : Nat) (file : Download) (hs : s.Idle zip64 recs n) (hrecs : ∀ r ∈ recs, r.done = true)
    (hname : (bufferFromUtf8 file.name).length < 65536) (hdate : file.date.DosRange)
    (hbound : n + memberLength zip64 file.name file.payloadLength
      < (if zip64 then 2 ^ 64 else 2 ^ 32)) :
    (s.run C (memberEvents recs.length file)).Idle zip64 (recs ++ [file.record n])
      (n + memberLength zip64 file.name file.payloadLength) := by
  have hn : n < 2 ^ 64 := by
    cases zip64 <;> simp only [if_true, if_false, Bool.false_eq_true] at hbound <;> omega
  have hsz : file.payloadLength < (if zip64 then 2 ^ 64 else 2 ^ 32) := by
    unfold memberLength at hbound
    cases zip64 <;> simp only [if_true, if_false, Bool.false_eq_true] at hbound ⊢ <;> omega
  have h1 := session_startFile_idle C s zip64 recs n file.name file.date hs hrecs hname hdate hn
  have h2 := session_chunks_writing C zip64 recs file.chunks _ _ _ h1
  have h3 := session_final_writing C _ zip64 recs _ _ 0 h2
    (by simp only [Nat.zero_add]; exact hsz)
  unfold memberEvents
  rw [session_run_cons, session_run_append]
  have hrun : ∀ t : Session, t.run C [.final recs.length 0] = t.step C (.final recs.length 0) :=
    fun _ => rfl
  rw [hrun]
  simp only [Nat.zero_add, List.nil_append, memberLength, Download.record,
    Download.payloadLength, Nat.add_assoc] at h3 ⊢
  exact h3

theorem session_members_idle (C : Crc32) (zip64 : Bool) (files : List Download) (s : Session)
    (recs : List FileRecord) (n : Nat) (hs : s.Idle zip64 recs n)
    (hrecs : ∀ r ∈ recs, r.done = true)
    (hfiles : ∀ file ∈ files, (bufferFromUtf8 file.name).length < 65536 ∧ file.date.DosRange)
    (hbound : n + (files.map (fun file =>
        memberLength zip64 file.name file.payloadLength)).sum
      < (if zip64 then 2 ^ 64 else 2 ^ 32)) :
    (s.run C (membersEvents recs.length files)).Idle zip64
      (recs ++ downloadRecords zip64 n files)
      (n + (files.map (fun file => memberLength zip64 file.name file.payloadLength)).sum) := by
  induction files generalizing s recs n with
  | nil =>
    simp only [membersEvents, downloadRecords, List.append_nil, List.map_nil, List.sum_nil,
      Nat.add_zero]
    exact hs
  | cons file rest ih =>
    have hf := hfiles file (List.mem_cons_self _ _)
    simp only [List.map_cons, List.sum_cons] at hbound
    have h1 := session_member_idle C s zip64 recs n file hs hrecs hf.1 hf.2
      (by cases zip64 <;> simp only [if_true, if_false, Bool.false_eq_true] at hbound ⊢ <;>
        omega)
    have hdone : ∀ r ∈ recs ++ [file.record n], r.done = true := by
      intro r hr
      rcases List.mem_append.1 hr with h | h
      · exact hrecs r h
      · rw [List.mem_singleton] at h
        rw [h]
        rfl
    have h2 := ih _ (recs ++ [file.record n])
      (n + memberLength zip64 file.name file.payloadLength) h1 hdone
      (fun f hf2 => hfiles f (List.mem_cons_of_mem _ hf2))
      (by rw [Nat.add_assoc]; exact hbound)
    rw [List.length_append, List.length_singleton] at h2
    rw [membersEvents, session_run_append]
    simp only [downloadRecords, List.map_cons, List.sum_cons, List.append_assoc,
      List.singleton_append, Nat.add_assoc] at h2 ⊢
    exact h2

theorem downloadRecords_done (zip64 : Bool) (files : List Download) (n : Nat) :
    ∀ r ∈ downloadRecords zip64 n files, r.done = true := by
  induction files generalizing n with
  | nil => intro r hr; simp [downloadRecords] at hr
  | cons file rest ih =>
    intro r hr
    simp only [downloadRecords, List.mem_cons] at hr
    rcases hr with h | h
    · rw [h]
      rfl
    · exact ih _ r h

theorem downloadRecords_length (zip64 : Bool) (files : List Download) (n : Nat) :
    (downloadRecords zip64 n files).length = files.length := by
  induction files generalizing n with
  | nil => rfl
  | cons file rest ih => simp [downloadRecords, ih]

theorem downloadRecords_entries (C : Crc32) (zip64 : Bool) (files : List Download) (n : Nat) :
    (downloadRecords zip64 n files).map (FileRecord.entry C)
      = files.map (fun file =>
          (⟨bufferFromUtf8 file.name, file.payloadLength,
            C.get (file.chunks.map (fun chunk => chunk.1)),
            (file.chunks.map (fun chunk => chunk.1)).flatten⟩ : ZipEntry)) := by
  induction files generalizing n with
  | nil => rfl
  | cons file rest ih =>
    simp only [downloadRecords, List.map_cons, ih]
    rfl

theorem downloadRecords_directory_length (C : Crc32) (zip64 : Bool) (files : List Download)
    (n : Nat) :
    (specCentralDirectory C zip64 (downloadRecords zip64 n files)).length
      = (files.map (fun file => centralHeaderLength zip64 file.name)).sum := by
  induction files generalizing n with
  | nil => rfl
  | cons file rest ih =>
    have h := ih (n + memberLength zip64 file.name file.payloadLength)
    simp only [specCentralDirectory, downloadRecords, List.map_cons, List.flatten_cons,
      List.length_append, List.sum_cons, centralHeader_length] at h ⊢
    rw [h]
    rfl

theorem session_startFile_zip (C : Crc32) (s : Session) (fileName : JSString) (date : JSDate) :
    (s.step C (.startFile fileName date)).zip = s.zip.step C (.startFile fileName date) := by
  show (match s.zip.startFile fileName date with
    | (z, .ok idx) => (⟨z, s.sinks ++ [idx]⟩ : Session)
    | (z, .error _) => ⟨z, s.sinks⟩).zip = (s.zip.startFile fileName date).1
  cases s.zip.startFile fileName date with
  | mk z1 r => cases r <;> rfl

theorem session_write_zip (C : Crc32) (s : Session) (idx : Nat) (chunk : Bytes)
    (callback : Nat) (pushResult : Bool) (hmem : idx ∈ s.sinks) :
    (s.step C (.write idx chunk callback pushResult)).zip
      = s.zip.step C (.write idx chunk callback pushResult) := by
  show (if idx ∈ s.sinks then
    (⟨s.zip.sinkWrite idx chunk callback pushResult, s.sinks⟩ : Session) else s).zip = _
  rw [if_pos hmem]
  rfl

theorem session_final_zip (C : Crc32) (s : Session) (idx : Nat) (callback : Nat)
    (hmem : idx ∈ s.sinks) :
    (s.step C (.final idx callback)).zip = s.zip.step C (.final idx callback) := by
  show (if idx ∈ s.sinks then
    (⟨s.zip.sinkFinal C idx callback, s.sinks.filter (fun i => i != idx)⟩ : Session)
    else s).zip = _
  rw [if_pos hmem]
  rfl

theorem session_chunks_zip (C : Crc32) (zip64 : Bool) (recs : List FileRecord)
    (chunks : List (Bytes × Bool)) (s : Session) (file : FileRecord) (n : Nat)
    (hs : s.Writing zip64 recs file n) :
    (s.run C (chunks.flatMap (fun chunk =>
        .write recs.length chunk.1 0 chunk.2 :: (if chunk.2 then [] else [.read])))).zip
      = s.zip.run C (chunks.flatMap (fun chunk =>
        .write recs.length chunk.1 0 chunk.2 :: (if chunk.2 then [] else [.read]))) := by
  induction chunks generalizing s file n with
  | nil => rfl
  | cons chunk rest ih =>
    obtain ⟨bytes, pushResult⟩ := chunk
    have hmem : recs.length ∈ s.sinks := by rw [hs.1]; exact List.mem_singleton_self _
    have h1 := session_write_writing C s zip64 recs file n bytes 0 pushResult hs
    have hz1 := session_write_zip C s recs.length bytes 0 pushResult hmem
    rw [List.flatMap_cons, session_run_append, run_append, session_run_cons, run_cons]
    cases pushResult with
    | true =>
      have h2 := ih (s.step C (.write recs.length bytes 0 true)) _ _ h1
      show ((s.step C (.write recs.length bytes 0 true)).run C _).zip = _
      rw [h2, hz1]
      rfl
    | false =>
      have h3 := session_read_writing C _ zip64 recs _ _ h1
      have h2 := ih ((s.step C (.write recs.length bytes 0 false)).step C .read) _ _ h3
      show (((s.step C (.write recs.length bytes 0 false)).step C .read).run C _).zip = _
      rw [h2]
      show ((s.step C (.write recs.length bytes 0 false)).zip.step C .read).run C _ = _
      rw [hz1]
      rfl

theorem session_member_zip (C : Crc32) (s : Session) (zip64 : Bool) (recs : List FileRecord)
    (n : Nat) (file : Download) (hs : s.Idle zip64 recs n) (hrecs : ∀ r ∈ recs, r.done = true)
    (hname : (bufferFromUtf8 file.name).length < 65536) (hdate : file.date.DosRange)
    (hn : n < 2 ^ 64) :
    (s.run C (memberEvents recs.length file)).zip = s.zip.run C (memberEvents recs.length file) := by
  have h1 := session_startFile_idle C s zip64 recs n file.name file.date hs hrecs hname hdate hn
  have h2 := session_chunks_writing C zip64 recs file.chunks _ _ _ h1
  have hz2 := session_chunks_zip C zip64 recs file.chunks _ _ _ h1
  have hmem : recs.length ∈ ((s.step C (.startFile file.name file.date)).run C
      (file.chunks.flatMap (fun chunk =>
        .write recs.length chunk.1 0 chunk.2 :: (if chunk.2 then [] else [.read])))).sinks := by
    rw [h2.1]
    exact List.mem_singleton_self _
  have hz3 := session_final_zip C _ recs.length 0 hmem
  unfold memberEvents
  rw [session_run_cons, session_run_append, run_cons, run_append]
  show (((s.step C (.startFile file.name file.date)).run C _).step C (.final recs.length 0)).zip
    = ((s.zip.step C (.startFile file.name file.date)).run C _).step C (.final recs.length 0)
  rw [hz3, hz2, session_startFile_zip]

theorem session_members_zip (C : Crc32) (zip64 : Bool) (files : List Download) (s : Session)
    (recs : List FileRecord) (n : Nat) (hs : s.Idle zip64 recs n)
    (hrecs : ∀ r ∈ recs, r.done = true)
    (hfiles : ∀ file ∈ files, (bufferFromUtf8 file.name).length < 65536 ∧ file.date.DosRange)
    (hbound : n + (files.map (fun file =>
        memberLength zip64 file.name file.payloadLength)).sum
      < (if zip64 then 2 ^ 64 else 2 ^ 32)) :
    (s.run C (membersEvents recs.length files)).zip
      = s.zip.run C (membersEvents recs.length files) := by
  induction files generalizing s recs n with
  | nil => rfl
  | cons file rest ih =>
    have hf := hfiles file (List.mem_cons_self _ _)
    simp only [List.map_cons, List.sum_cons] at hbound
    have hb1 : n + memberLength zip64 file.name file.payloadLength
        < (if zip64 then 2 ^ 64 else 2 ^ 32) := by
      cases zip64 <;> simp only [if_true, if_false, Bool.false_eq_true] at hbound ⊢ <;> omega
    have hn : n < 2 ^ 64 := by
      cases zip64 <;> simp only [if_true, if_false, Bool.false_eq_true] at hb1 <;> omega
    have h1 := session_member_idle C s zip64 recs n file hs hrecs hf.1 hf.2 hb1
    have hz1 := session_member_zip C s zip64 recs n file hs hrecs hf.1 hf.2 hn
    have hdone : ∀ r ∈ recs ++ [file.record n], r.done = true := by
      intro r hr
      rcases List.mem_append.1 hr with h | h
      · exact hrecs r h
      · rw [List.mem_singleton] at h
        rw [h]
        rfl
    have h2 := ih _ (recs ++ [file.record n])
      (n + memberLength zip64 file.name file.payloadLength) h1 hdone
      (fun f hf2 => hfiles f (List.mem_cons_of_mem _ hf2))
      (by rw [Nat.add_assoc]; exact hbound)
    rw [List.length_append, List.length_singleton] at h2
    rw [membersEvents, session_run_append, run_append, h2, hz1]

theorem writeCentralDirectory_prefix (C : Crc32) (files : List FileRecord) (z : Zip) (cds : Nat) :
    ∃ k, k ≤ files.length ∧
      (Zip.writeCentralDirectory C files z cds).1.output
        = z.output ++ specCentralDirectory C z.zip64 (files.take k) ∧
      (((∃ e, (Zip.writeCentralDirectory C files z cds).2 = .error e) ∧ k < files.length) ∨
        ((Zip.writeCentralDirectory C files z cds).2
            = .ok (cds + (specCentralDirectory C z.zip64 files).length) ∧
          k = files.length ∧
          ∀ file ∈ files, ∀ entry ∈ z.centralDirectoryHeaderFields C file, entry.WellFormed)) := by
  induction files generalizing z cds with
  | nil =>
    refine ⟨0, le_refl _, ?_, Or.inr ⟨rfl, rfl, ?_⟩⟩
    · show z.output = z.output ++ specCentralDirectory C z.zip64 []
      simp [specCentralDirectory]
    · intro file hf
      cases hf
  | cons file rest ih =>
    rw [Zip.writeCentralDirectory]
    cases hcb : createByteArray (z.centralDirectoryHeaderFields C file) with
    | error e =>
      refine ⟨0, Nat.zero_le _, ?_, Or.inl ⟨⟨e, rfl⟩, by simp⟩⟩
      show z.output = z.output ++ specCentralDirectory C z.zip64 []
      simp [specCentralDirectory]
    | ok header =>
      obtain ⟨hwf, hbytes⟩ := wellFormed_of_createByteArray_ok _ header hcb
      rw [centralHeader_encode] at hbytes
      simp only
      obtain ⟨k, hk, hout, hcase⟩ := ih
        { z.push header with byteCounterBig := (z.push header).byteCounterBig + header.length }
        (cds + header.length)
      refine ⟨k + 1, by simp only [List.length_cons]; omega, ?_, ?_⟩
      · rw [hout]
        show z.output ++ header ++ specCentralDirectory C z.zip64 (rest.take k) = _
        rw [hbytes]
        simp only [specCentralDirectory, List.take_succ_cons, List.map_cons, List.flatten_cons,
          List.append_assoc]
      · rcases hcase with ⟨he, hlt⟩ | ⟨hok, hkl, hall⟩
        · exact Or.inl ⟨he, by simp only [List.length_cons]; omega⟩
        · refine Or.inr ⟨?_, by simp only [List.length_cons]; omega, ?_⟩
          · rw [hok, hbytes]
            show Except.ok (cds + (file.centralHeader C z.zip64).length
              + (specCentralDirectory C z.zip64 rest).length) = _
            simp only [specCentralDirectory, List.map_cons, List.flatten_cons,
              List.length_append, Nat.add_assoc]
          · intro f hf
            rcases List.mem_cons.1 hf with h | h
            · rw [h]
              exact hwf
            · exact hall f h

theorem finish_of_loop_error (C : Crc32) (z : Zip) (hfin : z.finished = false)
    (hdest : z.destroyed = false)
    (hlast : ∀ lastFile, z.fileRecord.getLast? = some lastFile → lastFile.done = true)
    (e : ZipError) (h : (Zip.writeCentralDirectory C z.fileRecord z 0).2 = .error e) :
    z.finish C = ((Zip.writeCentralDirectory C z.fileRecord z 0).1, .error e) := by
  unfold Zip.finish
  rw [checkNotFinished_of_open z hfin]
  simp only
  rw [checkNotWritingFile_of_done z hlast]
  simp only
  rw [if_neg (by rw [hdest]; simp)]
  cases hw : Zip.writeCentralDirectory C z.fileRecord z 0 with
  | mk z1 r1 =>
    rw [hw] at h
    simp only at h
    rw [h]

theorem finish_end_error (C : Crc32) (z : Zip) (hmode : z.zip64 = false)
    (hfin : z.finished = false) (hdest : z.destroyed = false)
    (hlast : ∀ lastFile, z.fileRecord.getLast? = some lastFile → lastFile.done = true)
    (hfits : ∀ file ∈ z.fileRecord, file.Encodable z.zip64)
    (hbad : ¬ (z.fileRecord.length < 65536 ∧ z.byteCounterBig < 2 ^ 32 ∧
      (specCentralDirectory C z.zip64 z.fileRecord).length < 2 ^ 32)) :
    ∃ e, z.finish C
      = ({ z with
            output := z.output ++ specCentralDirectory C z.zip64 z.fileRecord
            byteCounterBig := z.byteCounterBig
              + (specCentralDirectory C z.zip64 z.fileRecord).length },
          .error e) := by
  have h1 := writeCentralDirectory_bytes C z.fileRecord z 0 hfits
  have h2 := writeZip64End_bytes
    { z with
      output := z.output ++ specCentralDirectory C z.zip64 z.fileRecord
      byteCounterBig := z.byteCounterBig + (specCentralDirectory C z.zip64 z.fileRecord).length }
    (0 + (specCentralDirectory C z.zip64 z.fileRecord).length) z.byteCounterBig
    (fun h => by rw [hmode] at h; cases h) (fun h => by rw [hmode] at h; cases h)
    (fun h => by rw [hmode] at h; cases h) (fun h => by rw [hmode] at h; cases h)
  have hnw : ∃ entry ∈ z.endOfCentralDirectoryRecordFields
      (0 + (specCentralDirectory C z.zip64 z.fileRecord).length) z.byteCounterBig,
      ¬ entry.WellFormed := by
    by_cases hc : z.fileRecord.length < 65536
    · by_cases hs : z.byteCounterBig < 2 ^ 32
      · have hd : ¬ (specCentralDirectory C z.zip64 z.fileRecord).length < 2 ^ 32 :=
          fun hd => hbad ⟨hc, hs, hd⟩
        refine ⟨.int (0 + (specCentralDirectory C z.zip64 z.fileRecord).length : Nat) 4,
          by simp [Zip.endOfCentralDirectoryRecordFields, hmode], ?_⟩
        rw [wellFormed_int_iff]
        intro hw
        have := hw.2.2
        norm_num at this hd
        omega
      · refine ⟨.int z.byteCounterBig 4,
          by simp [Zip.endOfCentralDirectoryRecordFields, hmode], ?_⟩
        rw [wellFormed_int_iff]
        intro hw
        have := hw.2.2
        norm_num at this hs
        omega
    · refine ⟨.int z.fileRecord.length 2,
        by simp [Zip.endOfCentralDirectoryRecordFields, hmode], ?_⟩
      rw [wellFormed_int_iff]
      intro hw
      have := hw.2.2
      norm_num at this
      omega
  obtain ⟨entry, hmem, hne⟩ := hnw
  obtain ⟨e, he⟩ := createByteArray_error_of_not_wellFormed _ entry hmem hne
  have hcongr : ∀ z2 : Zip, z2.zip64 = z.zip64 → z2.fileRecord = z.fileRecord →
      createByteArray (z2.endOfCentralDirectoryRecordFields
          (0 + (specCentralDirectory C z.zip64 z.fileRecord).length) z.byteCounterBig)
        = .error e := by
    intro z2 hz hr
    rw [← he]
    simp only [Zip.endOfCentralDirectoryRecordFields, hz, hr]
  have hif : (if z.zip64 = true then (76 : Nat) else 0) = 0 := by rw [hmode]; rfl
  have hif2 : ∀ a b : Bytes, (if z.zip64 = true then a ++ b else []) = [] := by
    intro a b
    rw [hmode]
    rfl
  refine ⟨e, ?_⟩
  unfold Zip.finish
  rw [checkNotFinished_of_open z hfin]
  simp only
  rw [checkNotWritingFile_of_done z hlast]
  simp only
  rw [if_neg (by rw [hdest]; simp)]
  simp only [h1, h2]
  rw [hcongr]
  · simp only [hif, hif2, List.append_nil, Nat.add_zero]
  · rfl
  · rfl

/-- C17 (amended). In Standard mode, on a live archive that is not finished,
reached by calls from its construction, with every member ended: if there are
fewer than 65536 members, the cursor is below 2^32 and the total length of the
central headers is below 2^32, `finish()` returns normally and hands to the
output one central directory header per record, in the order of the records,
followed by the 22-byte end of central directory record. The header of a
record has 46 + byte-length(name) bytes and carries the record's checksum, its
size (twice), which is the total length of the chunks written to the member,
and its header offset in 4-byte fields; the local file header of the member
starts at that offset of the output. The end record holds the number of
records twice, the total length of the central headers and the length of the
output before the call, which is the cursor. If one of the three bounds fails,
`finish()` throws: what it has handed to the output is the central headers of
the first `k` records for some `k`, no end of central directory record, and
the archive is neither finished nor ended. -/
theorem finish_standard_directory (C : Crc32) (s : Session) (hreach : s.Reachable C)
    (hmode : s.zip.zip64 = false) (hfin : s.zip.finished = false)
    (hlive : s.zip.destroyed = false)
    (hdone : ∀ file ∈ s.zip.fileRecord, file.done = true) :
    ((s.zip.fileRecord.length < 65536 ∧ s.zip.byteCounterBig < 2 ^ 32 ∧
        (s.zip.fileRecord.map (fun file => 46 + (bufferFromUtf8 file.name).length)).sum
          < 2 ^ 32) →
      (s.zip.finish C).2 = .ok () ∧
      (s.zip.finish C).1.output
        = s.zip.output ++ (s.zip.fileRecord.map (FileRecord.centralHeader C false)).flatten
          ++ specEndRecord false s.zip.fileRecord.length
              (s.zip.fileRecord.map (fun file => 46 + (bufferFromUtf8 file.name).length)).sum
              s.zip.output.length ∧
      (∀ file ∈ s.zip.fileRecord,
        (file.centralHeader C false).length = 46 + (bufferFromUtf8 file.name).length ∧
        readLE (file.centralHeader C false) 16 4 = C.get file.crc ∧
        readLE (file.centralHeader C false) 20 4 = file.sizeBig ∧
        readLE (file.centralHeader C false) 24 4 = file.sizeBig ∧
        readLE (file.centralHeader C false) 42 4 = file.headerOffsetBig ∧
        file.sizeBig = (file.crc.map List.length).sum ∧
        ∃ pre post : Bytes, s.zip.output = pre ++ file.localHeader false ++ post ∧
          pre.length = file.headerOffsetBig) ∧
      (specEndRecord false s.zip.fileRecord.length
          (s.zip.fileRecord.map (fun file => 46 + (bufferFromUtf8 file.name).length)).sum
          s.zip.output.length).length = 22 ∧
      readLE (specEndRecord false s.zip.fileRecord.length
          (s.zip.fileRecord.map (fun file => 46 + (bufferFromUtf8 file.name).length)).sum
          s.zip.output.length) 8 2 = s.zip.fileRecord.length ∧
      readLE (specEndRecord false s.zip.fileRecord.length
          (s.zip.fileRecord.map (fun file => 46 + (bufferFromUtf8 file.name).length)).sum
          s.zip.output.length) 10 2 = s.zip.fileRecord.length ∧
      readLE (specEndRecord false s.zip.fileRecord.length
          (s.zip.fileRecord.map (fun file => 46 + (bufferFromUtf8 file.name).length)).sum
          s.zip.output.length) 12 4
        = (s.zip.fileRecord.map (fun file => (file.centralHeader C false).length)).sum ∧
      readLE (specEndRecord false s.zip.fileRecord.length
          (s.zip.fileRecord.map (fun file => 46 + (bufferFromUtf8 file.name).length)).sum
          s.zip.output.length) 16 4 = s.zip.output.length ∧
      s.zip.byteCounterBig = s.zip.output.length ∧
      (s.zip.finish C).1.finished = true ∧ (s.zip.finish C).1.ended = true) ∧
    (¬ (s.zip.fileRecord.length < 65536 ∧ s.zip.byteCounterBig < 2 ^ 32 ∧
        (s.zip.fileRecord.map (fun file => 46 + (bufferFromUtf8 file.name).length)).sum
          < 2 ^ 32) →
      (∃ e, (s.zip.finish C).2 = .error e) ∧
      (∃ k, k ≤ s.zip.fileRecord.length ∧
        (s.zip.finish C).1.output
          = s.zip.output
            ++ ((s.zip.fileRecord.take k).map (FileRecord.centralHeader C false)).flatten) ∧
      (s.zip.finish C).1.finished = false ∧ (s.zip.finish C).1.ended = false) := by
  refine ⟨fun h => finish_standard_ok C s hreach hmode hfin hlive hdone h.1 h.2.1 h.2.2, ?_⟩
  intro hbad
  have hinv := session_inv_of_reachable C s hreach
  have hzinv := inv_of_reachable C s.zip (zip_reachable_of_session C s hreach)
  have hended : s.zip.ended = false := by rw [hzinv.2, hfin]
  have hlast := last_done_of_all_done s.zip hdone
  have hlen := specCentralDirectory_length C false s.zip.fileRecord
  simp only [Bool.false_eq_true, if_false, Nat.add_zero] at hlen
  have hframe : ∀ e, (s.zip.finish C).2 = .error e →
      (s.zip.finish C).1.finished = false ∧ (s.zip.finish C).1.ended = false := by
    intro e he
    rcases (finish_frame C s.zip).2 with ⟨hok, -⟩ | ⟨-, h1, h2⟩
    · rw [he] at hok
      cases hok
    · exact ⟨h1.trans hfin, h2.trans hended⟩
  obtain ⟨k, hk, hout, hcase⟩ := writeCentralDirectory_prefix C s.zip.fileRecord s.zip 0
  rw [hmode] at hout
  rcases hcase with ⟨⟨e, he⟩, -⟩ | ⟨-, -, hall⟩
  · have hf := finish_of_loop_error C s.zip hfin hlive hlast e he
    have h2 : (s.zip.finish C).2 = .error e := by rw [hf]
    refine ⟨⟨e, h2⟩, ⟨k, hk, ?_⟩, hframe e h2⟩
    rw [hf]
    exact hout
  · have hfits : ∀ file ∈ s.zip.fileRecord, file.Encodable s.zip.zip64 := by
      intro file hm
      obtain ⟨i, hlt, hget⟩ := List.getElem_of_mem hm
      have hmem := hinv.2.2.1 i file (by rw [List.getElem?_eq_getElem hlt, hget])
        (Or.inl (hdone file hm))
      have hw := hall file hm (.int file.headerOffsetBig 4)
        (by simp [Zip.centralDirectoryHeaderFields, hmode])
      rw [wellFormed_int_iff] at hw
      have hoff := hw.2.2
      refine ⟨hmem.1, (hmem.2.choose_spec.choose_spec.2.2.2 (hdone file hm)).1, ?_⟩
      rw [hmode]
      simp only [Bool.false_eq_true, if_false]
      norm_num at hoff ⊢
      omega
    obtain ⟨e, hf⟩ := finish_end_error C s.zip hmode hfin hlive hlast hfits
      (by rw [hmode, hlen]; exact fun h => hbad ⟨h.1, h.2.1, h.2.2⟩)
    have h2 : (s.zip.finish C).2 = .error e := by rw [hf]
    refine ⟨⟨e, h2⟩, ⟨s.zip.fileRecord.length, le_refl _, ?_⟩, hframe e h2⟩
    rw [hf, List.take_length, hmode]
    rfl

/-- Witness of C17: the member `a` with the payload 1, 2, 3, started, written
and ended on a new archive; `finish()` then returns normally. -/
theorem finish_standard_directory_witness :
    ((Session.new 0 none).run zeroCrc
      [.startFile [97] exampleDate, .write 0 [1, 2, 3] 1 true, .final 0 2]).zip.zip64 = false ∧
    ((Session.new 0 none).run zeroCrc
      [.startFile [97] exampleDate, .write 0 [1, 2, 3] 1 true, .final 0 2]).zip.byteCounterBig
      = 46 ∧
    (((Session.new 0 none).run zeroCrc
      [.startFile [97] exampleDate, .write 0 [1, 2, 3] 1 true, .final 0 2]).zip.finish
        zeroCrc).2 = .ok () ∧
    (((Session.new 0 none).run zeroCrc
      [.startFile [97] exampleDate, .write 0 [1, 2, 3] 1 true, .final 0 2]).zip.finish
        zeroCrc).1.output.length = 46 + 47 + 22 :=
  ⟨by decide, by decide,
    ((finish_standard_directory zeroCrc _
      ⟨0, none, [.startFile [97] exampleDate, .write 0 [1, 2, 3] 1 true, .final 0 2], rfl⟩
      (by decide) (by decide) (by decide) (by decide)).1
        ⟨by decide, by decide, by decide⟩).1,
    by decide⟩

theorem or32_negSucc (m n k : Nat) (hk : 2 ^ k ≤ 2147483648) (hm : m < 2 ^ k) (hn : n < 2 ^ k) :
    ∃ r, r < 2 ^ k ∧ or32 (Int.negSucc m) (n : Int) = Int.negSucc r := by
  refine ⟨Nat.ldiff m n, Nat.bitwise_lt_two_pow hm hn, ?_⟩
  have hr : Nat.ldiff m n < 2 ^ k := Nat.bitwise_lt_two_pow hm hn
  have e1 : Int.negSucc m = -((m : Int) + 1) := Int.negSucc_eq m
  have e2 : Int.negSucc (Nat.ldiff m n) = -((Nat.ldiff m n : Int) + 1) := Int.negSucc_eq _
  generalize 2 ^ k = P at hk hm hn hr
  unfold or32
  rw [toInt32_of_small (Int.negSucc m) (by omega) (by omega),
    toInt32_of_small (n : Int) (by omega) (by omega)]
  have hl : Int.lor (Int.negSucc m) (n : Int) = Int.negSucc (Nat.ldiff m n) := rfl
  rw [hl]
  exact toInt32_of_small _ (by omega) (by omega)

theorem shl32_of_small (a : Int) (k : Nat) (hk : k < 32) (h0 : -2147483648 ≤ a * 2 ^ k)
    (h1 : a * 2 ^ k < 2147483648) (h2 : -2147483648 ≤ a) (h3 : a < 2147483648) :
    shl32 a k = a * 2 ^ k := by
  unfold shl32
  rw [Nat.mod_eq_of_lt hk, toInt32_of_small a h2 h3]
  exact toInt32_of_small _ h0 h1

theorem getDateStruct_neg (date : JSDate) (hmo : 0 ≤ date.month ∧ date.month ≤ 11)
    (hd : 1 ≤ date.date ∧ date.date ≤ 31) (hy : date.fullYear < 1980) :
    getDateStruct date < 0 := by
  have hge := date.fullYear_ge
  obtain ⟨D, hD⟩ := Int.eq_ofNat_of_zero_le (show 0 ≤ date.date by omega)
  obtain ⟨Mo, hMo⟩ := Int.eq_ofNat_of_zero_le (show 0 ≤ date.month + 1 by omega)
  obtain ⟨m, hm⟩ := Int.eq_negSucc_of_lt_zero (show (date.fullYear - 1980) * 2 ^ 4 < 0 by omega)
  have em : Int.negSucc m = -((m : Int) + 1) := Int.negSucc_eq m
  simp only [getDateStruct]
  rw [shl32_of_small (date.fullYear - 1980) 4 (by norm_num) (by omega) (by omega) (by omega)
    (by omega), hm, hMo, hD]
  obtain ⟨r1, hr1, e1⟩ := or32_negSucc m Mo 23 (by norm_num) (by norm_num; omega)
    (by norm_num; omega)
  rw [e1]
  have er1 : Int.negSucc r1 = -((r1 : Int) + 1) := Int.negSucc_eq r1
  norm_num at hr1
  obtain ⟨m2, hm2⟩ := Int.eq_negSucc_of_lt_zero (show Int.negSucc r1 * 2 ^ 5 < 0 by omega)
  have em2 : Int.negSucc m2 = -((m2 : Int) + 1) := Int.negSucc_eq m2
  rw [shl32_of_small (Int.negSucc r1) 5 (by norm_num) (by omega) (by omega) (by omega)
    (by omega), hm2]
  obtain ⟨r2, -, e2⟩ := or32_negSucc m2 D 28 (by norm_num) (by norm_num; omega)
    (by norm_num; omega)
  rw [e2]
  exact Int.negSucc_lt_zero r2

theorem getDateStruct_large (date : JSDate) (hmo : 0 ≤ date.month ∧ date.month ≤ 11)
    (hd : 1 ≤ date.date ∧ date.date ≤ 31) (hy : 2107 < date.fullYear) :
    65536 ≤ getDateStruct date := by
  rw [getDateStruct_eq date (by omega) hd (by omega)]
  omega

theorem entrySize_of_sized (e : Entry) (h : e.Sized) : ∃ n, entrySize e = some n := by
  cases e with
  | buf b => exact ⟨_, rfl⟩
  | int d s =>
    rcases h with rfl | rfl | rfl | rfl <;> exact ⟨_, rfl⟩

theorem sizeReduce_foldl_sized (data : List Entry) (h : ∀ e ∈ data, e.Sized) (a : Nat) :
    ∃ n, data.foldl (fun acc value =>
      match acc, entrySize value with
      | some a, some s => some (a + s)
      | _, _ => none) (some a) = some n := by
  induction data generalizing a with
  | nil => exact ⟨a, rfl⟩
  | cons e es ih =>
    obtain ⟨n, hn⟩ := entrySize_of_sized e (h e (List.mem_cons_self _ _))
    rw [List.foldl_cons, hn]
    exact ih (fun e2 h2 => h e2 (List.mem_cons_of_mem _ h2)) (a + n)

theorem writeUIntLE_error_kind (w : Nat) (d : Int) (buffer : Bytes) (i : Nat) (err : ZipError)
    (h : writeUIntLE w d buffer i = .error err) : err = .outOfRange := by
  unfold writeUIntLE at h
  cases d with
  | ofNat v =>
    simp only at h
    split at h
    · cases h
    · cases h
      rfl
  | negSucc v =>
    cases h
    rfl

theorem writeEntry_error_kind (e : Entry) (hs : e.Sized) (buffer : Bytes) (i : Nat)
    (err : ZipError) (h : writeEntry e buffer i = .error err) : err = .outOfRange := by
  cases e with
  | buf b => cases h
  | int d s =>
    rcases hs with rfl | rfl | rfl | rfl <;>
    · simp only [writeEntry] at h
      cases hw : writeUIntLE _ d buffer i with
      | error e2 =>
        rw [hw] at h
        cases h
        exact writeUIntLE_error_kind _ d buffer i _ hw
      | ok b =>
        rw [hw] at h
        cases h

theorem writeEntries_error_kind (data : List Entry) (hs : ∀ e ∈ data, e.Sized) (buffer : Bytes)
    (i : Nat) (err : ZipError) (h : writeEntries data buffer i = .error err) :
    err = .outOfRange := by
  induction data generalizing buffer i with
  | nil => cases h
  | cons e es ih =>
    rw [writeEntries] at h
    cases hw : writeEntry e buffer i with
    | error e2 =>
      rw [hw] at h
      cases h
      exact writeEntry_error_kind e (hs e (List.mem_cons_self _ _)) buffer i _ hw
    | ok p =>
      rw [hw] at h
      exact ih (fun e2 h2 => hs e2 (List.mem_cons_of_mem _ h2)) _ _ h

theorem createByteArray_error_kind (data : List Entry) (hs : ∀ e ∈ data, e.Sized)
    (err : ZipError) (h : createByteArray data = .error err) : err = .outOfRange := by
  unfold createByteArray at h
  obtain ⟨n, hn⟩ := sizeReduce_foldl_sized data hs 0
  have hn2 : sizeReduce data = some n := hn
  rw [hn2] at h
  exact writeEntries_error_kind data hs _ _ err h

theorem localFileHeaderFields_sized (z : Zip) (nameBuffer : Bytes) (date : JSDate) :
    ∀ e ∈ z.localFileHeaderFields nameBuffer date, e.Sized := by
  simp only [Zip.localFileHeaderFields, Zip.getZip64ExtraField]
  cases z.zip64 <;> simp [Entry.Sized]

theorem localFileHeader_error_of_year (z : Zip) (nameBuffer : Bytes) (date : JSDate)
    (hmo : 0 ≤ date.month ∧ date.month ≤ 11) (hd : 1 ≤ date.date ∧ date.date ≤ 31)
    (hy : date.fullYear < 1980 ∨ 2107 < date.fullYear) :
    createByteArray (z.localFileHeaderFields nameBuffer date) = .error .outOfRange := by
  have hbad : ¬ (Entry.int (getDateStruct date) 2).WellFormed := by
    rw [wellFormed_int_iff]
    rintro ⟨-, h0, h1⟩
    rcases hy with hy | hy
    · have := getDateStruct_neg date hmo hd hy
      omega
    · have := getDateStruct_large date hmo hd hy
      norm_num at h1
      omega
  obtain ⟨err, herr⟩ := createByteArray_error_of_not_wellFormed
    (z.localFileHeaderFields nameBuffer date) _ (by simp [Zip.localFileHeaderFields]) hbad
  rw [herr, createByteArray_error_kind _ (localFileHeaderFields_sized z nameBuffer date) err herr]

theorem localFileHeaderFields_wellFormed_mode (z : Zip) (nameBuffer : Bytes) (date : JSDate)
    (hname : nameBuffer.length < 65536) (hdate : date.DosRange)
    (hcnt : z.zip64 = true → z.byteCounterBig < 2 ^ 64) :
    ∀ e ∈ z.localFileHeaderFields nameBuffer date, e.WellFormed := by
  have ht := timeStruct_fits date hdate
  have hd := dateStruct_fits date hdate
  simp only [Zip.localFileHeaderFields, Zip.getZip64ExtraField]
  cases hz : z.zip64
  · simp only [if_true, if_false, Bool.false_eq_true, List.cons_append, List.nil_append,
      List.append_nil, List.forall_mem_cons, List.not_mem_nil, false_implies, implies_true,
      and_true, wellFormed_int_iff, wellFormed_buf]
    norm_num
    omega
  · have hc := hcnt hz
    simp only [if_true, if_false, Bool.false_eq_true, List.cons_append, List.nil_append,
      List.append_nil, List.forall_mem_cons, List.not_mem_nil, false_implies, implies_true,
      and_true, wellFormed_int_iff, wellFormed_buf]
    norm_num
    omega

theorem startFile_ok_mode (z : Zip) (fileName : JSString) (date : JSDate)
    (hfin : z.finished = false)
    (hlast : ∀ lastFile, z.fileRecord.getLast? = some lastFile → lastFile.done = true)
    (hname : (bufferFromUtf8 fileName).length < 65536) (hdate : date.DosRange)
    (hcnt : z.zip64 = true → z.byteCounterBig < 2 ^ 64) :
    z.startFile fileName date =
      ({ z with
          fileRecord := z.fileRecord ++ [⟨fileName, 0, [], false, date, z.byteCounterBig⟩]
          output := z.output
            ++ (z.localFileHeaderFields (bufferFromUtf8 fileName) date).flatMap Entry.encode
          byteCounterBig := z.byteCounterBig + localHeaderLength z.zip64 fileName },
        .ok z.fileRecord.length) := by
  unfold Zip.startFile
  rw [checkNotFinished_of_open z hfin]
  simp only
  rw [checkNotWritingFile_of_done z hlast]
  simp only
  have hwf := localFileHeaderFields_wellFormed_mode z (bufferFromUtf8 fileName) date hname hdate
    hcnt
  have hcb := createByteArray_of_wellFormed _ hwf
  have hlen := flatMap_encode_length (z.localFileHeaderFields (bufferFromUtf8 fileName) date)
  rw [localFileHeaderFields_width] at hlen
  show (match createByteArray (z.localFileHeaderFields (bufferFromUtf8 fileName) date) with
    | .error e => _
    | .ok header => _) = _
  rw [hcb]
  simp only [Zip.push, hlen, localHeaderLength]

/-- C15 (amended). On an archive that is not finished and has no member in
flight, with the clock's hours, minutes, seconds, month and day in the ranges
of a JavaScript `Date`: for a name of fewer than 65536 UTF-8 bytes, a year
between 1980 and 2107 and, in Zip64 mode, a cursor below 2^64, `startFile(name)`
returns a sink and hands to the output one local file header: signature
0x04034b50, version 0x002d, flag word 0x0808 (bit 3 set), method 0, packed
time, packed date, checksum 0, both sizes 0 in Standard mode or 0xFFFFFFFF in
Zip64 mode, the byte length of the name, extra length 0 or 32, the name bytes
and, in Zip64 mode, the 32-byte ZIP64 extra field carrying zero sizes and the
cursor before the call. Its length is 30 + byte-length(name), plus 32 in Zip64
mode; the cursor advances by it, and a record that is not done, of size 0 and
header offset the cursor before the call, is appended. For every name and
every year before 1980 or after 2107, `startFile(name)` throws the range error
of a buffer write, hands nothing to the output, leaves the cursor unchanged,
and has appended the record all the same. -/
theorem startFile_emits_local_header (z : Zip) (fileName : JSString) (date : JSDate)
    (hfin : z.finished = false)
    (hlast : ∀ lastFile, z.fileRecord.getLast? = some lastFile → lastFile.done = true)
    (hclock : date.ClockRange) :
    (((bufferFromUtf8 fileName).length < 65536 ∧
        (1980 ≤ date.fullYear ∧ date.fullYear ≤ 2107) ∧
        (z.zip64 = true → z.byteCounterBig < 2 ^ 64)) →
      (z.startFile fileName date).2 = .ok z.fileRecord.length ∧
      (z.startFile fileName date).1.output
        = z.output ++ specLocalHeader z.zip64 (getTimeStruct date).toNat
            (getDateStruct date).toNat (bufferFromUtf8 fileName) z.byteCounterBig ∧
      (specLocalHeader z.zip64 (getTimeStruct date).toNat (getDateStruct date).toNat
          (bufferFromUtf8 fileName) z.byteCounterBig).length
        = 30 + (bufferFromUtf8 fileName).length + (if z.zip64 then 32 else 0) ∧
      (z.startFile fileName date).1.byteCounterBig
        = z.byteCounterBig
          + (30 + (bufferFromUtf8 fileName).length + (if z.zip64 then 32 else 0)) ∧
      (z.startFile fileName date).1.fileRecord
        = z.fileRecord ++ [⟨fileName, 0, [], false, date, z.byteCounterBig⟩] ∧
      leBytes 2 0x0808 = [0x08, 0x08] ∧ 0x0808 / 2 ^ 3 % 2 = 1 ∧
      leValue (leBytes 2 (bufferFromUtf8 fileName).length) = (bufferFromUtf8 fileName).length ∧
      (z.zip64 = true → leValue (leBytes 8 z.byteCounterBig) = z.byteCounterBig) ∧
      ((getTimeStruct date).toNat : Int)
        = date.hours * 2 ^ 11 + date.minutes * 2 ^ 5 + date.seconds / 2 ∧
      ((getDateStruct date).toNat : Int)
        = (date.fullYear - 1980) * 2 ^ 9 + (date.month + 1) * 2 ^ 5 + date.date) ∧
    ((date.fullYear < 1980 ∨ 2107 < date.fullYear) →
      (z.startFile fileName date).2 = .error .outOfRange ∧
      (z.startFile fileName date).1.output = z.output ∧
      (z.startFile fileName date).1.byteCounterBig = z.byteCounterBig ∧
      (z.startFile fileName date).1.fileRecord
        = z.fileRecord ++ [⟨fileName, 0, [], false, date, z.byteCounterBig⟩]) := by
  obtain ⟨hh, hm, hs, hmo, hda⟩ := hclock
  constructor
  · rintro ⟨hname, hy, hcnt⟩
    have hdate : date.DosRange := ⟨hh, hm, hs, hmo, hda, hy⟩
    rw [startFile_ok_mode z fileName date hfin hlast hname hdate hcnt, localFileHeader_encode]
    have ht := timeStruct_fits date hdate
    have hd := dateStruct_fits date hdate
    refine ⟨rfl, rfl, specLocalHeader_length _ _ _ _ _, rfl, rfl, by decide, by decide,
      leValue_leBytes 2 _ (by norm_num; omega),
      fun hz => leValue_leBytes 8 _ (by have := hcnt hz; norm_num; omega), ?_, ?_⟩
    · rw [Int.toNat_of_nonneg ht.1]
      exact getTimeStruct_eq date hh hm hs
    · rw [Int.toNat_of_nonneg hd.1]
      exact getDateStruct_eq date (by omega) hda hy.1
  · intro hy
    rw [startFile_of_encode_error z fileName date hfin hlast .outOfRange
      (localFileHeader_error_of_year z (bufferFromUtf8 fileName) date hmo hda hy)]
    exact ⟨rfl, rfl, rfl, rfl⟩

/-- Witness of C15: `startFile("a")` on a new Zip64 archive at 2020-01-01
12:30:59 emits the 63 bytes of the header. -/
theorem startFile_emits_local_header_witness :
    ((Zip.new 0 (some true)).startFile [97] exampleDate).2 = .ok 0 ∧
    ((Zip.new 0 (some true)).startFile [97] exampleDate).1.output
      = [0x50, 0x4b, 0x03, 0x04, 0x2d, 0x00, 0x08, 0x08, 0x00, 0x00, 0xdd, 0x63, 0x21, 0x50]
        ++ List.replicate 4 0 ++ List.replicate 8 0xff ++ [1, 0, 32, 0, 97, 1, 0, 28, 0]
        ++ List.replicate 28 0 ∧
    ((Zip.new 0 (some true)).startFile [97] exampleDate).1.output
      = (Zip.new 0 (some true)).output ++ specLocalHeader true (getTimeStruct exampleDate).toNat
          (getDateStruct exampleDate).toNat (bufferFromUtf8 [97]) 0 :=
  ⟨rfl, by decide,
    ((startFile_emits_local_header (Zip.new 0 (some true)) [97] exampleDate rfl
      (by decide) (by decide)).1 ⟨by decide, by decide, fun _ => by decide⟩).2.1⟩

theorem specEndRecord_sentinel (count cdSize cdStart : Nat) :
    specEndRecord false 0xFFFF 0xFFFFFFFF 0xFFFFFFFF = specEndRecord true count cdSize cdStart := by
  simp [specEndRecord]

theorem readEnd_standard (C : Crc32) (files : List FileRecord) (out : Bytes)
    (hcount : files.length < 65536) (hstart : out.length < 2 ^ 32)
    (hsize : (specCentralDirectory C false files).length < 2 ^ 32)
    (hno : ¬ (files.length = 0xFFFF ∧ (specCentralDirectory C false files).length = 0xFFFFFFFF ∧
      out.length = 0xFFFFFFFF)) :
    readEnd (out ++ specTrailer C false files out.length)
      = some (files.length, (specCentralDirectory C false files).length, out.length) := by
  obtain ⟨r0, r8, r10, r12, r16, -⟩ := endRecord_reads false files.length
    (specCentralDirectory C false files).length out.length (fun _ => hcount)
    (fun _ => hsize) (fun _ => hstart)
  simp only [Bool.false_eq_true, if_false] at r8 r10 r12 r16
  have hbs : out ++ specTrailer C false files out.length
      = (out ++ specCentralDirectory C false files)
        ++ specEndRecord false files.length (specCentralDirectory C false files).length
            out.length := by
    simp only [specTrailer, Bool.false_eq_true, if_false, List.append_nil, List.append_assoc]
  have hlen := specEndRecord_length false files.length
    (specCentralDirectory C false files).length out.length
  have hp : ((out ++ specCentralDirectory C false files)
      ++ specEndRecord false files.length (specCentralDirectory C false files).length
          out.length).length - 22 = (out ++ specCentralDirectory C false files).length := by
    rw [List.length_append _ (specEndRecord _ _ _ _), hlen]
    omega
  have h22 : 22 ≤ ((out ++ specCentralDirectory C false files)
      ++ specEndRecord false files.length (specCentralDirectory C false files).length
          out.length).length := by
    rw [List.length_append _ (specEndRecord _ _ _ _), hlen]
    omega
  rw [hbs]
  unfold readEnd
  simp only [hp, readLE_append_left, readLE_append_left_zero, r0, r10, r12, r16, h22, true_and,
    if_true]
  rw [if_neg hno]

theorem readEndIn_standard (C : Crc32) (files : List FileRecord) (out : Bytes)
    (hcount : files.length < 65536) (hstart : out.length < 2 ^ 32)
    (hsize : (specCentralDirectory C false files).length < 2 ^ 32) :
    readEndIn false (out ++ specTrailer C false files out.length)
      = some (files.length, (specCentralDirectory C false files).length, out.length) := by
  obtain ⟨r0, r8, r10, r12, r16, -⟩ := endRecord_reads false files.length
    (specCentralDirectory C false files).length out.length (fun _ => hcount)
    (fun _ => hsize) (fun _ => hstart)
  simp only [Bool.false_eq_true, if_false] at r8 r10 r12 r16
  have hbs : out ++ specTrailer C false files out.length
      = (out ++ specCentralDirectory C false files)
        ++ specEndRecord false files.length (specCentralDirectory C false files).length
            out.length := by
    simp only [specTrailer, Bool.false_eq_true, if_false, List.append_nil, List.append_assoc]
  have hlen := specEndRecord_length false files.length
    (specCentralDirectory C false files).length out.length
  have hp : ((out ++ specCentralDirectory C false files)
      ++ specEndRecord false files.length (specCentralDirectory C false files).length
          out.length).length - 22 = (out ++ specCentralDirectory C false files).length := by
    rw [List.length_append _ (specEndRecord _ _ _ _), hlen]
    omega
  have h22 : 22 ≤ ((out ++ specCentralDirectory C false files)
      ++ specEndRecord false files.length (specCentralDirectory C false files).length
          out.length).length := by
    rw [List.length_append _ (specEndRecord _ _ _ _), hlen]
    omega
  rw [hbs]
  unfold readEndIn
  simp only [hp, readLE_append_left, readLE_append_left_zero, r0, r10, r12, r16, h22, true_and,
    if_true, Bool.false_eq_true, if_false]

theorem readEndIn_zip64 (C : Crc32) (files : List FileRecord) (out : Bytes)
    (hcount : files.length < 2 ^ 64)
    (hbound : out.length + (specCentralDirectory C true files).length < 2 ^ 64) :
    readEndIn true (out ++ specTrailer C true files out.length)
      = some (files.length, (specCentralDirectory C true files).length, out.length) := by
  obtain ⟨r0, r8, r10, r12, r16, -⟩ := endRecord_reads true files.length
    (specCentralDirectory C true files).length out.length (fun h => by cases h)
    (fun h => by cases h) (fun h => by cases h)
  simp only [if_true] at r8 r10 r12 r16
  obtain ⟨l0, -, l8, -⟩ := zip64Locator_reads
    (out.length + (specCentralDirectory C true files).length) hbound
    (specEndRecord true files.length (specCentralDirectory C true files).length out.length)
  obtain ⟨z0, -, -, z32, z40, z48⟩ := zip64EndRecord_reads files.length
    (specCentralDirectory C true files).length out.length hcount (by omega) (by omega)
    (specZip64Locator (out.length + (specCentralDirectory C true files).length)
      ++ specEndRecord true files.length (specCentralDirectory C true files).length out.length)
  have hbs : out ++ specTrailer C true files out.length
      = ((out ++ specCentralDirectory C true files)
          ++ specZip64EndRecord files.length (specCentralDirectory C true files).length
              out.length
          ++ specZip64Locator (out.length + (specCentralDirectory C true files).length))
        ++ specEndRecord true files.length (specCentralDirectory C true files).length
            out.length := by
    simp only [specTrailer, if_true, List.append_assoc]
  have hbs2 : ((out ++ specCentralDirectory C true files)
          ++ specZip64EndRecord files.length (specCentralDirectory C true files).length
              out.length
          ++ specZip64Locator (out.length + (specCentralDirectory C true files).length))
        ++ specEndRecord true files.length (specCentralDirectory C true files).length
            out.length
      = ((out ++ specCentralDirectory C true files)
          ++ specZip64EndRecord files.length (specCentralDirectory C true files).length
              out.length)
        ++ (specZip64Locator (out.length + (specCentralDirectory C true files).length)
          ++ specEndRecord true files.length (specCentralDirectory C true files).length
              out.length) := by
    simp only [List.append_assoc]
  have hbs3 : ((out ++ specCentralDirectory C true files)
          ++ specZip64EndRecord files.length (specCentralDirectory C true files).length
              out.length)
        ++ (specZip64Locator (out.length + (specCentralDirectory C true files).length)
          ++ specEndRecord true files.length (specCentralDirectory C true files).length
              out.length)
      = (out ++ specCentralDirectory C true files)
        ++ (specZip64EndRecord files.length (specCentralDirectory C true files).length
              out.length
          ++ (specZip64Locator (out.length + (specCentralDirectory C true files).length)
            ++ specEndRecord true files.length (specCentralDirectory C true files).length
                out.length)) := by
    simp only [List.append_assoc]
  have hlenE := specEndRecord_length true files.length
    (specCentralDirectory C true files).length out.length
  have hlenL := specZip64Locator_length
    (out.length + (specCentralDirectory C true files).length)
  have hlenR := specZip64EndRecord_length files.length
    (specCentralDirectory C true files).length out.length
  have hp : (((out ++ specCentralDirectory C true files)
          ++ specZip64EndRecord files.length (specCentralDirectory C true files).length
              out.length
          ++ specZip64Locator (out.length + (specCentralDirectory C true files).length))
        ++ specEndRecord true files.length (specCentralDirectory C true files).length
            out.length).length - 22
      = ((out ++ specCentralDirectory C true files)
          ++ specZip64EndRecord files.length (specCentralDirectory C true files).length
              out.length
          ++ specZip64Locator (out.length + (specCentralDirectory C true files).length)).length := by
    rw [List.length_append _ (specEndRecord _ _ _ _), hlenE]
    omega
  have h22 : 22 ≤ (((out ++ specCentralDirectory C true files)
          ++ specZip64EndRecord files.length (specCentralDirectory C true files).length
              out.length
          ++ specZip64Locator (out.length + (specCentralDirectory C true files).length))
        ++ specEndRecord true files.length (specCentralDirectory C true files).length
            out.length).length := by
    rw [List.length_append _ (specEndRecord _ _ _ _), hlenE]
    omega
  have hq : ((out ++ specCentralDirectory C true files)
          ++ specZip64EndRecord files.length (specCentralDirectory C true files).length
              out.length
          ++ specZip64Locator (out.length + (specCentralDirectory C true files).length)).length
        - 20
      = ((out ++ specCentralDirectory C true files)
          ++ specZip64EndRecord files.length (specCentralDirectory C true files).length
              out.length).length := by
    rw [List.length_append _ (specZip64Locator _), hlenL]
    omega
  have h20 : 20 ≤ ((out ++ specCentralDirectory C true files)
          ++ specZip64EndRecord files.length (specCentralDirectory C true files).length
              out.length
          ++ specZip64Locator (out.length + (specCentralDirectory C true files).length)).length := by
    rw [List.length_append _ (specZip64Locator _), hlenL]
    omega
  have hr : out.length + (specCentralDirectory C true files).length
      = (out ++ specCentralDirectory C true files).length := by
    rw [List.length_append]
  rw [hbs]
  unfold readEndIn
  simp only [hp, readLE_append_left, readLE_append_left_zero, r0, r10, r12, r16, h22, true_and,
    if_true, hq, h20]
  rw [hbs2]
  simp only [readLE_append_left, readLE_append_left_zero, l0, l8, if_true]
  rw [hbs3, hr]
  rw [hr] at z0 z32 z40 z48
  simp only [readLE_append_left, readLE_append_left_zero, z0, z32, z40, z48, if_true]

theorem readEnd_of_trailer (C : Crc32) (zip64 : Bool) (files : List FileRecord) (out : Bytes)
    (hcount : files.length < (if zip64 then 2 ^ 64 else 65536))
    (hstart : out.length < (if zip64 then 2 ^ 64 else 2 ^ 32))
    (hsize : zip64 = false → (specCentralDirectory C zip64 files).length < 2 ^ 32)
    (hb64 : zip64 = true → out.length + (specCentralDirectory C zip64 files).length < 2 ^ 64)
    (hno : ¬ (zip64 = false ∧ files.length = 0xFFFF ∧
      (specCentralDirectory C zip64 files).length = 0xFFFFFFFF ∧ out.length = 0xFFFFFFFF)) :
    readEnd (out ++ specTrailer C zip64 files out.length)
      = some (files.length, (specCentralDirectory C zip64 files).length, out.length) := by
  cases zip64 with
  | false =>
    exact readEnd_standard C files out hcount hstart (hsize rfl)
      (fun h => hno ⟨rfl, h.1, h.2.1, h.2.2⟩)
  | true => exact readEnd_zip64 C files out hcount (hb64 rfl)

theorem readEndIn_of_trailer (C : Crc32) (zip64 : Bool) (files : List FileRecord) (out : Bytes)
    (hcount : files.length < (if zip64 then 2 ^ 64 else 65536))
    (hstart : out.length < (if zip64 then 2 ^ 64 else 2 ^ 32))
    (hsize : zip64 = false → (specCentralDirectory C zip64 files).length < 2 ^ 32)
    (hb64 : zip64 = true → out.length + (specCentralDirectory C zip64 files).length < 2 ^ 64) :
    readEndIn zip64 (out ++ specTrailer C zip64 files out.length)
      = some (files.length, (specCentralDirectory C zip64 files).length, out.length) := by
  cases zip64 with
  | false => exact readEndIn_standard C files out hcount hstart (hsize rfl)
  | true => exact readEndIn_zip64 C files out hcount (hb64 rfl)

theorem readArchive_of_session (C : Crc32) (s : Session) (hreach : s.Reachable C)
    (hfin : s.zip.finished = false) (hlive : s.zip.destroyed = false)
    (hdone : ∀ file ∈ s.zip.fileRecord, file.done = true)
    (hcount : s.zip.fileRecord.length < (if s.zip.zip64 then 2 ^ 64 else 65536))
    (hstart : s.zip.byteCounterBig < (if s.zip.zip64 then 2 ^ 64 else 2 ^ 32))
    (hsize : s.zip.zip64 = false →
      (specCentralDirectory C s.zip.zip64 s.zip.fileRecord).length < 2 ^ 32)
    (hb64 : s.zip.zip64 = true → s.zip.byteCounterBig
        + (specCentralDirectory C s.zip.zip64 s.zip.fileRecord).length < 2 ^ 64) :
    (s.zip.finish C).2 = .ok () ∧ (s.zip.finish C).1.finished = true ∧
    readArchiveIn s.zip.zip64 (s.zip.finish C).1.output
      = some (s.zip.fileRecord.map (FileRecord.entry C)) ∧
    (¬ (s.zip.zip64 = false ∧ s.zip.fileRecord.length = 0xFFFF ∧
        (specCentralDirectory C s.zip.zip64 s.zip.fileRecord).length = 0xFFFFFFFF ∧
        s.zip.byteCounterBig = 0xFFFFFFFF) →
      readArchive (s.zip.finish C).1.output
        = some (s.zip.fileRecord.map (FileRecord.entry C))) := by
  have hinv := session_inv_of_reachable C s hreach
  have hcur := hinv.1
  have hsizes := sizesCounted_of_reachable C s.zip (zip_reachable_of_session C s hreach)
  have hob : s.zip.output.length < (if s.zip.zip64 then 2 ^ 64 else 2 ^ 32) := by
    rw [← hcur]
    exact hstart
  have henc := encodable_of_session C s hinv hdone hob
  have hfinish := finish_fields_bytes C s.zip hfin hlive (last_done_of_all_done s.zip hdone)
    (fun file hm => (henc file hm).2) hcount
    (fun h => by rw [h] at hstart; exact hstart) hsize hb64
  rw [hfinish]
  have hcd : readCentralDirectory
      (s.zip.output ++ specTrailer C s.zip.zip64 s.zip.fileRecord s.zip.output.length)
      s.zip.fileRecord.length s.zip.output.length
      = some (s.zip.fileRecord.map (FileRecord.centralEntry C)) := by
    have hform : specTrailer C s.zip.zip64 s.zip.fileRecord s.zip.output.length
        = specCentralDirectory C s.zip.zip64 s.zip.fileRecord
          ++ ((if s.zip.zip64 then
              specZip64EndRecord s.zip.fileRecord.length
                (specCentralDirectory C s.zip.zip64 s.zip.fileRecord).length s.zip.output.length
              ++ specZip64Locator (s.zip.output.length
                + (specCentralDirectory C s.zip.zip64 s.zip.fileRecord).length)
            else [])
            ++ specEndRecord s.zip.zip64 s.zip.fileRecord.length
                (specCentralDirectory C s.zip.zip64 s.zip.fileRecord).length
                s.zip.output.length) := by
      simp only [specTrailer, List.append_assoc]
    rw [hform]
    exact readCentralDirectory_of_directory C s.zip.zip64 s.zip.fileRecord s.zip.output _
      (fun file hm => (henc file hm).2)
  have hmem := readMembers_of_memberAt C s.zip s.zip.fileRecord
    (specTrailer C s.zip.zip64 s.zip.fileRecord s.zip.output.length)
    (fun file hm => ⟨(henc file hm).1, hsizes file hm⟩)
  rw [hcur] at hstart hb64 ⊢
  refine ⟨rfl, rfl, ?_, ?_⟩
  · show readArchiveIn s.zip.zip64 (s.zip.output ++ specTrailer C s.zip.zip64 s.zip.fileRecord
      s.zip.output.length) = _
    unfold readArchiveIn
    rw [readEndIn_of_trailer C s.zip.zip64 s.zip.fileRecord s.zip.output hcount hstart hsize hb64]
    simp only
    rw [hcd]
    exact hmem
  · intro hno
    show readArchive (s.zip.output ++ specTrailer C s.zip.zip64 s.zip.fileRecord
      s.zip.output.length) = _
    unfold readArchive
    rw [readEnd_of_trailer C s.zip.zip64 s.zip.fileRecord s.zip.output hcount hstart hsize hb64
      hno]
    simp only
    rw [hcd]
    exact hmem

theorem length_le_directory (zip64 : Bool) (files : List Download) :
    files.length ≤ (files.map (fun file => centralHeaderLength zip64 file.name)).sum := by
  induction files with
  | nil => exact Nat.le_refl _
  | cons file rest ih =>
    have h1 : 1 ≤ centralHeaderLength zip64 file.name := by
      unfold centralHeaderLength
      omega
    simp only [List.length_cons, List.map_cons, List.sum_cons]
    omega

/-- C13. For every sequence of members with names of fewer than 65536 UTF-8
bytes and clocks between 1980 and 2107, each started, written its chunks and
ended in order on a new archive, then `finish()`, where in Standard mode the
member count is below 65536, the bytes of the members are fewer than 2^32 and
the bytes of the central headers are fewer than 2^32 (each on its own), and in
Zip64 mode the bytes of the members and of the central headers together are
fewer than 2^64: the run finishes, and a reader that starts at the end of
central directory record of the emitted bytes finds exactly one entry per
member, in the order of the members, whose name is the UTF-8 encoding of the
member's name, whose size is the total length of its chunks, whose checksum is
the value of its accumulator, and for which the `size` bytes behind the local
file header at the recorded offset are the concatenation of its chunks. This
holds for the reader that knows the mode of the archive (`readArchiveIn`), and
for the reader that tells the mode from the end record (`readArchive`) unless
the archive is a Standard one whose end record holds the three ZIP64 sentinel
values: 65535 members, 2^32 - 1 bytes of central headers behind 2^32 - 1 bytes
of members. -/
theorem archive_round_trip (C : Crc32) (total : Nat) (zip64 : Bool) (files : List Download)
    (hfiles : ∀ file ∈ files, (bufferFromUtf8 file.name).length < 65536 ∧ file.date.DosRange)
    (hstd : zip64 = false → files.length < 65536 ∧
      (files.map (fun file => memberLength zip64 file.name file.payloadLength)).sum < 2 ^ 32 ∧
      (files.map (fun file => centralHeaderLength zip64 file.name)).sum < 2 ^ 32)
    (hz64 : zip64 = true →
      (files.map (fun file => memberLength zip64 file.name file.payloadLength)).sum
        + (files.map (fun file => centralHeaderLength zip64 file.name)).sum < 2 ^ 64) :
    ((Zip.new total (some zip64)).run C (membersEvents 0 files ++ [.finish])).finished = true ∧
    readArchiveIn zip64
        ((Zip.new total (some zip64)).run C (membersEvents 0 files ++ [.finish])).output
      = some (files.map (fun file =>
          (⟨bufferFromUtf8 file.name, file.payloadLength,
            C.get (file.chunks.map (fun chunk => chunk.1)),
            (file.chunks.map (fun chunk => chunk.1)).flatten⟩ : ZipEntry))) ∧
    (¬ (zip64 = false ∧ files.length = 0xFFFF ∧
        (files.map (fun file => centralHeaderLength zip64 file.name)).sum = 0xFFFFFFFF ∧
        (files.map (fun file => memberLength zip64 file.name file.payloadLength)).sum
          = 0xFFFFFFFF) →
      readArchive ((Zip.new total (some zip64)).run C (membersEvents 0 files ++ [.finish])).output
        = some (files.map (fun file =>
            (⟨bufferFromUtf8 file.name, file.payloadLength,
              C.get (file.chunks.map (fun chunk => chunk.1)),
              (file.chunks.map (fun chunk => chunk.1)).flatten⟩ : ZipEntry)))) ∧
    (files.map (fun file =>
          (⟨bufferFromUtf8 file.name, file.payloadLength,
            C.get (file.chunks.map (fun chunk => chunk.1)),
            (file.chunks.map (fun chunk => chunk.1)).flatten⟩ : ZipEntry))).length
      = files.length := by
  have hlenle := length_le_directory zip64 files
  have hcount : files.length < (if zip64 then 2 ^ 64 else 65536) := by
    cases zip64 with
    | false => exact (hstd rfl).1
    | true =>
      have := hz64 rfl
      simp only [if_true]
      omega
  have hb1 : (files.map (fun file => memberLength zip64 file.name file.payloadLength)).sum
      < (if zip64 then 2 ^ 64 else 2 ^ 32) := by
    cases zip64 with
    | false => exact (hstd rfl).2.1
    | true =>
      have := hz64 rfl
      simp only [if_true]
      omega
  have hb0 : 0 + (files.map (fun file => memberLength zip64 file.name file.payloadLength)).sum
      < (if zip64 then 2 ^ 64 else 2 ^ 32) := by
    rw [Nat.zero_add]
    exact hb1
  have hidle : ((Session.new total (some zip64)).run C (membersEvents 0 files)).Idle zip64
      (downloadRecords zip64 0 files)
      (files.map (fun file => memberLength zip64 file.name file.payloadLength)).sum := by
    have h := session_members_idle C zip64 files (Session.new total (some zip64)) [] 0
      ⟨rfl, rfl, rfl, rfl, rfl, rfl⟩ (fun r hr => by cases hr) hfiles hb0
    rw [List.nil_append, Nat.zero_add] at h
    exact h
  have hzip : ((Session.new total (some zip64)).run C (membersEvents 0 files)).zip
      = (Zip.new total (some zip64)).run C (membersEvents 0 files) :=
    session_members_zip C zip64 files (Session.new total (some zip64)) [] 0
      ⟨rfl, rfl, rfl, rfl, rfl, rfl⟩ (fun r hr => by cases hr) hfiles hb0
  obtain ⟨-, hz, hrec, hcnt, hfin, hdest⟩ := hidle
  have hread := readArchive_of_session C
    ((Session.new total (some zip64)).run C (membersEvents 0 files))
    ⟨total, some zip64, membersEvents 0 files, rfl⟩ hfin hdest
    (by rw [hrec]; exact downloadRecords_done zip64 files 0)
    (by rw [hrec, hz, downloadRecords_length]; exact hcount)
    (by rw [hz, hcnt]; exact hb1)
    (by
      intro h
      rw [hrec, hz, downloadRecords_directory_length]
      rw [hz] at h
      exact (hstd h).2.2)
    (by
      intro h
      rw [hrec, hz, hcnt, downloadRecords_directory_length]
      rw [hz] at h
      exact hz64 h)
  rw [hrec, hz, hcnt, downloadRecords_entries, downloadRecords_length,
    downloadRecords_directory_length, hzip] at hread
  rw [run_append, run_singleton]
  exact ⟨hread.2.1, hread.2.2.1, fun hno => hread.2.2.2 (fun h => hno ⟨h.1, h.2.1, h.2.2.1, h.2.2.2⟩),
    List.length_map _ _⟩

/-- Witness of C13: the archive of the one member `a` with the payload 1, 2, 3
reads back as one entry of that name, size 3 and those bytes, with either
reader. -/
theorem archive_round_trip_witness :
    readArchive ((Zip.new 0 (some false)).run zeroCrc
        (membersEvents 0 [⟨[97], 3, exampleDate, [([1, 2, 3], true)]⟩] ++ [.finish])).output
      = some [⟨[97], 3, 0, [1, 2, 3]⟩] ∧
    readArchiveIn false ((Zip.new 0 (some false)).run zeroCrc
        (membersEvents 0 [⟨[97], 3, exampleDate, [([1, 2, 3], true)]⟩] ++ [.finish])).output
      = some [⟨[97], 3, 0, [1, 2, 3]⟩] :=
  ⟨(archive_round_trip zeroCrc 0 false [⟨[97], 3, exampleDate, [([1, 2, 3], true)]⟩]
      (by decide) (fun _ => by decide) (fun h => by cases h)).2.2.1 (by decide),
    (archive_round_trip zeroCrc 0 false [⟨[97], 3, exampleDate, [([1, 2, 3], true)]⟩]
      (by decide) (fun _ => by decide) (fun h => by cases h)).2.1⟩

end StreamingZip
